import Mathlib

/-!
# F-M two-way partitioner: a shallow embedding of `partitioner.cpp`

The C++ object `Partitioner` becomes a record that is passed explicitly.
Vectors indexed by dense ids are total functions together with their size,
two-element arrays indexed by a side are functions on `Bool`
(`false` = side A = index 0, `true` = side B = index 1), pointers to
bucket-list nodes are values of `NodeRef`, and an operation that would
dereference a null or missing pointer returns `none`.

The balance factor is read by the source into a `double`. The input token is
the decimal `bNum / bDen` with `0 < bDen`; `stod` and every operation on
`double` round their exact result to the nearest binary64 number, which
`roundDbl` does in integer arithmetic, and the comparisons of `checkBalance`
and of the move loop are made between the rounded values.
-/

namespace FM

/-- Pointer to a node of a bucket list: the node owned by cell `id`, or the
dummy head node stored at `_bList[part][gain]`. -/
inductive NodeRef where
  | cell (id : Nat)
  | dummy (part : Bool) (gain : Int)
  deriving DecidableEq, Repr

/-- Modelled from the spec: `cell.h` is not part of the sources. A list node
with its two links (`getPrev`, `getNext`, `setPrev`, `setNext`); the id that the
node stores is the one carried by the `NodeRef` that points to it. -/
structure Node where
  prev : Option NodeRef
  next : Option NodeRef
  deriving DecidableEq, Repr

/-- Modelled from the spec: `cell.h` is not part of the sources. The fields are
the ones reached through the accessors used in `partitioner.cpp`
(`getGain`, `incGain`, `getPinNum`, `getPart`, `getLock`, `getNetList`,
`getNode`). -/
structure Cell where
  gain : Int
  pinNum : Int
  part : Bool
  lock : Bool
  netList : List Nat
  node : Node
  deriving DecidableEq, Repr

/-- Modelled from the spec: `net.h` is not part of the sources. A net holds
its two partition counts and its ordered cell list. -/
structure Net where
  partCount : Bool → Int
  cellList : List Nat

/-- The members of `class Partitioner` that `partitioner.cpp` reads or writes. -/
structure Partitioner where
  cutSize : Int
  partSize : Bool → Int
  bNum : Int
  bDen : Int
  netNum : Nat
  cellNum : Nat
  maxPinNum : Int
  netArray : Nat → Net
  cellArray : Nat → Cell
  bList : Bool → Int → Option Node
  accGain : Int
  maxAccGain : Int
  moveNum : Nat
  iterNum : Nat
  bestMoveNum : Nat
  unlockNum : Bool → Int
  moveStack : List Nat
  netName2Id : List (String × Nat)
  cellName2Id : List (String × Nat)

/-- A finite value of the C++ type `double`, held as the fraction `num / den`
with `0 < den`. -/
structure Dbl where
  num : Int
  den : Nat
  deriving DecidableEq, Repr

/-- Number of binary digits of `n`; `fuel` bounds the number of halvings. -/
def bitLen : Nat → Nat → Nat
  | 0, _ => 0
  | fuel + 1, n => if n = 0 then 0 else bitLen fuel (n / 2) + 1

/-- The binary exponent of the fraction `a / den` for `a` and `den` other than
zero: the `k` with `2 ^ k ≤ a / den < 2 ^ (k + 1)`. -/
def binade (a den : Nat) : Int :=
  let k0 : Int := (bitLen a a : Int) - (bitLen den den : Int)
  if a * 2 ^ (-k0).toNat < den * 2 ^ k0.toNat then k0 - 1 else k0

/-- Rounding to `double`: the binary64 number nearest to `num / den`, the one
with the even significand when two are equally near. With `k` the binary
exponent of `|num| / den` the result is a multiple of `2 ^ (k - 52)`, so that it
has a significand of 53 bits. The exponent is not bounded: `stod` throws
outside the range of `double`, and for a balance factor inside it and sizes of
type `int` the values computed below are zero or normal numbers, or so large
that they compare with an `int` as infinity does. -/
def roundDbl (num : Int) (den : Nat) : Dbl :=
  if num = 0 ∨ den = 0 then ⟨0, 1⟩
  else
    let a := num.natAbs
    let s : Int := 52 - binade a den
    let n := a * 2 ^ s.toNat
    let d := den * 2 ^ (-s).toNat
    let q := n / d
    let r := n % d
    let m := if d < 2 * r ∨ (2 * r = d ∧ q % 2 = 1) then q + 1 else q
    ⟨(if num < 0 then -1 else 1) * ((m * 2 ^ (-s).toNat : Nat) : Int), 2 ^ s.toNat⟩

/-- The conversion of an `int` to `double`, which is exact. -/
def Dbl.ofInt (n : Int) : Dbl := ⟨n, 1⟩

/-- The sum `a + b` on `double`. -/
def Dbl.add (a b : Dbl) : Dbl := roundDbl (a.num * b.den + b.num * a.den) (a.den * b.den)

/-- The difference `a - b` on `double`. -/
def Dbl.sub (a b : Dbl) : Dbl := roundDbl (a.num * b.den - b.num * a.den) (a.den * b.den)

/-- The product `a * b` on `double`. -/
def Dbl.mul (a b : Dbl) : Dbl := roundDbl (a.num * b.num) (a.den * b.den)

/-- The quotient `a / b` on `double` for `b` other than zero. -/
def Dbl.div (a b : Dbl) : Dbl := roundDbl (a.num * b.den * b.num.sign) (a.den * b.num.natAbs)

/-- The comparison `a < b` on `double`. -/
def Dbl.lt (a b : Dbl) : Bool := decide (a.num * (b.den : Int) < b.num * (a.den : Int))

/-- The member `_bFactor`: the value `stod` returns for the token
`bNum / bDen`. -/
def Partitioner.bFactor (s : Partitioner) : Dbl := roundDbl s.bNum s.bDen.toNat

/-- Modelled from the spec: the constructor `Cell(name, part, id)` of `cell.h`:
gain and pin count zero, unlocked, no nets, a fresh unlinked node. -/
def Cell.new (part : Bool) : Cell :=
  { gain := 0, pinNum := 0, part := part, lock := false, netList := [],
    node := { prev := none, next := none } }

/-- Modelled from the spec: the constructor `Net(name)` of `net.h`. -/
def Net.new : Net :=
  { partCount := fun _ => 0, cellList := [] }

/-- Modelled from the spec: the constructor of `Partitioner` in
`partitioner.h`: every counter zero, every container empty. -/
def Partitioner.new : Partitioner :=
  { cutSize := 0, partSize := fun _ => 0, bNum := 0, bDen := 1, netNum := 0,
    cellNum := 0, maxPinNum := 0, netArray := fun _ => Net.new,
    cellArray := fun _ => Cell.new false, bList := fun _ _ => none,
    accGain := 0, maxAccGain := 0, moveNum := 0, iterNum := 0, bestMoveNum := 0,
    unlockNum := fun _ => 0, moveStack := [], netName2Id := [], cellName2Id := [] }

/-- Write access to `_cellArray[i]`. -/
def setCell (s : Partitioner) (i : Nat) (f : Cell → Cell) : Partitioner :=
  { s with cellArray := fun j => if j = i then f (s.cellArray i) else s.cellArray j }

/-- Write access to `_netArray[n]`. -/
def setNet (s : Partitioner) (n : Nat) (f : Net → Net) : Partitioner :=
  { s with netArray := fun m => if m = n then f (s.netArray n) else s.netArray m }

/-- Two-element array update `a[b] = v`. -/
def setAt (a : Bool → Int) (b : Bool) (v : Int) : Bool → Int :=
  fun x => if x = b then v else a x

/-- The statement `_netArray[n]->incPartCount(part)`. -/
def incPartCount (s : Partitioner) (n : Nat) (part : Bool) : Partitioner :=
  setNet s n fun t => { t with partCount := setAt t.partCount part (t.partCount part + 1) }

/-- The statement `_netArray[n]->decPartCount(part)`. -/
def decPartCount (s : Partitioner) (n : Nat) (part : Bool) : Partitioner :=
  setNet s n fun t => { t with partCount := setAt t.partCount part (t.partCount part - 1) }

/-- The statement `_cellArray[i]->incGain()`. -/
def incGain (s : Partitioner) (i : Nat) : Partitioner :=
  setCell s i fun c => { c with gain := c.gain + 1 }

/-- The statement `_cellArray[i]->decGain()`. -/
def decGain (s : Partitioner) (i : Nat) : Partitioner :=
  setCell s i fun c => { c with gain := c.gain - 1 }

/-- A `for` loop over a list of indices. -/
def loop {σ : Type} (f : σ → Nat → σ) : List Nat → σ → σ
  | [], s => s
  | i :: rest, s => loop f rest (f s i)

/-- A `for` loop over a list of indices whose body can fail. -/
def loopM {σ : Type} (f : σ → Nat → Option σ) : List Nat → σ → Option σ
  | [], s => some s
  | i :: rest, s =>
    match f s i with
    | none => none
    | some s1 => loopM f rest s1

/-! ## parseInput -/

/-- Lookup in one of the name-to-id maps. -/
def lookupName (m : List (String × Nat)) (name : String) : Option Nat :=
  match m with
  | [] => none
  | (k, v) :: rest => if k = name then some v else lookupName rest name

/-- The three statements shared by both branches of `parseInput`:
`addNet(netId)`, `incPinNum()`, `addCell(cellId)`. -/
def addPin (s : Partitioner) (cellId netId : Nat) : Partitioner :=
  let s1 := setCell s cellId fun c =>
    { c with netList := c.netList ++ [netId], pinNum := c.pinNum + 1 }
  setNet s1 netId fun t => { t with cellList := t.cellList ++ [cellId] }

/-- The body of the inner `while` of `parseInput` for one cell name of the
net `netId`. -/
def parseCell (netId : Nat) (s : Partitioner) (cellName : String) : Partitioner :=
  match lookupName s.cellName2Id cellName with
  | none =>
    let cellId := s.cellNum
    let s1 := { s with
      cellArray := fun j => if j = cellId then Cell.new false else s.cellArray j,
      cellName2Id := (cellName, cellId) :: s.cellName2Id }
    let s2 := addPin s1 cellId netId
    { s2 with cellNum := s2.cellNum + 1 }
  | some cellId => addPin s cellId netId

/-- One `NET name c1 c2 ... ;` statement. -/
def parseNet (s : Partitioner) (stmt : String × List String) : Partitioner :=
  let netId := s.netNum
  let s1 := { s with
    netArray := fun m => if m = netId then Net.new else s.netArray m,
    netName2Id := (stmt.1, netId) :: s.netName2Id }
  let s2 := stmt.2.foldl (parseCell netId) s1
  { s2 with netNum := s2.netNum + 1 }

/-- The function `Partitioner::parseInput` on a tokenised file: the first token
as the decimal `bNum / bDen`, which `bFactor` rounds to the `double` that
`stod` returns, and the `NET` statements in order. -/
def parseInput (bNum bDen : Int) (stmts : List (String × List String)) : Partitioner :=
  stmts.foldl parseNet { Partitioner.new with bNum := bNum, bDen := bDen }

/-! ## Bucket list -/

/-- Dereference of a node pointer; a dummy that is not in `_bList` is a null
entry of the map. -/
def getNode (s : Partitioner) : NodeRef → Option Node
  | .cell i => some (s.cellArray i).node
  | .dummy p g => s.bList p g

/-- The call `r->setNext(v)`. -/
def setNext (s : Partitioner) (r : NodeRef) (v : Option NodeRef) : Option Partitioner :=
  match r with
  | .cell i => some (setCell s i fun c => { c with node := { c.node with next := v } })
  | .dummy p g =>
    match s.bList p g with
    | none => none
    | some n =>
      some { s with bList := fun q h =>
        if q = p ∧ h = g then some { n with next := v } else s.bList q h }

/-- The call `r->setPrev(v)`. -/
def setPrev (s : Partitioner) (r : NodeRef) (v : Option NodeRef) : Option Partitioner :=
  match r with
  | .cell i => some (setCell s i fun c => { c with node := { c.node with prev := v } })
  | .dummy p g =>
    match s.bList p g with
    | none => none
    | some n =>
      some { s with bList := fun q h =>
        if q = p ∧ h = g then some { n with prev := v } else s.bList q h }

/-- The function `Partitioner::insertCell`. -/
def insertCell (s : Partitioner) (c : Nat) : Option Partitioner :=
  let gain := (s.cellArray c).gain
  let part := (s.cellArray c).part
  match s.bList part gain with
  | none => none
  | some head =>
    let s1 := setCell s c fun x =>
      { x with node := { prev := some (.dummy part gain), next := head.next } }
    match setNext s1 (.dummy part gain) (some (.cell c)) with
    | none => none
    | some s2 =>
      match (s2.cellArray c).node.next with
      | none => some s2
      | some r => setPrev s2 r (some (.cell c))

/-- The function `Partitioner::removeCell`. -/
def removeCell (s : Partitioner) (c : Nat) : Option Partitioner :=
  match (s.cellArray c).node.prev with
  | none => none
  | some p =>
    match setNext s p (s.cellArray c).node.next with
    | none => none
    | some s1 =>
      match (s1.cellArray c).node.next with
      | none => some s1
      | some r => setPrev s1 r (s1.cellArray c).node.prev

/-- The function `Partitioner::moveCell`. -/
def moveCell (s : Partitioner) (c : Nat) : Option Partitioner :=
  match removeCell s c with
  | none => none
  | some s1 => insertCell s1 c

/-- The function `Partitioner::countMaxPinNum`. -/
def countMaxPinNum (s : Partitioner) : Partitioner :=
  loop (fun st i =>
      if (st.cellArray i).pinNum > st.maxPinNum then
        { st with maxPinNum := (st.cellArray i).pinNum }
      else st)
    (List.range s.cellNum) { s with maxPinNum := 0 }

/-- The function `Partitioner::buildBList`: both maps are cleared, a fresh dummy
node is stored for every gain in `[-_maxPinNum, _maxPinNum]`, and every cell is
inserted in id order. -/
def buildBList (s : Partitioner) : Option Partitioner :=
  let s1 := countMaxPinNum { s with bList := fun _ _ => none }
  let s2 := { s1 with bList := fun _ g =>
    if -s1.maxPinNum ≤ g ∧ g ≤ s1.maxPinNum then some { prev := none, next := none }
    else none }
  loopM insertCell (List.range s2.cellNum) s2

/-- The downward scan of `findMaxGainCell`, with `n` the number of gains not yet
looked at: it stops at the first dummy whose list is not empty and returns the
id stored in the head node. -/
def scanDown (s : Partitioner) (part : Bool) : Nat → Int → Option Nat
  | 0, _ => none
  | n + 1, g =>
    if g ≥ -s.maxPinNum then
      match s.bList part g with
      | none => none
      | some head =>
        match head.next with
        | none => scanDown s part n (g - 1)
        | some (.cell i) => some i
        | some (.dummy _ _) => none
    else none

/-- The function `Partitioner::findMaxGainCell`. Leaving the scan with
`maxGain < -_maxPinNum` makes `_bList[part][maxGain]` a null entry, so the
dereference that follows fails. -/
def findMaxGainCell (s : Partitioner) (part : Bool) : Option Nat :=
  scanDown s part (2 * s.maxPinNum.toNat + 2) s.maxPinNum

/-! ## Gains -/

/-- The function `Partitioner::initGain`. -/
def initGain (s : Partitioner) : Partitioner :=
  let u0 := setAt s.unlockNum false (s.partSize false)
  let u1 := setAt u0 true (s.partSize true)
  loop (fun st i =>
      let part := (st.cellArray i).part
      loop (fun st2 n =>
          let st3 := if (st2.netArray n).partCount part = 1 then incGain st2 i else st2
          if (st3.netArray n).partCount (!part) = 0 then decGain st3 i else st3)
        (st.cellArray i).netList st)
    (List.range s.cellNum)
    { s with unlockNum := u1 }

/-- The function `Partitioner::storeBestState`. -/
def storeBestState (s : Partitioner) : Partitioner :=
  { s with maxAccGain := s.accGain, bestMoveNum := s.moveNum }

/-- The four inner loops of `updateGain` over the cell list of one net: every
cell that passes `test` has its gain changed by `incGain` (`up = true`) or
`decGain` and is re-linked by `moveCell`. -/
def bumpCells (test : Cell → Bool) (up : Bool) (cellList : List Nat)
    (s : Partitioner) : Option Partitioner :=
  loopM (fun st j =>
      if test (st.cellArray j) then
        moveCell (if up then incGain st j else decGain st j) j
      else some st)
    cellList s

/-- The body of the outer loop of `updateGain` for one entry `n` of the net
list of the moved cell `c`. -/
def updateNet (c : Nat) (fPart tPart : Bool) (s : Partitioner) (n : Nat) :
    Option Partitioner :=
  let before :=
    if (s.netArray n).partCount tPart = 0 then
      bumpCells (fun x => !x.lock) true (s.netArray n).cellList s
    else if (s.netArray n).partCount tPart = 1 then
      bumpCells (fun x => !x.lock && x.part == tPart) false (s.netArray n).cellList s
    else some s
  match before with
  | none => none
  | some s1 =>
    let s2 := incPartCount (decPartCount s1 n fPart) n tPart
    let s3 := setCell s2 c fun x => { x with part := tPart }
    if (s3.netArray n).partCount fPart = 0 then
      bumpCells (fun x => !x.lock) false (s3.netArray n).cellList s3
    else if (s3.netArray n).partCount fPart = 1 then
      bumpCells (fun x => !x.lock && x.part == fPart) true (s3.netArray n).cellList s3
    else some s3

/-- The statements of `updateGain` that precede the loop over the nets: the
gain of the moved cell is added to `_accGain`, the cell is locked and pushed on
the move stack. -/
def startMove (s : Partitioner) (c : Nat) : Partitioner :=
  let s0 := { s with accGain := s.accGain + (s.cellArray c).gain }
  let s1 := setCell s0 c fun x => { x with lock := true }
  { s1 with moveStack := s1.moveStack ++ [c] }

/-- The statements of `updateGain` that follow `removeCell(c)`: the two side
sizes, the unlocked count of the from-side, and the best-state record. -/
def finishMove (fPart tPart : Bool) (s4 : Partitioner) : Partitioner :=
  let s5 := { s4 with partSize := setAt s4.partSize tPart (s4.partSize tPart + 1) }
  let s6 := { s5 with partSize := setAt s5.partSize fPart (s5.partSize fPart - 1) }
  let s7 := { s6 with unlockNum := setAt s6.unlockNum fPart (s6.unlockNum fPart - 1) }
  if s7.accGain > s7.maxAccGain then storeBestState s7 else s7

/-- The function `Partitioner::updateGain`. -/
def updateGain (s : Partitioner) (c : Nat) : Option Partitioner :=
  let fPart := (s.cellArray c).part
  let tPart := !(s.cellArray c).part
  let s2 := startMove s c
  match loopM (updateNet c fPart tPart) (s2.cellArray c).netList s2 with
  | none => none
  | some s3 =>
    match removeCell s3 c with
    | none => none
    | some s4 => some (finishMove fPart tPart s4)

/-! ## Cut size and balance -/

/-- The function `Partitioner::countCutSize`. -/
def countCutSize (s : Partitioner) : Partitioner :=
  loop (fun st i =>
      if (st.netArray i).partCount false ≠ 0 ∧ (st.netArray i).partCount true ≠ 0 then
        { st with cutSize := st.cutSize + 1 }
      else st)
    (List.range s.netNum) { s with cutSize := 0 }

/-- The function `Partitioner::checkBalance`: each side size is converted to
`double` and compared with `((1 - _bFactor) / 2) * _cellNum` and
`((1 + _bFactor) / 2) * _cellNum`, every operation rounding to `double`. -/
def checkBalance (s : Partitioner) : Bool :=
  if Dbl.lt (Dbl.ofInt (s.partSize false))
        (Dbl.mul (Dbl.div (Dbl.sub (Dbl.ofInt 1) s.bFactor) (Dbl.ofInt 2))
          (Dbl.ofInt s.cellNum)) ∨
      Dbl.lt (Dbl.mul (Dbl.div (Dbl.add (Dbl.ofInt 1) s.bFactor) (Dbl.ofInt 2))
          (Dbl.ofInt s.cellNum))
        (Dbl.ofInt (s.partSize false)) ∨
      Dbl.lt (Dbl.ofInt (s.partSize true))
        (Dbl.mul (Dbl.div (Dbl.sub (Dbl.ofInt 1) s.bFactor) (Dbl.ofInt 2))
          (Dbl.ofInt s.cellNum)) ∨
      Dbl.lt (Dbl.mul (Dbl.div (Dbl.add (Dbl.ofInt 1) s.bFactor) (Dbl.ofInt 2))
          (Dbl.ofInt s.cellNum))
        (Dbl.ofInt (s.partSize true)) then
    false
  else true

/-- The loop of `reBalance` with its `break`: `diff` is the local variable. -/
def reBalanceLoop (biggerPart : Bool) : List Nat → Partitioner → Int → Partitioner
  | [], s, _ => s
  | i :: rest, s, diff =>
    if (s.cellArray i).part = biggerPart then
      let s1 := setCell s i fun x => { x with part := !biggerPart }
      let diff1 := diff - 2
      let s2 := { s1 with
        partSize := setAt s1.partSize (!biggerPart) (s1.partSize (!biggerPart) + 1) }
      let s3 := { s2 with
        partSize := setAt s2.partSize biggerPart (s2.partSize biggerPart - 1) }
      if diff1 ≤ 0 then s3 else reBalanceLoop biggerPart rest s3 diff1
    else reBalanceLoop biggerPart rest s diff

/-- The function `Partitioner::reBalance`. -/
def reBalance (s : Partitioner) : Partitioner :=
  let diff : Int := |s.partSize false - s.partSize true|
  let biggerPart : Bool := if s.partSize false > s.partSize true then false else true
  reBalanceLoop biggerPart (List.range s.cellNum) s diff

/-- The repair loop `while (!checkBalance()) reBalance();` run for at most
`fuel` iterations; `none` when the fuel is used up before the balance test
succeeds. -/
def repairLoop : Nat → Partitioner → Option Partitioner
  | 0, s => if checkBalance s then some s else none
  | fuel + 1, s => if checkBalance s then some s else repairLoop fuel (reBalance s)

/-- The seeding loop of `genInitPartition`; the loop carries the locals `part`
and `tmpNet`. `getFirstNet` reads `_netList[0]`, which fails on a cell without
nets. -/
def seedLoop : List Nat → Partitioner → Bool → Nat → Option Partitioner
  | [], s, _, _ => some s
  | i :: rest, s, part, tmpNet =>
    match (s.cellArray i).netList.head? with
    | none => none
    | some firstNet =>
      let part1 := if firstNet = tmpNet then part else !part
      let tmpNet1 := if firstNet = tmpNet then tmpNet else firstNet
      let s1 := setCell s i fun x => { x with part := part1 }
      let s2 := { s1 with partSize := setAt s1.partSize part1 (s1.partSize part1 + 1) }
      let s3 := loop (fun st n => incPartCount st n part1) (s2.cellArray i).netList s2
      seedLoop rest s3 part1 tmpNet1

/-- The function `Partitioner::genInitPartition`, the repair loop bounded by
`fuel`. -/
def genInitPartition (fuel : Nat) (s : Partitioner) : Option Partitioner :=
  if s.cellNum = 0 then none
  else
    match (s.cellArray 0).netList.head? with
    | none => none
    | some tmpNet =>
      match seedLoop (List.range s.cellNum) s false tmpNet with
      | none => none
      | some s1 =>
        match repairLoop fuel s1 with
        | none => none
        | some s2 =>
          match buildBList (initGain s2) with
          | none => none
          | some s3 => some (countCutSize s3)

/-! ## The pass -/

/-- The function `Partitioner::initPass`. -/
def initPass (s : Partitioner) : Option Partitioner :=
  let s1 := loop (fun st i => setCell st i fun x => { x with lock := false, gain := 0 })
    (List.range s.cellNum) s
  match buildBList (initGain s1) with
  | none => none
  | some s2 =>
    some { s2 with accGain := 0, maxAccGain := 0, moveNum := 0, bestMoveNum := 0,
                   moveStack := [] }

/-- The balance test of the move loop for a candidate on side `p`:
`abs(_partSize[p] - _partSize[!p] - 2) < (_bFactor * _cellNum)`, the absolute
value taken on `int` and the product rounded to `double`. -/
def admissible (s : Partitioner) (p : Bool) : Bool :=
  Dbl.lt (Dbl.ofInt |s.partSize p - s.partSize (!p) - 2|)
    (Dbl.mul s.bFactor (Dbl.ofInt s.cellNum))

/-- One iteration of the `while` loop of `FMAlgorithm` without the final
`++_moveNum`: the new state and the new value of `run`. -/
def moveStep (s : Partitioner) : Option (Partitioner × Bool) :=
  if s.unlockNum false = 0 then
    match findMaxGainCell s true with
    | none => none
    | some max =>
      if admissible s true then (updateGain s max).map fun t => (t, true)
      else some (s, false)
  else if s.unlockNum true = 0 then
    match findMaxGainCell s false with
    | none => none
    | some max =>
      if admissible s false then (updateGain s max).map fun t => (t, true)
      else some (s, false)
  else
    match findMaxGainCell s false with
    | none => none
    | some maxA =>
      match findMaxGainCell s true with
      | none => none
      | some maxB =>
        if (s.cellArray maxA).gain ≥ (s.cellArray maxB).gain then
          if admissible s false then (updateGain s maxA).map fun t => (t, true)
          else if admissible s true then (updateGain s maxB).map fun t => (t, true)
          else some (s, false)
        else
          if admissible s true then (updateGain s maxB).map fun t => (t, true)
          else if admissible s false then (updateGain s maxA).map fun t => (t, true)
          else some (s, false)

/-- The statement `++_moveNum` that ends every iteration of the move loop. -/
def nextMove (s : Partitioner) : Partitioner :=
  { s with moveNum := s.moveNum + 1 }

/-- The loop `while (run && _moveNum < _cellNum)` of `FMAlgorithm`, entered
with `run = true`. The first argument bounds the iterations still possible; the
caller passes `_cellNum - _moveNum`, so the branch for `0` is reached exactly
when the loop condition `_moveNum < _cellNum` is false. -/
def moveLoop : Nat → Partitioner → Option Partitioner
  | 0, s => some s
  | k + 1, s =>
    if s.moveNum < s.cellNum then
      match moveStep s with
      | none => none
      | some (s1, run) =>
        if run then moveLoop k (nextMove s1) else some (nextMove s1)
    else some s

/-- One step of the first loop of `recover2Best`: the cell flips back. -/
def flipBack (s : Partitioner) (c : Nat) : Partitioner :=
  let part := (s.cellArray c).part
  let s1 := setCell s c fun x => { x with part := !part }
  let s2 := { s1 with partSize := setAt s1.partSize part (s1.partSize part - 1) }
  { s2 with partSize := setAt s2.partSize (!part) (s2.partSize (!part) + 1) }

/-- The second loop of `recover2Best` for one net: both counts are cleared
and the cell list is counted again. -/
def recount (s : Partitioner) (n : Nat) : Partitioner :=
  let s1 := setNet s n fun t => { t with partCount := setAt t.partCount false 0 }
  let s2 := setNet s1 n fun t => { t with partCount := setAt t.partCount true 0 }
  loop (fun st j => incPartCount st n (st.cellArray j).part) (s2.netArray n).cellList s2

/-- The function `Partitioner::recover2Best`. The first loop runs `i` from
`_moveStack.size() - 1` down to `_moveNum + 1`, that is over the reversed tail
of the stack behind position `_moveNum`; on an empty stack the unsigned start
index wraps around and the first access is out of bounds. -/
def recover2Best (s : Partitioner) : Option Partitioner :=
  let s1 := { s with moveNum := s.bestMoveNum }
  if s1.moveStack = [] then none
  else
    let s2 := loop flipBack (s1.moveStack.drop (s1.moveNum + 1)).reverse s1
    some (loop recount (List.range s2.netNum) s2)

/-- The function `Partitioner::FMAlgorithm`. -/
def FMAlgorithm (s : Partitioner) : Option Partitioner :=
  match initPass s with
  | none => none
  | some s1 =>
    match moveLoop (s1.cellNum - s1.moveNum) s1 with
    | none => none
    | some s2 =>
      if s2.maxAccGain > 0 then
        match recover2Best { s2 with iterNum := s2.iterNum + 1 } with
        | none => none
        | some s3 => some (countCutSize s3)
      else some (countCutSize s2)

/-- The function `Partitioner::partition`. -/
def partition (fuel : Nat) (s : Partitioner) : Option Partitioner :=
  match genInitPartition fuel s with
  | none => none
  | some s1 => FMAlgorithm s1

/-! ## What the specification talks about -/

/-- Number of entries of the cell list of net `n` whose cell is on side `p`. -/
def sideCount (s : Partitioner) (n : Nat) (p : Bool) : Int :=
  (((s.netArray n).cellList.countP fun c => (s.cellArray c).part == p : Nat) : Int)

/-- Count consistency: both counts of every net equal the numbers of cells of
its adjacency that are on side A and on side B. -/
def CountsAgree (s : Partitioner) : Prop :=
  ∀ n, n < s.netNum →
    (s.netArray n).partCount false = sideCount s n false ∧
    (s.netArray n).partCount true = sideCount s n true

/-- FS(c): the number of nets of `c` whose count on the side of `c` is one. -/
def fromSide (s : Partitioner) (c : Nat) : Nat :=
  (s.cellArray c).netList.countP fun n =>
    decide ((s.netArray n).partCount (s.cellArray c).part = 1)

/-- TE(c): the number of nets of `c` whose count on the other side is zero. -/
def toEmpty (s : Partitioner) (c : Nat) : Nat :=
  (s.cellArray c).netList.countP fun n =>
    decide ((s.netArray n).partCount (!(s.cellArray c).part) = 0)

/-- The gain of `c` recomputed from scratch, FS(c) - TE(c). -/
def scratchGain (s : Partitioner) (c : Nat) : Int :=
  (fromSide s c : Int) - (toEmpty s c : Int)

/-- Gain correctness: the stored gain of every unlocked cell is FS - TE. -/
def GainsAgree (s : Partitioner) : Prop :=
  ∀ c, c < s.cellNum → (s.cellArray c).lock = false →
    (s.cellArray c).gain = scratchGain s c

/-- The shape of a parsed hypergraph: every cell has a net, every id that
is stored is in range, and cell `c` is listed on net `n` as often as net `n`
is listed on cell `c`. -/
def WellFormed (s : Partitioner) : Prop :=
  (∀ c, c < s.cellNum → (s.cellArray c).netList ≠ [] ∧
    ∀ n ∈ (s.cellArray c).netList, n < s.netNum) ∧
  (∀ n, n < s.netNum → ∀ c ∈ (s.netArray n).cellList, c < s.cellNum) ∧
  (∀ c, c < s.cellNum → ∀ n, n < s.netNum →
    (s.cellArray c).netList.count n = (s.netArray n).cellList.count c)

/-- No cell is listed twice on the same net. -/
def NoRepeat (s : Partitioner) : Prop :=
  ∀ n, n < s.netNum → (s.netArray n).cellList.Nodup

/-- The number of nets that have a cell on side A and a cell on side B. -/
def cutNets (s : Partitioner) : Nat :=
  (List.range s.netNum).countP fun n =>
    decide (0 < sideCount s n false ∧ 0 < sideCount s n true)

/-- A run of committed moves: the calls `updateGain(c)` for the cells of the
list in order, each followed by the `++_moveNum` of the move loop. -/
def moveCells (cs : List Nat) (s : Partitioner) : Option Partitioner :=
  loopM (fun st c =>
      match updateGain st c with
      | none => none
      | some t => some (nextMove t))
    cs s

instance (s : Partitioner) : Decidable (CountsAgree s) := by
  unfold CountsAgree; infer_instance

instance (s : Partitioner) : Decidable (GainsAgree s) := by
  unfold GainsAgree; infer_instance

instance (s : Partitioner) : Decidable (WellFormed s) := by
  unfold WellFormed; infer_instance

instance (s : Partitioner) : Decidable (NoRepeat s) := by
  unfold NoRepeat; infer_instance

/-- The `next` link of the node behind a pointer (none for a null entry). -/
def nextOf (s : Partitioner) (r : NodeRef) : Option NodeRef :=
  match getNode s r with
  | some n => n.next
  | none => none

/-- The `prev` link of the node behind a pointer (none for a null entry). -/
def prevOf (s : Partitioner) (r : NodeRef) : Option NodeRef :=
  match getNode s r with
  | some n => n.prev
  | none => none

/-- A doubly-linked segment on a heap given by its `next` and `prev` links:
following `next` from the node `r` visits exactly the nodes of the cells of
`l`, in order, and then reaches the null pointer, and every visited node
points back to its predecessor. -/
def Seg (nx pv : NodeRef → Option NodeRef) : NodeRef → List Nat → Prop
  | r, [] => nx r = none
  | r, i :: rest => nx r = some (.cell i) ∧ pv (.cell i) = some r ∧ Seg nx pv (.cell i) rest

/-- The bucket list of the dummy `_bList[p][g]` threads exactly the cells of
`l`, head first. -/
def Threads (s : Partitioner) (p : Bool) (g : Int) (l : List Nat) : Prop :=
  Seg (nextOf s) (prevOf s) (.dummy p g) l

/-- The bucket lists are in order: the list of every dummy threads the cells
of `B p g`, no list holds a cell twice and no cell is in two lists. -/
structure Linked (s : Partitioner) (B : Bool → Int → List Nat) : Prop where
  threads : ∀ p g, Threads s p g (B p g)
  nodup : ∀ p g, (B p g).Nodup
  apart : ∀ p g q h i, i ∈ B p g → i ∈ B q h → p = q ∧ g = h

/-- The content `B` with the list of bucket `(p, g)` replaced by `l`. -/
def setBucket (B : Bool → Int → List Nat) (p : Bool) (g : Int) (l : List Nat) :
    Bool → Int → List Nat :=
  fun q h => if q = p ∧ h = g then l else B q h

/-- Bucket membership. The bucket lists are in order with content `B`; a cell
is in the list of bucket `(p, g)` exactly if it is a cell of the circuit with
gain `g` that is unlocked on side `p` or is the cell `mv` that `updateGain` is
busy moving away from side `p`; and the dummies that exist are those of the
gains in `[-_maxPinNum, _maxPinNum]`. -/
structure Buckets (s : Partitioner) (mv : Option (Nat × Bool))
    (B : Bool → Int → List Nat) : Prop where
  linked : Linked s B
  mem : ∀ p g i, i ∈ B p g ↔
    i < s.cellNum ∧ (s.cellArray i).gain = g ∧
      (((s.cellArray i).lock = false ∧ (s.cellArray i).part = p) ∨ mv = some (i, p))
  moving : ∀ c f, mv = some (c, f) → (s.cellArray c).lock = true
  dom : ∀ p g, (s.bList p g).isSome = true ↔ (-s.maxPinNum ≤ g ∧ g ≤ s.maxPinNum)

/-- The difference `_partSize[0] - _partSize[1]`. -/
def sizeDiff (s : Partitioner) : Int :=
  s.partSize false - s.partSize true

/-- The size difference that results from `s` when the cells of `l` flip back
to the side they came from. -/
def undoDiff (s : Partitioner) (l : List Nat) : Int :=
  sizeDiff s + 2 * (l.map fun x => if (s.cellArray x).part then (1 : Int) else -1).sum

/-- The balance test of the move loop on a size difference `d`:
`abs(d) < (_bFactor * _cellNum)` as the source evaluates it on `double`. -/
def admits (s : Partitioner) (d : Int) : Bool :=
  Dbl.lt (Dbl.ofInt |d|) (Dbl.mul s.bFactor (Dbl.ofInt s.cellNum))

/-- The invariant of the move loop of a pass that started in the state `s0`:
bucket membership holds, the move stack lists distinct locked cells and
`_moveNum` is its length, a positive `_maxAccGain` was recorded at a position
of the stack, the two side sizes add up to `_cellNum`, and after every
non-empty front part of the moves the size difference passed the balance test
of the move loop. -/
structure PassInv (s0 st : Partitioner) : Prop where
  wf : WellFormed st
  buckets : ∃ B, Buckets st none B
  consts : st.bNum = s0.bNum ∧ st.bDen = s0.bDen ∧ st.cellNum = s0.cellNum ∧
    st.netNum = s0.netNum ∧ st.iterNum = s0.iterNum
  moveNum : st.moveNum = st.moveStack.length
  nodup : st.moveStack.Nodup
  locked : ∀ x ∈ st.moveStack, x < st.cellNum ∧ (st.cellArray x).lock = true
  best : st.maxAccGain > 0 → st.bestMoveNum < st.moveStack.length
  window : ∀ j, 1 ≤ j → j ≤ st.moveStack.length →
    admits st (undoDiff st (st.moveStack.drop j)) = true
  sum : st.partSize false + st.partSize true = s0.partSize false + s0.partSize true
  fresh : st.moveStack = [] → st.partSize = s0.partSize

/-- The state `s` holds the hypergraph and the run constants of `p`: the balance
factor, the two array sizes, the iteration counter and all adjacency lists
agree. -/
structure SameGraph (p s : Partitioner) : Prop where
  bNum : s.bNum = p.bNum
  bDen : s.bDen = p.bDen
  cellNum : s.cellNum = p.cellNum
  netNum : s.netNum = p.netNum
  iterNum : s.iterNum = p.iterNum
  netList : ∀ x, (s.cellArray x).netList = (p.cellArray x).netList
  cellList : ∀ n, (s.netArray n).cellList = (p.netArray n).cellList

/-- The value of a `double` as a rational number. -/
def Dbl.val (x : Dbl) : ℚ := (x.num : ℚ) / (x.den : ℚ)

/-- The balance factor `r` of the specification: the exact value of the input
token. -/
def Partitioner.ratio (s : Partitioner) : ℚ := (s.bNum : ℚ) / (s.bDen : ℚ)

/-- The balance window of the specification for the side sizes of `s`, with the
balance factor as an exact rational number. -/
def InWindow (s : Partitioner) : Prop :=
  ∀ side : Bool,
    (1 - s.ratio) / 2 * (s.cellNum : ℚ) ≤ (s.partSize side : ℚ) ∧
    (s.partSize side : ℚ) ≤ (1 + s.ratio) / 2 * (s.cellNum : ℚ)

/-- The adjacency lists of the first `C` cells and the first `K` nets are in
range and list each other equally often. -/
structure Listed (s : Partitioner) (C K : Nat) : Prop where
  nets : ∀ c, c < C → ∀ n ∈ (s.cellArray c).netList, n < K
  cells : ∀ n, n < K → ∀ c ∈ (s.netArray n).cellList, c < C
  agree : ∀ c, c < C → ∀ n, n < K →
    (s.cellArray c).netList.count n = (s.netArray n).cellList.count c

/-- The invariant of `parseInput` while `K` nets have been created: the
adjacency lists are consistent, every cell created so far has a net, and the
name map only holds ids of created cells. -/
structure ParseInv (s : Partitioner) (K : Nat) : Prop where
  listed : Listed s s.cellNum K
  nonempty : ∀ c, c < s.cellNum → (s.cellArray c).netList ≠ []
  names : ∀ name id, lookupName s.cellName2Id name = some id → id < s.cellNum

/-! ## The data behind the bucket lists -/

/-- The state with every bucket-list link erased: what is left is the data that
the gain and count logic reads and writes. -/
def strip (s : Partitioner) : Partitioner :=
  { s with
    bList := fun _ _ => none,
    cellArray := fun i => { s.cellArray i with node := { prev := none, next := none } } }

/-- The effect of `bumpCells` on the data: every cell that passes the test
gains or loses one unit per occurrence in the cell list. -/
def bumpPure (test : Cell → Bool) (up : Bool) (cellList : List Nat)
    (s : Partitioner) : Partitioner :=
  { s with cellArray := fun x =>
      { s.cellArray x with
        gain := (s.cellArray x).gain +
          (if test (s.cellArray x) then (if up then 1 else -1) * (cellList.count x : Int)
           else 0) } }

/-- One of the two gain-update phases of `updateNet` on the net `n`, steered
by the count of side `p`: with `up = true` this is the phase before the counts
change (`p` the to-side), with `up = false` the phase after it (`p` the
from-side). -/
def phase (p up : Bool) (n : Nat) (s : Partitioner) : Option Partitioner :=
  if (s.netArray n).partCount p = 0 then
    bumpCells (fun x => !x.lock) up (s.netArray n).cellList s
  else if (s.netArray n).partCount p = 1 then
    bumpCells (fun x => !x.lock && x.part == p) (!up) (s.netArray n).cellList s
  else some s

/-- The effect of `phase` on the data. -/
def phasePure (p up : Bool) (n : Nat) (s : Partitioner) : Partitioner :=
  if (s.netArray n).partCount p = 0 then
    bumpPure (fun x => !x.lock) up (s.netArray n).cellList s
  else if (s.netArray n).partCount p = 1 then
    bumpPure (fun x => !x.lock && x.part == p) (!up) (s.netArray n).cellList s
  else s

/-- The three statements between the two phases of `updateNet`. -/
def commitNet (c : Nat) (fPart tPart : Bool) (n : Nat) (s1 : Partitioner) : Partitioner :=
  let s2 := incPartCount (decPartCount s1 n fPart) n tPart
  setCell s2 c fun x => { x with part := tPart }

/-- The effect of `updateNet` on the data. -/
def updateNetPure (c : Nat) (fPart tPart : Bool) (s : Partitioner) (n : Nat) :
    Partitioner :=
  phasePure fPart false n (commitNet c fPart tPart n (phasePure tPart true n s))

/-- The effect of `updateGain` on the data. -/
def updateGainPure (s : Partitioner) (c : Nat) : Partitioner :=
  let fPart := (s.cellArray c).part
  let tPart := !(s.cellArray c).part
  finishMove fPart tPart
    (loop (updateNetPure c fPart tPart) (s.cellArray c).netList (startMove s c))

/-- Everything of the state except the two arenas and the bucket lists. -/
def globals (s : Partitioner) : Partitioner :=
  { s with
    bList := fun _ _ => none,
    cellArray := fun _ => Cell.new false,
    netArray := fun _ => Net.new }

/-- The gain change that one phase of `updateNet` gives a cell with lock flag
`lk` on side `pt` that is listed `m` times on the net, when the steering count
of side `p` is `k`. -/
def phaseDelta (p up : Bool) (k : Int) (lk pt : Bool) (m : Int) : Int :=
  if k = 0 then (if lk then 0 else (if up then m else -m))
  else if k = 1 then (if !lk && pt == p then (if up then -m else m) else 0)
  else 0

/-- The contribution of one net to FS - TE, from the count on the side of the
cell and the count on the other side. -/
def contrib (own other : Int) : Int :=
  (if own = 1 then 1 else 0) - (if other = 0 then 1 else 0)

/-- The sum of the contributions of the nets in `l` for a cell on side `p`,
under the counts `cnt`. -/
def gainOver (cnt : Nat → Bool → Int) (p : Bool) (l : List Nat) : Int :=
  (l.map fun n => contrib (cnt n p) (cnt n (!p))).sum

/-- The data of a state `st` reached inside `updateGain s c` after the nets in
`d`, a front part of the net list of `c`, have been handled. -/
structure NetsDone (s : Partitioner) (c : Nat) (d : List Nat) (st : Partitioner) : Prop where
  glob : globals st = globals (startMove s c)
  cellList : ∀ m, (st.netArray m).cellList = (s.netArray m).cellList
  lock : ∀ x, (st.cellArray x).lock = (if x = c then true else (s.cellArray x).lock)
  netList : ∀ x, (st.cellArray x).netList = (s.cellArray x).netList
  pinNum : ∀ x, (st.cellArray x).pinNum = (s.cellArray x).pinNum
  part : ∀ x, x ≠ c → (st.cellArray x).part = (s.cellArray x).part
  partC : (st.cellArray c).part =
    if d = [] then (s.cellArray c).part else !(s.cellArray c).part
  cntF : ∀ m, (st.netArray m).partCount (s.cellArray c).part =
    (s.netArray m).partCount (s.cellArray c).part - d.count m
  cntT : ∀ m, (st.netArray m).partCount (!(s.cellArray c).part) =
    (s.netArray m).partCount (!(s.cellArray c).part) + d.count m

/-! ## A small run used to exercise the theorems -/

/-- The input `0.6`, `NET n1 a b ;`, `NET n2 c d ;`. -/
def demoInput : Partitioner :=
  parseInput 3 5 [("n1", ["a", "b"]), ("n2", ["c", "d"])]

/-- The state after `genInitPartition` on `demoInput`. -/
def demoInit : Partitioner :=
  match genInitPartition 0 demoInput with
  | none => demoInput
  | some g => g

/-- The state at the start of the pass on `demoInput`. -/
def demoPass : Partitioner :=
  match initPass demoInit with
  | none => demoInit
  | some s => s

/-- The state after the first move of the pass on `demoInput`, which moves
cell `b` (id 1). -/
def demoMoved : Partitioner :=
  match updateGain demoPass 1 with
  | none => demoPass
  | some s => s

/-- The state after the first two moves of the pass on `demoInput`: cell `b`
(id 1), then cell `d` (id 3). -/
def demoRun : Partitioner :=
  match moveCells [1, 3] demoPass with
  | none => demoPass
  | some s => s

/-- The state that `partition` returns on `demoInput`. -/
def demoFinal : Partitioner :=
  match partition 0 demoInput with
  | none => demoInput
  | some s => s

/-- The state with `g` added to the gain of cell `i`. -/
def addGainAt (s : Partitioner) (i : Nat) (g : Int) : Partitioner :=
  setCell s i fun c => { c with gain := c.gain + g }

/-- The first loop of `initPass` in closed form: every cell below `_cellNum`
is unlocked and its gain is cleared. -/
def resetCells (s : Partitioner) : Partitioner :=
  { s with cellArray := fun x =>
      if x < s.cellNum then { s.cellArray x with lock := false, gain := 0 }
      else s.cellArray x }

/-- The test of `countCutSize` for one net. -/
def isCutCount (cnt : Nat → Bool → Int) (n : Nat) : Bool :=
  decide (cnt n false ≠ 0 ∧ cnt n true ≠ 0)

/-! ## Inputs on which the code is evaluated -/

/-- The input `0.5`, `NET n1 a b ;`. -/
def twoCellInput : Partitioner :=
  parseInput 1 2 [("n1", ["a", "b"])]

/-- The input `0.5`, `NET n1 a ;`, `NET n2 a ;`, `NET n3 b c d ;`. -/
def lonelyInput : Partitioner :=
  parseInput 1 2 [("n1", ["a"]), ("n2", ["a"]), ("n3", ["b", "c", "d"])]

/-- The input `0.25`, `NET n1 a b ;`, `NET n2 a c ;`, `NET n3 a c d ;`,
`NET n4 b e ;`. -/
def twoPassInput : Partitioner :=
  parseInput 1 4
    [("n1", ["a", "b"]), ("n2", ["a", "c"]), ("n3", ["a", "c", "d"]), ("n4", ["b", "e"])]

/-- The state that `partition` returns on `twoPassInput`. -/
def twoPassFinal : Partitioner :=
  match partition 0 twoPassInput with
  | none => twoPassInput
  | some s => s

/-- The input `0.25`, `NET n1 a b ;`, `NET n2 a c ;`, `NET n3 d e ;`. -/
def repairedInput : Partitioner :=
  parseInput 1 4 [("n1", ["a", "b"]), ("n2", ["a", "c"]), ("n3", ["d", "e"])]

/-- The two counts of every net, in id order. -/
def countTable (s : Partitioner) : List (Int × Int) :=
  (List.range s.netNum).map fun n =>
    ((s.netArray n).partCount false, (s.netArray n).partCount true)

/-- The numbers of adjacency cells on side A and on side B of every net, in
id order. -/
def sideTable (s : Partitioner) : List (Int × Int) :=
  (List.range s.netNum).map fun n => (sideCount s n false, sideCount s n true)

/-- The side of every cell, in id order. -/
def partTable (s : Partitioner) : List Bool :=
  (List.range s.cellNum).map fun c => (s.cellArray c).part

/-! ## The move loop seen from outside -/

/-- The state at the head of iteration `k` of the move loop of `FMAlgorithm`
entered in the state `s` (iterations counted from 0): the loop condition
`run && _moveNum < _cellNum` held `k` times and each of these `k` iterations
committed a move. It is `none` when the loop has ended, or has failed, before
that iteration. -/
def loopHead : Nat → Partitioner → Option Partitioner
  | 0, s => some s
  | k + 1, s =>
    if s.moveNum < s.cellNum then
      match moveStep s with
      | some (s1, true) => loopHead k (nextMove s1)
      | _ => none
    else none

/-- Number of cells on side `p`. -/
def sizeCount (s : Partitioner) (p : Bool) : Int :=
  (((List.range s.cellNum).countP fun c => (s.cellArray c).part == p : Nat) : Int)

/-- Number of unlocked cells on side `p`. -/
def unlockedCount (s : Partitioner) (p : Bool) : Int :=
  (((List.range s.cellNum).countP fun c =>
    (s.cellArray c).part == p && !(s.cellArray c).lock : Nat) : Int)

/-- Size bookkeeping: `_partSize[p]` is the number of cells on side `p`. -/
def SizesAgree (s : Partitioner) : Prop :=
  ∀ p, s.partSize p = sizeCount s p

/-- Unlocked bookkeeping: `_unlockNum[p]` is the number of unlocked cells on
side `p`. -/
def UnlockAgree (s : Partitioner) : Prop :=
  ∀ p, s.unlockNum p = unlockedCount s p

instance (s : Partitioner) : Decidable (SizesAgree s) := by
  unfold SizesAgree; infer_instance

instance (s : Partitioner) : Decidable (UnlockAgree s) := by
  unfold UnlockAgree; infer_instance

/-- The scan of `findMaxGainCell(p)` succeeds: it returns a cell `c` of the
circuit that is the head of the list of the dummy `_bList[p][g]` for its gain
`g`, and `g` lies in `[-_maxPinNum, _maxPinNum]`, so that the dummy exists. -/
def ScanOk (s : Partitioner) (p : Bool) : Prop :=
  ∃ c, findMaxGainCell s p = some c ∧ c < s.cellNum ∧
    -s.maxPinNum ≤ (s.cellArray c).gain ∧ (s.cellArray c).gain ≤ s.maxPinNum ∧
    (s.bList p (s.cellArray c).gain).isSome = true ∧
    nextOf s (.dummy p (s.cellArray c).gain) = some (.cell c)

/-- The side that `reBalance` takes cells from: side A if it is strictly larger,
else side B. -/
def largerSide (s : Partitioner) : Bool :=
  if s.partSize false > s.partSize true then false else true

/-- The number of flips that halve a size difference `diff`, rounded up. -/
def flipsFor (diff : Int) : Nat :=
  ((diff + 1) / 2).toNat

/-- The cells on the larger side, in id order. -/
def largerCells (s : Partitioner) : List Nat :=
  (List.range s.cellNum).filter fun c => (s.cellArray c).part == largerSide s

/-- The cells that one call of `reBalance` is expected to flip: the lowest ids
of the larger side, as many as halve the size difference. -/
def flipSet (s : Partitioner) : List Nat :=
  (largerCells s).take (flipsFor |s.partSize false - s.partSize true|)

/-- Some pair of side sizes that add up to `_cellNum` lies in the balance
window of the specification. -/
def Feasible (s : Partitioner) : Prop :=
  ∃ a b : Int, a + b = (s.cellNum : Int) ∧
    (1 - s.ratio) / 2 * (s.cellNum : ℚ) ≤ (a : ℚ) ∧
    (a : ℚ) ≤ (1 + s.ratio) / 2 * (s.cellNum : ℚ) ∧
    (1 - s.ratio) / 2 * (s.cellNum : ℚ) ≤ (b : ℚ) ∧
    (b : ℚ) ≤ (1 + s.ratio) / 2 * (s.cellNum : ℚ)

/-- The input `0.1`, `NET n1 a b c ;`: three cells and a window that holds no
whole number. -/
def oddInput : Partitioner :=
  parseInput 1 10 [("n1", ["a", "b", "c"])]

/-- The state after the seeding loop of `genInitPartition` on `oddInput`. -/
def oddSeeded : Partitioner :=
  match seedLoop (List.range oddInput.cellNum) oddInput false 0 with
  | none => oddInput
  | some s => s

/-- The best-prefix record of a pass that started in the state `s0`: the state
`st` is the result of the moves on its stack, `_maxAccGain` is not negative and
bounds the cumulative gain after every non-empty prefix of these moves, and a
positive `_maxAccGain` is the cumulative gain after the first
`_bestMoveNum + 1` moves and is larger than the cumulative gain after any
shorter non-empty prefix. -/
structure BestInv (s0 st : Partitioner) : Prop where
  run : moveCells st.moveStack s0 = some st
  nonneg : 0 ≤ st.maxAccGain
  upper : ∀ j sj, 1 ≤ j → j ≤ st.moveStack.length →
    moveCells (st.moveStack.take j) s0 = some sj → sj.accGain ≤ st.maxAccGain
  attained : st.maxAccGain > 0 →
    st.bestMoveNum < st.moveStack.length ∧
    ∃ sj, moveCells (st.moveStack.take (st.bestMoveNum + 1)) s0 = some sj ∧
      sj.accGain = st.maxAccGain ∧
      ∀ i si, 1 ≤ i → i ≤ st.bestMoveNum →
        moveCells (st.moveStack.take i) s0 = some si → si.accGain < st.maxAccGain

/-- The state in which the move loop of the pass on `demoInput` ends. -/
def demoLoopEnd : Partitioner :=
  match moveLoop (demoPass.cellNum - demoPass.moveNum) demoPass with
  | none => demoPass
  | some s => s

/-- The state after `genInitPartition` on `twoPassInput`. -/
def twoPassInit : Partitioner :=
  match genInitPartition 0 twoPassInput with
  | none => twoPassInput
  | some s => s

/-- The state at the start of the pass on `twoPassInput`. -/
def twoPassStart : Partitioner :=
  match initPass twoPassInit with
  | none => twoPassInit
  | some s => s

/-- The state in which the move loop of the pass on `twoPassInput` ends. -/
def twoPassLoopEnd : Partitioner :=
  match moveLoop (twoPassStart.cellNum - twoPassStart.moveNum) twoPassStart with
  | none => twoPassStart
  | some s => s

/-- The record of a pass whose first move cannot pay: a positive `_maxAccGain`
was recorded at the second move or later, and as long as no move is committed
`_maxAccGain` and `_accGain` are zero and no unlocked cell has a positive
gain. -/
structure FirstInv (st : Partitioner) : Prop where
  later : st.maxAccGain > 0 → 1 ≤ st.bestMoveNum
  fresh : st.moveStack = [] →
    st.maxAccGain = 0 ∧ st.accGain = 0 ∧
    ∀ c, c < st.cellNum → (st.cellArray c).lock = false → (st.cellArray c).gain ≤ 0

/-- The stored gain of every cell, in id order. -/
def gainTable (s : Partitioner) : List Int :=
  (List.range s.cellNum).map fun c => (s.cellArray c).gain

/-- The input `0.75`, `NET n1 a ;`, `NET n2 b c ;`, `NET n3 b d e ;`. -/
def climbInput : Partitioner :=
  parseInput 3 4 [("n1", ["a"]), ("n2", ["b", "c"]), ("n3", ["b", "d", "e"])]

/-- The state after `genInitPartition` on `climbInput`. -/
def climbInit : Partitioner :=
  match genInitPartition 0 climbInput with
  | none => climbInput
  | some s => s

/-- The state that `partition` returns on `climbInput`. -/
def climbFinal : Partitioner :=
  match partition 0 climbInput with
  | none => climbInput
  | some s => s

/-! ## Inputs on which the rounding to `double` decides a balance test -/

/-- The nets `n1 = c1 .. c15`, `n2 = d1 .. d10`, `n3 = d10 c1`, `n4 = d10 c2`
on 25 cells. -/
def roundNets : List (String × List String) :=
  [("n1", ["c1", "c2", "c3", "c4", "c5", "c6", "c7", "c8", "c9", "c10", "c11", "c12", "c13", "c14",
      "c15"]),
   ("n2", ["d1", "d2", "d3", "d4", "d5", "d6", "d7", "d8", "d9", "d10"]),
   ("n3", ["d10", "c1"]), ("n4", ["d10", "c2"])]

/-- The input `0.28` with the nets `roundNets`. -/
def roundInput : Partitioner :=
  parseInput 28 100 roundNets

/-- The state at the start of the pass on `roundInput`. -/
def roundPass : Partitioner :=
  match genInitPartition 0 roundInput with
  | none => roundInput
  | some g =>
    match initPass g with
    | none => g
    | some s => s

/-- The state after the first iteration of the move loop on `roundPass`. -/
def roundMoved : Partitioner :=
  match moveStep roundPass with
  | none => roundPass
  | some (t, _) => t

/-- The input `0.279999999999999999999` with the nets `roundNets`. -/
def tightInput : Partitioner :=
  parseInput 279999999999999999999 1000000000000000000000 roundNets

/-- The state that `partition` returns on `tightInput`. -/
def tightFinal : Partitioner :=
  match partition 0 tightInput with
  | none => tightInput
  | some s => s

theorem strip_setCell_node (s : Partitioner) (i : Nat) (f : Cell → Node) :
    strip (setCell s i fun c => { c with node := f c }) = strip s := by
  unfold strip setCell
  congr 1
  funext j
  by_cases h : j = i <;> simp [h]

theorem strip_bList (s : Partitioner) (b : Bool → Int → Option Node) :
    strip { s with bList := b } = strip s := rfl

theorem strip_setNext {s s1 : Partitioner} {r : NodeRef} {v : Option NodeRef}
    (h : setNext s r v = some s1) : strip s1 = strip s := by
  cases r with
  | cell i =>
    simp only [setNext, Option.some.injEq] at h
    subst h
    exact strip_setCell_node s i _
  | dummy p g =>
    simp only [setNext] at h
    split at h
    · exact absurd h (by simp)
    · simp only [Option.some.injEq] at h
      subst h
      rfl

theorem strip_setPrev {s s1 : Partitioner} {r : NodeRef} {v : Option NodeRef}
    (h : setPrev s r v = some s1) : strip s1 = strip s := by
  cases r with
  | cell i =>
    simp only [setPrev, Option.some.injEq] at h
    subst h
    exact strip_setCell_node s i _
  | dummy p g =>
    simp only [setPrev] at h
    split at h
    · exact absurd h (by simp)
    · simp only [Option.some.injEq] at h
      subst h
      rfl

theorem strip_insertCell {s s1 : Partitioner} {c : Nat}
    (h : insertCell s c = some s1) : strip s1 = strip s := by
  unfold insertCell at h
  simp only at h
  split at h
  · exact absurd h (by simp)
  · split at h
    · exact absurd h (by simp)
    · rename_i s2 h2
      have e2 := strip_setNext h2
      rw [strip_setCell_node s c (fun _ => _)] at e2
      split at h
      · simp only [Option.some.injEq] at h
        subst h
        exact e2
      · exact (strip_setPrev h).trans e2

theorem strip_removeCell {s s1 : Partitioner} {c : Nat}
    (h : removeCell s c = some s1) : strip s1 = strip s := by
  unfold removeCell at h
  split at h
  · exact absurd h (by simp)
  · split at h
    · exact absurd h (by simp)
    · rename_i s2 h2
      have e2 := strip_setNext h2
      split at h
      · simp only [Option.some.injEq] at h
        subst h
        exact e2
      · exact (strip_setPrev h).trans e2

theorem strip_moveCell {s s1 : Partitioner} {c : Nat}
    (h : moveCell s c = some s1) : strip s1 = strip s := by
  unfold moveCell at h
  split at h
  · exact absurd h (by simp)
  · rename_i s2 h2
    exact (strip_insertCell h).trans (strip_removeCell h2)

theorem strip_bumpPure (test : Cell → Bool) (up : Bool) (l : List Nat) (s : Partitioner)
    (htest : ∀ a b : Cell, a.lock = b.lock → a.part = b.part → test a = test b) :
    strip (bumpPure test up l s) = strip (bumpPure test up l (strip s)) := by
  unfold bumpPure strip
  simp only
  congr 1
  funext x
  rw [htest { s.cellArray x with node := { prev := none, next := none } } (s.cellArray x) rfl rfl]

theorem bumpPure_cons (test : Cell → Bool) (up : Bool) (j : Nat) (l : List Nat)
    (s : Partitioner)
    (htest : ∀ a b : Cell, a.lock = b.lock → a.part = b.part → test a = test b) :
    bumpPure test up (j :: l) s =
      bumpPure test up l
        (if test (s.cellArray j) then (if up then incGain s j else decGain s j) else s) := by
  by_cases hj : test (s.cellArray j) = true
  · simp only [hj, if_true]
    cases up
    · simp only [bumpPure, decGain, setCell, Bool.false_eq_true, if_false]
      congr 1
      funext x
      by_cases hx : x = j
      · subst hx
        have e := htest { s.cellArray x with gain := (s.cellArray x).gain - 1 } (s.cellArray x) rfl rfl
        simp only [if_true, e, hj, List.count_cons_self]
        congr 1
        push_cast
        ring
      · have hx2 : ¬ (j == x) = true := by simpa using fun h => hx h.symm
        simp only [hx, if_false, List.count_cons, hx2]
        simp
    · simp only [bumpPure, incGain, setCell, if_true]
      congr 1
      funext x
      by_cases hx : x = j
      · subst hx
        have e := htest { s.cellArray x with gain := (s.cellArray x).gain + 1 } (s.cellArray x) rfl rfl
        simp only [if_true, e, hj, List.count_cons_self]
        congr 1
        push_cast
        ring
      · have hx2 : ¬ (j == x) = true := by simpa using fun h => hx h.symm
        simp only [hx, if_false, List.count_cons, hx2]
        simp
  · simp only [hj, if_false]
    simp only [bumpPure]
    congr 1
    funext x
    by_cases hx : x = j
    · subst hx
      simp [hj]
    · have hx2 : ¬ (j == x) = true := by simpa using fun h => hx h.symm
      simp [List.count_cons, hx2]

theorem bumpPure_nil (test : Cell → Bool) (up : Bool) (s : Partitioner) :
    bumpPure test up [] s = s := by
  simp [bumpPure]

theorem strip_congr_bumpPure (test : Cell → Bool) (up : Bool) (l : List Nat)
    {s t : Partitioner}
    (htest : ∀ a b : Cell, a.lock = b.lock → a.part = b.part → test a = test b)
    (h : strip s = strip t) :
    strip (bumpPure test up l s) = strip (bumpPure test up l t) := by
  rw [strip_bumpPure test up l s htest, strip_bumpPure test up l t htest, h]

theorem strip_bumpCells (test : Cell → Bool) (up : Bool)
    (htest : ∀ a b : Cell, a.lock = b.lock → a.part = b.part → test a = test b) :
    ∀ (l : List Nat) (s s1 : Partitioner), bumpCells test up l s = some s1 →
      strip s1 = strip (bumpPure test up l s) := by
  intro l
  induction l with
  | nil =>
    intro s s1 h
    simp only [bumpCells, loopM, Option.some.injEq] at h
    subst h
    rw [bumpPure_nil]
  | cons j l ih =>
    intro s s1 h
    rw [bumpPure_cons test up j l s htest]
    simp only [bumpCells, loopM] at h
    split at h
    · exact absurd h (by simp)
    · rename_i s2 h2
      have h3 := ih s2 s1 h
      rw [h3]
      apply strip_congr_bumpPure test up l htest
      by_cases hj : test (s.cellArray j) = true
      · simp only [hj, if_true] at h2 ⊢
        exact strip_moveCell h2
      · have hj2 : test (s.cellArray j) = false := by simpa using hj
        simp only [hj2, Bool.false_eq_true, if_false, Option.some.injEq] at h2 ⊢
        rw [h2]

theorem updateNet_eq (c : Nat) (fPart tPart : Bool) (s : Partitioner) (n : Nat) :
    updateNet c fPart tPart s n =
      match phase tPart true n s with
      | none => none
      | some s1 => phase fPart false n (commitNet c fPart tPart n s1) := by
  unfold updateNet phase commitNet
  simp only [Bool.not_true, Bool.not_false]

theorem test_all_ok : ∀ a b : Cell, a.lock = b.lock → a.part = b.part →
    (fun x : Cell => !x.lock) a = (fun x : Cell => !x.lock) b := by
  intro a b h1 _
  simp only [h1]

theorem test_side_ok (p : Bool) : ∀ a b : Cell, a.lock = b.lock → a.part = b.part →
    (fun x : Cell => !x.lock && x.part == p) a = (fun x : Cell => !x.lock && x.part == p) b := by
  intro a b h1 h2
  simp only [h1, h2]

theorem strip_netArray {s t : Partitioner} (h : strip s = strip t) :
    s.netArray = t.netArray := by
  have e := congrArg Partitioner.netArray h
  exact e

theorem strip_phase {p up : Bool} {n : Nat} {s s1 : Partitioner}
    (h : phase p up n s = some s1) : strip s1 = strip (phasePure p up n s) := by
  unfold phase at h
  unfold phasePure
  split at h
  · rename_i h0
    rw [if_pos h0]
    exact strip_bumpCells _ _ test_all_ok _ _ _ h
  · rename_i h0
    rw [if_neg h0]
    split at h
    · rename_i h1
      rw [if_pos h1]
      exact strip_bumpCells _ _ (test_side_ok p) _ _ _ h
    · rename_i h1
      rw [if_neg h1]
      simp only [Option.some.injEq] at h
      rw [h]

theorem strip_congr_phasePure (p up : Bool) (n : Nat) {s t : Partitioner}
    (h : strip s = strip t) : strip (phasePure p up n s) = strip (phasePure p up n t) := by
  unfold phasePure
  rw [strip_netArray h]
  split
  · exact strip_congr_bumpPure _ _ _ test_all_ok h
  · split
    · exact strip_congr_bumpPure _ _ _ (test_side_ok p) h
    · exact h

theorem strip_commitNet (c : Nat) (fPart tPart : Bool) (n : Nat) (s : Partitioner) :
    strip (commitNet c fPart tPart n s) = commitNet c fPart tPart n (strip s) := by
  unfold commitNet strip setCell incPartCount decPartCount setNet
  simp only
  congr 1
  funext j
  by_cases hj : j = c <;> simp [hj]

theorem strip_congr_commitNet (c : Nat) (fPart tPart : Bool) (n : Nat) {s t : Partitioner}
    (h : strip s = strip t) :
    strip (commitNet c fPart tPart n s) = strip (commitNet c fPart tPart n t) := by
  rw [strip_commitNet, strip_commitNet, h]

theorem strip_congr_updateNetPure (c : Nat) (fPart tPart : Bool) (n : Nat)
    {s t : Partitioner} (h : strip s = strip t) :
    strip (updateNetPure c fPart tPart s n) = strip (updateNetPure c fPart tPart t n) := by
  unfold updateNetPure
  exact strip_congr_phasePure _ _ _
    (strip_congr_commitNet _ _ _ _ (strip_congr_phasePure _ _ _ h))

theorem strip_updateNet {c : Nat} {fPart tPart : Bool} {n : Nat} {s s1 : Partitioner}
    (h : updateNet c fPart tPart s n = some s1) :
    strip s1 = strip (updateNetPure c fPart tPart s n) := by
  rw [updateNet_eq] at h
  split at h
  · exact absurd h (by simp)
  · rename_i s2 h2
    rw [strip_phase h]
    unfold updateNetPure
    exact strip_congr_phasePure _ _ _ (strip_congr_commitNet _ _ _ _ (strip_phase h2))

theorem strip_congr_loop (P : Partitioner → Nat → Partitioner)
    (hP : ∀ (s t : Partitioner) (i : Nat), strip s = strip t → strip (P s i) = strip (P t i)) :
    ∀ (l : List Nat) (s t : Partitioner), strip s = strip t →
      strip (loop P l s) = strip (loop P l t) := by
  intro l
  induction l with
  | nil => intro s t h; exact h
  | cons i l ih => intro s t h; exact ih _ _ (hP s t i h)

theorem strip_loopM (f : Partitioner → Nat → Option Partitioner)
    (P : Partitioner → Nat → Partitioner)
    (hf : ∀ (s s1 : Partitioner) (i : Nat), f s i = some s1 → strip s1 = strip (P s i))
    (hP : ∀ (s t : Partitioner) (i : Nat), strip s = strip t → strip (P s i) = strip (P t i)) :
    ∀ (l : List Nat) (s s1 : Partitioner), loopM f l s = some s1 →
      strip s1 = strip (loop P l s) := by
  intro l
  induction l with
  | nil =>
    intro s s1 h
    simp only [loopM, Option.some.injEq] at h
    rw [h]
    rfl
  | cons i l ih =>
    intro s s1 h
    simp only [loopM] at h
    split at h
    · exact absurd h (by simp)
    · rename_i s2 h2
      rw [ih s2 s1 h]
      exact strip_congr_loop P hP l _ _ (hf s s2 i h2)

theorem strip_finishMove (fPart tPart : Bool) (s : Partitioner) :
    strip (finishMove fPart tPart s) = finishMove fPart tPart (strip s) := by
  unfold finishMove
  simp only
  split
  · rename_i h
    rw [if_pos (by exact h)]
    rfl
  · rename_i h
    rw [if_neg (by exact h)]
    rfl

theorem startMove_netList (s : Partitioner) (c x : Nat) :
    ((startMove s c).cellArray x).netList = (s.cellArray x).netList := by
  unfold startMove setCell
  by_cases h : x = c <;> simp [h]

theorem strip_updateGain {s s1 : Partitioner} {c : Nat}
    (h : updateGain s c = some s1) : strip s1 = strip (updateGainPure s c) := by
  unfold updateGain at h
  simp only at h
  split at h
  · exact absurd h (by simp)
  · rename_i s3 h3
    split at h
    · exact absurd h (by simp)
    · rename_i s4 h4
      simp only [Option.some.injEq] at h
      rw [startMove_netList] at h3
      have e3 := strip_loopM _ _ (fun a b i => @strip_updateNet c (s.cellArray c).part
        (!(s.cellArray c).part) i a b) (fun a b i => @strip_congr_updateNetPure c _ _ i a b)
        _ _ _ h3
      rw [← h, strip_finishMove, strip_removeCell h4, e3, ← strip_finishMove]
      rfl

/-! ## Loops -/

theorem loop_append {σ : Type} (f : σ → Nat → σ) (l1 l2 : List Nat) (s : σ) :
    loop f (l1 ++ l2) s = loop f l2 (loop f l1 s) := by
  induction l1 generalizing s with
  | nil => rfl
  | cons i l ih => exact ih (f s i)

theorem loop_invariant {σ : Type} (f : σ → Nat → σ) (Inv : List Nat → σ → Prop)
    (l : List Nat) (s : σ) (h0 : Inv [] s)
    (hstep : ∀ (d : List Nat) (i : Nat) (rest : List Nat) (st : σ),
      l = d ++ i :: rest → Inv d st → Inv (d ++ [i]) (f st i)) :
    Inv l (loop f l s) := by
  have key : ∀ (todo d : List Nat) (st : σ), l = d ++ todo → Inv d st →
      Inv l (loop f todo st) := by
    intro todo
    induction todo with
    | nil =>
      intro d st hl hd
      simp only [List.append_nil] at hl
      subst hl
      exact hd
    | cons i rest ih =>
      intro d st hl hd
      apply ih (d ++ [i]) (f st i)
      · simp [hl]
      · exact hstep d i rest st hl hd
  exact key l [] s rfl h0

theorem loopM_invariant {σ : Type} (f : σ → Nat → Option σ) (Inv : List Nat → σ → Prop)
    (l : List Nat) (s s1 : σ) (h0 : Inv [] s)
    (hstep : ∀ (d : List Nat) (i : Nat) (rest : List Nat) (st st1 : σ),
      l = d ++ i :: rest → Inv d st → f st i = some st1 → Inv (d ++ [i]) st1)
    (h : loopM f l s = some s1) : Inv l s1 := by
  have key : ∀ (todo d : List Nat) (st : σ), l = d ++ todo → Inv d st →
      loopM f todo st = some s1 → Inv l s1 := by
    intro todo
    induction todo with
    | nil =>
      intro d st hl hd hrun
      simp only [List.append_nil] at hl
      subst hl
      simp only [loopM, Option.some.injEq] at hrun
      subst hrun
      exact hd
    | cons i rest ih =>
      intro d st hl hd hrun
      simp only [loopM] at hrun
      split at hrun
      · exact absurd hrun (by simp)
      · rename_i st1 h1
        apply ih (d ++ [i]) st1 _ (hstep d i rest st st1 hl hd h1) hrun
        simp [hl]
  exact key l [] s rfl h0 h

/-! ## The data after one net of `updateGain` -/

theorem globals_of_strip {s t : Partitioner} (h : strip s = strip t) :
    globals s = globals t := by
  have e : globals (strip s) = globals (strip t) := by rw [h]
  exact e

theorem cell_of_strip {s t : Partitioner} (h : strip s = strip t) (x : Nat) :
    (s.cellArray x).gain = (t.cellArray x).gain ∧
    (s.cellArray x).part = (t.cellArray x).part ∧
    (s.cellArray x).lock = (t.cellArray x).lock ∧
    (s.cellArray x).netList = (t.cellArray x).netList ∧
    (s.cellArray x).pinNum = (t.cellArray x).pinNum := by
  have e := congrFun (congrArg Partitioner.cellArray h) x
  simp only [strip, Cell.mk.injEq] at e
  exact ⟨e.1, e.2.2.1, e.2.2.2.1, e.2.2.2.2.1, e.2.1⟩

theorem phasePure_netArray (p up : Bool) (n : Nat) (s : Partitioner) :
    (phasePure p up n s).netArray = s.netArray := by
  unfold phasePure
  split
  · rfl
  · split <;> rfl

theorem phasePure_globals (p up : Bool) (n : Nat) (s : Partitioner) :
    globals (phasePure p up n s) = globals s := by
  unfold phasePure
  split
  · rfl
  · split <;> rfl

theorem phasePure_cell (p up : Bool) (n : Nat) (s : Partitioner) (x : Nat) :
    ((phasePure p up n s).cellArray x).part = (s.cellArray x).part ∧
    ((phasePure p up n s).cellArray x).lock = (s.cellArray x).lock ∧
    ((phasePure p up n s).cellArray x).netList = (s.cellArray x).netList ∧
    ((phasePure p up n s).cellArray x).pinNum = (s.cellArray x).pinNum ∧
    ((phasePure p up n s).cellArray x).node = (s.cellArray x).node := by
  unfold phasePure
  split
  · exact ⟨rfl, rfl, rfl, rfl, rfl⟩
  · split
    · exact ⟨rfl, rfl, rfl, rfl, rfl⟩
    · exact ⟨rfl, rfl, rfl, rfl, rfl⟩

theorem phasePure_gain (p up : Bool) (n : Nat) (s : Partitioner) (x : Nat) :
    ((phasePure p up n s).cellArray x).gain =
      (s.cellArray x).gain +
        phaseDelta p up ((s.netArray n).partCount p) (s.cellArray x).lock
          (s.cellArray x).part ((s.netArray n).cellList.count x) := by
  unfold phasePure phaseDelta
  by_cases h0 : (s.netArray n).partCount p = 0
  · simp only [h0, if_true, bumpPure]
    by_cases hl : (s.cellArray x).lock = true <;> cases up <;> simp [hl]
  · simp only [h0, if_false]
    by_cases h1 : (s.netArray n).partCount p = 1
    · simp only [h1, if_true, bumpPure]
      by_cases hl : (s.cellArray x).lock = true <;> cases up <;>
        by_cases hp : (s.cellArray x).part = p <;> simp [hl, hp]
    · simp only [h1, if_false, add_zero]

theorem commitNet_globals (c : Nat) (f t : Bool) (n : Nat) (s : Partitioner) :
    globals (commitNet c f t n s) = globals s := rfl

theorem commitNet_cell (c : Nat) (f t : Bool) (n : Nat) (s : Partitioner) (x : Nat) :
    ((commitNet c f t n s).cellArray x).part = (if x = c then t else (s.cellArray x).part) ∧
    ((commitNet c f t n s).cellArray x).lock = (s.cellArray x).lock ∧
    ((commitNet c f t n s).cellArray x).netList = (s.cellArray x).netList ∧
    ((commitNet c f t n s).cellArray x).pinNum = (s.cellArray x).pinNum ∧
    ((commitNet c f t n s).cellArray x).gain = (s.cellArray x).gain ∧
    ((commitNet c f t n s).cellArray x).node = (s.cellArray x).node := by
  unfold commitNet setCell incPartCount decPartCount setNet
  by_cases h : x = c <;> simp [h]

theorem commitNet_net (c : Nat) (f : Bool) (n : Nat) (s : Partitioner) (m : Nat) :
    ((commitNet c f (!f) n s).netArray m).cellList = (s.netArray m).cellList ∧
    ((commitNet c f (!f) n s).netArray m).partCount f =
      (s.netArray m).partCount f - (if m = n then 1 else 0) ∧
    ((commitNet c f (!f) n s).netArray m).partCount (!f) =
      (s.netArray m).partCount (!f) + (if m = n then 1 else 0) := by
  unfold commitNet setCell incPartCount decPartCount setNet setAt
  by_cases h : m = n <;> cases f <;> simp [h]


/-! ## Counting lemmas -/

theorem countP_flip (σ : Nat → Bool) (c : Nat) (f p : Bool) (hc : σ c = f) (L : List Nat) :
    ((L.countP fun j => (if j = c then !f else σ j) == p : Nat) : Int) =
      (L.countP fun j => σ j == p : Nat) +
        (if p = f then -(L.count c : Int) else (L.count c : Int)) := by
  induction L with
  | nil => simp
  | cons j L ih =>
    simp only [List.countP_cons, List.count_cons, Nat.cast_add, ih]
    by_cases hj : j = c
    · subst hj
      cases f <;> cases p <;> simp [hc] <;> ring
    · have hj2 : ¬ (j == c) = true := by simpa using hj
      simp only [hj, if_false, hj2, Nat.cast_zero, add_zero]
      split <;> simp <;> ring

theorem countP_add_countP_not (σ : Nat → Bool) (L : List Nat) :
    (L.countP fun j => σ j == false) + (L.countP fun j => σ j == true) = L.length := by
  induction L with
  | nil => rfl
  | cons j L ih =>
    simp only [List.countP_cons, List.length_cons]
    cases h : σ j <;> simp at ih ⊢ <;> omega

theorem one_le_countP {P : Nat → Bool} {L : List Nat} {x : Nat} (hx : x ∈ L) (hp : P x = true) :
    1 ≤ L.countP P :=
  List.countP_pos_iff.mpr ⟨x, hx, hp⟩

theorem two_le_countP {P : Nat → Bool} {L : List Nat} {x c : Nat} (hx : x ∈ L) (hc : c ∈ L)
    (hne : x ≠ c) (hpx : P x = true) (hpc : P c = true) : 2 ≤ L.countP P := by
  induction L with
  | nil => simp at hx
  | cons j L ih =>
    simp only [List.countP_cons]
    rcases List.mem_cons.mp hx with rfl | hx1
    · rcases List.mem_cons.mp hc with h | hc1
      · exact absurd h.symm hne
      · have := one_le_countP hc1 hpc
        simp only [hpx, if_true]
        omega
    · rcases List.mem_cons.mp hc with rfl | hc1
      · have := one_le_countP hx1 hpx
        simp only [hpc, if_true]
        omega
      · have := ih hx1 hc1
        omega

theorem count_le_one_of_nodup {L : List Nat} (h : L.Nodup) (x : Nat) :
    (L.count x : Int) = 0 ∨ (L.count x : Int) = 1 := by
  have := List.nodup_iff_count_le_one.mp h x
  omega

/-! ## The gain recomputed from scratch as a sum over the nets -/

theorem scratchGain_eq (s : Partitioner) (c : Nat) :
    scratchGain s c =
      gainOver (fun n => (s.netArray n).partCount) (s.cellArray c).part
        (s.cellArray c).netList := by
  unfold scratchGain fromSide toEmpty gainOver contrib
  induction (s.cellArray c).netList with
  | nil => simp
  | cons n l ih =>
    simp only [List.countP_cons, List.map_cons, List.sum_cons, Nat.cast_add]
    rw [← ih]
    by_cases h1 : (s.netArray n).partCount (s.cellArray c).part = 1 <;>
      by_cases h2 : (s.netArray n).partCount (!(s.cellArray c).part) = 0 <;>
      simp [h1, h2] <;> ring

theorem gainOver_change (cnt cnt1 : Nat → Bool → Int) (n : Nat) (p : Bool)
    (h : ∀ m, m ≠ n → cnt1 m = cnt m) (l : List Nat) :
    gainOver cnt1 p l =
      gainOver cnt p l +
        (l.count n : Int) *
          (contrib (cnt1 n p) (cnt1 n (!p)) - contrib (cnt n p) (cnt n (!p))) := by
  unfold gainOver
  induction l with
  | nil => simp
  | cons m l ih =>
    simp only [List.map_cons, List.sum_cons, List.count_cons, ih]
    by_cases hm : m = n
    · subst hm
      simp
      ring
    · have hm2 : ¬ (m == n) = true := by simpa using hm
      simp only [hm2, if_false, h m hm]
      push_cast
      ring

theorem delta_eq (f pt : Bool) (F T m : Int) (hm : m = 0 ∨ m = 1)
    (h1 : m = 1 → pt = f → 2 ≤ F ∧ 0 ≤ T)
    (h2 : m = 1 → pt = (!f) → 1 ≤ T ∧ 1 ≤ F) :
    phaseDelta (!f) true T false pt m + phaseDelta f false (F - 1) false pt m =
      m * (contrib (if pt = f then F - 1 else T + 1) (if pt = f then T + 1 else F - 1) -
           contrib (if pt = f then F else T) (if pt = f then T else F)) := by
  rcases hm with hm | hm
  · subst hm
    unfold phaseDelta
    simp
  · subst hm
    by_cases hp : pt = f
    · obtain ⟨hF, hT⟩ := h1 rfl hp
      subst hp
      unfold phaseDelta contrib
      cases pt <;> simp <;> split_ifs <;> omega
    · have hp2 : pt = (!f) := by cases pt <;> cases f <;> simp_all
      obtain ⟨hT, hF⟩ := h2 rfl hp2
      subst hp2
      unfold phaseDelta contrib
      cases f <;> simp <;> split_ifs <;> omega

/-! ## The data flow of `updateGain` -/


theorem updateNetPure_globals (c : Nat) (f t : Bool) (s : Partitioner) (n : Nat) :
    globals (updateNetPure c f t s n) = globals s := by
  unfold updateNetPure
  rw [phasePure_globals, commitNet_globals, phasePure_globals]

theorem updateNetPure_cell (c : Nat) (f t : Bool) (s : Partitioner) (n x : Nat) :
    ((updateNetPure c f t s n).cellArray x).part = (if x = c then t else (s.cellArray x).part) ∧
    ((updateNetPure c f t s n).cellArray x).lock = (s.cellArray x).lock ∧
    ((updateNetPure c f t s n).cellArray x).netList = (s.cellArray x).netList ∧
    ((updateNetPure c f t s n).cellArray x).pinNum = (s.cellArray x).pinNum ∧
    ((updateNetPure c f t s n).cellArray x).node = (s.cellArray x).node := by
  unfold updateNetPure
  obtain ⟨a1, a2, a3, a4, a5⟩ := phasePure_cell f false n
    (commitNet c f t n (phasePure t true n s)) x
  obtain ⟨b1, b2, b3, b4, _, b6⟩ := commitNet_cell c f t n (phasePure t true n s) x
  obtain ⟨c1, c2, c3, c4, c5⟩ := phasePure_cell t true n s x
  refine ⟨?_, ?_, ?_, ?_, ?_⟩
  · rw [a1, b1, c1]
  · rw [a2, b2, c2]
  · rw [a3, b3, c3]
  · rw [a4, b4, c4]
  · rw [a5, b6, c5]

theorem updateNetPure_net (c : Nat) (f : Bool) (s : Partitioner) (n m : Nat) :
    ((updateNetPure c f (!f) s n).netArray m).cellList = (s.netArray m).cellList ∧
    ((updateNetPure c f (!f) s n).netArray m).partCount f =
      (s.netArray m).partCount f - (if m = n then 1 else 0) ∧
    ((updateNetPure c f (!f) s n).netArray m).partCount (!f) =
      (s.netArray m).partCount (!f) + (if m = n then 1 else 0) := by
  unfold updateNetPure
  rw [phasePure_netArray]
  obtain ⟨a1, a2, a3⟩ := commitNet_net c f n (phasePure (!f) true n s) m
  rw [phasePure_netArray] at a1 a2 a3
  exact ⟨a1, a2, a3⟩

theorem updateNetPure_gain (c : Nat) (f : Bool) (s : Partitioner) (n x : Nat) :
    ((updateNetPure c f (!f) s n).cellArray x).gain =
      (s.cellArray x).gain +
        phaseDelta (!f) true ((s.netArray n).partCount (!f)) (s.cellArray x).lock
          (s.cellArray x).part ((s.netArray n).cellList.count x) +
        phaseDelta f false ((s.netArray n).partCount f - 1) (s.cellArray x).lock
          (if x = c then !f else (s.cellArray x).part) ((s.netArray n).cellList.count x) := by
  unfold updateNetPure
  rw [phasePure_gain]
  obtain ⟨b1, b2, _, _, b5, _⟩ := commitNet_cell c f (!f) n (phasePure (!f) true n s) x
  obtain ⟨a1, a2, _⟩ := commitNet_net c f n (phasePure (!f) true n s) n
  obtain ⟨c1, c2, _⟩ := phasePure_cell (!f) true n s x
  rw [b1, b2, b5, a1, a2, phasePure_netArray, c1, c2, phasePure_gain]
  simp

theorem netsDone_start (s : Partitioner) (c : Nat) : NetsDone s c [] (startMove s c) := by
  refine ⟨rfl, fun _ => rfl, ?_, ?_, ?_, ?_, ?_, ?_, ?_⟩
  · intro x
    unfold startMove setCell
    by_cases h : x = c <;> simp [h]
  · intro x
    exact startMove_netList s c x
  · intro x
    unfold startMove setCell
    by_cases h : x = c <;> simp [h]
  · intro x hx
    unfold startMove setCell
    simp [hx]
  · unfold startMove setCell
    simp
  · intro m
    simp [startMove, setCell]
  · intro m
    simp [startMove, setCell]

theorem netsDone_step {s : Partitioner} {c : Nat} {d : List Nat} {st : Partitioner}
    (h : NetsDone s c d st) (n : Nat) :
    NetsDone s c (d ++ [n])
      (updateNetPure c (s.cellArray c).part (!(s.cellArray c).part) st n) := by
  obtain ⟨hg, hcl, hlk, hnl, hpn, hpt, hpc, hF, hT⟩ := h
  refine ⟨?_, ?_, ?_, ?_, ?_, ?_, ?_, ?_, ?_⟩
  · rw [updateNetPure_globals, hg]
  · intro m
    rw [(updateNetPure_net c _ st n m).1, hcl]
  · intro x
    rw [(updateNetPure_cell c _ _ st n x).2.1, hlk]
  · intro x
    rw [(updateNetPure_cell c _ _ st n x).2.2.1, hnl]
  · intro x
    rw [(updateNetPure_cell c _ _ st n x).2.2.2.1, hpn]
  · intro x hx
    rw [(updateNetPure_cell c _ _ st n x).1, if_neg hx, hpt x hx]
  · rw [(updateNetPure_cell c _ _ st n c).1]
    simp
  · intro m
    rw [(updateNetPure_net c _ st n m).2.1, hF, List.count_append]
    by_cases hm : m = n
    · subst hm; simp; ring
    · have : ¬ (n == m) = true := by simpa using fun e => hm e.symm
      simp [List.count_cons, hm, this]
  · intro m
    rw [(updateNetPure_net c _ st n m).2.2, hT, List.count_append]
    by_cases hm : m = n
    · subst hm; simp; ring
    · have : ¬ (n == m) = true := by simpa using fun e => hm e.symm
      simp [List.count_cons, hm, this]

theorem netsDone_loop (s : Partitioner) (c : Nat) (l : List Nat) :
    NetsDone s c l
      (loop (updateNetPure c (s.cellArray c).part (!(s.cellArray c).part)) l
        (startMove s c)) :=
  loop_invariant _ (NetsDone s c) l (startMove s c) (netsDone_start s c)
    (fun _ i _ _ _ hd => netsDone_step hd i)

/-! ## Count consistency -/


theorem countsAgree_iff (s : Partitioner) :
    CountsAgree s ↔ ∀ n, n < s.netNum → ∀ p, (s.netArray n).partCount p = sideCount s n p := by
  constructor
  · intro h n hn p
    cases p
    · exact (h n hn).1
    · exact (h n hn).2
  · intro h n hn
    exact ⟨h n hn false, h n hn true⟩

theorem countsAgree_of_strip {s t : Partitioner} (h : strip s = strip t)
    (ht : CountsAgree t) : CountsAgree s := by
  have e : CountsAgree (strip s) := by
    rw [h]
    exact ht
  exact e

theorem finishMove_arrays (f t : Bool) (s : Partitioner) :
    (finishMove f t s).netArray = s.netArray ∧
    (finishMove f t s).cellArray = s.cellArray ∧
    (finishMove f t s).netNum = s.netNum ∧
    (finishMove f t s).cellNum = s.cellNum ∧
    (finishMove f t s).bList = s.bList := by
  unfold finishMove
  simp only
  split <;> exact ⟨rfl, rfl, rfl, rfl, rfl⟩

theorem globals_netNum {s t : Partitioner} (h : globals s = globals t) :
    s.netNum = t.netNum ∧ s.cellNum = t.cellNum := by
  have e1 := congrArg Partitioner.netNum h
  have e2 := congrArg Partitioner.cellNum h
  exact ⟨e1, e2⟩

/-- The data of the state that `updateGain s c` returns, net by net and cell by
cell. -/
theorem updateGainPure_data (s : Partitioner) (c : Nat) :
    (updateGainPure s c).netNum = s.netNum ∧
    (updateGainPure s c).cellNum = s.cellNum ∧
    (∀ m, ((updateGainPure s c).netArray m).cellList = (s.netArray m).cellList) ∧
    (∀ x, ((updateGainPure s c).cellArray x).lock =
      (if x = c then true else (s.cellArray x).lock)) ∧
    (∀ x, ((updateGainPure s c).cellArray x).netList = (s.cellArray x).netList) ∧
    (∀ x, x ≠ c → ((updateGainPure s c).cellArray x).part = (s.cellArray x).part) ∧
    ((updateGainPure s c).cellArray c).part =
      (if (s.cellArray c).netList = [] then (s.cellArray c).part
       else !(s.cellArray c).part) ∧
    (∀ m, ((updateGainPure s c).netArray m).partCount (s.cellArray c).part =
      (s.netArray m).partCount (s.cellArray c).part - (s.cellArray c).netList.count m) ∧
    (∀ m, ((updateGainPure s c).netArray m).partCount (!(s.cellArray c).part) =
      (s.netArray m).partCount (!(s.cellArray c).part) + (s.cellArray c).netList.count m) := by
  obtain ⟨hg, hcl, hlk, hnl, _, hpt, hpc, hF, hT⟩ := netsDone_loop s c (s.cellArray c).netList
  obtain ⟨a1, a2, a3, a4, _⟩ := finishMove_arrays (s.cellArray c).part (!(s.cellArray c).part)
    (loop (updateNetPure c (s.cellArray c).part (!(s.cellArray c).part))
      (s.cellArray c).netList (startMove s c))
  obtain ⟨g1, g2⟩ := globals_netNum hg
  unfold updateGainPure
  simp only
  rw [a1, a2, a3, a4]
  exact ⟨g1, g2, hcl, hlk, hnl, hpt, hpc, hF, hT⟩

theorem sideCount_after_move (s s1 : Partitioner) (c n : Nat) (p : Bool)
    (hcl : (s1.netArray n).cellList = (s.netArray n).cellList)
    (hpt : ∀ x, x ≠ c → (s1.cellArray x).part = (s.cellArray x).part)
    (hpc : (s1.cellArray c).part = !(s.cellArray c).part) :
    sideCount s1 n p =
      sideCount s n p +
        (if p = (s.cellArray c).part then -((s.netArray n).cellList.count c : Int)
         else ((s.netArray n).cellList.count c : Int)) := by
  unfold sideCount
  rw [hcl, ← countP_flip (fun j => (s.cellArray j).part) c (s.cellArray c).part p rfl]
  congr 2
  funext j
  by_cases hj : j = c
  · subst hj
    simp [hpc]
  · simp [hj, hpt j hj]

theorem updateGainPure_countsAgree (s : Partitioner) (c : Nat)
    (hwf : WellFormed s) (hc : c < s.cellNum) (hcnt : CountsAgree s) :
    CountsAgree (updateGainPure s c) := by
  obtain ⟨h1, _, h3, _, _, h6, h7, h8, h9⟩ := updateGainPure_data s c
  rw [if_neg (hwf.1 c hc).1] at h7
  rw [countsAgree_iff] at hcnt ⊢
  intro n hn p
  rw [h1] at hn
  rw [sideCount_after_move s _ c n p (h3 n) h6 h7, ← hcnt n hn p, ← hwf.2.2 c hc n hn]
  by_cases hp : p = (s.cellArray c).part
  · subst hp
    rw [h8 n, if_pos rfl]
    ring
  · have hp2 : p = !(s.cellArray c).part := by
      cases p <;> cases h : (s.cellArray c).part <;> simp_all
    rw [if_neg hp, hp2, h9 n]

theorem sideCount_sum (s : Partitioner) (n : Nat) :
    sideCount s n false + sideCount s n true = ((s.netArray n).cellList.length : Int) := by
  unfold sideCount
  have := countP_add_countP_not (fun j => (s.cellArray j).part) (s.netArray n).cellList
  omega

/-! ## Gain correctness of `updateGain` -/


theorem gainsAgree_of_strip {s t : Partitioner} (h : strip s = strip t)
    (ht : GainsAgree t) : GainsAgree s := by
  have e : GainsAgree (strip s) := by
    rw [h]
    exact ht
  exact e

theorem netList_nodup {s : Partitioner} (hwf : WellFormed s) (hnr : NoRepeat s)
    {c : Nat} (hc : c < s.cellNum) : (s.cellArray c).netList.Nodup := by
  rw [List.nodup_iff_count_le_one]
  intro n
  by_cases hn : n ∈ (s.cellArray c).netList
  · have hn2 := (hwf.1 c hc).2 n hn
    rw [hwf.2.2 c hc n hn2]
    exact List.nodup_iff_count_le_one.mp (hnr n hn2) c
  · rw [List.count_eq_zero_of_not_mem hn]
    exact Nat.zero_le 1

/-- One net of `updateGain`: the gains of the unlocked cells follow the counts. -/
theorem updateNetPure_gain_ok {s st : Partitioner} {c n x : Nat} {d : List Nat}
    (hwf : WellFormed s) (hnr : NoRepeat s) (hcnt : CountsAgree s)
    (hc : c < s.cellNum) (hd : NetsDone s c d st)
    (hn : n ∈ (s.cellArray c).netList) (hnd : n ∉ d)
    (hx : x < s.cellNum) (hxc : x ≠ c)
    (hg : (st.cellArray x).gain = scratchGain st x) (hlk : (s.cellArray x).lock = false) :
    ((updateNetPure c (s.cellArray c).part (!(s.cellArray c).part) st n).cellArray x).gain =
      scratchGain (updateNetPure c (s.cellArray c).part (!(s.cellArray c).part) st n) x := by
  have hn2 : n < s.netNum := (hwf.1 c hc).2 n hn
  have hcount0 : d.count n = 0 := List.count_eq_zero_of_not_mem hnd
  have hcntS := (countsAgree_iff s).mp hcnt n hn2
  -- the counts of `n` are still the ones of `s`
  have hF : (st.netArray n).partCount (s.cellArray c).part =
      sideCount s n (s.cellArray c).part := by
    rw [hd.cntF n, hcount0, hcntS]; simp
  have hT : (st.netArray n).partCount (!(s.cellArray c).part) =
      sideCount s n (!(s.cellArray c).part) := by
    rw [hd.cntT n, hcount0, hcntS]; simp
  have hcL : c ∈ (s.netArray n).cellList := by
    have : 0 < (s.netArray n).cellList.count c := by
      rw [← hwf.2.2 c hc n hn2]
      exact List.count_pos_iff.mpr hn
    exact List.count_pos_iff.mp this
  have hm := count_le_one_of_nodup (hnr n hn2) x
  have hlx : (st.cellArray x).lock = false := by rw [hd.lock x, if_neg hxc, hlk]
  have hpx : (st.cellArray x).part = (s.cellArray x).part := hd.part x hxc
  rw [updateNetPure_gain, hg, scratchGain_eq, scratchGain_eq]
  obtain ⟨e1, _, e3, _, _⟩ := updateNetPure_cell c (s.cellArray c).part
    (!(s.cellArray c).part) st n x
  rw [e1, e3, if_neg hxc]
  rw [gainOver_change (fun m => (st.netArray m).partCount)
    (fun m => ((updateNetPure c (s.cellArray c).part (!(s.cellArray c).part) st n).netArray
      m).partCount) n]
  swap
  · intro m hm
    funext p
    obtain ⟨_, a2, a3⟩ := updateNetPure_net c (s.cellArray c).part st n m
    simp only [if_neg hm, sub_zero, add_zero] at a2 a3
    by_cases hp : p = (s.cellArray c).part
    · rw [hp, a2]
    · have hp2 : p = !(s.cellArray c).part := by
        cases p <;> cases h : (s.cellArray c).part <;> simp_all
      rw [hp2, a3]
  rw [hd.netList x, hwf.2.2 x hx n hn2, hd.cellList n, hlx]
  have key := delta_eq (s.cellArray c).part (st.cellArray x).part
    ((st.netArray n).partCount (s.cellArray c).part)
    ((st.netArray n).partCount (!(s.cellArray c).part))
    ((s.netArray n).cellList.count x) hm
    (by
      intro h1 hp
      have hxL : x ∈ (s.netArray n).cellList := by
        apply List.count_pos_iff.mp
        have : ((s.netArray n).cellList.count x : Int) = 1 := h1
        omega
      rw [hF, hT]
      unfold sideCount
      have h2 := two_le_countP (P := fun j => (s.cellArray j).part == (s.cellArray c).part)
        hxL hcL hxc (by simp [← hpx, hp]) (by simp)
      omega)
    (by
      intro h1 hp
      have hxL : x ∈ (s.netArray n).cellList := by
        apply List.count_pos_iff.mp
        have : ((s.netArray n).cellList.count x : Int) = 1 := h1
        omega
      rw [hF, hT]
      unfold sideCount
      have h2 := one_le_countP (P := fun j => (s.cellArray j).part == (!(s.cellArray c).part))
        hxL (by simp [← hpx, hp])
      have h3 := one_le_countP (P := fun j => (s.cellArray j).part == (s.cellArray c).part)
        hcL (by simp)
      omega)
  obtain ⟨_, a2, a3⟩ := updateNetPure_net c (s.cellArray c).part st n n
  simp only [if_true] at a2 a3
  rw [add_assoc, key]
  congr 2
  by_cases hp : (st.cellArray x).part = (s.cellArray c).part
  · simp only [hp, if_true, a2, a3]
  · have hp2 : (st.cellArray x).part = !(s.cellArray c).part := by
      cases h : (st.cellArray x).part <;> cases h2 : (s.cellArray c).part <;> simp_all
    simp only [hp, if_false]
    rw [hp2]
    simp only [Bool.not_not, a2, a3]

theorem scratchGain_congr {s t : Partitioner} {x : Nat}
    (h1 : (t.cellArray x).part = (s.cellArray x).part)
    (h2 : (t.cellArray x).netList = (s.cellArray x).netList)
    (h3 : ∀ n, (t.netArray n).partCount = (s.netArray n).partCount) :
    scratchGain t x = scratchGain s x := by
  unfold scratchGain fromSide toEmpty
  simp only [h1, h2, h3]

theorem updateGainPure_gainsAgree (s : Partitioner) (c : Nat)
    (hwf : WellFormed s) (hnr : NoRepeat s) (hcnt : CountsAgree s) (hg : GainsAgree s)
    (hc : c < s.cellNum) : GainsAgree (updateGainPure s c) := by
  have hnd := netList_nodup hwf hnr hc
  have key := loop_invariant
    (updateNetPure c (s.cellArray c).part (!(s.cellArray c).part))
    (fun d st => NetsDone s c d st ∧
      ∀ x, x < s.cellNum → x ≠ c → (s.cellArray x).lock = false →
        (st.cellArray x).gain = scratchGain st x)
    (s.cellArray c).netList (startMove s c)
    (by
      refine ⟨netsDone_start s c, ?_⟩
      intro x hx hxc hlk
      have h0 := netsDone_start s c
      rw [scratchGain_congr (h0.part x hxc) (h0.netList x) (fun n => rfl), ← hg x hx hlk]
      simp [startMove, setCell, hxc])
    (by
      intro d i rest st hl hinv
      obtain ⟨hd, hgs⟩ := hinv
      refine ⟨netsDone_step hd i, ?_⟩
      intro x hx hxc hlk
      have hi : i ∈ (s.cellArray c).netList := by rw [hl]; simp
      have hid : i ∉ d := by
        intro hmem
        rw [hl] at hnd
        have := List.nodup_append.mp hnd
        exact this.2.2 hmem (List.mem_cons_self i rest) 
      exact updateNetPure_gain_ok hwf hnr hcnt hc hd hi hid hx hxc (hgs x hx hxc hlk) hlk)
  obtain ⟨hd, hgs⟩ := key
  obtain ⟨a1, a2, _, a4, _⟩ := finishMove_arrays (s.cellArray c).part (!(s.cellArray c).part)
    (loop (updateNetPure c (s.cellArray c).part (!(s.cellArray c).part))
      (s.cellArray c).netList (startMove s c))
  have hN := (globals_netNum hd.glob).2
  intro x hx hlk
  unfold updateGainPure at hx hlk ⊢
  simp only at hx hlk ⊢
  rw [a4, hN] at hx
  rw [a2, hd.lock x] at hlk
  have hxc : x ≠ c := by
    intro e
    rw [if_pos e] at hlk
    exact absurd hlk (by simp)
  rw [if_neg hxc] at hlk
  rw [a2, hgs x hx hxc hlk]
  exact (scratchGain_congr (congrArg (fun a => (a x).part) a2)
    (congrArg (fun a => (a x).netList) a2) (fun n => congrArg (fun a => (a n).partCount) a1)).symm

/-! ## `initGain` in closed form -/


theorem addGainAt_zero (s : Partitioner) (i : Nat) : addGainAt s i 0 = s := by
  unfold addGainAt setCell
  congr 1
  funext j
  by_cases h : j = i <;> simp [h]

theorem addGainAt_add (s : Partitioner) (i : Nat) (a b : Int) :
    addGainAt (addGainAt s i a) i b = addGainAt s i (a + b) := by
  unfold addGainAt setCell
  congr 1
  funext j
  by_cases h : j = i <;> simp [h, add_assoc]

theorem initGain_body (i : Nat) (part : Bool) (st : Partitioner) (n : Nat) :
    (let st3 := if (st.netArray n).partCount part = 1 then incGain st i else st
     if (st3.netArray n).partCount (!part) = 0 then decGain st3 i else st3) =
      addGainAt st i
        (contrib ((st.netArray n).partCount part) ((st.netArray n).partCount (!part))) := by
  simp only
  unfold contrib
  by_cases h1 : (st.netArray n).partCount part = 1
  · simp only [h1, if_true]
    by_cases h2 : (st.netArray n).partCount (!part) = 0
    · have : ((incGain st i).netArray n).partCount (!part) = 0 := h2
      simp only [this, h2, if_true, sub_self]
      rw [addGainAt_zero]
      unfold decGain incGain setCell
      congr 1
      funext j
      by_cases h : j = i <;> simp [h]
    · have : ¬ ((incGain st i).netArray n).partCount (!part) = 0 := h2
      simp only [this, h2, if_false, sub_zero]
      rfl
  · simp only [h1, if_false]
    by_cases h2 : (st.netArray n).partCount (!part) = 0
    · simp only [h2, if_true, zero_sub]
      rfl
    · simp only [h2, if_false, sub_zero]
      rw [addGainAt_zero]

theorem initGain_inner (i : Nat) (part : Bool) (l : List Nat) (st : Partitioner) :
    loop (fun st2 n =>
        let st3 := if (st2.netArray n).partCount part = 1 then incGain st2 i else st2
        if (st3.netArray n).partCount (!part) = 0 then decGain st3 i else st3) l st =
      addGainAt st i (gainOver (fun n => (st.netArray n).partCount) part l) := by
  induction l generalizing st with
  | nil =>
    simp only [loop, gainOver, List.map_nil, List.sum_nil]
    rw [addGainAt_zero]
  | cons n l ih =>
    simp only [loop]
    rw [initGain_body i part st n, ih, addGainAt_add]
    rfl

theorem initGain_outer (l : List Nat) (st : Partitioner) :
    loop (fun st i =>
        let part := (st.cellArray i).part
        loop (fun st2 n =>
            let st3 := if (st2.netArray n).partCount part = 1 then incGain st2 i else st2
            if (st3.netArray n).partCount (!part) = 0 then decGain st3 i else st3)
          (st.cellArray i).netList st) l st =
      { st with cellArray := fun x =>
          { st.cellArray x with
            gain := (st.cellArray x).gain + (l.count x : Int) * scratchGain st x } } := by
  induction l generalizing st with
  | nil =>
    simp only [loop, List.count_nil, Nat.cast_zero, zero_mul, add_zero]
  | cons i l ih =>
    simp only [loop]
    rw [initGain_inner, ← scratchGain_eq, ih]
    unfold addGainAt setCell
    simp only
    congr 1
    funext x
    have hsg : scratchGain
        { st with cellArray := fun j =>
            if j = i then
              { st.cellArray i with gain := (st.cellArray i).gain + scratchGain st i }
            else st.cellArray j } x = scratchGain st x := by
      apply scratchGain_congr
      · by_cases h : x = i <;> simp [h]
      · by_cases h : x = i <;> simp [h]
      · intro n; rfl
    rw [hsg]
    by_cases h : x = i
    · subst h
      simp only [if_true, List.count_cons_self]
      congr 1
      push_cast
      ring
    · have h2 : ¬ (i == x) = true := by simpa using fun e => h e.symm
      simp [h, List.count_cons, h2]

theorem count_range (n x : Nat) : (List.range n).count x = if x < n then 1 else 0 := by
  by_cases h : x < n
  · rw [if_pos h]
    exact List.count_eq_one_of_mem (List.nodup_range n) (List.mem_range.mpr h)
  · rw [if_neg h]
    exact List.count_eq_zero_of_not_mem (fun hm => h (List.mem_range.mp hm))

/-- The function `initGain` in closed form: every cell below `_cellNum` gets
FS - TE added to its gain. -/
theorem initGain_eq (s : Partitioner) :
    initGain s =
      { s with
        unlockNum := setAt (setAt s.unlockNum false (s.partSize false)) true (s.partSize true),
        cellArray := fun x =>
          { s.cellArray x with
            gain := (s.cellArray x).gain + (if x < s.cellNum then scratchGain s x else 0) } } := by
  unfold initGain
  simp only
  rw [initGain_outer]
  simp only
  congr 1
  funext x
  rw [count_range]
  have e : ∀ u : Bool → Int, scratchGain { s with unlockNum := u } x = scratchGain s x :=
    fun _ => rfl
  rw [e]
  by_cases h : x < s.cellNum <;> simp [h]

/-! ## The start of a pass -/


theorem resetLoop_list (l : List Nat) (s : Partitioner) :
    loop (fun st i => setCell st i fun x => { x with lock := false, gain := 0 }) l s =
      { s with cellArray := fun x =>
          if x ∈ l then { s.cellArray x with lock := false, gain := 0 } else s.cellArray x } := by
  induction l generalizing s with
  | nil => simp [loop]
  | cons i l ih =>
    simp only [loop]
    rw [ih]
    unfold setCell
    simp only
    congr 1
    funext x
    by_cases h1 : x = i
    · subst h1
      by_cases h2 : x ∈ l <;> simp [h2]
    · by_cases h2 : x ∈ l <;> simp [h1, h2]

theorem countMaxPinNum_loop (l : List Nat) (s : Partitioner) :
    loop (fun (st : Partitioner) i =>
        if (st.cellArray i).pinNum > st.maxPinNum then
          { st with maxPinNum := (st.cellArray i).pinNum }
        else st) l s =
      { s with maxPinNum := (loop (fun (st : Partitioner) i =>
        if (st.cellArray i).pinNum > st.maxPinNum then
          { st with maxPinNum := (st.cellArray i).pinNum }
        else st) l s).maxPinNum } := by
  induction l generalizing s with
  | nil => rfl
  | cons i l ih =>
    simp only [loop]
    by_cases h : (s.cellArray i).pinNum > s.maxPinNum
    · simp only [h, if_true]
      rw [ih]
    · simp only [h, if_false]
      exact ih s

theorem countMaxPinNum_eq (s : Partitioner) :
    countMaxPinNum s = { s with maxPinNum := (countMaxPinNum s).maxPinNum } := by
  unfold countMaxPinNum
  rw [countMaxPinNum_loop]

theorem strip_insertLoop (l : List Nat) (s s1 : Partitioner)
    (h : loopM insertCell l s = some s1) : strip s1 = strip s :=
  loopM_invariant insertCell (fun _ st => strip st = strip s) l s s1 rfl
    (fun _ _ _ _ _ _ hinv hrun => (strip_insertCell hrun).trans hinv) h

theorem strip_buildBList {s s1 : Partitioner} (h : buildBList s = some s1) :
    strip s1 = strip { s with maxPinNum := s1.maxPinNum } := by
  unfold buildBList at h
  simp only at h
  have key := strip_insertLoop _ _ _ h
  have e : ∀ (t : Partitioner) (b : Bool → Int → Option Node),
      strip { t with bList := b } = strip t := fun _ _ => rfl
  rw [e, countMaxPinNum_eq, e] at key
  have hP : s1.maxPinNum = (countMaxPinNum { s with bList := fun _ _ => none }).maxPinNum := by
    have := congrArg Partitioner.maxPinNum key
    exact this
  rw [key, hP]
  rfl

theorem resetLoop_eq (s : Partitioner) :
    loop (fun st i => setCell st i fun x => { x with lock := false, gain := 0 })
      (List.range s.cellNum) s = resetCells s := by
  rw [resetLoop_list]
  unfold resetCells
  congr 1
  funext x
  by_cases h : x < s.cellNum <;> simp [h]

theorem initGain_fields (s : Partitioner) :
    (initGain s).netArray = s.netArray ∧
    (initGain s).cellNum = s.cellNum ∧
    (initGain s).netNum = s.netNum ∧
    (initGain s).partSize = s.partSize ∧
    (initGain s).unlockNum =
      setAt (setAt s.unlockNum false (s.partSize false)) true (s.partSize true) ∧
    (initGain s).accGain = s.accGain ∧
    (initGain s).maxAccGain = s.maxAccGain ∧
    (initGain s).moveNum = s.moveNum ∧
    (initGain s).bestMoveNum = s.bestMoveNum ∧
    (initGain s).moveStack = s.moveStack ∧
    (initGain s).bNum = s.bNum ∧
    (initGain s).bDen = s.bDen ∧
    (initGain s).iterNum = s.iterNum ∧
    (initGain s).cutSize = s.cutSize := by
  rw [initGain_eq]
  exact ⟨rfl, rfl, rfl, rfl, rfl, rfl, rfl, rfl, rfl, rfl, rfl, rfl, rfl, rfl⟩

theorem initGain_cell (s : Partitioner) (x : Nat) :
    ((initGain s).cellArray x).part = (s.cellArray x).part ∧
    ((initGain s).cellArray x).lock = (s.cellArray x).lock ∧
    ((initGain s).cellArray x).netList = (s.cellArray x).netList ∧
    ((initGain s).cellArray x).pinNum = (s.cellArray x).pinNum ∧
    ((initGain s).cellArray x).gain =
      (s.cellArray x).gain + (if x < s.cellNum then scratchGain s x else 0) := by
  rw [initGain_eq]
  exact ⟨rfl, rfl, rfl, rfl, rfl⟩

theorem resetCells_cell (s : Partitioner) (x : Nat) :
    ((resetCells s).cellArray x).part = (s.cellArray x).part ∧
    ((resetCells s).cellArray x).netList = (s.cellArray x).netList ∧
    ((resetCells s).cellArray x).pinNum = (s.cellArray x).pinNum ∧
    (x < s.cellNum → ((resetCells s).cellArray x).lock = false ∧
      ((resetCells s).cellArray x).gain = 0) := by
  unfold resetCells
  by_cases h : x < s.cellNum <;> simp [h]

/-- The data at the start of a pass. -/
theorem initPass_data {s s1 : Partitioner} (h : initPass s = some s1) :
    s1.netArray = s.netArray ∧ s1.cellNum = s.cellNum ∧ s1.netNum = s.netNum ∧
    s1.partSize = s.partSize ∧
    s1.unlockNum = setAt (setAt s.unlockNum false (s.partSize false)) true (s.partSize true) ∧
    s1.accGain = 0 ∧ s1.maxAccGain = 0 ∧ s1.moveNum = 0 ∧ s1.bestMoveNum = 0 ∧
    s1.moveStack = [] ∧ s1.bNum = s.bNum ∧ s1.bDen = s.bDen ∧ s1.iterNum = s.iterNum ∧
    (∀ x, (s1.cellArray x).part = (s.cellArray x).part ∧
      (s1.cellArray x).netList = (s.cellArray x).netList ∧
      (s1.cellArray x).pinNum = (s.cellArray x).pinNum) ∧
    (∀ x, x < s.cellNum → (s1.cellArray x).lock = false ∧
      (s1.cellArray x).gain = scratchGain s1 x) := by
  unfold initPass at h
  simp only at h
  rw [resetLoop_eq] at h
  split at h
  · exact absurd h (by simp)
  · rename_i s2 h2
    simp only [Option.some.injEq] at h
    have e2 := strip_buildBList h2
    have g2 := globals_of_strip e2
    obtain ⟨f1, f2, f3, f4, f5, _, _, _, _, _, f11, f12, f13, _⟩ := initGain_fields (resetCells s)
    have hnet : s1.netArray = s.netArray := by
      rw [← h]
      exact (strip_netArray e2).trans f1
    have hcell : ∀ x, (s1.cellArray x).gain =
          ((initGain (resetCells s)).cellArray x).gain ∧
        (s1.cellArray x).part = (s.cellArray x).part ∧
        (s1.cellArray x).lock = ((resetCells s).cellArray x).lock ∧
        (s1.cellArray x).netList = (s.cellArray x).netList ∧
        (s1.cellArray x).pinNum = (s.cellArray x).pinNum := by
      intro x
      obtain ⟨a1, a2, a3, a4, a5⟩ := cell_of_strip e2 x
      obtain ⟨b1, b2, b3, b4, _⟩ := initGain_cell (resetCells s) x
      obtain ⟨c1, c2, c3, _⟩ := resetCells_cell s x
      rw [← h]
      exact ⟨a1, a2.trans (b1.trans c1), a3.trans b2, a4.trans (b3.trans c2),
        a5.trans (b4.trans c3)⟩
    refine ⟨hnet, ?_, ?_, ?_, ?_, ?_, ?_, ?_, ?_, ?_, ?_, ?_, ?_, ?_, ?_⟩
    · rw [← h]; exact (congrArg Partitioner.cellNum g2).trans f2
    · rw [← h]; exact (congrArg Partitioner.netNum g2).trans f3
    · rw [← h]; exact (congrArg Partitioner.partSize g2).trans f4
    · rw [← h]; exact (congrArg Partitioner.unlockNum g2).trans f5
    · rw [← h]
    · rw [← h]
    · rw [← h]
    · rw [← h]
    · rw [← h]
    · rw [← h]; exact (congrArg Partitioner.bNum g2).trans f11
    · rw [← h]; exact (congrArg Partitioner.bDen g2).trans f12
    · rw [← h]; exact (congrArg Partitioner.iterNum g2).trans f13
    · intro x
      exact ⟨(hcell x).2.1, (hcell x).2.2.2.1, (hcell x).2.2.2.2⟩
    · intro x hx
      obtain ⟨a1, a2, a3, a4, _⟩ := hcell x
      obtain ⟨c1, c2, _, c4⟩ := resetCells_cell s x
      obtain ⟨_, _, _, _, b5⟩ := initGain_cell (resetCells s) x
      refine ⟨a3.trans (c4 hx).1, ?_⟩
      rw [a1, b5, (c4 hx).2, zero_add]
      have hx2 : x < (resetCells s).cellNum := hx
      rw [if_pos hx2]
      apply scratchGain_congr
      · rw [a2, c1]
      · rw [a4, c2]
      · intro n; rw [hnet]; rfl

/-! ## What a pass keeps from move to move -/


/-- The data of the state that `updateGain s c` returns. -/
theorem updateGain_data {s s1 : Partitioner} {c : Nat} (h : updateGain s c = some s1) :
    s1.netNum = s.netNum ∧
    s1.cellNum = s.cellNum ∧
    (∀ m, (s1.netArray m).cellList = (s.netArray m).cellList) ∧
    (∀ x, (s1.cellArray x).lock = (if x = c then true else (s.cellArray x).lock)) ∧
    (∀ x, (s1.cellArray x).netList = (s.cellArray x).netList) ∧
    (∀ x, x ≠ c → (s1.cellArray x).part = (s.cellArray x).part) ∧
    (s1.cellArray c).part =
      (if (s.cellArray c).netList = [] then (s.cellArray c).part
       else !(s.cellArray c).part) ∧
    (∀ m, (s1.netArray m).partCount (s.cellArray c).part =
      (s.netArray m).partCount (s.cellArray c).part - (s.cellArray c).netList.count m) ∧
    (∀ m, (s1.netArray m).partCount (!(s.cellArray c).part) =
      (s.netArray m).partCount (!(s.cellArray c).part) + (s.cellArray c).netList.count m) := by
  have hs := strip_updateGain h
  have hn := strip_netArray hs
  obtain ⟨g1, g2⟩ := globals_netNum (globals_of_strip hs)
  obtain ⟨h1, h2, h3, h4, h5, h6, h7, h8, h9⟩ := updateGainPure_data s c
  refine ⟨g1.trans h1, g2.trans h2, ?_, ?_, ?_, ?_, ?_, ?_, ?_⟩
  · intro m; rw [hn]; exact h3 m
  · intro x; rw [(cell_of_strip hs x).2.2.1]; exact h4 x
  · intro x; rw [(cell_of_strip hs x).2.2.2.1]; exact h5 x
  · intro x hx; rw [(cell_of_strip hs x).2.1]; exact h6 x hx
  · rw [(cell_of_strip hs c).2.1]; exact h7
  · intro m; rw [hn]; exact h8 m
  · intro m; rw [hn]; exact h9 m

theorem wellFormed_congr {s t : Partitioner} (h1 : t.cellNum = s.cellNum)
    (h2 : t.netNum = s.netNum)
    (h3 : ∀ x, (t.cellArray x).netList = (s.cellArray x).netList)
    (h4 : ∀ n, (t.netArray n).cellList = (s.netArray n).cellList)
    (hs : WellFormed s) : WellFormed t := by
  unfold WellFormed at hs ⊢
  simp only [h1, h2, h3, h4]
  exact hs

theorem noRepeat_congr {s t : Partitioner} (h2 : t.netNum = s.netNum)
    (h4 : ∀ n, (t.netArray n).cellList = (s.netArray n).cellList)
    (hs : NoRepeat s) : NoRepeat t := by
  unfold NoRepeat at hs ⊢
  simp only [h2, h4]
  exact hs

theorem countsAgree_congr {s t : Partitioner} (h2 : t.netNum = s.netNum)
    (h3 : t.netArray = s.netArray)
    (h4 : ∀ x, (t.cellArray x).part = (s.cellArray x).part)
    (hs : CountsAgree s) : CountsAgree t := by
  unfold CountsAgree sideCount at hs ⊢
  simp only [h2, h3, h4]
  exact hs

theorem gainsAgree_congr {s t : Partitioner} (h1 : t.cellNum = s.cellNum)
    (h3 : t.netArray = s.netArray) (h4 : t.cellArray = s.cellArray)
    (hs : GainsAgree s) : GainsAgree t := by
  unfold GainsAgree scratchGain fromSide toEmpty at hs ⊢
  simp only [h1, h3, h4]
  exact hs

/-- The four facts that a pass keeps from move to move. -/
theorem updateGain_keeps {s s1 : Partitioner} {c : Nat}
    (hwf : WellFormed s) (hnr : NoRepeat s) (hcnt : CountsAgree s) (hg : GainsAgree s)
    (hc : c < s.cellNum) (h : updateGain s c = some s1) :
    WellFormed s1 ∧ NoRepeat s1 ∧ CountsAgree s1 ∧ GainsAgree s1 := by
  obtain ⟨h1, h2, h3, _, h5, _⟩ := updateGain_data h
  have hs := strip_updateGain h
  exact ⟨wellFormed_congr h2 h1 h5 h3 hwf, noRepeat_congr h1 h3 hnr,
    countsAgree_of_strip hs (updateGainPure_countsAgree s c hwf hc hcnt),
    gainsAgree_of_strip hs (updateGainPure_gainsAgree s c hwf hnr hcnt hg hc)⟩

theorem moveCells_keeps (cs : List Nat) (s s1 : Partitioner)
    (hwf : WellFormed s) (hnr : NoRepeat s) (hcnt : CountsAgree s) (hg : GainsAgree s)
    (hcs : ∀ c ∈ cs, c < s.cellNum) (h : moveCells cs s = some s1) :
    WellFormed s1 ∧ NoRepeat s1 ∧ CountsAgree s1 ∧ GainsAgree s1 ∧ s1.cellNum = s.cellNum := by
  have key := loopM_invariant
    (fun st c =>
      match updateGain st c with
      | none => none
      | some t => some (nextMove t))
    (fun _ st => WellFormed st ∧ NoRepeat st ∧ CountsAgree st ∧ GainsAgree st ∧
      st.cellNum = s.cellNum)
    cs s s1 ⟨hwf, hnr, hcnt, hg, rfl⟩
    (by
      intro d i rest st st1 hl hinv hrun
      obtain ⟨a1, a2, a3, a4, a5⟩ := hinv
      simp only at hrun
      split at hrun
      · exact absurd hrun (by simp)
      · rename_i t ht
        simp only [Option.some.injEq] at hrun
        have hi : i < st.cellNum := by
          rw [a5]
          apply hcs
          rw [hl]
          simp
        obtain ⟨b1, b2, b3, b4⟩ := updateGain_keeps a1 a2 a3 a4 hi ht
        rw [← hrun]
        exact ⟨b1, b2, b3, b4, (updateGain_data ht).2.1.trans a5⟩)
    h
  exact key

theorem initPass_keeps {s s1 : Partitioner} (hwf : WellFormed s) (hnr : NoRepeat s)
    (hcnt : CountsAgree s) (h : initPass s = some s1) :
    WellFormed s1 ∧ NoRepeat s1 ∧ CountsAgree s1 ∧ GainsAgree s1 ∧ s1.cellNum = s.cellNum := by
  obtain ⟨h1, h2, h3, _, _, _, _, _, _, _, _, _, _, h14, h15⟩ := initPass_data h
  refine ⟨wellFormed_congr h2 h3 (fun x => (h14 x).2.1) (fun n => by rw [h1]) hwf,
    noRepeat_congr h3 (fun n => by rw [h1]) hnr,
    countsAgree_congr h3 h1 (fun x => (h14 x).1) hcnt, ?_, h2⟩
  intro x hx _
  rw [h2] at hx
  exact (h15 x hx).2

/-! ## The cut size -/


theorem countCutSize_loop (l : List Nat) (s : Partitioner) :
    loop (fun st i =>
        if (st.netArray i).partCount false ≠ 0 ∧ (st.netArray i).partCount true ≠ 0 then
          { st with cutSize := st.cutSize + 1 }
        else st) l s =
      { s with cutSize := s.cutSize +
          (l.countP (isCutCount fun n => (s.netArray n).partCount) : Nat) } := by
  induction l generalizing s with
  | nil => simp [loop]
  | cons i l ih =>
    simp only [loop]
    by_cases h : (s.netArray i).partCount false ≠ 0 ∧ (s.netArray i).partCount true ≠ 0
    · have h2 : isCutCount (fun n => (s.netArray n).partCount) i = true := by
        simp only [isCutCount, decide_eq_true_eq]; exact h
      rw [if_pos h, ih, List.countP_cons, if_pos h2]
      simp only [Nat.cast_add, Nat.cast_one]
      congr 1
      ring
    · have h2 : ¬ isCutCount (fun n => (s.netArray n).partCount) i = true := by
        simp only [isCutCount, decide_eq_true_eq]; exact h
      rw [if_neg h, ih, List.countP_cons, if_neg h2]
      simp

/-- The function `countCutSize` in closed form. -/
theorem countCutSize_eq (s : Partitioner) :
    countCutSize s =
      { s with cutSize :=
          ((List.range s.netNum).countP (isCutCount fun n => (s.netArray n).partCount) : Nat) } := by
  unfold countCutSize
  rw [countCutSize_loop]
  simp

theorem countP_int_eq_sum (p : Nat → Bool) (L : List Nat) :
    ((L.countP p : Nat) : Int) = (L.map fun n => if p n then (1 : Int) else 0).sum := by
  induction L with
  | nil => simp
  | cons n L ih =>
    simp only [List.countP_cons, List.map_cons, List.sum_cons, Nat.cast_add, ih]
    by_cases h : p n = true
    · simp [h]
      ring
    · simp [h]

theorem sum_ite_range (N m : Nat) (g : Nat → Int) :
    ((List.range N).map fun n => if m = n then g n else 0).sum = if m < N then g m else 0 := by
  induction N with
  | zero => simp
  | succ N ih =>
    rw [List.range_succ, List.map_append, List.sum_append, ih]
    by_cases h1 : m < N
    · have : m ≠ N := by omega
      have h2 : m < N + 1 := by omega
      simp [h1, h2, this]
    · by_cases h3 : m = N
      · subst h3
        simp
      · have h2 : ¬ m < N + 1 := by omega
        simp [h1, h2, h3]

theorem sum_count_range (N : Nat) (g : Nat → Int) (l : List Nat) (hl : ∀ m ∈ l, m < N) :
    ((List.range N).map fun n => (l.count n : Int) * g n).sum = (l.map g).sum := by
  induction l with
  | nil => simp
  | cons m l ih =>
    have hm : m < N := hl m (List.mem_cons_self m l)
    have e : (fun n => ((m :: l).count n : Int) * g n) =
        fun n => (l.count n : Int) * g n + (if m = n then g n else 0) := by
      funext n
      by_cases h : m = n
      · subst h
        simp
        ring
      · have h2 : ¬ (m == n) = true := by simpa using h
        simp [List.count_cons, h, h2]
    rw [e, List.map_cons, List.sum_cons]
    have e2 : ((List.range N).map fun n =>
        (l.count n : Int) * g n + (if m = n then g n else 0)).sum =
        ((List.range N).map fun n => (l.count n : Int) * g n).sum +
        ((List.range N).map fun n => if m = n then g n else 0).sum := by
      generalize List.range N = R
      induction R with
      | nil => simp
      | cons r R ihR =>
        simp only [List.map_cons, List.sum_cons, ihR]
        ring
    rw [e2, ih (fun x hx => hl x (List.mem_cons_of_mem m hx)), sum_ite_range, if_pos hm]
    ring

theorem sum_map_congr_sub (L : List Nat) (a b d : Nat → Int)
    (h : ∀ n ∈ L, a n = b n - d n) :
    (L.map a).sum = (L.map b).sum - (L.map d).sum := by
  induction L with
  | nil => simp
  | cons n L ih =>
    simp only [List.map_cons, List.sum_cons]
    rw [ih (fun x hx => h x (List.mem_cons_of_mem n hx)), h n (List.mem_cons_self n L)]
    ring

/-- One net under a move of a cell listed `k` times on it: the cut indicator
drops by `k` times the contribution of the net to the gain of the cell. -/
theorem cut_indicator_move (F T k : Int) (hk : k = 0 ∨ k = 1) (hF : k = 1 → 1 ≤ F)
    (hT : 0 ≤ T) :
    (if (decide (F - k ≠ 0 ∧ T + k ≠ 0)) = true then (1 : Int) else 0) =
      (if (decide (F ≠ 0 ∧ T ≠ 0)) = true then (1 : Int) else 0) - k * contrib F T := by
  rcases hk with hk | hk
  · subst hk
    simp
  · have := hF hk
    subst hk
    unfold contrib
    simp only [decide_eq_true_eq]
    split_ifs <;> omega

/-! ## Gain is the cut decrease -/


theorem cut_indicator_move_swap (F T k : Int) (hk : k = 0 ∨ k = 1) (hF : k = 1 → 1 ≤ F)
    (hT : 0 ≤ T) :
    (if (decide (T + k ≠ 0 ∧ F - k ≠ 0)) = true then (1 : Int) else 0) =
      (if (decide (T ≠ 0 ∧ F ≠ 0)) = true then (1 : Int) else 0) - k * contrib F T := by
  rcases hk with hk | hk
  · subst hk
    simp
  · have := hF hk
    subst hk
    unfold contrib
    simp only [decide_eq_true_eq]
    split_ifs <;> omega

theorem cutSize_countCutSize (s : Partitioner) :
    (countCutSize s).cutSize =
      ((List.range s.netNum).countP (isCutCount fun n => (s.netArray n).partCount) : Nat) := by
  rw [countCutSize_eq]

/-- Gain is the cut decrease, on the data: the cut count after the move is the
cut count before it minus FS - TE of the moved cell. -/
theorem updateGainPure_cut (s : Partitioner) (c : Nat)
    (hwf : WellFormed s) (hnr : NoRepeat s) (hcnt : CountsAgree s) (hc : c < s.cellNum) :
    (countCutSize (updateGainPure s c)).cutSize =
      (countCutSize s).cutSize - scratchGain s c := by
  obtain ⟨h1, _, _, _, _, _, _, h8, h9⟩ := updateGainPure_data s c
  rw [cutSize_countCutSize, cutSize_countCutSize, h1, countP_int_eq_sum, countP_int_eq_sum,
    scratchGain_eq]
  have hnd := netList_nodup hwf hnr hc
  have hsum := sum_count_range s.netNum
    (fun n => contrib ((s.netArray n).partCount (s.cellArray c).part)
      ((s.netArray n).partCount (!(s.cellArray c).part)))
    (s.cellArray c).netList (hwf.1 c hc).2
  unfold gainOver
  rw [← hsum]
  apply sum_map_congr_sub
  intro n hn
  have hn2 : n < s.netNum := List.mem_range.mp hn
  have hk : ((s.cellArray c).netList.count n : Int) = 0 ∨
      ((s.cellArray c).netList.count n : Int) = 1 := count_le_one_of_nodup hnd n
  have hcntS := (countsAgree_iff s).mp hcnt n hn2
  have hF : ((s.cellArray c).netList.count n : Int) = 1 →
      1 ≤ (s.netArray n).partCount (s.cellArray c).part := by
    intro h
    rw [hcntS]
    unfold sideCount
    have hcL : c ∈ (s.netArray n).cellList := by
      apply List.count_pos_iff.mp
      rw [← hwf.2.2 c hc n hn2]
      omega
    have := one_le_countP (P := fun j => (s.cellArray j).part == (s.cellArray c).part)
      hcL (by simp)
    omega
  have hT : 0 ≤ (s.netArray n).partCount (!(s.cellArray c).part) := by
    rw [hcntS]
    unfold sideCount
    omega
  simp only [isCutCount]
  cases hp : (s.cellArray c).part
  · rw [hp] at h8 h9 hF hT
    simp only [Bool.not_false] at h9 hT
    simp only [h8 n, h9 n, Bool.not_false]
    exact cut_indicator_move _ _ _ hk hF hT
  · rw [hp] at h8 h9 hF hT
    simp only [Bool.not_true] at h9 hT
    simp only [h8 n, h9 n, Bool.not_true]
    exact cut_indicator_move_swap _ _ _ hk hF hT

theorem cutSize_of_strip {s t : Partitioner} (h : strip s = strip t) :
    (countCutSize s).cutSize = (countCutSize t).cutSize := by
  rw [cutSize_countCutSize, cutSize_countCutSize, strip_netArray h,
    (globals_netNum (globals_of_strip h)).1]

theorem globals_congr_finishMove (f t : Bool) {a b : Partitioner}
    (h : globals a = globals b) :
    globals (finishMove f t a) = globals (finishMove f t b) := by
  have e : ∀ x : Partitioner, globals (finishMove f t x) = finishMove f t (globals x) := by
    intro x
    unfold finishMove
    simp only
    split
    · rename_i h1
      rw [if_pos (by exact h1)]
      rfl
    · rename_i h1
      rw [if_neg (by exact h1)]
      rfl
  rw [e, e, h]

theorem updateGainPure_globals (s : Partitioner) (c : Nat) :
    globals (updateGainPure s c) =
      globals (finishMove (s.cellArray c).part (!(s.cellArray c).part) (startMove s c)) := by
  unfold updateGainPure
  exact globals_congr_finishMove _ _ (netsDone_loop s c _).glob

theorem globals_fields {a b : Partitioner} (h : globals a = globals b) :
    a.accGain = b.accGain ∧ a.moveStack = b.moveStack ∧ a.moveNum = b.moveNum ∧
    a.partSize = b.partSize ∧ a.unlockNum = b.unlockNum ∧ a.bNum = b.bNum ∧
    a.bDen = b.bDen ∧ a.iterNum = b.iterNum ∧ a.maxPinNum = b.maxPinNum ∧
    a.maxAccGain = b.maxAccGain ∧ a.bestMoveNum = b.bestMoveNum ∧ a.cutSize = b.cutSize := by
  have e1 := congrArg Partitioner.accGain h
  have e2 := congrArg Partitioner.moveStack h
  have e3 := congrArg Partitioner.moveNum h
  have e4 := congrArg Partitioner.partSize h
  have e5 := congrArg Partitioner.unlockNum h
  have e6 := congrArg Partitioner.bNum h
  have e7 := congrArg Partitioner.bDen h
  have e8 := congrArg Partitioner.iterNum h
  have e9 := congrArg Partitioner.maxPinNum h
  have e10 := congrArg Partitioner.maxAccGain h
  have e11 := congrArg Partitioner.bestMoveNum h
  have e12 := congrArg Partitioner.cutSize h
  exact ⟨e1, e2, e3, e4, e5, e6, e7, e8, e9, e10, e11, e12⟩

/-- The counters of the state that `updateGain s c` returns. -/
theorem updateGain_globals {s s1 : Partitioner} {c : Nat} (h : updateGain s c = some s1) :
    s1.accGain = s.accGain + (s.cellArray c).gain ∧
    s1.moveStack = s.moveStack ++ [c] ∧
    s1.moveNum = s.moveNum ∧
    s1.partSize (s.cellArray c).part = s.partSize (s.cellArray c).part - 1 ∧
    s1.partSize (!(s.cellArray c).part) = s.partSize (!(s.cellArray c).part) + 1 ∧
    s1.unlockNum (s.cellArray c).part = s.unlockNum (s.cellArray c).part - 1 ∧
    s1.unlockNum (!(s.cellArray c).part) = s.unlockNum (!(s.cellArray c).part) ∧
    s1.bNum = s.bNum ∧ s1.bDen = s.bDen ∧ s1.iterNum = s.iterNum ∧
    s1.maxPinNum = s.maxPinNum ∧
    s1.maxAccGain = max s.maxAccGain s1.accGain ∧
    s1.bestMoveNum = (if s1.accGain > s.maxAccGain then s.moveNum else s.bestMoveNum) := by
  have hg := (globals_of_strip (strip_updateGain h)).trans (updateGainPure_globals s c)
  obtain ⟨a1, a2, a3, a4, a5, a6, a7, a8, a9, a10, a11, _⟩ := globals_fields hg
  rw [a1, a2, a3, a4, a5, a6, a7, a8, a9, a10, a11]
  unfold finishMove startMove storeBestState setCell setAt
  simp only
  by_cases hgt : s.accGain + (s.cellArray c).gain > s.maxAccGain
  · simp only [hgt, if_true]
    refine ⟨trivial, trivial, trivial, ?_, ?_, ?_, ?_, trivial, trivial, trivial, trivial, ?_, ?_⟩
    · cases (s.cellArray c).part <;> simp
    · cases (s.cellArray c).part <;> simp
    · cases (s.cellArray c).part <;> simp
    · cases (s.cellArray c).part <;> simp
    · rw [max_eq_right (le_of_lt hgt)]
    · trivial
  · simp only [hgt, if_false]
    refine ⟨trivial, trivial, trivial, ?_, ?_, ?_, ?_, trivial, trivial, trivial, trivial, ?_, ?_⟩
    · cases (s.cellArray c).part <;> simp
    · cases (s.cellArray c).part <;> simp
    · cases (s.cellArray c).part <;> simp
    · cases (s.cellArray c).part <;> simp
    · rw [max_eq_left (le_of_not_lt hgt)]
    · trivial


theorem updateGain_cut {s s1 : Partitioner} {c : Nat}
    (hwf : WellFormed s) (hnr : NoRepeat s) (hcnt : CountsAgree s) (hg : GainsAgree s)
    (hc : c < s.cellNum) (hlk : (s.cellArray c).lock = false)
    (h : updateGain s c = some s1) :
    (countCutSize s1).cutSize = (countCutSize s).cutSize - (s.cellArray c).gain := by
  rw [cutSize_of_strip (strip_updateGain h), updateGainPure_cut s c hwf hnr hcnt hc,
    hg c hc hlk]

theorem moveCells_cut (cs : List Nat) (s s1 : Partitioner)
    (hwf : WellFormed s) (hnr : NoRepeat s) (hcnt : CountsAgree s) (hg : GainsAgree s)
    (hnd : cs.Nodup) (hcs : ∀ c ∈ cs, c < s.cellNum ∧ (s.cellArray c).lock = false)
    (h : moveCells cs s = some s1) :
    s1.accGain = s.accGain + ((countCutSize s).cutSize - (countCutSize s1).cutSize) := by
  have key := loopM_invariant
    (fun st c =>
      match updateGain st c with
      | none => none
      | some t => some (nextMove t))
    (fun d st => (WellFormed st ∧ NoRepeat st ∧ CountsAgree st ∧ GainsAgree st) ∧
      st.cellNum = s.cellNum ∧
      (∀ x, x ∉ d → (st.cellArray x).lock = (s.cellArray x).lock) ∧
      st.accGain = s.accGain + ((countCutSize s).cutSize - (countCutSize st).cutSize))
    cs s s1 ⟨⟨hwf, hnr, hcnt, hg⟩, rfl, fun _ _ => rfl, by ring⟩
    (by
      intro d i rest st st1 hl hinv hrun
      obtain ⟨⟨a1, a2, a3, a4⟩, a5, a6, a7⟩ := hinv
      simp only at hrun
      split at hrun
      · exact absurd hrun (by simp)
      · rename_i t ht
        simp only [Option.some.injEq] at hrun
        have himem : i ∈ cs := by rw [hl]; simp
        have hid : i ∉ d := by
          intro hmem
          rw [hl] at hnd
          exact (List.nodup_append.mp hnd).2.2 hmem (List.mem_cons_self i rest)
        have hi : i < st.cellNum := by rw [a5]; exact (hcs i himem).1
        have hlk : (st.cellArray i).lock = false := by rw [a6 i hid]; exact (hcs i himem).2
        have hcut := updateGain_cut a1 a2 a3 a4 hi hlk ht
        obtain ⟨g1, _⟩ := updateGain_globals ht
        obtain ⟨_, d2, _, d4, _⟩ := updateGain_data ht
        rw [← hrun]
        have hk : WellFormed t ∧ NoRepeat t ∧ CountsAgree t ∧ GainsAgree t :=
          updateGain_keeps a1 a2 a3 a4 hi ht
        refine ⟨hk, d2.trans a5, ?_, ?_⟩
        · intro x hx
          have hx1 : x ∉ d := fun hm => hx (List.mem_append_left _ hm)
          have hx2 : x ≠ i := fun e => hx (by rw [e]; simp)
          have := d4 x
          rw [if_neg hx2] at this
          exact this.trans (a6 x hx1)
        · have e1 : (nextMove t).accGain = t.accGain := rfl
          have e2 : (countCutSize (nextMove t)).cutSize = (countCutSize t).cutSize := by
            rw [cutSize_countCutSize, cutSize_countCutSize]
            rfl
          rw [e1, e2, g1, hcut, a7]
          ring)
    h
  exact key.2.2.2


/-! ## Doubly-linked segments -/

theorem seg_frame {nx pv nx1 pv1 : NodeRef → Option NodeRef} :
    ∀ (l : List Nat) (r : NodeRef), nx1 r = nx r →
      (∀ i ∈ l, nx1 (.cell i) = nx (.cell i) ∧ pv1 (.cell i) = pv (.cell i)) →
      Seg nx pv r l → Seg nx1 pv1 r l := by
  intro l
  induction l with
  | nil =>
    intro r hr _ h
    simp only [Seg] at h ⊢
    rw [hr, h]
  | cons i rest ih =>
    intro r hr hl h
    simp only [Seg] at h ⊢
    obtain ⟨h1, h2, h3⟩ := h
    have hi := hl i (List.mem_cons_self i rest)
    refine ⟨by rw [hr, h1], by rw [hi.2, h2], ?_⟩
    exact ih (.cell i) hi.1 (fun j hj => hl j (List.mem_cons_of_mem i hj)) h3

/-- The segment that starts at `r` is determined by the links. -/
theorem seg_unique {nx pv : NodeRef → Option NodeRef} :
    ∀ (l1 l2 : List Nat) (r : NodeRef), Seg nx pv r l1 → Seg nx pv r l2 → l1 = l2 := by
  intro l1
  induction l1 with
  | nil =>
    intro l2 r h1 h2
    cases l2 with
    | nil => rfl
    | cons j rest =>
      simp only [Seg] at h1 h2
      rw [h1] at h2
      exact absurd h2.1 (by simp)
  | cons i rest ih =>
    intro l2 r h1 h2
    cases l2 with
    | nil =>
      simp only [Seg] at h1 h2
      rw [h2] at h1
      exact absurd h1.1 (by simp)
    | cons j rest2 =>
      simp only [Seg] at h1 h2
      have e : i = j := by
        have := h1.1.symm.trans h2.1
        simpa using this
      subst e
      rw [ih rest2 (.cell i) h1.2.2 h2.2.2]

/-- Insertion at the head of a segment. -/
theorem seg_insert {nx pv nx1 pv1 : NodeRef → Option NodeRef} (d : NodeRef) (c : Nat)
    (l : List Nat) (hc : c ∉ l) (hnd : l.Nodup)
    (hdl : ∀ i ∈ l, d ≠ .cell i)
    (h : Seg nx pv d l)
    (hn1 : nx1 d = some (.cell c))
    (hn2 : nx1 (.cell c) = nx d)
    (hn3 : ∀ x, x ≠ d → x ≠ .cell c → nx1 x = nx x)
    (hp1 : pv1 (.cell c) = some d)
    (hp2 : ∀ x, nx d = some x → pv1 x = some (.cell c))
    (hp3 : ∀ x, x ≠ .cell c → nx d ≠ some x → pv1 x = pv x) :
    Seg nx1 pv1 d (c :: l) := by
  simp only [Seg]
  refine ⟨hn1, hp1, ?_⟩
  cases l with
  | nil =>
    simp only [Seg] at h ⊢
    rw [hn2, h]
  | cons i rest =>
    simp only [Seg] at h ⊢
    obtain ⟨h1, h2, h3⟩ := h
    have hic : i ≠ c := fun e => hc (by rw [e]; simp)
    have hir : i ∉ rest := (List.nodup_cons.mp hnd).1
    refine ⟨by rw [hn2, h1], hp2 _ h1, ?_⟩
    apply seg_frame rest (.cell i) _ _ h3
    · apply hn3
      · exact fun e => hdl i (List.mem_cons_self i rest) e.symm
      · simpa using hic
    · intro j hj
      have hjc : j ≠ c := fun e => hc (by rw [← e]; exact List.mem_cons_of_mem i hj)
      have hji : j ≠ i := fun e => hir (by rw [← e]; exact hj)
      refine ⟨?_, ?_⟩
      · apply hn3
        · exact fun e => hdl j (List.mem_cons_of_mem i hj) e.symm
        · simpa using hjc
      · apply hp3
        · simpa using hjc
        · rw [h1]
          simpa using fun e => hji e.symm

/-- Removal of one node from a segment. -/
theorem seg_remove {nx pv nx1 pv1 : NodeRef → Option NodeRef} (c : Nat) (pred : NodeRef)
    (hpred : pv (.cell c) = some pred)
    (hn1 : nx1 pred = nx (.cell c))
    (hn3 : ∀ x, x ≠ pred → nx1 x = nx x)
    (hp2 : ∀ x, nx (.cell c) = some x → pv1 x = some pred)
    (hp3 : ∀ x, nx (.cell c) ≠ some x → pv1 x = pv x) :
    ∀ (l1 l2 : List Nat) (r : NodeRef), (l1 ++ c :: l2).Nodup →
      (∀ i ∈ l1 ++ c :: l2, r ≠ .cell i) →
      Seg nx pv r (l1 ++ c :: l2) → Seg nx1 pv1 r (l1 ++ l2) := by
  intro l1
  induction l1 with
  | nil =>
    intro l2 r hnd hr h
    simp only [List.nil_append] at h hnd hr ⊢
    simp only [Seg] at h
    obtain ⟨h1, h2, h3⟩ := h
    have hpr : pred = r := by
      rw [hpred] at h2
      simpa using h2
    subst hpr
    have hc2 : c ∉ l2 := (List.nodup_cons.mp hnd).1
    cases l2 with
    | nil =>
      simp only [Seg] at h3 ⊢
      rw [hn1, h3]
    | cons k rest =>
      simp only [Seg] at h3 ⊢
      obtain ⟨k1, k2, k3⟩ := h3
      have hkc : k ≠ c := fun e => hc2 (by rw [← e]; simp)
      have hkr : k ∉ rest := (List.nodup_cons.mp (List.nodup_cons.mp hnd).2).1
      refine ⟨by rw [hn1, k1], hp2 _ k1, ?_⟩
      apply seg_frame rest (.cell k) _ _ k3
      · apply hn3
        exact fun e => hr k (by simp) e.symm
      · intro j hj
        have hjk : j ≠ k := fun e => hkr (by rw [← e]; exact hj)
        refine ⟨?_, ?_⟩
        · apply hn3
          exact fun e => hr j (by simp [hj]) e.symm
        · apply hp3
          rw [k1]
          simpa using fun e => hjk e.symm
  | cons j l1 ih =>
    intro l2 r hnd hr h
    simp only [List.cons_append] at h hnd hr ⊢
    simp only [Seg] at h ⊢
    obtain ⟨h1, h2, h3⟩ := h
    obtain ⟨hj, hnd2⟩ := List.nodup_cons.mp hnd
    have hjc : j ≠ c := fun e => hj (by rw [e]; simp)
    -- the predecessor of `c` is a node of the list or `cell j`
    have hrp : r ≠ pred := by
      intro e
      -- pred = r would make `c` the first node, but the first node is `j`
      have hseg := h3
      have : ∀ (l : List Nat) (q : NodeRef), Seg nx pv q (l ++ c :: l2) →
          pv (.cell c) = some q ∨ ∃ i ∈ l, pv (.cell c) = some (.cell i) := by
        intro l
        induction l with
        | nil =>
          intro q hq
          simp only [List.nil_append, Seg] at hq
          exact Or.inl hq.2.1
        | cons a l iha =>
          intro q hq
          simp only [List.cons_append, Seg] at hq
          rcases iha (.cell a) hq.2.2 with h5 | ⟨i, hi, h5⟩
          · exact Or.inr ⟨a, List.mem_cons_self a l, h5⟩
          · exact Or.inr ⟨i, List.mem_cons_of_mem a hi, h5⟩
      rcases this l1 (.cell j) hseg with h5 | ⟨i, hi, h5⟩
      · rw [hpred, ← e] at h5
        exact hr j (by simp) (by simpa using h5)
      · rw [hpred, ← e] at h5
        exact hr i (by simp [hi]) (by simpa using h5)
    refine ⟨by rw [hn3 r hrp, h1], ?_, ?_⟩
    · rw [hp3 _ _, h2]
      -- `cell j` is not the successor of `c`
      intro e
      have : ∀ (l : List Nat) (q : NodeRef), Seg nx pv q (l ++ c :: l2) →
          nx (.cell c) = none ∨ ∃ i ∈ l2, nx (.cell c) = some (.cell i) := by
        intro l
        induction l with
        | nil =>
          intro q hq
          simp only [List.nil_append, Seg] at hq
          cases l2 with
          | nil =>
            simp only [Seg] at hq
            exact Or.inl hq.2.2
          | cons b l2 =>
            simp only [Seg] at hq
            exact Or.inr ⟨b, List.mem_cons_self b l2, hq.2.2.1⟩
        | cons a l iha =>
          intro q hq
          simp only [List.cons_append, Seg] at hq
          exact iha (.cell a) hq.2.2
      rcases this l1 (.cell j) h3 with h5 | ⟨i, hi, h5⟩
      · rw [h5] at e
        exact absurd e (by simp)
      · rw [h5] at e
        have hji : j = i := by simpa using e.symm
        exact hj (by rw [hji]; simp [hi])
    · apply ih l2 (.cell j) hnd2 _ h3
      intro i hi e
      have : j = i := by simpa using e
      exact hj (by rw [this]; exact hi)


/-! ## The bucket operations on the links -/

theorem nextOf_cell (s : Partitioner) (c : Nat) :
    nextOf s (.cell c) = (s.cellArray c).node.next := rfl

theorem prevOf_cell (s : Partitioner) (c : Nat) :
    prevOf s (.cell c) = (s.cellArray c).node.prev := rfl

theorem setNext_links {s s1 : Partitioner} {r : NodeRef} {v : Option NodeRef}
    (h : setNext s r v = some s1) :
    nextOf s1 r = v ∧ (∀ x, x ≠ r → nextOf s1 x = nextOf s x) ∧
    (∀ x, prevOf s1 x = prevOf s x) ∧
    (∀ p g, (s1.bList p g).isSome = (s.bList p g).isSome) := by
  cases r with
  | cell i =>
    simp only [setNext, Option.some.injEq] at h
    subst h
    refine ⟨?_, ?_, ?_, fun _ _ => rfl⟩
    · simp [nextOf, getNode, setCell]
    · intro x hx
      cases x with
      | cell j =>
        have hj : j ≠ i := fun e => hx (by rw [e])
        simp [nextOf, getNode, setCell, hj]
      | dummy p g => rfl
    · intro x
      cases x with
      | cell j =>
        by_cases hj : j = i <;> simp [prevOf, getNode, setCell, hj]
      | dummy p g => rfl
  | dummy p g =>
    simp only [setNext] at h
    split at h
    · exact absurd h (by simp)
    · rename_i n hn
      simp only [Option.some.injEq] at h
      subst h
      refine ⟨?_, ?_, ?_, ?_⟩
      · simp [nextOf, getNode]
      · intro x hx
        cases x with
        | cell j => rfl
        | dummy q g2 =>
          have hq : ¬ (q = p ∧ g2 = g) := fun e => hx (by rw [e.1, e.2])
          simp [nextOf, getNode, hq]
      · intro x
        cases x with
        | cell j => rfl
        | dummy q g2 =>
          by_cases hq : q = p ∧ g2 = g
          · obtain ⟨e1, e2⟩ := hq
            subst e1 e2
            simp [prevOf, getNode, hn]
          · simp [prevOf, getNode, hq]
      · intro q g2
        by_cases hq : q = p ∧ g2 = g
        · obtain ⟨e1, e2⟩ := hq
          subst e1 e2
          simp [hn]
        · simp [hq]

theorem setPrev_links {s s1 : Partitioner} {r : NodeRef} {v : Option NodeRef}
    (h : setPrev s r v = some s1) :
    prevOf s1 r = v ∧ (∀ x, x ≠ r → prevOf s1 x = prevOf s x) ∧
    (∀ x, nextOf s1 x = nextOf s x) ∧
    (∀ p g, (s1.bList p g).isSome = (s.bList p g).isSome) := by
  cases r with
  | cell i =>
    simp only [setPrev, Option.some.injEq] at h
    subst h
    refine ⟨?_, ?_, ?_, fun _ _ => rfl⟩
    · simp [prevOf, getNode, setCell]
    · intro x hx
      cases x with
      | cell j =>
        have hj : j ≠ i := fun e => hx (by rw [e])
        simp [prevOf, getNode, setCell, hj]
      | dummy p g => rfl
    · intro x
      cases x with
      | cell j =>
        by_cases hj : j = i <;> simp [nextOf, getNode, setCell, hj]
      | dummy p g => rfl
  | dummy p g =>
    simp only [setPrev] at h
    split at h
    · exact absurd h (by simp)
    · rename_i n hn
      simp only [Option.some.injEq] at h
      subst h
      refine ⟨?_, ?_, ?_, ?_⟩
      · simp [prevOf, getNode]
      · intro x hx
        cases x with
        | cell j => rfl
        | dummy q g2 =>
          have hq : ¬ (q = p ∧ g2 = g) := fun e => hx (by rw [e.1, e.2])
          simp [prevOf, getNode, hq]
      · intro x
        cases x with
        | cell j => rfl
        | dummy q g2 =>
          by_cases hq : q = p ∧ g2 = g
          · obtain ⟨e1, e2⟩ := hq
            subst e1 e2
            simp [nextOf, getNode, hn]
          · simp [nextOf, getNode, hq]
      · intro q g2
        by_cases hq : q = p ∧ g2 = g
        · obtain ⟨e1, e2⟩ := hq
          subst e1 e2
          simp [hn]
        · simp [hq]

/-- The links after `insertCell(c)`, when `c` is not already the head of its
bucket list. -/
theorem insertCell_links {s s1 : Partitioner} {c : Nat} (h : insertCell s c = some s1)
    (hhead : nextOf s (.dummy (s.cellArray c).part (s.cellArray c).gain) ≠ some (.cell c)) :
    (s.bList (s.cellArray c).part (s.cellArray c).gain).isSome = true ∧
    nextOf s1 (.dummy (s.cellArray c).part (s.cellArray c).gain) = some (.cell c) ∧
    nextOf s1 (.cell c) = nextOf s (.dummy (s.cellArray c).part (s.cellArray c).gain) ∧
    (∀ x, x ≠ .dummy (s.cellArray c).part (s.cellArray c).gain → x ≠ .cell c →
      nextOf s1 x = nextOf s x) ∧
    prevOf s1 (.cell c) = some (.dummy (s.cellArray c).part (s.cellArray c).gain) ∧
    (∀ x, nextOf s (.dummy (s.cellArray c).part (s.cellArray c).gain) = some x →
      prevOf s1 x = some (.cell c)) ∧
    (∀ x, x ≠ .cell c →
      nextOf s (.dummy (s.cellArray c).part (s.cellArray c).gain) ≠ some x →
      prevOf s1 x = prevOf s x) ∧
    (∀ p g, (s1.bList p g).isSome = (s.bList p g).isSome) := by
  unfold insertCell at h
  simp only at h
  split at h
  · exact absurd h (by simp)
  · rename_i head hhd
    have hnd : nextOf s (.dummy (s.cellArray c).part (s.cellArray c).gain) = head.next := by
      simp [nextOf, getNode, hhd]
    -- the state after the two writes to the node of `c`
    have l1n : ∀ x, x ≠ .cell c →
        nextOf (setCell s c fun x => { x with node :=
          { prev := some (.dummy (s.cellArray c).part (s.cellArray c).gain),
            next := head.next } }) x = nextOf s x := by
      intro x hx
      cases x with
      | cell j =>
        have hj : j ≠ c := fun e => hx (by rw [e])
        simp [nextOf, getNode, setCell, hj]
      | dummy p g => rfl
    have l1p : ∀ x, x ≠ .cell c →
        prevOf (setCell s c fun x => { x with node :=
          { prev := some (.dummy (s.cellArray c).part (s.cellArray c).gain),
            next := head.next } }) x = prevOf s x := by
      intro x hx
      cases x with
      | cell j =>
        have hj : j ≠ c := fun e => hx (by rw [e])
        simp [prevOf, getNode, setCell, hj]
      | dummy p g => rfl
    have l1c : nextOf (setCell s c fun x => { x with node :=
          { prev := some (.dummy (s.cellArray c).part (s.cellArray c).gain),
            next := head.next } }) (.cell c) = head.next ∧
        prevOf (setCell s c fun x => { x with node :=
          { prev := some (.dummy (s.cellArray c).part (s.cellArray c).gain),
            next := head.next } }) (.cell c) =
          some (.dummy (s.cellArray c).part (s.cellArray c).gain) := by
      simp [nextOf, prevOf, getNode, setCell]
    split at h
    · exact absurd h (by simp)
    · rename_i s2 h2
      obtain ⟨a1, a2, a3, a4⟩ := setNext_links h2
      have hdc : (NodeRef.cell c) ≠ .dummy (s.cellArray c).part (s.cellArray c).gain := by
        simp
      have hc2 : nextOf s2 (.cell c) = head.next := by
        rw [a2 _ hdc, l1c.1]
      have hsome : (s.bList (s.cellArray c).part (s.cellArray c).gain).isSome = true := by
        simp [hhd]
      rw [← nextOf_cell] at h
      rw [hc2] at h
      split at h
      · rename_i hnone
        simp only [Option.some.injEq] at h
        subst h
        refine ⟨hsome, a1, by rw [hc2, hnd], ?_, ?_, ?_, ?_, ?_⟩
        · intro x hx1 hx2
          rw [a2 x hx1, l1n x hx2]
        · rw [a3, l1c.2]
        · intro x hx
          rw [hnd, hnone] at hx
          exact absurd hx (by simp)
        · intro x hx1 _
          rw [a3, l1p x hx1]
        · intro p g
          rw [a4]
          rfl
      · rename_i r hr
        obtain ⟨b1, b2, b3, b4⟩ := setPrev_links h
        have hrc : r ≠ .cell c := by
          intro e
          apply hhead
          rw [hnd, hr, e]
        refine ⟨hsome, by rw [b3, a1], by rw [b3, hc2, hnd], ?_, ?_, ?_, ?_, ?_⟩
        · intro x hx1 hx2
          rw [b3, a2 x hx1, l1n x hx2]
        · rw [b2 _ hrc.symm, a3, l1c.2]
        · intro x hx
          rw [hnd, hr] at hx
          have : x = r := by simpa using hx.symm
          rw [this, b1]
        · intro x hx1 hx2
          rw [hnd, hr] at hx2
          have hxr : x ≠ r := fun e => hx2 (by rw [e])
          rw [b2 x hxr, a3, l1p x hx1]
        · intro p g
          rw [b4, a4]
          rfl

/-- The links after `removeCell(c)`, when the node of `c` is not its own
predecessor. -/
theorem removeCell_links {s s1 : Partitioner} {c : Nat} (h : removeCell s c = some s1)
    (hself : prevOf s (.cell c) ≠ some (.cell c)) :
    ∃ pred, prevOf s (.cell c) = some pred ∧
      nextOf s1 pred = nextOf s (.cell c) ∧
      (∀ x, x ≠ pred → nextOf s1 x = nextOf s x) ∧
      (∀ x, nextOf s (.cell c) = some x → prevOf s1 x = some pred) ∧
      (∀ x, nextOf s (.cell c) ≠ some x → prevOf s1 x = prevOf s x) ∧
      (∀ p g, (s1.bList p g).isSome = (s.bList p g).isSome) := by
  unfold removeCell at h
  split at h
  · exact absurd h (by simp)
  · rename_i pred hpred
    rw [← prevOf_cell] at hpred
    split at h
    · exact absurd h (by simp)
    · rename_i s2 h2
      rw [← nextOf_cell] at h2
      obtain ⟨a1, a2, a3, a4⟩ := setNext_links h2
      have hpc : (NodeRef.cell c) ≠ pred := by
        intro e
        apply hself
        rw [hpred, e]
      have hc2 : nextOf s2 (.cell c) = nextOf s (.cell c) := a2 _ hpc
      rw [← nextOf_cell, ← prevOf_cell, hc2, a3, hpred] at h
      refine ⟨pred, hpred, ?_⟩
      split at h
      · rename_i hnone
        simp only [Option.some.injEq] at h
        subst h
        refine ⟨a1, a2, ?_, ?_, a4⟩
        · intro x hx
          rw [hnone] at hx
          exact absurd hx (by simp)
        · intro x _
          exact a3 x
      · rename_i r hr
        obtain ⟨b1, b2, b3, b4⟩ := setPrev_links h
        refine ⟨by rw [b3, a1], ?_, ?_, ?_, ?_⟩
        · intro x hx
          rw [b3, a2 x hx]
        · intro x hx
          rw [hr] at hx
          have : x = r := by simpa using hx.symm
          rw [this, b1]
        · intro x hx
          rw [hr] at hx
          have hxr : x ≠ r := fun e => hx (by rw [e])
          rw [b2 x hxr, a3]
        · intro p g
          rw [b4, a4]

/-! ## The bucket lists as a whole -/


theorem seg_pred {nx pv : NodeRef → Option NodeRef} (c : Nat) (l2 : List Nat) :
    ∀ (l : List Nat) (q : NodeRef), Seg nx pv q (l ++ c :: l2) →
      pv (.cell c) = some q ∨ ∃ i ∈ l, pv (.cell c) = some (.cell i) := by
  intro l
  induction l with
  | nil =>
    intro q hq
    simp only [List.nil_append, Seg] at hq
    exact Or.inl hq.2.1
  | cons a l iha =>
    intro q hq
    simp only [List.cons_append, Seg] at hq
    rcases iha (.cell a) hq.2.2 with h5 | ⟨i, hi, h5⟩
    · exact Or.inr ⟨a, List.mem_cons_self a l, h5⟩
    · exact Or.inr ⟨i, List.mem_cons_of_mem a hi, h5⟩

theorem seg_succ {nx pv : NodeRef → Option NodeRef} (c : Nat) (l2 : List Nat) :
    ∀ (l : List Nat) (q : NodeRef), Seg nx pv q (l ++ c :: l2) →
      nx (.cell c) = none ∨ ∃ i ∈ l2, nx (.cell c) = some (.cell i) := by
  intro l
  induction l with
  | nil =>
    intro q hq
    simp only [List.nil_append, Seg] at hq
    cases l2 with
    | nil =>
      simp only [Seg] at hq
      exact Or.inl hq.2.2
    | cons b l2 =>
      simp only [Seg] at hq
      exact Or.inr ⟨b, List.mem_cons_self b l2, hq.2.2.1⟩
  | cons a l iha =>
    intro q hq
    simp only [List.cons_append, Seg] at hq
    exact iha (.cell a) hq.2.2

theorem seg_head {nx pv : NodeRef → Option NodeRef} (r : NodeRef) (l : List Nat)
    (h : Seg nx pv r l) : nx r = none ∨ ∃ i ∈ l, nx r = some (.cell i) := by
  cases l with
  | nil => exact Or.inl h
  | cons i rest => exact Or.inr ⟨i, List.mem_cons_self i rest, h.1⟩

theorem setBucket_same (B : Bool → Int → List Nat) (p : Bool) (g : Int) (l : List Nat) :
    setBucket B p g l p g = l := by
  simp [setBucket]

theorem setBucket_other (B : Bool → Int → List Nat) (p : Bool) (g : Int) (l : List Nat)
    (q : Bool) (h : Int) (hne : ¬ (q = p ∧ h = g)) : setBucket B p g l q h = B q h := by
  simp [setBucket, hne]

/-- Unlinking a cell that is in a bucket list keeps the lists in order. -/
theorem linked_remove {s s1 : Partitioner} {B : Bool → Int → List Nat} {x : Nat}
    {p : Bool} {g : Int} (hL : Linked s B) (hx : x ∈ B p g)
    (h : removeCell s x = some s1) :
    Linked s1 (setBucket B p g ((B p g).erase x)) ∧
    (∀ q h, (s1.bList q h).isSome = (s.bList q h).isSome) := by
  obtain ⟨l1, l2, hsplit⟩ := List.append_of_mem hx
  have hnd := hL.nodup p g
  have hseg := hL.threads p g
  unfold Threads at hseg
  rw [hsplit] at hnd hseg
  have hx1 : x ∉ l1 := by
    intro hm
    have := (List.nodup_append.mp hnd).2.2 hm (List.mem_cons_self x l2)
    exact this
  have hx2 : x ∉ l2 := (List.nodup_cons.mp (List.nodup_append.mp hnd).2.1).1
  have herase : (B p g).erase x = l1 ++ l2 := by
    rw [hsplit, List.erase_append_right _ hx1, List.erase_cons_head]
  have hself : prevOf s (.cell x) ≠ some (.cell x) := by
    rcases seg_pred x l2 l1 _ hseg with h5 | ⟨i, hi, h5⟩
    · rw [h5]; simp
    · rw [h5]
      intro e
      have : i = x := by simpa using e
      exact hx1 (by rw [← this]; exact hi)
  obtain ⟨pred, r1, r2, r3, r4, r5, r6⟩ := removeCell_links h hself
  -- where the two changed links sit
  have hpredIn : pred = .dummy p g ∨ ∃ i ∈ B p g, pred = .cell i := by
    rcases seg_pred x l2 l1 _ hseg with h5 | ⟨i, hi, h5⟩
    · left
      rw [r1] at h5
      simpa using h5
    · right
      rw [r1] at h5
      refine ⟨i, ?_, by simpa using h5⟩
      rw [hsplit]
      exact List.mem_append_left _ hi
  have hsuccIn : ∀ y, nextOf s (.cell x) = some y → ∃ i ∈ B p g, y = .cell i := by
    intro y hy
    rcases seg_succ x l2 l1 _ hseg with h5 | ⟨i, hi, h5⟩
    · rw [h5] at hy
      exact absurd hy (by simp)
    · rw [h5] at hy
      refine ⟨i, ?_, by simpa using hy.symm⟩
      rw [hsplit]
      exact List.mem_append_right _ (List.mem_cons_of_mem x hi)
  refine ⟨⟨?_, ?_, ?_⟩, r6⟩
  · intro q h2
    unfold Threads
    by_cases hq : q = p ∧ h2 = g
    · obtain ⟨e1, e2⟩ := hq
      subst e1 e2
      rw [setBucket_same, herase]
      apply seg_remove x pred r1 r2 r3 r4 r5 l1 l2 _ hnd _ hseg
      intro i _
      simp
    · rw [setBucket_other _ _ _ _ _ _ hq]
      have hseg2 := hL.threads q h2
      unfold Threads at hseg2
      apply seg_frame _ _ _ _ hseg2
      · apply r3
        rcases hpredIn with e | ⟨i, _, e⟩
        · rw [e]
          intro e2
          apply hq
          simpa using e2
        · rw [e]; simp
      · intro j hj
        refine ⟨?_, ?_⟩
        · apply r3
          rcases hpredIn with e | ⟨i, hi, e⟩
          · rw [e]; simp
          · rw [e]
            intro e2
            have hji : j = i := by simpa using e2
            have := hL.apart q h2 p g j hj (by rw [hji]; exact hi)
            exact hq this
        · apply r5
          intro e2
          obtain ⟨i, hi, e3⟩ := hsuccIn _ e2
          have hji : j = i := by simpa using e3
          have := hL.apart q h2 p g j hj (by rw [hji]; exact hi)
          exact hq this
  · intro q h2
    by_cases hq : q = p ∧ h2 = g
    · obtain ⟨e1, e2⟩ := hq
      subst e1 e2
      rw [setBucket_same]
      exact (hL.nodup q h2).erase x
    · rw [setBucket_other _ _ _ _ _ _ hq]
      exact hL.nodup q h2
  · intro q1 h1 q2 h2 i hi1 hi2
    have m1 : i ∈ B q1 h1 := by
      by_cases hq : q1 = p ∧ h1 = g
      · obtain ⟨e1, e2⟩ := hq
        subst e1 e2
        rw [setBucket_same] at hi1
        exact List.mem_of_mem_erase hi1
      · rw [setBucket_other _ _ _ _ _ _ hq] at hi1
        exact hi1
    have m2 : i ∈ B q2 h2 := by
      by_cases hq : q2 = p ∧ h2 = g
      · obtain ⟨e1, e2⟩ := hq
        subst e1 e2
        rw [setBucket_same] at hi2
        exact List.mem_of_mem_erase hi2
      · rw [setBucket_other _ _ _ _ _ _ hq] at hi2
        exact hi2
    exact hL.apart q1 h1 q2 h2 i m1 m2

/-- Linking a cell that is in no bucket list at the head of the list of its
side and gain keeps the lists in order. -/
theorem linked_insert {s s1 : Partitioner} {B : Bool → Int → List Nat} {x : Nat}
    (hL : Linked s B) (hx : ∀ p g, x ∉ B p g)
    (h : insertCell s x = some s1) :
    Linked s1 (setBucket B (s.cellArray x).part (s.cellArray x).gain
      (x :: B (s.cellArray x).part (s.cellArray x).gain)) ∧
    (s.bList (s.cellArray x).part (s.cellArray x).gain).isSome = true ∧
    (∀ q h, (s1.bList q h).isSome = (s.bList q h).isSome) := by
  have hseg := hL.threads (s.cellArray x).part (s.cellArray x).gain
  unfold Threads at hseg
  have hhead : nextOf s (.dummy (s.cellArray x).part (s.cellArray x).gain) ≠
      some (.cell x) := by
    rcases seg_head _ _ hseg with h5 | ⟨i, hi, h5⟩
    · rw [h5]; simp
    · rw [h5]
      intro e
      have : i = x := by simpa using e
      exact hx _ _ (by rw [← this]; exact hi)
  obtain ⟨r0, r1, r2, r3, r4, r5, r6, r7⟩ := insertCell_links h hhead
  have hheadIn : ∀ y, nextOf s (.dummy (s.cellArray x).part (s.cellArray x).gain) = some y →
      ∃ i ∈ B (s.cellArray x).part (s.cellArray x).gain, y = .cell i := by
    intro y hy
    rcases seg_head _ _ hseg with h5 | ⟨i, hi, h5⟩
    · rw [h5] at hy
      exact absurd hy (by simp)
    · rw [h5] at hy
      exact ⟨i, hi, by simpa using hy.symm⟩
  refine ⟨⟨?_, ?_, ?_⟩, r0, r7⟩
  · intro q h2
    unfold Threads
    by_cases hq : q = (s.cellArray x).part ∧ h2 = (s.cellArray x).gain
    · obtain ⟨e1, e2⟩ := hq
      subst e1 e2
      rw [setBucket_same]
      exact seg_insert _ x _ (hx _ _) (hL.nodup _ _) (fun i _ => by simp) hseg r1 r2 r3 r4 r5 r6
    · rw [setBucket_other _ _ _ _ _ _ hq]
      have hseg2 := hL.threads q h2
      unfold Threads at hseg2
      apply seg_frame _ _ _ _ hseg2
      · apply r3
        · intro e2
          apply hq
          simpa using e2
        · simp
      · intro j hj
        have hjx : j ≠ x := fun e => hx q h2 (by rw [← e]; exact hj)
        refine ⟨?_, ?_⟩
        · apply r3
          · simp
          · simpa using hjx
        · apply r6
          · simpa using hjx
          · intro e2
            obtain ⟨i, hi, e3⟩ := hheadIn _ e2
            have hji : j = i := by simpa using e3
            have := hL.apart q h2 _ _ j hj (by rw [hji]; exact hi)
            exact hq this
  · intro q h2
    by_cases hq : q = (s.cellArray x).part ∧ h2 = (s.cellArray x).gain
    · obtain ⟨e1, e2⟩ := hq
      subst e1 e2
      rw [setBucket_same]
      exact List.nodup_cons.mpr ⟨hx _ _, hL.nodup _ _⟩
    · rw [setBucket_other _ _ _ _ _ _ hq]
      exact hL.nodup q h2
  · intro q1 h1 q2 h2 i hi1 hi2
    by_cases hix : i = x
    · subst hix
      have c1 : q1 = (s.cellArray i).part ∧ h1 = (s.cellArray i).gain := by
        by_contra hq
        rw [setBucket_other _ _ _ _ _ _ hq] at hi1
        exact hx _ _ hi1
      have c2 : q2 = (s.cellArray i).part ∧ h2 = (s.cellArray i).gain := by
        by_contra hq
        rw [setBucket_other _ _ _ _ _ _ hq] at hi2
        exact hx _ _ hi2
      exact ⟨c1.1.trans c2.1.symm, c1.2.trans c2.2.symm⟩
    · have m1 : i ∈ B q1 h1 := by
        by_cases hq : q1 = (s.cellArray x).part ∧ h1 = (s.cellArray x).gain
        · obtain ⟨e1, e2⟩ := hq
          subst e1 e2
          rw [setBucket_same] at hi1
          exact (List.mem_cons.mp hi1).resolve_left hix
        · rw [setBucket_other _ _ _ _ _ _ hq] at hi1
          exact hi1
      have m2 : i ∈ B q2 h2 := by
        by_cases hq : q2 = (s.cellArray x).part ∧ h2 = (s.cellArray x).gain
        · obtain ⟨e1, e2⟩ := hq
          subst e1 e2
          rw [setBucket_same] at hi2
          exact (List.mem_cons.mp hi2).resolve_left hix
        · rw [setBucket_other _ _ _ _ _ _ hq] at hi2
          exact hi2
      exact hL.apart q1 h1 q2 h2 i m1 m2

/-! ## Bucket membership -/


/-- The bucket lists only depend on the links. -/
theorem linked_congr {s t : Partitioner} {B : Bool → Int → List Nat}
    (hn : ∀ x, nextOf t x = nextOf s x) (hp : ∀ x, prevOf t x = prevOf s x)
    (h : Linked s B) : Linked t B := by
  refine ⟨?_, h.nodup, h.apart⟩
  intro p g
  have := h.threads p g
  unfold Threads at this ⊢
  exact seg_frame _ _ (hn _) (fun i _ => ⟨hn _, hp _⟩) this

theorem links_of_same_nodes {s t : Partitioner} (hb : t.bList = s.bList)
    (hc : ∀ i, (t.cellArray i).node = (s.cellArray i).node) :
    (∀ x, nextOf t x = nextOf s x) ∧ (∀ x, prevOf t x = prevOf s x) := by
  constructor
  · intro x
    cases x with
    | cell i => simp [nextOf, getNode, hc i]
    | dummy p g => simp [nextOf, getNode, hb]
  · intro x
    cases x with
    | cell i => simp [prevOf, getNode, hc i]
    | dummy p g => simp [prevOf, getNode, hb]

theorem mem_erase_setBucket {B : Bool → Int → List Nat} {x : Nat} {p : Bool} {g : Int}
    (hnd : ∀ p g, (B p g).Nodup)
    (hap : ∀ p g q h i, i ∈ B p g → i ∈ B q h → p = q ∧ g = h)
    (hx : x ∈ B p g) (q : Bool) (h : Int) (i : Nat) :
    i ∈ setBucket B p g ((B p g).erase x) q h ↔ i ≠ x ∧ i ∈ B q h := by
  by_cases hq : q = p ∧ h = g
  · obtain ⟨e1, e2⟩ := hq
    subst e1 e2
    rw [setBucket_same, (hnd q h).mem_erase_iff]
  · rw [setBucket_other _ _ _ _ _ _ hq]
    constructor
    · intro hi
      refine ⟨?_, hi⟩
      intro e
      subst e
      exact hq (hap q h p g i hi hx)
    · exact fun hi => hi.2

theorem mem_cons_setBucket {B : Bool → Int → List Nat} {x : Nat} (p : Bool) (g : Int)
    (q : Bool) (h : Int) (i : Nat) :
    i ∈ setBucket B p g (x :: B p g) q h ↔ (i = x ∧ q = p ∧ h = g) ∨ i ∈ B q h := by
  by_cases hq : q = p ∧ h = g
  · obtain ⟨e1, e2⟩ := hq
    subst e1 e2
    rw [setBucket_same, List.mem_cons]
    simp
  · rw [setBucket_other _ _ _ _ _ _ hq]
    constructor
    · exact fun hi => Or.inr hi
    · intro hi
      rcases hi with ⟨_, e1, e2⟩ | hi
      · exact absurd ⟨e1, e2⟩ hq
      · exact hi

/-- A gain change of an unlocked cell followed by `moveCell` keeps bucket
membership. -/
theorem buckets_moveCell {s st s1 : Partitioner} {mv : Option (Nat × Bool)}
    {B : Bool → Int → List Nat} {x : Nat}
    (hB : Buckets s mv B) (hx : x < s.cellNum) (hlk : (s.cellArray x).lock = false)
    (hst : strip st = strip (addGainAt s x ((st.cellArray x).gain - (s.cellArray x).gain)))
    (hnodes : st.bList = s.bList ∧ ∀ i, (st.cellArray i).node = (s.cellArray i).node)
    (h : moveCell st x = some s1) :
    ∃ B1, Buckets s1 mv B1 := by
  obtain ⟨hn, hp⟩ := links_of_same_nodes hnodes.1 hnodes.2
  have hL : Linked st B := linked_congr hn hp hB.linked
  have hxB : x ∈ B (s.cellArray x).part (s.cellArray x).gain :=
    (hB.mem _ _ x).mpr ⟨hx, rfl, Or.inl ⟨hlk, rfl⟩⟩
  unfold moveCell at h
  split at h
  · exact absurd h (by simp)
  · rename_i s2 h2
    obtain ⟨hL2, hd2⟩ := linked_remove hL hxB h2
    have hs2 := strip_removeCell h2
    have hmem2 := mem_erase_setBucket hL.nodup hL.apart hxB
    have hx2 : ∀ p g, x ∉ setBucket B (s.cellArray x).part (s.cellArray x).gain
        ((B (s.cellArray x).part (s.cellArray x).gain).erase x) p g := by
      intro p g hm
      exact ((hmem2 p g x).mp hm).1 rfl
    obtain ⟨hL1, hsome, hd1⟩ := linked_insert hL2 hx2 h
    have hs1 := (strip_insertCell h).trans (hs2.trans hst)
    have hg1 := globals_of_strip hs1
    have hcell : ∀ i, (s1.cellArray i).gain =
          (if i = x then (st.cellArray x).gain else (s.cellArray i).gain) ∧
        (s1.cellArray i).part = (s.cellArray i).part ∧
        (s1.cellArray i).lock = (s.cellArray i).lock := by
      intro i
      obtain ⟨a1, a2, a3, _, _⟩ := cell_of_strip hs1 i
      rw [a1, a2, a3]
      unfold addGainAt setCell
      by_cases hi : i = x
      · subst hi; simp
      · simp [hi]
    have hc2 : (s2.cellArray x).part = (s.cellArray x).part ∧
        (s2.cellArray x).gain = (st.cellArray x).gain := by
      obtain ⟨a1, a2, _, _, _⟩ := cell_of_strip (hs2.trans hst) x
      rw [a1, a2]
      unfold addGainAt setCell
      simp
    refine ⟨_, ⟨hL1, ?_, ?_, ?_⟩⟩
    · intro p g i
      rw [hc2.1, hc2.2, mem_cons_setBucket, hmem2, hB.mem]
      have hN : s1.cellNum = s.cellNum := by
        have := congrArg Partitioner.cellNum hg1
        exact this
      rw [hN]
      obtain ⟨c1, c2, c3⟩ := hcell i
      rw [c1, c2, c3]
      by_cases hi : i = x
      · subst hi
        have hmv : mv ≠ some (i, p) := by
          intro e1
          have := hB.moving i p e1
          rw [hlk] at this
          exact absurd this (by simp)
        simp only [if_true, hlk, true_and, ne_eq, not_true_eq_false, false_and, or_false,
          hmv, hx]
        constructor
        · rintro ⟨e1, e2⟩
          exact ⟨e2.symm, e1.symm⟩
        · rintro ⟨e2, e1⟩
          exact ⟨e1.symm, e2.symm⟩
      · simp [hi]
    · intro c f hm
      rw [(hcell c).2.2]
      exact hB.moving c f hm
    · intro p g
      have hP : s1.maxPinNum = s.maxPinNum := by
        have := congrArg Partitioner.maxPinNum hg1
        exact this
      rw [hd1, hd2, hP, hnodes.1]
      exact hB.dom p g

theorem incGain_eq (s : Partitioner) (j : Nat) : incGain s j = addGainAt s j 1 := rfl

theorem decGain_eq (s : Partitioner) (j : Nat) : decGain s j = addGainAt s j (-1) := by
  unfold decGain addGainAt setCell
  congr 1

theorem buckets_addGain_moveCell {s s1 : Partitioner} {mv : Option (Nat × Bool)}
    {B : Bool → Int → List Nat} {x : Nat} (δ : Int)
    (hB : Buckets s mv B) (hx : x < s.cellNum) (hlk : (s.cellArray x).lock = false)
    (h : moveCell (addGainAt s x δ) x = some s1) :
    ∃ B1, Buckets s1 mv B1 := by
  apply buckets_moveCell hB hx hlk _ _ h
  · have e : ((addGainAt s x δ).cellArray x).gain - (s.cellArray x).gain = δ := by
      simp [addGainAt, setCell]
    rw [e]
  · refine ⟨rfl, ?_⟩
    intro i
    unfold addGainAt setCell
    by_cases hi : i = x
    · subst hi; simp
    · simp [hi]

theorem cellNum_of_strip {s t : Partitioner} (h : strip s = strip t) :
    s.cellNum = t.cellNum :=
  (globals_netNum (globals_of_strip h)).2

/-- The loops of `updateGain` over the cells of a net keep bucket membership. -/
theorem buckets_bumpCells (test : Cell → Bool) (up : Bool)
    (htest : ∀ c : Cell, test c = true → c.lock = false)
    {mv : Option (Nat × Bool)} (l : List Nat) (s s1 : Partitioner)
    (hl : ∀ j ∈ l, j < s.cellNum) (hB : ∃ B, Buckets s mv B)
    (h : bumpCells test up l s = some s1) :
    s1.cellNum = s.cellNum ∧ ∃ B1, Buckets s1 mv B1 := by
  unfold bumpCells at h
  exact loopM_invariant _ (fun _ st => st.cellNum = s.cellNum ∧ ∃ B, Buckets st mv B)
    l s s1 ⟨rfl, hB⟩
    (by
      intro d j rest st st1 hsplit hinv hrun
      obtain ⟨hN, B, hBst⟩ := hinv
      by_cases ht : test (st.cellArray j) = true
      · rw [if_pos ht] at hrun
        have hj : j < st.cellNum := by
          rw [hN]
          apply hl
          rw [hsplit]
          simp
        have hlk := htest _ ht
        have hN1 : st1.cellNum = st.cellNum := by
          have := cellNum_of_strip (strip_moveCell hrun)
          rw [this]
          cases up <;> rfl
        refine ⟨hN1.trans hN, ?_⟩
        cases up
        · simp only [Bool.false_eq_true, if_false] at hrun
          rw [decGain_eq] at hrun
          exact buckets_addGain_moveCell _ hBst hj hlk hrun
        · simp only [if_true] at hrun
          rw [incGain_eq] at hrun
          exact buckets_addGain_moveCell _ hBst hj hlk hrun
      · rw [if_neg ht] at hrun
        simp only [Option.some.injEq] at hrun
        rw [← hrun]
        exact ⟨hN, B, hBst⟩)
    h


theorem test_all_lock : ∀ c : Cell, (fun x : Cell => !x.lock) c = true → c.lock = false := by
  intro c h
  simpa using h

theorem test_side_lock (p : Bool) :
    ∀ c : Cell, (fun x : Cell => !x.lock && x.part == p) c = true → c.lock = false := by
  intro c h
  simp only [Bool.and_eq_true, Bool.not_eq_true', beq_iff_eq] at h
  exact h.1

theorem buckets_phase {p up : Bool} {n : Nat} {s s1 : Partitioner}
    {mv : Option (Nat × Bool)}
    (hl : ∀ j ∈ (s.netArray n).cellList, j < s.cellNum) (hB : ∃ B, Buckets s mv B)
    (h : phase p up n s = some s1) :
    s1.cellNum = s.cellNum ∧ s1.netArray = s.netArray ∧ ∃ B1, Buckets s1 mv B1 := by
  have hnet : s1.netArray = s.netArray := by
    rw [strip_netArray (strip_phase h), phasePure_netArray]
  unfold phase at h
  split at h
  · obtain ⟨a, b⟩ := buckets_bumpCells _ _ test_all_lock _ _ _ hl hB h
    exact ⟨a, hnet, b⟩
  · split at h
    · obtain ⟨a, b⟩ := buckets_bumpCells _ _ (test_side_lock p) _ _ _ hl hB h
      exact ⟨a, hnet, b⟩
    · simp only [Option.some.injEq] at h
      rw [← h]
      exact ⟨rfl, rfl, hB⟩

theorem buckets_commitNet {c : Nat} {f t : Bool} {n : Nat} {s : Partitioner}
    {B : Bool → Int → List Nat} (hB : Buckets s (some (c, f)) B) :
    Buckets (commitNet c f t n s) (some (c, f)) B := by
  have hcell := commitNet_cell c f t n s
  obtain ⟨hn, hp⟩ := links_of_same_nodes (t := commitNet c f t n s) (s := s) rfl
    (fun i => (hcell i).2.2.2.2.2)
  refine ⟨linked_congr hn hp hB.linked, ?_, ?_, ?_⟩
  · intro p g i
    rw [hB.mem]
    obtain ⟨c1, c2, _, _, c5, _⟩ := hcell i
    rw [c1, c2, c5]
    have hN : (commitNet c f t n s).cellNum = s.cellNum := rfl
    rw [hN]
    by_cases hi : i = c
    · subst hi
      have hlk := hB.moving i f rfl
      simp [hlk]
    · simp [hi]
  · intro c2 f2 hm
    rw [(hcell c2).2.1]
    exact hB.moving c2 f2 hm
  · intro p g
    exact hB.dom p g

theorem buckets_updateNet {c : Nat} {f t : Bool} {n : Nat} {s s1 : Partitioner}
    (hl : ∀ j ∈ (s.netArray n).cellList, j < s.cellNum)
    (hB : ∃ B, Buckets s (some (c, f)) B)
    (h : updateNet c f t s n = some s1) :
    s1.cellNum = s.cellNum ∧ (∀ m, (s1.netArray m).cellList = (s.netArray m).cellList) ∧
    ∃ B1, Buckets s1 (some (c, f)) B1 := by
  rw [updateNet_eq] at h
  split at h
  · exact absurd h (by simp)
  · rename_i s2 h2
    obtain ⟨a1, a2, B2, a3⟩ := buckets_phase hl hB h2
    have hB3 := buckets_commitNet (t := t) (n := n) a3
    have hcl : ∀ m, ((commitNet c f t n s2).netArray m).cellList = (s.netArray m).cellList := by
      intro m
      rw [← a2]
      unfold commitNet setCell incPartCount decPartCount setNet
      by_cases hm : m = n <;> simp [hm]
    have hl3 : ∀ j ∈ ((commitNet c f t n s2).netArray n).cellList,
        j < (commitNet c f t n s2).cellNum := by
      intro j hj
      rw [hcl n] at hj
      have : (commitNet c f t n s2).cellNum = s2.cellNum := rfl
      rw [this, a1]
      exact hl j hj
    obtain ⟨b1, b2, b3⟩ := buckets_phase hl3 ⟨B2, hB3⟩ h
    refine ⟨?_, ?_, b3⟩
    · rw [b1]
      exact a1
    · intro m
      rw [b2, hcl m]

theorem buckets_startMove {s : Partitioner} {B : Bool → Int → List Nat} {c : Nat}
    (hB : Buckets s none B) (hlk : (s.cellArray c).lock = false) :
    Buckets (startMove s c) (some (c, (s.cellArray c).part)) B := by
  have hcell : ∀ i, ((startMove s c).cellArray i).node = (s.cellArray i).node ∧
      ((startMove s c).cellArray i).gain = (s.cellArray i).gain ∧
      ((startMove s c).cellArray i).part = (s.cellArray i).part ∧
      ((startMove s c).cellArray i).lock = (if i = c then true else (s.cellArray i).lock) := by
    intro i
    unfold startMove setCell
    by_cases hi : i = c <;> simp [hi]
  obtain ⟨hn, hp⟩ := links_of_same_nodes (t := startMove s c) (s := s) rfl
    (fun i => (hcell i).1)
  refine ⟨linked_congr hn hp hB.linked, ?_, ?_, ?_⟩
  · intro p g i
    rw [hB.mem]
    obtain ⟨_, c2, c3, c4⟩ := hcell i
    rw [c2, c3, c4]
    have hN : (startMove s c).cellNum = s.cellNum := rfl
    rw [hN]
    by_cases hi : i = c
    · subst hi
      simp [hlk, eq_comm]
    · have : ¬ c = i := fun e => hi e.symm
      simp [hi, this]
  · intro c2 f2 hm
    simp only [Option.some.injEq, Prod.mk.injEq] at hm
    rw [← hm.1, (hcell c).2.2.2]
    simp
  · intro p g
    exact hB.dom p g

theorem buckets_finishMove {f t : Bool} {s : Partitioner} {B : Bool → Int → List Nat}
    (hB : Buckets s none B) : Buckets (finishMove f t s) none B := by
  obtain ⟨_, a2, _, a4, a5⟩ := finishMove_arrays f t s
  have hP : (finishMove f t s).maxPinNum = s.maxPinNum := by
    unfold finishMove
    simp only
    split <;> rfl
  obtain ⟨hn, hp⟩ := links_of_same_nodes (t := finishMove f t s) (s := s) a5
    (fun i => by rw [a2])
  refine ⟨linked_congr hn hp hB.linked, ?_, ?_, ?_⟩
  · intro p g i
    rw [hB.mem, a2, a4]
  · intro c2 f2 hm
    exact absurd hm (by simp)
  · intro p g
    rw [a5, hP]
    exact hB.dom p g

/-- Bucket membership is kept by `updateGain` of an unlocked cell. -/
theorem buckets_updateGain {s s1 : Partitioner} {B : Bool → Int → List Nat} {c : Nat}
    (hwf : WellFormed s) (hB : Buckets s none B) (hc : c < s.cellNum)
    (hlk : (s.cellArray c).lock = false) (h : updateGain s c = some s1) :
    ∃ B1, Buckets s1 none B1 := by
  unfold updateGain at h
  simp only at h
  split at h
  · exact absurd h (by simp)
  · rename_i s3 h3
    split at h
    · exact absurd h (by simp)
    · rename_i s4 h4
      simp only [Option.some.injEq] at h
      rw [startMove_netList] at h3
      have key := loopM_invariant (updateNet c (s.cellArray c).part (!(s.cellArray c).part))
        (fun _ st => st.cellNum = s.cellNum ∧
          (∀ m, (st.netArray m).cellList = (s.netArray m).cellList) ∧
          ∃ B1, Buckets st (some (c, (s.cellArray c).part)) B1)
        (s.cellArray c).netList (startMove s c) s3
        ⟨rfl, fun _ => rfl, B, buckets_startMove hB hlk⟩
        (by
          intro d i rest st st1 hsplit hinv hrun
          obtain ⟨a1, a2, a3⟩ := hinv
          have hi : i ∈ (s.cellArray c).netList := by rw [hsplit]; simp
          have hi2 : i < s.netNum := (hwf.1 c hc).2 i hi
          have hl : ∀ j ∈ (st.netArray i).cellList, j < st.cellNum := by
            intro j hj
            rw [a2 i] at hj
            rw [a1]
            exact hwf.2.1 i hi2 j hj
          obtain ⟨b1, b2, b3⟩ := buckets_updateNet hl a3 hrun
          exact ⟨b1.trans a1, fun m => (b2 m).trans (a2 m), b3⟩)
        h3
      obtain ⟨a1, _, B3, hB3⟩ := key
      have hcB : c ∈ B3 (s.cellArray c).part (s3.cellArray c).gain :=
        (hB3.mem _ _ c).mpr ⟨by rw [a1]; exact hc, rfl, Or.inr rfl⟩
      obtain ⟨hL4, hd4⟩ := linked_remove hB3.linked hcB h4
      have hs4 := strip_removeCell h4
      have hmem4 := mem_erase_setBucket hB3.linked.nodup hB3.linked.apart hcB
      have hB4 : Buckets s4 none (setBucket B3 (s.cellArray c).part (s3.cellArray c).gain
          ((B3 (s.cellArray c).part (s3.cellArray c).gain).erase c)) := by
        refine ⟨hL4, ?_, ?_, ?_⟩
        · intro p g i
          rw [hmem4, hB3.mem]
          obtain ⟨c1, c2, c3, _, _⟩ := cell_of_strip hs4 i
          rw [c1, c2, c3, cellNum_of_strip hs4]
          by_cases hi : i = c
          · subst hi
            have := hB3.moving i _ rfl
            simp [this]
          · have : ¬ c = i := fun e => hi e.symm
            simp [hi, this]
        · intro c2 f2 hm
          exact absurd hm (by simp)
        · intro p g
          have hP : s4.maxPinNum = s3.maxPinNum := by
            have := congrArg Partitioner.maxPinNum (globals_of_strip hs4)
            exact this
          rw [hd4, hP]
          exact hB3.dom p g
      rw [← h]
      exact ⟨_, buckets_finishMove hB4⟩


theorem maxPin_congr (l : List Nat) :
    ∀ (s t : Partitioner), s.cellArray = t.cellArray → s.maxPinNum = t.maxPinNum →
      (loop (fun (st : Partitioner) i =>
        if (st.cellArray i).pinNum > st.maxPinNum then
          { st with maxPinNum := (st.cellArray i).pinNum }
        else st) l s).maxPinNum =
      (loop (fun (st : Partitioner) i =>
        if (st.cellArray i).pinNum > st.maxPinNum then
          { st with maxPinNum := (st.cellArray i).pinNum }
        else st) l t).maxPinNum := by
  induction l with
  | nil => intro s t _ h2; exact h2
  | cons i l ih =>
    intro s t h1 h2
    simp only [loop]
    by_cases hgt : (t.cellArray i).pinNum > t.maxPinNum
    · have hgs : (s.cellArray i).pinNum > s.maxPinNum := by rw [h1, h2]; exact hgt
      rw [if_pos hgt, if_pos hgs]
      exact ih _ _ h1 (by simp only [h1])
    · have hgs : ¬ (s.cellArray i).pinNum > s.maxPinNum := by rw [h1, h2]; exact hgt
      rw [if_neg hgt, if_neg hgs]
      exact ih _ _ h1 h2

theorem buildBList_eq (s : Partitioner) :
    buildBList s =
      loopM insertCell (List.range s.cellNum)
        { s with
          maxPinNum := (countMaxPinNum s).maxPinNum,
          bList := fun _ g =>
            if -(countMaxPinNum s).maxPinNum ≤ g ∧ g ≤ (countMaxPinNum s).maxPinNum then
              some { prev := none, next := none }
            else none } := by
  unfold buildBList
  simp only
  have e0 : (countMaxPinNum { s with bList := fun _ _ => none }).maxPinNum =
      (countMaxPinNum s).maxPinNum := by
    unfold countMaxPinNum
    exact maxPin_congr _ _ _ rfl rfl
  have e1 : countMaxPinNum { s with bList := fun _ _ => none } =
      { s with bList := fun _ _ => none, maxPinNum := (countMaxPinNum s).maxPinNum } := by
    rw [countMaxPinNum_eq, e0]
  rw [e1]

/-- Bucket membership after `buildBList`, when every cell is unlocked. -/
theorem buckets_buildBList {s s1 : Partitioner}
    (hlk : ∀ i, i < s.cellNum → (s.cellArray i).lock = false)
    (h : buildBList s = some s1) : ∃ B, Buckets s1 none B := by
  rw [buildBList_eq] at h
  have key := loopM_invariant insertCell
    (fun d st => strip st = strip { s with maxPinNum := (countMaxPinNum s).maxPinNum } ∧
      st.cellNum = s.cellNum ∧
      st.maxPinNum = (countMaxPinNum s).maxPinNum ∧
      (∀ p g, (st.bList p g).isSome = true ↔
        (-(countMaxPinNum s).maxPinNum ≤ g ∧ g ≤ (countMaxPinNum s).maxPinNum)) ∧
      ∃ B, Linked st B ∧
        ∀ p g i, i ∈ B p g ↔ i ∈ d ∧ (s.cellArray i).gain = g ∧ (s.cellArray i).part = p)
    (List.range s.cellNum) _ s1
    (by
      refine ⟨rfl, rfl, rfl, ?_, fun _ _ => [], ⟨?_, ?_, ?_⟩, ?_⟩
      · intro p g
        by_cases hg : -(countMaxPinNum s).maxPinNum ≤ g ∧ g ≤ (countMaxPinNum s).maxPinNum
        · simp [hg]
        · simp only [hg, if_false, Option.isSome_none, Bool.false_eq_true]
      · intro p g
        unfold Threads
        simp only [Seg, nextOf, getNode]
        split
        · rename_i n hn
          split at hn
          · simp only [Option.some.injEq] at hn
            rw [← hn]
          · exact absurd hn (by simp)
        · rfl
      · intro p g
        exact List.nodup_nil
      · intro p g q h2 i hi
        exact absurd hi (List.not_mem_nil i)
      · intro p g i
        simp)
    (by
      intro d i rest st st1 hsplit hinv hrun
      obtain ⟨a1, a2, a3, a4, B, hL, hmem⟩ := hinv
      have hid : i ∉ d := by
        intro hm
        have hnd := List.nodup_range s.cellNum
        rw [hsplit] at hnd
        exact (List.nodup_append.mp hnd).2.2 hm (List.mem_cons_self i rest)
      have hiB : ∀ p g, i ∉ B p g := fun p g hm => hid ((hmem p g i).mp hm).1
      obtain ⟨hL1, _, hd1⟩ := linked_insert hL hiB hrun
      have hs1 := (strip_insertCell hrun).trans a1
      obtain ⟨c1, c2, _, _, _⟩ := cell_of_strip a1 i
      refine ⟨hs1, (cellNum_of_strip (strip_insertCell hrun)).trans a2, ?_, ?_, _, hL1, ?_⟩
      · have := congrArg Partitioner.maxPinNum (globals_of_strip (strip_insertCell hrun))
        exact Eq.trans this a3
      · intro p g
        rw [hd1]
        exact a4 p g
      · intro p g j
        rw [mem_cons_setBucket, hmem, c1, c2]
        simp only [List.mem_append, List.mem_singleton]
        constructor
        · rintro (⟨e1, e2, e3⟩ | ⟨e1, e2, e3⟩)
          · subst e1
            exact ⟨Or.inr rfl, e3.symm, e2.symm⟩
          · exact ⟨Or.inl e1, e2, e3⟩
        · rintro ⟨e1 | e1, e2, e3⟩
          · exact Or.inr ⟨e1, e2, e3⟩
          · subst e1
            exact Or.inl ⟨rfl, e3.symm, e2.symm⟩)
    h
  obtain ⟨a1, a2, a3, a4, B, hL, hmem⟩ := key
  refine ⟨B, hL, ?_, ?_, ?_⟩
  · intro p g i
    rw [hmem, a2]
    obtain ⟨c1, c2, c3, _, _⟩ := cell_of_strip a1 i
    rw [c1, c2, c3, List.mem_range]
    constructor
    · rintro ⟨e1, e2, e3⟩
      exact ⟨e1, e2, Or.inl ⟨hlk i e1, e3⟩⟩
    · rintro ⟨e1, e2, e3 | e3⟩
      · exact ⟨e1, e2, e3.2⟩
      · exact absurd e3 (by simp)
  · intro c f hm
    exact absurd hm (by simp)
  · intro p g
    rw [a3]
    exact a4 p g

/-- Bucket membership at the start of a pass. -/
theorem buckets_initPass {s s1 : Partitioner} (h : initPass s = some s1) :
    ∃ B, Buckets s1 none B := by
  unfold initPass at h
  simp only at h
  rw [resetLoop_eq] at h
  split at h
  · exact absurd h (by simp)
  · rename_i s2 h2
    simp only [Option.some.injEq] at h
    have hlk : ∀ i, i < (initGain (resetCells s)).cellNum →
        ((initGain (resetCells s)).cellArray i).lock = false := by
      intro i hi
      rw [(initGain_fields (resetCells s)).2.1] at hi
      rw [(initGain_cell (resetCells s) i).2.1]
      exact ((resetCells_cell s i).2.2.2 hi).1
    obtain ⟨B, hB⟩ := buckets_buildBList hlk h2
    refine ⟨B, ?_⟩
    rw [← h]
    obtain ⟨hn, hp⟩ := links_of_same_nodes
      (t := { s2 with accGain := 0, maxAccGain := 0, moveNum := 0, bestMoveNum := 0,
                      moveStack := [] }) (s := s2) rfl (fun _ => rfl)
    exact ⟨linked_congr hn hp hB.linked, hB.mem, hB.moving, hB.dom⟩


theorem buckets_nextMove {s : Partitioner} {B : Bool → Int → List Nat}
    (hB : Buckets s none B) : Buckets (nextMove s) none B := by
  obtain ⟨hn, hp⟩ := links_of_same_nodes (t := nextMove s) (s := s) rfl (fun _ => rfl)
  exact ⟨linked_congr hn hp hB.linked, hB.mem, hB.moving, hB.dom⟩

theorem updateGain_wellFormed {s s1 : Partitioner} {c : Nat} (hwf : WellFormed s)
    (h : updateGain s c = some s1) : WellFormed s1 := by
  obtain ⟨h1, h2, h3, _, h5, _⟩ := updateGain_data h
  exact wellFormed_congr h2 h1 h5 h3 hwf

/-- Bucket membership is kept by a run of moves of distinct unlocked cells. -/
theorem moveCells_buckets (cs : List Nat) (s s1 : Partitioner)
    (hwf : WellFormed s) (hB : ∃ B, Buckets s none B) (hnd : cs.Nodup)
    (hcs : ∀ c ∈ cs, c < s.cellNum ∧ (s.cellArray c).lock = false)
    (h : moveCells cs s = some s1) :
    WellFormed s1 ∧ s1.cellNum = s.cellNum ∧
    (∀ x, (s1.cellArray x).lock = (if x ∈ cs then true else (s.cellArray x).lock)) ∧
    ∃ B1, Buckets s1 none B1 := by
  exact loopM_invariant
    (fun st c =>
      match updateGain st c with
      | none => none
      | some t => some (nextMove t))
    (fun d st => WellFormed st ∧ st.cellNum = s.cellNum ∧
      (∀ x, (st.cellArray x).lock = (if x ∈ d then true else (s.cellArray x).lock)) ∧
      ∃ B1, Buckets st none B1)
    cs s s1 ⟨hwf, rfl, fun _ => by simp, hB⟩
    (by
      intro d i rest st st1 hl hinv hrun
      obtain ⟨a1, a2, a3, B, a4⟩ := hinv
      simp only at hrun
      split at hrun
      · exact absurd hrun (by simp)
      · rename_i t ht
        simp only [Option.some.injEq] at hrun
        have himem : i ∈ cs := by rw [hl]; simp
        have hid : i ∉ d := by
          intro hmem
          rw [hl] at hnd
          exact (List.nodup_append.mp hnd).2.2 hmem (List.mem_cons_self i rest)
        have hi : i < st.cellNum := by rw [a2]; exact (hcs i himem).1
        have hlk : (st.cellArray i).lock = false := by
          rw [a3 i, if_neg hid]
          exact (hcs i himem).2
        obtain ⟨B1, hB1⟩ := buckets_updateGain a1 a4 hi hlk ht
        obtain ⟨_, d2, _, d4, _⟩ := updateGain_data ht
        have hwt : WellFormed t := updateGain_wellFormed a1 ht
        rw [← hrun]
        refine ⟨hwt, d2.trans a2, ?_, B1, buckets_nextMove hB1⟩
        intro x
        have e : ((nextMove t).cellArray x).lock = (t.cellArray x).lock := rfl
        rw [e, d4 x, a3 x]
        by_cases hx : x = i
        · subst hx
          simp
        · simp [hx])
    h

/-! ## One iteration of the move loop -/


theorem scanDown_head (s : Partitioner) (p : Bool) :
    ∀ (n : Nat) (g : Int) (i : Nat), scanDown s p n g = some i →
      ∃ g1, nextOf s (.dummy p g1) = some (.cell i) := by
  intro n
  induction n with
  | zero =>
    intro g i h
    simp [scanDown] at h
  | succ n ih =>
    intro g i h
    simp only [scanDown] at h
    split at h
    · split at h
      · exact absurd h (by simp)
      · rename_i head hhead
        split at h
        · exact ih _ _ h
        · rename_i j hj
          simp only [Option.some.injEq] at h
          subst h
          exact ⟨g, by simp [nextOf, getNode, hhead, hj]⟩
        · exact absurd h (by simp)
    · exact absurd h (by simp)

/-- The cell that `findMaxGainCell(p)` returns is the head of a bucket list of
side `p`: an unlocked cell of the circuit on side `p`. -/
theorem findMaxGainCell_mem {s : Partitioner} {B : Bool → Int → List Nat} {p : Bool}
    {i : Nat} (hB : Buckets s none B) (h : findMaxGainCell s p = some i) :
    i < s.cellNum ∧ (s.cellArray i).lock = false ∧ (s.cellArray i).part = p := by
  obtain ⟨g, hg⟩ := scanDown_head s p _ _ i h
  have hseg := hB.linked.threads p g
  unfold Threads at hseg
  rcases seg_head _ _ hseg with h5 | ⟨j, hj, h5⟩
  · rw [h5] at hg
    exact absurd hg (by simp)
  · rw [h5] at hg
    have e : j = i := by simpa using hg
    subst e
    obtain ⟨a1, _, a3⟩ := (hB.mem p g j).mp hj
    rcases a3 with a3 | a3
    · exact ⟨a1, a3.1, a3.2⟩
    · exact absurd a3 (by simp)

/-- What one iteration of the move loop does: it stops without touching the
state, or it commits `updateGain` for an unlocked cell of a side on which the
balance test succeeds. -/
theorem moveStep_cases {s s1 : Partitioner} {run : Bool} {B : Bool → Int → List Nat}
    (hB : Buckets s none B) (h : moveStep s = some (s1, run)) :
    (run = false ∧ s1 = s) ∨
    (run = true ∧ ∃ c, c < s.cellNum ∧ (s.cellArray c).lock = false ∧
      admissible s (s.cellArray c).part = true ∧ updateGain s c = some s1) := by
  have key : ∀ (p : Bool) (c : Nat), findMaxGainCell s p = some c → admissible s p = true →
      (updateGain s c).map (fun t => (t, true)) = some (s1, run) →
      (run = true ∧ ∃ c, c < s.cellNum ∧ (s.cellArray c).lock = false ∧
        admissible s (s.cellArray c).part = true ∧ updateGain s c = some s1) := by
    intro p c hf ha hu
    obtain ⟨a1, a2, a3⟩ := findMaxGainCell_mem hB hf
    cases hug : updateGain s c with
    | none =>
      rw [hug] at hu
      exact absurd hu (by simp)
    | some t =>
      rw [hug] at hu
      simp only [Option.map, Option.some.injEq, Prod.mk.injEq] at hu
      refine ⟨hu.2.symm, c, a1, a2, by rw [a3]; exact ha, by rw [← hu.1]; exact hug⟩
  have stop : some (s, false) = some (s1, run) → (run = false ∧ s1 = s) := by
    intro e
    simp only [Option.some.injEq, Prod.mk.injEq] at e
    exact ⟨e.2.symm, e.1.symm⟩
  unfold moveStep at h
  split at h
  · split at h
    · exact absurd h (by simp)
    · rename_i c hc
      split at h
      · rename_i ha
        exact Or.inr (key true c hc ha h)
      · exact Or.inl (stop h)
  · split at h
    · split at h
      · exact absurd h (by simp)
      · rename_i c hc
        split at h
        · rename_i ha
          exact Or.inr (key false c hc ha h)
        · exact Or.inl (stop h)
    · split at h
      · exact absurd h (by simp)
      · rename_i cA hA
        split at h
        · exact absurd h (by simp)
        · rename_i cB hB2
          split at h
          · split at h
            · rename_i ha
              exact Or.inr (key false cA hA ha h)
            · split at h
              · rename_i ha
                exact Or.inr (key true cB hB2 ha h)
              · exact Or.inl (stop h)
          · split at h
            · rename_i ha
              exact Or.inr (key true cB hB2 ha h)
            · split at h
              · rename_i ha
                exact Or.inr (key false cA hA ha h)
              · exact Or.inl (stop h)

/-! ## The invariant of the move loop -/


theorem sum_map_congr_mem (l : List Nat) (a b : Nat → Int) (h : ∀ x ∈ l, a x = b x) :
    (l.map a).sum = (l.map b).sum := by
  induction l with
  | nil => rfl
  | cons x l ih =>
    simp only [List.map_cons, List.sum_cons]
    rw [h x (List.mem_cons_self x l), ih (fun y hy => h y (List.mem_cons_of_mem x hy))]

theorem admissible_eq (s : Partitioner) (p : Bool) :
    admissible s p = admits s (s.partSize p - s.partSize (!p) - 2) := rfl

theorem admits_neg (s : Partitioner) (d : Int) : admits s (-d) = admits s d := by
  unfold admits
  rw [abs_neg]

theorem admits_congr {s t : Partitioner} (h2 : t.bNum = s.bNum) (h3 : t.bDen = s.bDen)
    (h4 : t.cellNum = s.cellNum) (d : Int) : admits t d = admits s d := by
  unfold admits Partitioner.bFactor
  rw [h2, h3, h4]

/-- One committed move keeps the invariant of the move loop. -/
theorem passInv_move {s0 st t : Partitioner} {c : Nat} (hinv : PassInv s0 st)
    (hc : c < st.cellNum) (hlk : (st.cellArray c).lock = false)
    (hadm : admissible st (st.cellArray c).part = true)
    (h : updateGain st c = some t) : PassInv s0 (nextMove t) := by
  obtain ⟨B, hB⟩ := hinv.buckets
  obtain ⟨B1, hB1⟩ := buckets_updateGain hinv.wf hB hc hlk h
  obtain ⟨g1, g2, g3, g4, g5, _, _, g8, g9, g10, _, g12, g13⟩ := updateGain_globals h
  obtain ⟨d1, d2, _, d4, _, d6, d7, _, _⟩ := updateGain_data h
  rw [if_neg (hinv.wf.1 c hc).1] at d7
  have hcs : c ∉ st.moveStack := by
    intro hm
    have := (hinv.locked c hm).2
    rw [hlk] at this
    exact absurd this (by simp)
  have hdiff : sizeDiff t = sizeDiff st + (if (st.cellArray c).part then 2 else -2) := by
    unfold sizeDiff
    cases hp : (st.cellArray c).part
    · rw [hp] at g4 g5
      simp only [Bool.not_false] at g5
      rw [g4, g5]
      simp
      ring
    · rw [hp] at g4 g5
      simp only [Bool.not_true] at g5
      rw [g4, g5]
      simp
      ring
  have hwt : WellFormed t := updateGain_wellFormed hinv.wf h
  refine ⟨hwt, ⟨B1, buckets_nextMove hB1⟩, ?_, ?_, ?_, ?_, ?_, ?_, ?_, ?_⟩
  · exact ⟨g8.trans hinv.consts.1, g9.trans hinv.consts.2.1, d2.trans hinv.consts.2.2.1,
      d1.trans hinv.consts.2.2.2.1, g10.trans hinv.consts.2.2.2.2⟩
  · show t.moveNum + 1 = t.moveStack.length
    rw [g3, g2, hinv.moveNum]
    simp
  · show t.moveStack.Nodup
    rw [g2]
    exact List.nodup_append.mpr ⟨hinv.nodup, List.nodup_singleton c,
      fun x hx hx2 => hcs (by rw [← List.mem_singleton.mp hx2]; exact hx)⟩
  · show ∀ x ∈ t.moveStack, x < t.cellNum ∧ (t.cellArray x).lock = true
    intro x hx
    rw [g2] at hx
    rw [d2, d4 x]
    rcases List.mem_append.mp hx with hx1 | hx1
    · obtain ⟨a1, a2⟩ := hinv.locked x hx1
      refine ⟨a1, ?_⟩
      by_cases hxc : x = c
      · simp [hxc]
      · simp [hxc, a2]
    · have hxc : x = c := List.mem_singleton.mp hx1
      subst hxc
      exact ⟨hc, by simp⟩
  · show t.maxAccGain > 0 → t.bestMoveNum < t.moveStack.length
    intro hpos
    rw [g13, g2]
    simp only [List.length_append, List.length_singleton]
    by_cases hgt : t.accGain > st.maxAccGain
    · rw [if_pos hgt, hinv.moveNum]
      omega
    · rw [if_neg hgt]
      rw [g12, max_eq_left (le_of_not_lt hgt)] at hpos
      have := hinv.best hpos
      omega
  · show ∀ j, 1 ≤ j → j ≤ t.moveStack.length →
      admits t (undoDiff t (t.moveStack.drop j)) = true
    intro j hj1 hj2
    rw [g2] at hj2 ⊢
    simp only [List.length_append, List.length_singleton] at hj2
    rw [admits_congr g8 g9 d2]
    by_cases hj3 : j ≤ st.moveStack.length
    · rw [List.drop_append_of_le_length hj3]
      have e : undoDiff t (st.moveStack.drop j ++ [c]) = undoDiff st (st.moveStack.drop j) := by
        unfold undoDiff
        rw [hdiff, List.map_append, List.sum_append]
        have e1 : ((st.moveStack.drop j).map fun x =>
            if (t.cellArray x).part then (1 : Int) else -1).sum =
            ((st.moveStack.drop j).map fun x =>
            if (st.cellArray x).part then (1 : Int) else -1).sum := by
          apply sum_map_congr_mem
          intro x hx
          have hxc : x ≠ c := fun e => hcs (by rw [← e]; exact List.mem_of_mem_drop hx)
          rw [d6 x hxc]
        rw [e1]
        simp only [List.map_cons, List.map_nil, List.sum_cons, List.sum_nil, d7]
        cases (st.cellArray c).part <;> simp <;> ring
      rw [e]
      exact hinv.window j hj1 hj3
    · have hj4 : j = st.moveStack.length + 1 := by omega
      have e : (st.moveStack ++ [c]).drop j = [] := by
        apply List.drop_eq_nil_of_le
        simp only [List.length_append, List.length_singleton]
        omega
      rw [e]
      unfold undoDiff
      simp only [List.map_nil, List.sum_nil, mul_zero, add_zero]
      rw [hdiff]
      have hadm2 := hadm
      rw [admissible_eq] at hadm2
      unfold sizeDiff
      cases hp : (st.cellArray c).part
      · rw [hp] at hadm2
        simp only [Bool.not_false] at hadm2
        have e2 : st.partSize false - st.partSize true + (if false = true then 2 else -2) =
            st.partSize false - st.partSize true - 2 := by simp; ring
        rw [e2]
        exact hadm2
      · rw [hp] at hadm2
        simp only [Bool.not_true] at hadm2
        have e2 : st.partSize false - st.partSize true + (if true = true then 2 else -2) =
            -(st.partSize true - st.partSize false - 2) := by simp; ring
        rw [e2, admits_neg]
        exact hadm2
  · show t.partSize false + t.partSize true = _
    rw [← hinv.sum]
    cases hp : (st.cellArray c).part
    · rw [hp] at g4 g5
      simp only [Bool.not_false] at g5
      rw [g4, g5]
      ring
    · rw [hp] at g4 g5
      simp only [Bool.not_true] at g5
      rw [g4, g5]
      ring
  · show t.moveStack = [] → _
    intro hnil
    rw [g2] at hnil
    exact absurd hnil (by simp)

/-! ## The end of the move loop and the rollback -/


theorem passInv_start {g s1 : Partitioner} (hwf : WellFormed g) (h : initPass g = some s1) :
    PassInv s1 s1 := by
  obtain ⟨h1, h2, h3, _, _, _, h7, h8, _, h10, _, _, _, h14, _⟩ := initPass_data h
  have hwf1 : WellFormed s1 :=
    wellFormed_congr h2 h3 (fun x => (h14 x).2.1) (fun n => by rw [h1]) hwf
  refine ⟨hwf1, buckets_initPass h, ⟨rfl, rfl, rfl, rfl, rfl⟩, ?_, ?_, ?_, ?_, ?_, rfl,
    fun _ => rfl⟩
  · rw [h8, h10]; rfl
  · rw [h10]; exact List.nodup_nil
  · intro x hx
    rw [h10] at hx
    exact absurd hx (List.not_mem_nil x)
  · intro hpos
    rw [h7] at hpos
    exact absurd hpos (by simp)
  · intro j hj1 hj2
    rw [h10] at hj2
    simp at hj2
    omega

/-- The move loop ends in a state that satisfies the invariant, up to the
`++_moveNum` of an iteration that committed no move. -/
theorem moveLoop_passInv {s0 : Partitioner} :
    ∀ (k : Nat) (st s2 : Partitioner), PassInv s0 st → moveLoop k st = some s2 →
      ∃ st1, PassInv s0 st1 ∧ (s2 = st1 ∨ s2 = nextMove st1) := by
  intro k
  induction k with
  | zero =>
    intro st s2 hinv h
    simp only [moveLoop, Option.some.injEq] at h
    exact ⟨st, hinv, Or.inl h.symm⟩
  | succ k ih =>
    intro st s2 hinv h
    simp only [moveLoop] at h
    split at h
    · split at h
      · exact absurd h (by simp)
      · rename_i s1 run hstep
        obtain ⟨B, hB⟩ := hinv.buckets
        rcases moveStep_cases hB hstep with ⟨hr, he⟩ | ⟨hr, c, hc, hlk, hadm, hu⟩
        · subst hr
          subst he
          simp only [Bool.false_eq_true, if_false, Option.some.injEq] at h
          exact ⟨s1, hinv, Or.inr h.symm⟩
        · subst hr
          simp only [if_true] at h
          exact ih _ _ (passInv_move hinv hc hlk hadm hu) h
    · simp only [Option.some.injEq] at h
      exact ⟨st, hinv, Or.inl h.symm⟩

/-- The first loop of `recover2Best` on distinct cells, in closed form for the
side sizes. -/
theorem flipBack_loop (l : List Nat) :
    ∀ (s : Partitioner), l.Nodup →
      sizeDiff (loop flipBack l s) = undoDiff s l ∧
      (loop flipBack l s).partSize false + (loop flipBack l s).partSize true =
        s.partSize false + s.partSize true ∧
      (loop flipBack l s).bNum = s.bNum ∧ (loop flipBack l s).bDen = s.bDen ∧
      (loop flipBack l s).cellNum = s.cellNum ∧ (loop flipBack l s).netNum = s.netNum ∧
      (loop flipBack l s).iterNum = s.iterNum ∧
      (loop flipBack l s).maxAccGain = s.maxAccGain := by
  induction l with
  | nil =>
    intro s _
    simp [loop, undoDiff]
  | cons c l ih =>
    intro s hnd
    obtain ⟨hc, hnd2⟩ := List.nodup_cons.mp hnd
    simp only [loop]
    obtain ⟨a1, a2, a3, a4, a5, a6, a7, a8⟩ := ih (flipBack s c) hnd2
    have hpart : ∀ x ∈ l, ((flipBack s c).cellArray x).part = (s.cellArray x).part := by
      intro x hx
      have hxc : x ≠ c := fun e => hc (by rw [← e]; exact hx)
      simp [flipBack, setCell, hxc]
    have hd : sizeDiff (flipBack s c) =
        sizeDiff s + 2 * (if (s.cellArray c).part then (1 : Int) else -1) := by
      unfold sizeDiff flipBack setCell setAt
      cases (s.cellArray c).part <;> simp <;> ring
    have hs : (flipBack s c).partSize false + (flipBack s c).partSize true =
        s.partSize false + s.partSize true := by
      unfold flipBack setCell setAt
      cases (s.cellArray c).part <;> simp
    refine ⟨?_, a2.trans hs, a3, a4, a5, a6, a7, a8⟩
    rw [a1]
    unfold undoDiff
    rw [hd, sum_map_congr_mem l _ _ (fun x hx => by rw [hpart x hx])]
    simp only [List.map_cons, List.sum_cons]
    ring

theorem recount_fields (s : Partitioner) (n : Nat) :
    (recount s n).partSize = s.partSize ∧ (recount s n).bNum = s.bNum ∧
    (recount s n).bDen = s.bDen ∧ (recount s n).cellNum = s.cellNum ∧
    (recount s n).netNum = s.netNum ∧ (recount s n).iterNum = s.iterNum ∧
    (recount s n).maxAccGain = s.maxAccGain := by
  unfold recount
  simp only
  exact loop_invariant (fun st j => incPartCount st n (st.cellArray j).part)
    (fun _ st => st.partSize = s.partSize ∧ st.bNum = s.bNum ∧ st.bDen = s.bDen ∧
      st.cellNum = s.cellNum ∧ st.netNum = s.netNum ∧ st.iterNum = s.iterNum ∧
      st.maxAccGain = s.maxAccGain)
    _ _ ⟨rfl, rfl, rfl, rfl, rfl, rfl, rfl⟩
    (fun _ _ _ _ _ hinv => hinv)

theorem recountLoop_fields (l : List Nat) (s : Partitioner) :
    (loop recount l s).partSize = s.partSize ∧ (loop recount l s).bNum = s.bNum ∧
    (loop recount l s).bDen = s.bDen ∧ (loop recount l s).cellNum = s.cellNum ∧
    (loop recount l s).netNum = s.netNum ∧ (loop recount l s).iterNum = s.iterNum ∧
    (loop recount l s).maxAccGain = s.maxAccGain :=
  loop_invariant recount
    (fun _ st => st.partSize = s.partSize ∧ st.bNum = s.bNum ∧ st.bDen = s.bDen ∧
      st.cellNum = s.cellNum ∧ st.netNum = s.netNum ∧ st.iterNum = s.iterNum ∧
      st.maxAccGain = s.maxAccGain)
    l s ⟨rfl, rfl, rfl, rfl, rfl, rfl, rfl⟩
    (fun _ i _ st _ hinv => by
      obtain ⟨a1, a2, a3, a4, a5, a6, a7⟩ := recount_fields st i
      obtain ⟨b1, b2, b3, b4, b5, b6, b7⟩ := hinv
      exact ⟨a1.trans b1, a2.trans b2, a3.trans b3, a4.trans b4, a5.trans b5, a6.trans b6,
        a7.trans b7⟩)

/-! ## The seed and the repair loop -/


theorem sameGraph_refl (p : Partitioner) : SameGraph p p :=
  ⟨rfl, rfl, rfl, rfl, rfl, fun _ => rfl, fun _ => rfl⟩

theorem sameGraph_trans {p s t : Partitioner} (h1 : SameGraph p s) (h2 : SameGraph s t) :
    SameGraph p t :=
  ⟨h2.bNum.trans h1.bNum, h2.bDen.trans h1.bDen, h2.cellNum.trans h1.cellNum,
    h2.netNum.trans h1.netNum, h2.iterNum.trans h1.iterNum,
    fun x => (h2.netList x).trans (h1.netList x),
    fun n => (h2.cellList n).trans (h1.cellList n)⟩

theorem sameGraph_wellFormed {p s : Partitioner} (h : SameGraph p s) (hp : WellFormed p) :
    WellFormed s :=
  wellFormed_congr h.cellNum h.netNum h.netList h.cellList hp

theorem sameGraph_incPartCount (s : Partitioner) (n : Nat) (b : Bool) :
    SameGraph s (incPartCount s n b) ∧ (incPartCount s n b).partSize = s.partSize ∧
      (incPartCount s n b).cellArray = s.cellArray := by
  refine ⟨⟨rfl, rfl, rfl, rfl, rfl, fun _ => rfl, fun m => ?_⟩, rfl, rfl⟩
  unfold incPartCount setNet
  simp only
  split
  · rename_i e; rw [e]
  · rfl

theorem sameGraph_incLoop (b : Bool) (l : List Nat) (s : Partitioner) :
    SameGraph s (loop (fun st n => incPartCount st n b) l s) ∧
      (loop (fun st n => incPartCount st n b) l s).partSize = s.partSize ∧
      (loop (fun st n => incPartCount st n b) l s).cellArray = s.cellArray :=
  loop_invariant (fun st n => incPartCount st n b)
    (fun _ st => SameGraph s st ∧ st.partSize = s.partSize ∧ st.cellArray = s.cellArray)
    l s ⟨sameGraph_refl s, rfl, rfl⟩
    (fun _ i _ st _ hinv => by
      obtain ⟨a1, a2, a3⟩ := sameGraph_incPartCount st i b
      exact ⟨sameGraph_trans hinv.1 a1, a2.trans hinv.2.1, a3.trans hinv.2.2⟩)

/-- The seeding loop keeps the hypergraph and puts every cell it visits on one
of the two sides. -/
theorem seedLoop_data (l : List Nat) :
    ∀ (s s1 : Partitioner) (part : Bool) (tmpNet : Nat),
      seedLoop l s part tmpNet = some s1 →
      SameGraph s s1 ∧
      s1.partSize false + s1.partSize true = s.partSize false + s.partSize true + l.length := by
  induction l with
  | nil =>
    intro s s1 part tmpNet h
    simp only [seedLoop, Option.some.injEq] at h
    subst h
    exact ⟨sameGraph_refl s, by simp⟩
  | cons i l ih =>
    intro s s1 part tmpNet h
    simp only [seedLoop] at h
    split at h
    · exact absurd h (by simp)
    · rename_i firstNet hfirst
      obtain ⟨a1, a2⟩ := ih _ _ _ _ h
      generalize hp : (if firstNet = tmpNet then part else !part) = part1 at a1 a2
      obtain ⟨b1, b2, b3⟩ := sameGraph_incLoop part1
        (({ setCell s i fun x => { x with part := part1 } with
            partSize := setAt (setCell s i fun x => { x with part := part1 }).partSize part1
              ((setCell s i fun x => { x with part := part1 }).partSize part1 + 1) }
            : Partitioner).cellArray i).netList
        { setCell s i fun x => { x with part := part1 } with
            partSize := setAt (setCell s i fun x => { x with part := part1 }).partSize part1
              ((setCell s i fun x => { x with part := part1 }).partSize part1 + 1) }
      have c1 : SameGraph s
          { setCell s i fun x => { x with part := part1 } with
            partSize := setAt (setCell s i fun x => { x with part := part1 }).partSize part1
              ((setCell s i fun x => { x with part := part1 }).partSize part1 + 1) } := by
        refine ⟨rfl, rfl, rfl, rfl, rfl, fun x => ?_, fun _ => rfl⟩
        simp only [setCell]
        split
        · rename_i e; rw [e]
        · rfl
      refine ⟨sameGraph_trans (sameGraph_trans c1 b1) a1, ?_⟩
      rw [a2, b2]
      simp only [setCell, setAt, List.length_cons]
      cases part1 <;> simp <;> ring

theorem reBalanceLoop_data (b : Bool) (l : List Nat) :
    ∀ (s : Partitioner) (diff : Int),
      SameGraph s (reBalanceLoop b l s diff) ∧
      (reBalanceLoop b l s diff).partSize false + (reBalanceLoop b l s diff).partSize true =
        s.partSize false + s.partSize true := by
  induction l with
  | nil =>
    intro s diff
    exact ⟨sameGraph_refl s, rfl⟩
  | cons i l ih =>
    intro s diff
    simp only [reBalanceLoop]
    have c1 : SameGraph s
        { setCell s i fun x => { x with part := !b } with
          partSize := setAt (setAt s.partSize (!b) (s.partSize (!b) + 1)) b
            (setAt s.partSize (!b) (s.partSize (!b) + 1) b - 1) } := by
      refine ⟨rfl, rfl, rfl, rfl, rfl, fun x => ?_, fun _ => rfl⟩
      simp only [setCell]
      split
      · rename_i e; rw [e]
      · rfl
    have c2 : setAt (setAt s.partSize (!b) (s.partSize (!b) + 1)) b
            (setAt s.partSize (!b) (s.partSize (!b) + 1) b - 1) false +
          setAt (setAt s.partSize (!b) (s.partSize (!b) + 1)) b
            (setAt s.partSize (!b) (s.partSize (!b) + 1) b - 1) true =
          s.partSize false + s.partSize true := by
      simp only [setAt]
      cases b <;> simp
    split
    · split
      · exact ⟨c1, c2⟩
      · obtain ⟨a1, a2⟩ := ih
          { setCell s i fun x => { x with part := !b } with
            partSize := setAt (setAt s.partSize (!b) (s.partSize (!b) + 1)) b
              (setAt s.partSize (!b) (s.partSize (!b) + 1) b - 1) } (diff - 2)
        exact ⟨sameGraph_trans c1 a1, a2.trans c2⟩
    · exact ih s diff

theorem reBalance_data (s : Partitioner) :
    SameGraph s (reBalance s) ∧
      (reBalance s).partSize false + (reBalance s).partSize true =
        s.partSize false + s.partSize true :=
  reBalanceLoop_data _ _ s _

/-- The repair loop ends only in a state that `checkBalance` accepts. -/
theorem repairLoop_data (fuel : Nat) :
    ∀ (s s1 : Partitioner), repairLoop fuel s = some s1 →
      checkBalance s1 = true ∧ SameGraph s s1 ∧
      s1.partSize false + s1.partSize true = s.partSize false + s.partSize true := by
  induction fuel with
  | zero =>
    intro s s1 h
    simp only [repairLoop] at h
    split at h
    · rename_i hb
      simp only [Option.some.injEq] at h
      subst h
      exact ⟨hb, sameGraph_refl s, rfl⟩
    · exact absurd h (by simp)
  | succ fuel ih =>
    intro s s1 h
    simp only [repairLoop] at h
    split at h
    · rename_i hb
      simp only [Option.some.injEq] at h
      subst h
      exact ⟨hb, sameGraph_refl s, rfl⟩
    · obtain ⟨a1, a2, a3⟩ := ih _ _ h
      obtain ⟨b1, b2⟩ := reBalance_data s
      exact ⟨a1, sameGraph_trans b1 a2, a3.trans b2⟩

/-! ## The initial partition -/


theorem sameGraph_of_strip {a b : Partitioner} (h : strip a = strip b) :
    SameGraph b a ∧ a.partSize = b.partSize := by
  obtain ⟨_, _, _, g4, _, g6, g7, g8, _, _, _, _⟩ := globals_fields (globals_of_strip h)
  have e1 := congrArg Partitioner.cellNum h
  have e2 := congrArg Partitioner.netNum h
  have e3 := strip_netArray h
  exact ⟨⟨g6, g7, e1, e2, g8, fun x => (cell_of_strip h x).2.2.2.1, fun n => by rw [e3]⟩, g4⟩

theorem sameGraph_initGain (s : Partitioner) :
    SameGraph s (initGain s) ∧ (initGain s).partSize = s.partSize := by
  obtain ⟨f1, f2, f3, f4, _, _, _, _, _, _, f11, f12, f13, _⟩ := initGain_fields s
  exact ⟨⟨f11, f12, f2, f3, f13, fun x => (initGain_cell s x).2.2.1, fun n => by rw [f1]⟩, f4⟩

theorem sameGraph_buildBList {s s1 : Partitioner} (h : buildBList s = some s1) :
    SameGraph s s1 ∧ s1.partSize = s.partSize := by
  obtain ⟨a1, a2⟩ := sameGraph_of_strip (strip_buildBList h)
  exact ⟨⟨a1.bNum, a1.bDen, a1.cellNum, a1.netNum, a1.iterNum, a1.netList, a1.cellList⟩, a2⟩

theorem sameGraph_countCutSize (s : Partitioner) :
    SameGraph s (countCutSize s) ∧ (countCutSize s).partSize = s.partSize ∧
      (countCutSize s).cellArray = s.cellArray ∧
      (countCutSize s).maxAccGain = s.maxAccGain := by
  rw [countCutSize_eq]
  exact ⟨⟨rfl, rfl, rfl, rfl, rfl, fun _ => rfl, fun _ => rfl⟩, rfl, rfl, rfl⟩

theorem checkBalance_congr {s t : Partitioner} (h1 : t.partSize = s.partSize)
    (h2 : t.bNum = s.bNum) (h3 : t.bDen = s.bDen) (h4 : t.cellNum = s.cellNum) :
    checkBalance t = checkBalance s := by
  unfold checkBalance Partitioner.bFactor
  rw [h1, h2, h3, h4]

/-- The initial partition: when `genInitPartition` returns, the state passes
`checkBalance`, holds the parsed hypergraph, and its two side sizes add up to
the number of cells. -/
theorem genInitPartition_data {fuel : Nat} {p g : Partitioner}
    (h0 : p.partSize false = 0 ∧ p.partSize true = 0)
    (h : genInitPartition fuel p = some g) :
    checkBalance g = true ∧ SameGraph p g ∧
      g.partSize false + g.partSize true = p.cellNum := by
  unfold genInitPartition at h
  split at h
  · exact absurd h (by simp)
  split at h
  · exact absurd h (by simp)
  rename_i tmpNet _
  split at h
  · exact absurd h (by simp)
  rename_i s1 hseed
  split at h
  · exact absurd h (by simp)
  rename_i s2 hrep
  split at h
  · exact absurd h (by simp)
  rename_i s3 hbuild
  simp only [Option.some.injEq] at h
  obtain ⟨a1, a2⟩ := seedLoop_data _ _ _ _ _ hseed
  obtain ⟨b1, b2, b3⟩ := repairLoop_data _ _ _ hrep
  obtain ⟨c1, c2⟩ := sameGraph_initGain s2
  obtain ⟨d1, d2⟩ := sameGraph_buildBList hbuild
  obtain ⟨e1, e2, _, _⟩ := sameGraph_countCutSize s3
  rw [h] at e1 e2
  have hg : SameGraph s2 g := sameGraph_trans (sameGraph_trans c1 d1) e1
  have hsz : g.partSize = s2.partSize := e2.trans (d2.trans c2)
  refine ⟨?_, sameGraph_trans (sameGraph_trans a1 b2) hg, ?_⟩
  · rw [checkBalance_congr hsz hg.bNum hg.bDen hg.cellNum]
    exact b1
  · rw [hsz, b3, a2, h0.1, h0.2]
    simp

/-! ## Balance of one pass -/


theorem undoDiff_reverse (s : Partitioner) (l : List Nat) :
    undoDiff s l.reverse = undoDiff s l := by
  unfold undoDiff
  rw [List.map_reverse, List.sum_reverse]

theorem undoDiff_congr {s t : Partitioner} (h1 : t.partSize = s.partSize)
    (h2 : t.cellArray = s.cellArray) (l : List Nat) : undoDiff t l = undoDiff s l := by
  unfold undoDiff sizeDiff
  rw [h1, h2]

theorem sizeDiff_congr {s t : Partitioner} (h1 : t.partSize = s.partSize) :
    sizeDiff t = sizeDiff s := by
  unfold sizeDiff
  rw [h1]

/-- One pass keeps the balance: `FMAlgorithm` returns a state with the side
sizes it started from, or with a size difference that passed the balance test
of the move loop, with the same constants and the same total of the two side
sizes. -/
theorem FMAlgorithm_balance {g s1 : Partitioner} (hwf : WellFormed g)
    (h : FMAlgorithm g = some s1) :
    (s1.partSize = g.partSize ∨ admits s1 (sizeDiff s1) = true) ∧
      s1.bNum = g.bNum ∧ s1.bDen = g.bDen ∧ s1.cellNum = g.cellNum ∧
      s1.partSize false + s1.partSize true = g.partSize false + g.partSize true := by
  unfold FMAlgorithm at h
  split at h
  · exact absurd h (by simp)
  rename_i p1 hinit
  split at h
  · exact absurd h (by simp)
  rename_i s2 hloop
  obtain ⟨_, i2, _, i4, _, _, _, _, _, _, i11, i12, _, _, _⟩ := initPass_data hinit
  obtain ⟨st, hinv, hst⟩ := moveLoop_passInv _ _ _ (passInv_start hwf hinit) hloop
  have hf : s2.partSize = st.partSize ∧ s2.cellArray = st.cellArray ∧
      s2.moveStack = st.moveStack ∧ s2.bNum = st.bNum ∧ s2.bDen = st.bDen ∧
      s2.cellNum = st.cellNum ∧ s2.maxAccGain = st.maxAccGain ∧
      s2.bestMoveNum = st.bestMoveNum := by
    rcases hst with e | e <;> rw [e] <;> exact ⟨rfl, rfl, rfl, rfl, rfl, rfl, rfl, rfl⟩
  obtain ⟨f1, f2, f3, f4, f5, f6, f7, f8⟩ := hf
  obtain ⟨k1, k2, k3, _, _⟩ := hinv.consts
  have hsum : s2.partSize false + s2.partSize true = g.partSize false + g.partSize true := by
    rw [f1, hinv.sum, i4]
  split at h
  · rename_i hpos
    split at h
    · exact absurd h (by simp)
    rename_i s3 hrec
    simp only [Option.some.injEq] at h
    unfold recover2Best at hrec
    simp only at hrec
    split at hrec
    · exact absurd hrec (by simp)
    simp only [Option.some.injEq] at hrec
    have hnd : ((s2.moveStack.drop (s2.bestMoveNum + 1)).reverse).Nodup := by
      rw [List.nodup_reverse, f3]
      exact List.Nodup.sublist (List.drop_sublist _ _) hinv.nodup
    obtain ⟨a1, a2, a3, a4, a5, _, _, _⟩ := flipBack_loop _
      { s2 with iterNum := s2.iterNum + 1, moveNum := s2.bestMoveNum } hnd
    obtain ⟨b1, b2, b3, b4, _, _, _⟩ := recountLoop_fields
      (List.range (loop flipBack (s2.moveStack.drop (s2.bestMoveNum + 1)).reverse
        { s2 with iterNum := s2.iterNum + 1, moveNum := s2.bestMoveNum }).netNum)
      (loop flipBack (s2.moveStack.drop (s2.bestMoveNum + 1)).reverse
        { s2 with iterNum := s2.iterNum + 1, moveNum := s2.bestMoveNum })
    rw [hrec] at b1 b2 b3 b4
    obtain ⟨c1, c2, _, _⟩ := sameGraph_countCutSize s3
    rw [h] at c1 c2
    have hpos2 : st.maxAccGain > 0 := by rw [← f7]; exact hpos
    have hbest := hinv.best hpos2
    have hw := hinv.window (st.bestMoveNum + 1) (by omega) (by omega)
    have hd : sizeDiff s1 = undoDiff st (st.moveStack.drop (st.bestMoveNum + 1)) := by
      rw [sizeDiff_congr (c2.trans b1), a1, undoDiff_reverse, f3, f8]
      exact undoDiff_congr f1 f2 _
    have e1 : s1.bNum = st.bNum := c1.bNum.trans (b2.trans (a3.trans f4))
    have e2 : s1.bDen = st.bDen := c1.bDen.trans (b3.trans (a4.trans f5))
    have e3 : s1.cellNum = st.cellNum := c1.cellNum.trans (b4.trans (a5.trans f6))
    refine ⟨Or.inr ?_, e1.trans (k1.trans i11), e2.trans (k2.trans i12),
      e3.trans (k3.trans i2), ?_⟩
    · rw [hd, admits_congr e1 e2 e3]
      exact hw
    · rw [c2, b1, a2]
      exact hsum
  · simp only [Option.some.injEq] at h
    obtain ⟨c1, c2, _, _⟩ := sameGraph_countCutSize s2
    rw [h] at c1 c2
    have e1 : s1.bNum = st.bNum := c1.bNum.trans f4
    have e2 : s1.bDen = st.bDen := c1.bDen.trans f5
    have e3 : s1.cellNum = st.cellNum := c1.cellNum.trans f6
    refine ⟨?_, e1.trans (k1.trans i11), e2.trans (k2.trans i12), e3.trans (k3.trans i2), ?_⟩
    · by_cases hemp : st.moveStack = []
      · exact Or.inl ((c2.trans f1).trans ((hinv.fresh hemp).trans i4))
      · have hlen : 1 ≤ st.moveStack.length := by
          cases hm : st.moveStack with
          | nil => exact absurd hm hemp
          | cons a l => simp
        have hw := hinv.window st.moveStack.length hlen (le_refl _)
        rw [List.drop_length] at hw
        simp only [undoDiff, List.map_nil, List.sum_nil, mul_zero, add_zero] at hw
        refine Or.inr ?_
        rw [sizeDiff_congr (c2.trans f1), admits_congr e1 e2 e3]
        exact hw
    · rw [c2]
      exact hsum
/-! ## The balance tests -/


/-- The test of `checkBalance` looks at the two side sizes in either order. -/
theorem checkBalance_swap {s t : Partitioner} (h0 : t.partSize false = s.partSize true)
    (h1 : t.partSize true = s.partSize false) (h2 : t.bNum = s.bNum) (h3 : t.bDen = s.bDen)
    (h4 : t.cellNum = s.cellNum) : checkBalance t = checkBalance s := by
  unfold checkBalance Partitioner.bFactor
  rw [h0, h1, h2, h3, h4]
  by_cases hA : Dbl.lt (Dbl.ofInt (s.partSize false))
      (Dbl.mul (Dbl.div (Dbl.sub (Dbl.ofInt 1) (roundDbl s.bNum s.bDen.toNat)) (Dbl.ofInt 2))
        (Dbl.ofInt s.cellNum)) = true <;>
  by_cases hB : Dbl.lt (Dbl.mul (Dbl.div (Dbl.add (Dbl.ofInt 1) (roundDbl s.bNum s.bDen.toNat))
      (Dbl.ofInt 2)) (Dbl.ofInt s.cellNum)) (Dbl.ofInt (s.partSize false)) = true <;>
  by_cases hC : Dbl.lt (Dbl.ofInt (s.partSize true))
      (Dbl.mul (Dbl.div (Dbl.sub (Dbl.ofInt 1) (roundDbl s.bNum s.bDen.toNat)) (Dbl.ofInt 2))
        (Dbl.ofInt s.cellNum)) = true <;>
  by_cases hD : Dbl.lt (Dbl.mul (Dbl.div (Dbl.add (Dbl.ofInt 1) (roundDbl s.bNum s.bDen.toNat))
      (Dbl.ofInt 2)) (Dbl.ofInt s.cellNum)) (Dbl.ofInt (s.partSize true)) = true <;>
  simp [hA, hB, hC, hD]

/-- Balance of the result of `partition` from any well-formed state with empty
sides: `genInitPartition` returned a state that `checkBalance` accepts, and the
final sizes are the sizes of that state or have a difference that passed the
balance test of the move loop. -/
theorem partition_balance {fuel : Nat} {p s1 : Partitioner} (hwf : WellFormed p)
    (h0 : p.partSize false = 0 ∧ p.partSize true = 0)
    (h : partition fuel p = some s1) :
    (∃ g, genInitPartition fuel p = some g ∧ checkBalance g = true ∧
      (s1.partSize = g.partSize ∨ admits s1 (sizeDiff s1) = true)) ∧
      s1.bNum = p.bNum ∧ s1.bDen = p.bDen ∧ s1.cellNum = p.cellNum ∧
      s1.partSize false + s1.partSize true = s1.cellNum := by
  unfold partition at h
  split at h
  · exact absurd h (by simp)
  rename_i g hg
  obtain ⟨a1, a2, a3⟩ := genInitPartition_data h0 hg
  rw [← a2.cellNum] at a3
  obtain ⟨b1, b2, b3, b4, b5⟩ := FMAlgorithm_balance (sameGraph_wellFormed a2 hwf) h
  refine ⟨⟨g, hg, a1, b1⟩, b2.trans a2.bNum, b3.trans a2.bDen, b4.trans a2.cellNum, ?_⟩
  rw [b5, a3, b4]


/-- A move committed under the balance test of the move loop leaves a size
difference that passes the test `abs(d) < _bFactor * _cellNum`. -/
theorem updateGain_admits {st t : Partitioner} {c : Nat}
    (hadm : admissible st (st.cellArray c).part = true)
    (h : updateGain st c = some t) : admits t (sizeDiff t) = true := by
  obtain ⟨_, _, _, g4, g5, _, _, g8, g9, _, _, _, _⟩ := updateGain_globals h
  obtain ⟨_, d2, _⟩ := updateGain_data h
  rw [admissible_eq] at hadm
  rw [admits_congr g8 g9 d2]
  unfold sizeDiff
  cases hp : (st.cellArray c).part
  · rw [hp] at g4 g5 hadm
    simp only [Bool.not_false] at g5 hadm
    rw [g4, g5]
    have e : st.partSize false - 1 - (st.partSize true + 1) =
        st.partSize false - st.partSize true - 2 := by ring
    rw [e]
    exact hadm
  · rw [hp] at g4 g5 hadm
    simp only [Bool.not_true] at g5 hadm
    rw [g4, g5]
    have e : st.partSize false + 1 - (st.partSize true - 1) =
        -(st.partSize true - st.partSize false - 2) := by ring
    rw [e, admits_neg]
    exact hadm


/-! ## The parser builds a well-formed hypergraph -/


theorem addPin_netList (s : Partitioner) (c n x : Nat) :
    ((addPin s c n).cellArray x).netList =
      if x = c then (s.cellArray c).netList ++ [n] else (s.cellArray x).netList := by
  unfold addPin setNet setCell
  simp only
  split <;> rfl

theorem addPin_cellList (s : Partitioner) (c n m : Nat) :
    ((addPin s c n).netArray m).cellList =
      if m = n then (s.netArray n).cellList ++ [c] else (s.netArray m).cellList := by
  unfold addPin setNet setCell
  simp only
  split <;> rfl

theorem addPin_listed {s : Partitioner} {C K c n : Nat} (h : Listed s C K)
    (hc : c < C) (hn : n < K) : Listed (addPin s c n) C K := by
  refine ⟨?_, ?_, ?_⟩
  · intro x hx m hm
    rw [addPin_netList] at hm
    split at hm
    · rename_i e
      rcases List.mem_append.mp hm with h1 | h1
      · exact h.nets c hc m h1
      · rw [List.mem_singleton.mp h1]; exact hn
    · exact h.nets x hx m hm
  · intro m hm x hx
    rw [addPin_cellList] at hx
    split at hx
    · rcases List.mem_append.mp hx with h1 | h1
      · exact h.cells n hn x h1
      · rw [List.mem_singleton.mp h1]; exact hc
    · exact h.cells m hm x hx
  · intro x hx m hm
    rw [addPin_netList, addPin_cellList]
    by_cases e1 : x = c
    · by_cases e2 : m = n
      · rw [if_pos e1, if_pos e2, e1, e2]
        simp only [List.count_append, List.count_singleton]
        rw [h.agree c hc n hn]
        simp
      · rw [if_pos e1, if_neg e2, e1]
        simp only [List.count_append, List.count_singleton]
        rw [h.agree c hc m hm]
        have : (n == m) = false := by simp; exact fun e => e2 e.symm
        simp [this]
    · by_cases e2 : m = n
      · rw [if_neg e1, if_pos e2, e2]
        simp only [List.count_append, List.count_singleton]
        rw [h.agree x hx n hn]
        have : (c == x) = false := by simp; exact fun e => e1 e.symm
        simp [this]
      · rw [if_neg e1, if_neg e2]
        exact h.agree x hx m hm

theorem count_eq_zero_of_lt (l : List Nat) (b x : Nat) (h : ∀ y ∈ l, y < b) (hx : b ≤ x) :
    l.count x = 0 :=
  List.count_eq_zero.mpr fun hm => absurd (h x hm) (by omega)

/-- One cell name of a `NET` statement keeps the parse invariant. -/
theorem parseCell_inv (netId : Nat) (s : Partitioner) (name : String)
    (h : ParseInv s (netId + 1)) :
    ParseInv (parseCell netId s name) (netId + 1) ∧
      (parseCell netId s name).netNum = s.netNum ∧
      (parseCell netId s name).bNum = s.bNum ∧
      (parseCell netId s name).bDen = s.bDen ∧
      (parseCell netId s name).partSize = s.partSize := by
  unfold parseCell
  split
  · rename_i hlook
    simp only
    refine ⟨?_, rfl, rfl, rfl, rfl⟩
    have hl1 : Listed
        { s with
          cellArray := fun j => if j = s.cellNum then Cell.new false else s.cellArray j,
          cellName2Id := (name, s.cellNum) :: s.cellName2Id }
        (s.cellNum + 1) (netId + 1) := by
      refine ⟨?_, ?_, ?_⟩
      · intro c hc n hn
        simp only at hn
        split at hn
        · exact absurd hn (by simp [Cell.new])
        · rename_i e
          exact h.listed.nets c (by omega) n hn
      · intro n hn c hc
        exact Nat.lt_succ_of_lt (h.listed.cells n hn c hc)
      · intro c hc n hn
        simp only
        split
        · rename_i e
          rw [e, count_eq_zero_of_lt _ s.cellNum s.cellNum (h.listed.cells n hn) (le_refl _)]
          simp [Cell.new]
        · rename_i e
          exact h.listed.agree c (by omega) n hn
    have hl2 := addPin_listed hl1 (Nat.lt_succ_self s.cellNum) (Nat.lt_succ_self netId)
    refine ⟨?_, ?_, ?_⟩
    · exact ⟨hl2.nets, hl2.cells, hl2.agree⟩
    · intro c hc
      show ((addPin _ s.cellNum netId).cellArray c).netList ≠ []
      rw [addPin_netList]
      split
      · simp
      · rename_i e
        simp only
        rw [if_neg e]
        have hc2 : c < s.cellNum + 1 := hc
        exact h.nonempty c (by omega)
    · intro nm id hid
      show id < s.cellNum + 1
      have hid2 : lookupName ((name, s.cellNum) :: s.cellName2Id) nm = some id := hid
      simp only [lookupName] at hid2
      split at hid2
      · simp only [Option.some.injEq] at hid2
        omega
      · exact Nat.lt_succ_of_lt (h.names nm id hid2)
  · rename_i cellId hlook
    refine ⟨?_, rfl, rfl, rfl, rfl⟩
    have hc := h.names name cellId hlook
    have hl2 := addPin_listed h.listed hc (Nat.lt_succ_self netId)
    refine ⟨?_, ?_, ?_⟩
    · exact ⟨hl2.nets, hl2.cells, hl2.agree⟩
    · intro c hc2
      rw [addPin_netList]
      split
      · simp
      · exact h.nonempty c hc2
    · exact h.names

theorem parseCells_inv (netId : Nat) (names : List String) :
    ∀ (s : Partitioner), ParseInv s (netId + 1) →
      ParseInv (names.foldl (parseCell netId) s) (netId + 1) ∧
      (names.foldl (parseCell netId) s).netNum = s.netNum ∧
      (names.foldl (parseCell netId) s).bNum = s.bNum ∧
      (names.foldl (parseCell netId) s).bDen = s.bDen ∧
      (names.foldl (parseCell netId) s).partSize = s.partSize := by
  induction names with
  | nil =>
    intro s h
    exact ⟨h, rfl, rfl, rfl, rfl⟩
  | cons a l ih =>
    intro s h
    simp only [List.foldl_cons]
    obtain ⟨a1, a2, a3, a4, a5⟩ := parseCell_inv netId s a h
    obtain ⟨b1, b2, b3, b4, b5⟩ := ih _ a1
    exact ⟨b1, b2.trans a2, b3.trans a3, b4.trans a4, b5.trans a5⟩

/-- One `NET` statement keeps the parse invariant. -/
theorem parseNet_inv (s : Partitioner) (stmt : String × List String)
    (h : ParseInv s s.netNum) :
    ParseInv (parseNet s stmt) (parseNet s stmt).netNum ∧
      (parseNet s stmt).bNum = s.bNum ∧ (parseNet s stmt).bDen = s.bDen ∧
      (parseNet s stmt).partSize = s.partSize := by
  have h1 : ParseInv
      { s with
        netArray := fun m => if m = s.netNum then Net.new else s.netArray m,
        netName2Id := (stmt.1, s.netNum) :: s.netName2Id } (s.netNum + 1) := by
    refine ⟨⟨?_, ?_, ?_⟩, h.nonempty, h.names⟩
    · intro c hc n hn
      exact Nat.lt_succ_of_lt (h.listed.nets c hc n hn)
    · intro n hn c hc
      simp only at hc
      split at hc
      · exact absurd hc (by simp [Net.new])
      · exact h.listed.cells n (by omega) c hc
    · intro c hc n hn
      simp only
      split
      · rename_i e
        have hc2 : c < s.cellNum := hc
        rw [e, count_eq_zero_of_lt _ s.netNum s.netNum (h.listed.nets c hc2) (le_refl _)]
        simp [Net.new]
      · exact h.listed.agree c hc n (by omega)
  obtain ⟨a1, a2, a3, a4, a5⟩ := parseCells_inv s.netNum stmt.2 _ h1
  unfold parseNet
  simp only
  refine ⟨?_, a3, a4, a5⟩
  rw [a2]
  exact ⟨⟨a1.listed.nets, a1.listed.cells, a1.listed.agree⟩, a1.nonempty, a1.names⟩

theorem parseNets_inv (stmts : List (String × List String)) :
    ∀ (s : Partitioner), ParseInv s s.netNum →
      ParseInv (stmts.foldl parseNet s) (stmts.foldl parseNet s).netNum ∧
      (stmts.foldl parseNet s).bNum = s.bNum ∧ (stmts.foldl parseNet s).bDen = s.bDen ∧
      (stmts.foldl parseNet s).partSize = s.partSize := by
  induction stmts with
  | nil =>
    intro s h
    exact ⟨h, rfl, rfl, rfl⟩
  | cons a l ih =>
    intro s h
    simp only [List.foldl_cons]
    obtain ⟨a1, a2, a3, a4⟩ := parseNet_inv s a h
    obtain ⟨b1, b2, b3, b4⟩ := ih _ a1
    exact ⟨b1, b2.trans a2, b3.trans a3, b4.trans a4⟩

/-- Every state that `parseInput` builds is a well-formed hypergraph with the
given balance factor and two empty sides. -/
theorem parseInput_wellFormed (bNum bDen : Int) (stmts : List (String × List String)) :
    WellFormed (parseInput bNum bDen stmts) ∧
      (parseInput bNum bDen stmts).bNum = bNum ∧
      (parseInput bNum bDen stmts).bDen = bDen ∧
      (parseInput bNum bDen stmts).partSize false = 0 ∧
      (parseInput bNum bDen stmts).partSize true = 0 := by
  have h0 : ParseInv { Partitioner.new with bNum := bNum, bDen := bDen }
      ({ Partitioner.new with bNum := bNum, bDen := bDen } : Partitioner).netNum := by
    refine ⟨⟨?_, ?_, ?_⟩, ?_, ?_⟩
    · intro c hc
      exact absurd hc (Nat.not_lt_zero c)
    · intro n hn
      exact absurd hn (Nat.not_lt_zero n)
    · intro c hc
      exact absurd hc (Nat.not_lt_zero c)
    · intro c hc
      exact absurd hc (Nat.not_lt_zero c)
    · intro nm id hid
      simp [Partitioner.new, lookupName] at hid
  obtain ⟨a1, a2, a3, a4⟩ := parseNets_inv stmts _ h0
  unfold parseInput
  refine ⟨⟨fun c hc => ⟨a1.nonempty c hc, a1.listed.nets c hc⟩, a1.listed.cells,
    a1.listed.agree⟩, a2, a3, ?_, ?_⟩
  · rw [a4]; rfl
  · rw [a4]; rfl

/-! ## The pass counter -/


theorem parseCell_iterNum (netId : Nat) (s : Partitioner) (name : String) :
    (parseCell netId s name).iterNum = s.iterNum := by
  unfold parseCell
  split <;> rfl

theorem parseCells_iterNum (netId : Nat) (names : List String) :
    ∀ (s : Partitioner), (names.foldl (parseCell netId) s).iterNum = s.iterNum := by
  induction names with
  | nil => intro s; rfl
  | cons a l ih =>
    intro s
    simp only [List.foldl_cons]
    rw [ih, parseCell_iterNum]

theorem parseNets_iterNum (stmts : List (String × List String)) :
    ∀ (s : Partitioner), (stmts.foldl parseNet s).iterNum = s.iterNum := by
  induction stmts with
  | nil => intro s; rfl
  | cons a l ih =>
    intro s
    simp only [List.foldl_cons]
    rw [ih]
    unfold parseNet
    simp only
    rw [parseCells_iterNum]

theorem parseInput_iterNum (bNum bDen : Int) (stmts : List (String × List String)) :
    (parseInput bNum bDen stmts).iterNum = 0 := by
  unfold parseInput
  rw [parseNets_iterNum]
  rfl

/-- One call of `FMAlgorithm` runs one pass: `_iterNum` grows by one when the
pass recorded a positive `_maxAccGain` and stays as it is otherwise. -/
theorem FMAlgorithm_iterNum {g s1 : Partitioner} (hwf : WellFormed g)
    (h : FMAlgorithm g = some s1) :
    s1.iterNum = g.iterNum + (if s1.maxAccGain > 0 then 1 else 0) := by
  unfold FMAlgorithm at h
  split at h
  · exact absurd h (by simp)
  rename_i p1 hinit
  split at h
  · exact absurd h (by simp)
  rename_i s2 hloop
  obtain ⟨_, _, _, _, _, _, _, _, _, _, _, _, i13, _, _⟩ := initPass_data hinit
  obtain ⟨st, hinv, hst⟩ := moveLoop_passInv _ _ _ (passInv_start hwf hinit) hloop
  have hf : s2.iterNum = st.iterNum := by
    rcases hst with e | e
    · rw [e]
    · rw [e]; rfl
  obtain ⟨_, _, _, _, k5⟩ := hinv.consts
  split at h
  · rename_i hpos
    split at h
    · exact absurd h (by simp)
    rename_i s3 hrec
    simp only [Option.some.injEq] at h
    unfold recover2Best at hrec
    simp only at hrec
    split at hrec
    · exact absurd hrec (by simp)
    simp only [Option.some.injEq] at hrec
    have hnd : ((s2.moveStack.drop (s2.bestMoveNum + 1)).reverse).Nodup := by
      have e : s2.moveStack = st.moveStack := by
        rcases hst with e | e
        · rw [e]
        · rw [e]; rfl
      rw [List.nodup_reverse, e]
      exact List.Nodup.sublist (List.drop_sublist _ _) hinv.nodup
    obtain ⟨_, _, _, _, _, _, a7, a8⟩ := flipBack_loop _
      { s2 with iterNum := s2.iterNum + 1, moveNum := s2.bestMoveNum } hnd
    obtain ⟨_, _, _, _, _, b6, b7⟩ := recountLoop_fields
      (List.range (loop flipBack (s2.moveStack.drop (s2.bestMoveNum + 1)).reverse
        { s2 with iterNum := s2.iterNum + 1, moveNum := s2.bestMoveNum }).netNum)
      (loop flipBack (s2.moveStack.drop (s2.bestMoveNum + 1)).reverse
        { s2 with iterNum := s2.iterNum + 1, moveNum := s2.bestMoveNum })
    rw [hrec] at b6 b7
    obtain ⟨c1, _, _, c4⟩ := sameGraph_countCutSize s3
    rw [h] at c1 c4
    have hm : s1.maxAccGain = s2.maxAccGain := c4.trans (b7.trans a8)
    have hi : s1.iterNum = s2.iterNum + 1 := c1.iterNum.trans (b6.trans a7)
    rw [hi, hm, if_pos hpos, hf, k5, i13]
  · rename_i hpos
    simp only [Option.some.injEq] at h
    obtain ⟨c1, _, _, c4⟩ := sameGraph_countCutSize s2
    rw [h] at c1 c4
    rw [c1.iterNum, c4, if_neg hpos, hf, k5, i13]
    rfl

/-! ## The head of each iteration of the move loop -/


/-- Unfolding the loop: what is left of the move loop at the head of iteration
`k` is the loop from there. -/
theorem moveLoop_loopHead (k : Nat) :
    ∀ (m : Nat) (s st : Partitioner), loopHead k s = some st →
      moveLoop (k + m) s = moveLoop m st := by
  induction k with
  | zero =>
    intro m s st h
    simp only [loopHead, Option.some.injEq] at h
    rw [h, Nat.zero_add]
  | succ k ih =>
    intro m s st h
    simp only [loopHead] at h
    split at h
    · rename_i hlt
      split at h
      · rename_i s1 hstep
        rw [Nat.succ_add]
        simp only [moveLoop, if_pos hlt, hstep, if_true]
        exact ih m _ _ h
      · exact absurd h (by simp)
    · exact absurd h (by simp)

/-- The invariant of the move loop holds at the head of every iteration. -/
theorem loopHead_passInv {s0 : Partitioner} (k : Nat) :
    ∀ (s st : Partitioner), PassInv s0 s → loopHead k s = some st → PassInv s0 st := by
  induction k with
  | zero =>
    intro s st hinv h
    simp only [loopHead, Option.some.injEq] at h
    rw [← h]; exact hinv
  | succ k ih =>
    intro s st hinv h
    simp only [loopHead] at h
    split at h
    · split at h
      · rename_i s1 hstep
        obtain ⟨B, hB⟩ := hinv.buckets
        rcases moveStep_cases hB hstep with ⟨hr, _⟩ | ⟨_, c, hc, hlk, hadm, hu⟩
        · exact absurd hr (by simp)
        · exact ih _ _ (passInv_move hinv hc hlk hadm hu) h
      · exact absurd h (by simp)
    · exact absurd h (by simp)

theorem nodup_length_le (l : List Nat) (n : Nat) (hnd : l.Nodup) (h : ∀ x ∈ l, x < n) :
    l.length ≤ n := by
  have hsub : l ⊆ List.range n := fun x hx => List.mem_range.mpr (h x hx)
  have := (List.subperm_of_subset hnd hsub).length_le
  simpa using this

/-! ## The scan of `findMaxGainCell` -/


/-- A bucket list that holds a cell belongs to a dummy that exists. -/
theorem bucket_dom_of_ne_nil {s : Partitioner} {B : Bool → Int → List Nat} {p : Bool} {g : Int}
    (hB : Buckets s none B) (hne : B p g ≠ []) :
    -s.maxPinNum ≤ g ∧ g ≤ s.maxPinNum := by
  apply (hB.dom p g).mp
  have hseg := hB.linked.threads p g
  unfold Threads at hseg
  cases hl : B p g with
  | nil => exact absurd hl hne
  | cons i rest =>
    rw [hl] at hseg
    simp only [Seg, nextOf, getNode] at hseg
    cases hb : s.bList p g with
    | none =>
      rw [hb] at hseg
      exact absurd hseg.1 (by simp)
    | some n => rfl

/-- The downward scan stops at the highest bucket of the side that is not
empty and returns the head of its list. -/
theorem scanDown_find {s : Partitioner} {B : Bool → Int → List Nat} {p : Bool}
    (hB : Buckets s none B) (gx : Int) (hne : B p gx ≠ []) :
    ∀ (n : Nat) (g : Int), gx ≤ g → g ≤ s.maxPinNum → g - gx < n →
      (∀ g1, g < g1 → B p g1 = []) →
      ∃ c rest, scanDown s p n g = some c ∧ B p (s.cellArray c).gain = c :: rest ∧
        ∀ g1, (s.cellArray c).gain < g1 → B p g1 = [] := by
  have hgx := bucket_dom_of_ne_nil hB hne
  intro n
  induction n with
  | zero =>
    intro g h1 _ h3 _
    have : g - gx < 0 := by exact_mod_cast h3
    omega
  | succ n ih =>
    intro g h1 h2 h3 h4
    have hge : g ≥ -s.maxPinNum := by omega
    have hdom : (s.bList p g).isSome = true := (hB.dom p g).mpr ⟨hge, h2⟩
    obtain ⟨head, hhead⟩ := Option.isSome_iff_exists.mp hdom
    have hnext : nextOf s (.dummy p g) = head.next := by
      simp only [nextOf, getNode, hhead]
    have hseg := hB.linked.threads p g
    unfold Threads at hseg
    simp only [scanDown, if_pos hge, hhead]
    cases hl : B p g with
    | nil =>
      rw [hl] at hseg
      simp only [Seg] at hseg
      rw [hnext] at hseg
      rw [hseg]
      simp only
      have hne2 : g ≠ gx := fun e => hne (by rw [← e]; exact hl)
      have h3i : g - gx < (n : Int) + 1 := by exact_mod_cast h3
      refine ih (g - 1) (by omega) (by omega) (by omega) ?_
      intro g1 hg1
      by_cases e : g1 = g
      · rw [e]; exact hl
      · exact h4 g1 (by omega)
    | cons i rest =>
      rw [hl] at hseg
      simp only [Seg] at hseg
      rw [hnext] at hseg
      rw [hseg.1]
      simp only
      have hi : i ∈ B p g := by rw [hl]; exact List.mem_cons_self i rest
      have hgi : (s.cellArray i).gain = g := ((hB.mem p g i).mp hi).2.1
      refine ⟨i, rest, rfl, ?_, ?_⟩
      · rw [hgi]; exact hl
      · rw [hgi]; exact h4

/-- On a side that has an unlocked cell `findMaxGainCell` returns the head of
the highest non-empty bucket, an unlocked cell of that side whose gain is at
least the gain of every unlocked cell of the side. -/
theorem findMaxGainCell_max {s : Partitioner} {B : Bool → Int → List Nat} {p : Bool} {x : Nat}
    (hB : Buckets s none B) (hx : x < s.cellNum) (hlk : (s.cellArray x).lock = false)
    (hp : (s.cellArray x).part = p) :
    ∃ c rest, findMaxGainCell s p = some c ∧ B p (s.cellArray c).gain = c :: rest ∧
      (∀ g1, (s.cellArray c).gain < g1 → B p g1 = []) ∧
      (-s.maxPinNum ≤ (s.cellArray c).gain ∧ (s.cellArray c).gain ≤ s.maxPinNum) ∧
      c < s.cellNum ∧ (s.cellArray c).lock = false ∧ (s.cellArray c).part = p ∧
      ∀ y, y < s.cellNum → (s.cellArray y).lock = false → (s.cellArray y).part = p →
        (s.cellArray y).gain ≤ (s.cellArray c).gain := by
  have hxB : x ∈ B p (s.cellArray x).gain := (hB.mem _ _ x).mpr ⟨hx, rfl, Or.inl ⟨hlk, hp⟩⟩
  have hne : B p (s.cellArray x).gain ≠ [] := fun e => by
    rw [e] at hxB
    exact absurd hxB (List.not_mem_nil x)
  have hgx := bucket_dom_of_ne_nil hB hne
  have hP : 0 ≤ s.maxPinNum := by omega
  have hfuel : s.maxPinNum - (s.cellArray x).gain < ((2 * s.maxPinNum.toNat + 2 : Nat) : Int) := by
    have := Int.toNat_of_nonneg hP
    push_cast
    omega
  have habove : ∀ g1, s.maxPinNum < g1 → B p g1 = [] := by
    intro g1 hg1
    by_contra hne1
    have := bucket_dom_of_ne_nil hB hne1
    omega
  obtain ⟨c, rest, h1, h2, h3⟩ :=
    scanDown_find hB _ hne _ s.maxPinNum hgx.2 (le_refl _) hfuel habove
  have hc : c ∈ B p (s.cellArray c).gain := by rw [h2]; exact List.mem_cons_self c rest
  have hne2 : B p (s.cellArray c).gain ≠ [] := by rw [h2]; simp
  obtain ⟨c1, _, c3⟩ := (hB.mem _ _ c).mp hc
  have c4 : (s.cellArray c).lock = false ∧ (s.cellArray c).part = p := by
    rcases c3 with e | e
    · exact e
    · exact absurd e (by simp)
  refine ⟨c, rest, h1, h2, h3, bucket_dom_of_ne_nil hB hne2, c1, c4.1, c4.2, ?_⟩
  intro y hy hyl hyp
  by_contra hlt
  have hyB : y ∈ B p (s.cellArray y).gain := (hB.mem _ _ y).mpr ⟨hy, rfl, Or.inl ⟨hyl, hyp⟩⟩
  rw [h3 _ (by omega)] at hyB
  exact absurd hyB (List.not_mem_nil y)

/-! ## Size bookkeeping -/


/-- Changing a predicate at one index changes a count by the number of times
the index is listed. -/
theorem countP_change (P Q : Nat → Bool) (c : Nat) (h : ∀ x, x ≠ c → Q x = P x)
    (L : List Nat) :
    ((L.countP Q : Nat) : Int) =
      (L.countP P : Nat) +
        (L.count c : Int) * ((if Q c then 1 else 0) - (if P c then 1 else 0)) := by
  induction L with
  | nil => simp
  | cons j L ih =>
    simp only [List.countP_cons, List.count_cons, Nat.cast_add, ih]
    by_cases hj : j = c
    · subst hj
      cases hq : Q j <;> cases hp : P j <;> simp <;> ring
    · have hj2 : ¬ (j == c) = true := by simpa using hj
      rw [h j hj]
      simp only [hj2, Bool.false_eq_true, if_false, Nat.cast_zero, add_zero]
      ring

theorem countP_congr_mem (P Q : Nat → Bool) (L : List Nat) (h : ∀ x ∈ L, Q x = P x) :
    L.countP Q = L.countP P := by
  induction L with
  | nil => rfl
  | cons j L ih =>
    simp only [List.countP_cons]
    rw [h j (List.mem_cons_self j L), ih (fun x hx => h x (List.mem_cons_of_mem j hx))]

/-- The number of cells on a side after one cell of the circuit changed
sides. -/
theorem sizeCount_flip {s t : Partitioner} {c : Nat} (p : Bool) (hc : c < s.cellNum)
    (hn : t.cellNum = s.cellNum)
    (hpt : ∀ x, x ≠ c → (t.cellArray x).part = (s.cellArray x).part)
    (hpc : (t.cellArray c).part = !(s.cellArray c).part) :
    sizeCount t p = sizeCount s p + (if p = (s.cellArray c).part then -1 else 1) := by
  unfold sizeCount
  rw [hn, countP_change (fun x => (s.cellArray x).part == p) (fun x => (t.cellArray x).part == p)
    c (fun x hx => by simp only [hpt x hx]), count_range, if_pos hc]
  simp only [hpc]
  cases (s.cellArray c).part <;> cases p <;> simp

theorem sizeCount_congr {s t : Partitioner} (hn : t.cellNum = s.cellNum)
    (hpt : ∀ x, (t.cellArray x).part = (s.cellArray x).part) (p : Bool) :
    sizeCount t p = sizeCount s p := by
  unfold sizeCount
  rw [hn]
  congr 2
  funext x
  rw [hpt x]

theorem sizesAgree_congr {s t : Partitioner} (hn : t.cellNum = s.cellNum)
    (hpt : ∀ x, (t.cellArray x).part = (s.cellArray x).part)
    (hsz : t.partSize = s.partSize) (h : SizesAgree s) : SizesAgree t := by
  intro p
  rw [hsz, sizeCount_congr hn hpt p]
  exact h p

theorem sizeCount_sum (s : Partitioner) :
    sizeCount s false + sizeCount s true = (s.cellNum : Int) := by
  unfold sizeCount
  have := countP_add_countP_not (fun j => (s.cellArray j).part) (List.range s.cellNum)
  rw [List.length_range] at this
  omega

/-- The number of unlocked cells on a side after an unlocked cell of the
circuit was locked and changed sides. -/
theorem unlockedCount_move {s t : Partitioner} {c : Nat} (p : Bool) (hc : c < s.cellNum)
    (hn : t.cellNum = s.cellNum) (hlk : (s.cellArray c).lock = false)
    (hpt : ∀ x, x ≠ c → (t.cellArray x).part = (s.cellArray x).part)
    (hlt : ∀ x, x ≠ c → (t.cellArray x).lock = (s.cellArray x).lock)
    (hlc : (t.cellArray c).lock = true) :
    unlockedCount t p = unlockedCount s p - (if p = (s.cellArray c).part then 1 else 0) := by
  unfold unlockedCount
  rw [hn, countP_change (fun x => (s.cellArray x).part == p && !(s.cellArray x).lock)
    (fun x => (t.cellArray x).part == p && !(t.cellArray x).lock)
    c (fun x hx => by simp only [hpt x hx, hlt x hx]), count_range, if_pos hc]
  simp only [hlc, hlk]
  cases (s.cellArray c).part <;> cases p <;> simp <;> ring

/-- `updateGain` keeps the size bookkeeping. -/
theorem updateGain_sizesAgree {s t : Partitioner} {c : Nat} (hwf : WellFormed s)
    (hc : c < s.cellNum) (hsz : SizesAgree s) (h : updateGain s c = some t) :
    SizesAgree t := by
  obtain ⟨_, _, _, g4, g5, _⟩ := updateGain_globals h
  obtain ⟨_, d2, _, _, _, d6, d7, _, _⟩ := updateGain_data h
  rw [if_neg (hwf.1 c hc).1] at d7
  intro p
  rw [sizeCount_flip p hc d2 d6 d7, ← hsz p]
  by_cases e : p = (s.cellArray c).part
  · rw [if_pos e, e, g4]; ring
  · have e2 : p = !(s.cellArray c).part := by
      cases p <;> cases hh : (s.cellArray c).part <;> simp_all
    rw [if_neg e, e2, g5]

/-- `updateGain` of an unlocked cell keeps the unlocked bookkeeping. -/
theorem updateGain_unlockAgree {s t : Partitioner} {c : Nat}
    (hc : c < s.cellNum) (hlk : (s.cellArray c).lock = false) (hu : UnlockAgree s)
    (h : updateGain s c = some t) : UnlockAgree t := by
  obtain ⟨_, _, _, _, _, g6, g7, _⟩ := updateGain_globals h
  obtain ⟨_, d2, _, d4, _, d6, _, _, _⟩ := updateGain_data h
  intro p
  rw [unlockedCount_move p hc d2 hlk d6 (fun x hx => by rw [d4 x, if_neg hx])
    (by rw [d4 c, if_pos rfl]), ← hu p]
  by_cases e : p = (s.cellArray c).part
  · rw [if_pos e, e, g6]
  · have e2 : p = !(s.cellArray c).part := by
      cases p <;> cases hh : (s.cellArray c).part <;> simp_all
    rw [if_neg e, e2, g7]; ring


/-- The seeding loop counts every cell it visits on the side it gives it and
leaves the other cells alone. -/
theorem seedLoop_sizes (l : List Nat) :
    ∀ (s s1 : Partitioner) (part : Bool) (tmpNet : Nat), l.Nodup →
      seedLoop l s part tmpNet = some s1 →
      (∀ p, s1.partSize p =
        s.partSize p + ((l.countP fun c => (s1.cellArray c).part == p : Nat) : Int)) ∧
      (∀ x, x ∉ l → (s1.cellArray x).part = (s.cellArray x).part) := by
  induction l with
  | nil =>
    intro s s1 part tmpNet _ h
    simp only [seedLoop, Option.some.injEq] at h
    subst h
    exact ⟨fun p => by simp, fun _ _ => rfl⟩
  | cons i l ih =>
    intro s s1 part tmpNet hnd h
    obtain ⟨hi, hnd2⟩ := List.nodup_cons.mp hnd
    simp only [seedLoop] at h
    split at h
    · exact absurd h (by simp)
    · rename_i firstNet hfirst
      obtain ⟨a1, a2⟩ := ih _ _ _ _ hnd2 h
      generalize hp : (if firstNet = tmpNet then part else !part) = part1 at a1 a2
      obtain ⟨_, b2, b3⟩ := sameGraph_incLoop part1
        (({ setCell s i fun x => { x with part := part1 } with
            partSize := setAt (setCell s i fun x => { x with part := part1 }).partSize part1
              ((setCell s i fun x => { x with part := part1 }).partSize part1 + 1) }
            : Partitioner).cellArray i).netList
        { setCell s i fun x => { x with part := part1 } with
            partSize := setAt (setCell s i fun x => { x with part := part1 }).partSize part1
              ((setCell s i fun x => { x with part := part1 }).partSize part1 + 1) }
      rw [b2] at a1
      rw [b3] at a2
      have hpi : (s1.cellArray i).part = part1 := by
        rw [a2 i hi]
        simp [setCell]
      refine ⟨?_, ?_⟩
      · intro p
        rw [a1 p]
        simp only [List.countP_cons, hpi, setCell, setAt]
        cases p <;> cases part1 <;> simp <;> ring
      · intro x hx
        have hx1 : x ≠ i := fun e => hx (by rw [e]; exact List.mem_cons_self i l)
        have hx2 : x ∉ l := fun e => hx (List.mem_cons_of_mem i e)
        rw [a2 x hx2]
        simp [setCell, hx1]

/-- The loop of `reBalance` keeps the size bookkeeping. -/
theorem reBalanceLoop_sizesAgree (b : Bool) (l : List Nat) :
    ∀ (s : Partitioner) (diff : Int), (∀ i ∈ l, i < s.cellNum) → SizesAgree s →
      SizesAgree (reBalanceLoop b l s diff) := by
  induction l with
  | nil =>
    intro s diff _ h
    exact h
  | cons i l ih =>
    intro s diff hl h
    simp only [reBalanceLoop]
    have hflip : (s.cellArray i).part = b → SizesAgree
        { setCell s i fun x => { x with part := !b } with
          partSize := setAt (setAt s.partSize (!b) (s.partSize (!b) + 1)) b
            (setAt s.partSize (!b) (s.partSize (!b) + 1) b - 1) } := by
      intro hb p
      have hi := hl i (List.mem_cons_self i l)
      have e := sizeCount_flip (s := s)
        (t := { setCell s i fun x => { x with part := !b } with
          partSize := setAt (setAt s.partSize (!b) (s.partSize (!b) + 1)) b
            (setAt s.partSize (!b) (s.partSize (!b) + 1) b - 1) })
        (c := i) p hi rfl (fun x hx => by simp [setCell, hx]) (by simp [setCell, hb])
      rw [e, ← h p, hb]
      simp only [setAt]
      cases b <;> cases p <;> simp <;> ring
    split
    · rename_i hb
      split
      · exact hflip hb
      · exact ih _ _ (fun j hj => hl j (List.mem_cons_of_mem i hj)) (hflip hb)
    · exact ih s diff (fun j hj => hl j (List.mem_cons_of_mem i hj)) h

theorem reBalance_sizesAgree (s : Partitioner) (h : SizesAgree s) : SizesAgree (reBalance s) :=
  reBalanceLoop_sizesAgree _ _ s _ (fun _ hi => List.mem_range.mp hi) h

theorem repairLoop_sizesAgree (fuel : Nat) :
    ∀ (s s1 : Partitioner), SizesAgree s → repairLoop fuel s = some s1 → SizesAgree s1 := by
  induction fuel with
  | zero =>
    intro s s1 hs h
    simp only [repairLoop] at h
    split at h
    · simp only [Option.some.injEq] at h
      rw [← h]; exact hs
    · exact absurd h (by simp)
  | succ fuel ih =>
    intro s s1 hs h
    simp only [repairLoop] at h
    split at h
    · simp only [Option.some.injEq] at h
      rw [← h]; exact hs
    · exact ih _ _ (reBalance_sizesAgree s hs) h

theorem flipBack_sizesAgree (s : Partitioner) (c : Nat) (hc : c < s.cellNum)
    (h : SizesAgree s) : SizesAgree (flipBack s c) := by
  intro p
  have e := sizeCount_flip (s := s) (t := flipBack s c) (c := c) p hc rfl
    (fun x hx => by simp [flipBack, setCell, hx]) (by simp [flipBack, setCell])
  rw [e, ← h p]
  simp only [flipBack, setCell, setAt]
  cases (s.cellArray c).part <;> cases p <;> simp <;> ring

theorem flipBackLoop_sizesAgree (l : List Nat) :
    ∀ (s : Partitioner), (∀ c ∈ l, c < s.cellNum) → SizesAgree s →
      SizesAgree (loop flipBack l s) ∧ (loop flipBack l s).cellNum = s.cellNum := by
  induction l with
  | nil =>
    intro s _ h
    exact ⟨h, rfl⟩
  | cons c l ih =>
    intro s hl h
    simp only [loop]
    have hc := hl c (List.mem_cons_self c l)
    obtain ⟨a1, a2⟩ := ih (flipBack s c) (fun x hx => hl x (List.mem_cons_of_mem c hx))
      (flipBack_sizesAgree s c hc h)
    exact ⟨a1, a2⟩

theorem recount_cells (s : Partitioner) (n : Nat) : (recount s n).cellArray = s.cellArray := by
  unfold recount
  simp only
  exact loop_invariant (fun st j => incPartCount st n (st.cellArray j).part)
    (fun _ st => st.cellArray = s.cellArray) _ _ rfl (fun _ _ _ _ _ hinv => hinv)

theorem recountLoop_cells (l : List Nat) (s : Partitioner) :
    (loop recount l s).cellArray = s.cellArray :=
  loop_invariant recount (fun _ st => st.cellArray = s.cellArray) l s rfl
    (fun _ i _ st _ hinv => (recount_cells st i).trans hinv)

/-- `recover2Best` keeps the size bookkeeping. -/
theorem recover2Best_sizesAgree {s t : Partitioner} (hsz : SizesAgree s)
    (hst : ∀ x ∈ s.moveStack, x < s.cellNum) (h : recover2Best s = some t) :
    SizesAgree t := by
  unfold recover2Best at h
  simp only at h
  split at h
  · exact absurd h (by simp)
  simp only [Option.some.injEq] at h
  have h1 : SizesAgree ({ s with moveNum := s.bestMoveNum } : Partitioner) := hsz
  obtain ⟨a1, _⟩ := flipBackLoop_sizesAgree (s.moveStack.drop (s.bestMoveNum + 1)).reverse
    { s with moveNum := s.bestMoveNum }
    (fun c hc => hst c (List.mem_of_mem_drop (List.mem_reverse.mp hc))) h1
  obtain ⟨b1, _, _, b4, _⟩ := recountLoop_fields
    (List.range (loop flipBack (s.moveStack.drop (s.bestMoveNum + 1)).reverse
      { s with moveNum := s.bestMoveNum }).netNum)
    (loop flipBack (s.moveStack.drop (s.bestMoveNum + 1)).reverse
      { s with moveNum := s.bestMoveNum })
  have b5 := recountLoop_cells
    (List.range (loop flipBack (s.moveStack.drop (s.bestMoveNum + 1)).reverse
      { s with moveNum := s.bestMoveNum }).netNum)
    (loop flipBack (s.moveStack.drop (s.bestMoveNum + 1)).reverse
      { s with moveNum := s.bestMoveNum })
  rw [h] at b1 b4 b5
  exact sizesAgree_congr b4 (fun x => by rw [b5]) b1 a1

/-- At the start of a pass both bookkeeping invariants hold. -/
theorem initPass_sizes {g s0 : Partitioner} (hsz : SizesAgree g) (h : initPass g = some s0) :
    SizesAgree s0 ∧ UnlockAgree s0 := by
  obtain ⟨_, i2, _, i4, i5, _, _, _, _, _, _, _, _, i14, i15⟩ := initPass_data h
  have hs0 : SizesAgree s0 := sizesAgree_congr i2 (fun x => (i14 x).1) i4 hsz
  refine ⟨hs0, ?_⟩
  intro p
  have e : unlockedCount s0 p = sizeCount s0 p := by
    unfold unlockedCount sizeCount
    rw [countP_congr_mem (fun c => (s0.cellArray c).part == p)
      (fun c => (s0.cellArray c).part == p && !(s0.cellArray c).lock) (List.range s0.cellNum)
      (fun x hx => by
        have hx2 : x < g.cellNum := by rw [← i2]; exact List.mem_range.mp hx
        simp only [(i15 x hx2).1]
        simp)]
  rw [e, ← hs0 p, i5, i4]
  cases p <;> simp [setAt]

/-- After `genInitPartition` on a state with empty sides `_partSize` counts the
cells of each side. -/
theorem genInitPartition_sizesAgree {fuel : Nat} {p g : Partitioner}
    (h0 : p.partSize false = 0 ∧ p.partSize true = 0)
    (h : genInitPartition fuel p = some g) : SizesAgree g := by
  unfold genInitPartition at h
  split at h
  · exact absurd h (by simp)
  split at h
  · exact absurd h (by simp)
  rename_i tmpNet _
  split at h
  · exact absurd h (by simp)
  rename_i s1 hseed
  split at h
  · exact absurd h (by simp)
  rename_i s2 hrep
  split at h
  · exact absurd h (by simp)
  rename_i s3 hbuild
  simp only [Option.some.injEq] at h
  obtain ⟨a1, _⟩ := seedLoop_sizes _ _ _ _ _ (List.nodup_range p.cellNum) hseed
  obtain ⟨a3, _⟩ := seedLoop_data _ _ _ _ _ hseed
  have hs1 : SizesAgree s1 := by
    intro q
    rw [a1 q]
    unfold sizeCount
    rw [a3.cellNum]
    cases q
    · rw [h0.1]; simp
    · rw [h0.2]; simp
  have hs2 := repairLoop_sizesAgree _ _ _ hs1 hrep
  obtain ⟨c1, c2⟩ := sameGraph_initGain s2
  obtain ⟨d1, d2⟩ := sameGraph_buildBList hbuild
  obtain ⟨e1, e2, e3, _⟩ := sameGraph_countCutSize s3
  rw [h] at e1 e2 e3
  have hs3 : SizesAgree (initGain s2) :=
    sizesAgree_congr c1.cellNum (fun x => (initGain_cell s2 x).1) c2 hs2
  have hs4 : SizesAgree s3 :=
    sizesAgree_congr d1.cellNum (fun x => (cell_of_strip (strip_buildBList hbuild) x).2.1) d2 hs3
  exact sizesAgree_congr e1.cellNum (fun x => by rw [e3]) e2 hs4

/-! ## Bookkeeping at the head of each iteration -/


/-- An iteration that ends the loop leaves the state as it is. -/
theorem moveStep_false {s s1 : Partitioner} (h : moveStep s = some (s1, false)) : s1 = s := by
  have key : ∀ (o : Option Partitioner),
      o.map (fun t => (t, true)) = some (s1, false) → s1 = s := by
    intro o ho
    cases o <;> simp at ho
  have fin : (some (s, false) : Option (Partitioner × Bool)) = some (s1, false) → s1 = s := by
    intro e
    simp only [Option.some.injEq, Prod.mk.injEq] at e
    exact e.1.symm
  unfold moveStep at h
  split at h
  · split at h
    · exact absurd h (by simp)
    · split at h
      · exact key _ h
      · exact fin h
  · split at h
    · split at h
      · exact absurd h (by simp)
      · split at h
        · exact key _ h
        · exact fin h
    · split at h
      · exact absurd h (by simp)
      · split at h
        · exact absurd h (by simp)
        · split at h
          · split at h
            · exact key _ h
            · split at h
              · exact key _ h
              · exact fin h
          · split at h
            · exact key _ h
            · split at h
              · exact key _ h
              · exact fin h

/-- The move loop ends at the head of some iteration, possibly after the
`++_moveNum` of an iteration that committed no move. -/
theorem moveLoop_end (n : Nat) :
    ∀ (s s2 : Partitioner), moveLoop n s = some s2 →
      ∃ k st, loopHead k s = some st ∧
        (s2 = st ∨ (s2 = nextMove st ∧ st.moveNum < st.cellNum ∧
          moveStep st = some (st, false))) := by
  induction n with
  | zero =>
    intro s s2 h
    simp only [moveLoop, Option.some.injEq] at h
    exact ⟨0, s, rfl, Or.inl h.symm⟩
  | succ n ih =>
    intro s s2 h
    simp only [moveLoop] at h
    split at h
    · rename_i hlt
      split at h
      · exact absurd h (by simp)
      · rename_i s1 run hstep
        cases run with
        | true =>
          simp only [if_true] at h
          obtain ⟨k, st, h1, h2⟩ := ih _ _ h
          refine ⟨k + 1, st, ?_, h2⟩
          simp only [loopHead, if_pos hlt, hstep]
          exact h1
        | false =>
          simp only [Bool.false_eq_true, if_false, Option.some.injEq] at h
          have e := moveStep_false hstep
          subst e
          exact ⟨0, s1, rfl, Or.inr ⟨h.symm, hlt, hstep⟩⟩
    · simp only [Option.some.injEq] at h
      exact ⟨0, s, rfl, Or.inl h.symm⟩

/-- At the head of every iteration of the move loop of a pass the invariant of
the loop holds, both bookkeeping invariants hold, and the locked cells are the
cells on the move stack. -/
theorem loopHead_counts {s0 : Partitioner} (k : Nat) :
    ∀ (a st : Partitioner),
      (PassInv s0 a ∧ SizesAgree a ∧ UnlockAgree a ∧
        ∀ x, x < a.cellNum → (a.cellArray x).lock = true → x ∈ a.moveStack) →
      loopHead k a = some st →
      (PassInv s0 st ∧ SizesAgree st ∧ UnlockAgree st ∧
        ∀ x, x < st.cellNum → (st.cellArray x).lock = true → x ∈ st.moveStack) := by
  induction k with
  | zero =>
    intro a st hq h
    simp only [loopHead, Option.some.injEq] at h
    rw [← h]; exact hq
  | succ k ih =>
    intro a st hq h
    obtain ⟨hinv, hsz, hun, hlocked⟩ := hq
    simp only [loopHead] at h
    split at h
    · split at h
      · rename_i s1 hstep
        obtain ⟨B, hB⟩ := hinv.buckets
        rcases moveStep_cases hB hstep with ⟨hr, _⟩ | ⟨_, c, hc, hlk, hadm, hu⟩
        · exact absurd hr (by simp)
        · refine ih _ _ ⟨passInv_move hinv hc hlk hadm hu, ?_, ?_, ?_⟩ h
          · have e : SizesAgree s1 := updateGain_sizesAgree hinv.wf hc hsz hu
            exact e
          · have e : UnlockAgree s1 := updateGain_unlockAgree hc hlk hun hu
            exact e
          · intro x hx hxl
            obtain ⟨_, g2, _⟩ := updateGain_globals hu
            obtain ⟨_, d2, _, d4, _⟩ := updateGain_data hu
            show x ∈ s1.moveStack
            rw [g2]
            have hxl2 : (s1.cellArray x).lock = true := hxl
            rw [d4 x] at hxl2
            by_cases e : x = c
            · rw [e]; simp
            · rw [if_neg e] at hxl2
              have hx2 : x < s1.cellNum := hx
              rw [d2] at hx2
              exact List.mem_append_left _ (hlocked x hx2 hxl2)
      · exact absurd h (by simp)
    · exact absurd h (by simp)

/-- The start of a pass on a well-formed state with correct sizes. -/
theorem pass_start_counts {g s0 : Partitioner} (hwf : WellFormed g) (hsz : SizesAgree g)
    (hstart : initPass g = some s0) :
    PassInv s0 s0 ∧ SizesAgree s0 ∧ UnlockAgree s0 ∧
      ∀ x, x < s0.cellNum → (s0.cellArray x).lock = true → x ∈ s0.moveStack := by
  obtain ⟨a1, a2⟩ := initPass_sizes hsz hstart
  refine ⟨passInv_start hwf hstart, a1, a2, ?_⟩
  intro x hx hxl
  obtain ⟨_, i2, _, _, _, _, _, _, _, _, _, _, _, _, i15⟩ := initPass_data hstart
  rw [i2] at hx
  rw [(i15 x hx).1] at hxl
  exact absurd hxl (by simp)


theorem sizesAgree_sum {s : Partitioner} (h : SizesAgree s) :
    s.partSize false + s.partSize true = (s.cellNum : Int) := by
  rw [h false, h true]
  exact sizeCount_sum s

theorem iterate_reBalance_sizesAgree (k : Nat) :
    ∀ (s : Partitioner), SizesAgree s → SizesAgree (Nat.iterate reBalance k s) := by
  induction k with
  | zero => intro s h; exact h
  | succ k ih =>
    intro s h
    exact ih _ (reBalance_sizesAgree s h)

/-- One call of `FMAlgorithm` keeps the size bookkeeping. -/
theorem FMAlgorithm_sizesAgree {g s1 : Partitioner} (hwf : WellFormed g) (hsz : SizesAgree g)
    (h : FMAlgorithm g = some s1) : SizesAgree s1 := by
  unfold FMAlgorithm at h
  split at h
  · exact absurd h (by simp)
  rename_i s0 hinit
  split at h
  · exact absurd h (by simp)
  rename_i s2 hloop
  obtain ⟨k, st, hk, hst⟩ := moveLoop_end _ _ _ hloop
  obtain ⟨hinv, hs, _, _⟩ := loopHead_counts k _ _ (pass_start_counts hwf hsz hinit) hk
  have hs2 : SizesAgree s2 ∧ s2.moveStack = st.moveStack ∧ s2.cellNum = st.cellNum := by
    rcases hst with e | ⟨e, _⟩
    · rw [e]; exact ⟨hs, rfl, rfl⟩
    · rw [e]; exact ⟨hs, rfl, rfl⟩
  split at h
  · split at h
    · exact absurd h (by simp)
    rename_i s3 hrec
    simp only [Option.some.injEq] at h
    have h3 : SizesAgree s3 := by
      refine recover2Best_sizesAgree (s := { s2 with iterNum := s2.iterNum + 1 }) hs2.1 ?_ hrec
      intro x hx
      have hx2 : x ∈ s2.moveStack := hx
      rw [hs2.2.1] at hx2
      show x < s2.cellNum
      rw [hs2.2.2]
      exact (hinv.locked x hx2).1
    obtain ⟨e1, e2, e3, _⟩ := sameGraph_countCutSize s3
    rw [h] at e1 e2 e3
    exact sizesAgree_congr e1.cellNum (fun x => by rw [e3]) e2 h3
  · simp only [Option.some.injEq] at h
    obtain ⟨e1, e2, e3, _⟩ := sameGraph_countCutSize s2
    rw [h] at e1 e2 e3
    exact sizesAgree_congr e1.cellNum (fun x => by rw [e3]) e2 hs2.1

/-! ## The calls of `findMaxGainCell` are guarded -/


/-- While fewer than `_cellNum` moves are on the stack some cell is unlocked. -/
theorem exists_unlocked {s0 st : Partitioner} (hinv : PassInv s0 st)
    (hl : ∀ x, x < st.cellNum → (st.cellArray x).lock = true → x ∈ st.moveStack)
    (hlt : st.moveNum < st.cellNum) :
    ∃ x, x < st.cellNum ∧ (st.cellArray x).lock = false := by
  by_contra hno
  have hall : ∀ x, x < st.cellNum → x ∈ st.moveStack := by
    intro x hx
    apply hl x hx
    cases hb : (st.cellArray x).lock
    · exact absurd ⟨x, hx, hb⟩ hno
    · rfl
  have hsub : List.range st.cellNum ⊆ st.moveStack :=
    fun x hx => hall x (List.mem_range.mp hx)
  have hle := (List.subperm_of_subset (List.nodup_range st.cellNum) hsub).length_le
  rw [List.length_range, ← hinv.moveNum] at hle
  omega

theorem unlockedCount_pos {s : Partitioner} {x : Nat} (hx : x < s.cellNum)
    (hlk : (s.cellArray x).lock = false) : 0 < unlockedCount s (s.cellArray x).part := by
  unfold unlockedCount
  have : 1 ≤ (List.range s.cellNum).countP fun c =>
      (s.cellArray c).part == (s.cellArray x).part && !(s.cellArray c).lock :=
    one_le_countP (List.mem_range.mpr hx) (by simp [hlk])
  omega

theorem exists_of_unlockedCount {s : Partitioner} {p : Bool} (h : unlockedCount s p ≠ 0) :
    ∃ x, x < s.cellNum ∧ (s.cellArray x).lock = false ∧ (s.cellArray x).part = p := by
  unfold unlockedCount at h
  have hpos : 0 < (List.range s.cellNum).countP fun c =>
      (s.cellArray c).part == p && !(s.cellArray c).lock := by
    rcases Nat.eq_zero_or_pos ((List.range s.cellNum).countP fun c =>
      (s.cellArray c).part == p && !(s.cellArray c).lock) with e | e
    · rw [e] at h
      exact absurd rfl h
    · exact e
  obtain ⟨x, hx, hpx⟩ := List.countP_pos_iff.mp hpos
  simp only [Bool.and_eq_true, beq_iff_eq, Bool.not_eq_true'] at hpx
  exact ⟨x, List.mem_range.mp hx, hpx.2, hpx.1⟩

theorem unlockedCount_nonneg (s : Partitioner) (p : Bool) : 0 ≤ unlockedCount s p := by
  unfold unlockedCount
  exact Int.natCast_nonneg _

/-- On a side with an unlocked cell the scan of `findMaxGainCell` succeeds. -/
theorem scanOk_of_unlocked {s : Partitioner} {B : Bool → Int → List Nat} {p : Bool} {x : Nat}
    (hB : Buckets s none B) (hx : x < s.cellNum) (hlk : (s.cellArray x).lock = false)
    (hp : (s.cellArray x).part = p) : ScanOk s p := by
  obtain ⟨c, rest, a1, a2, _, a4, a5, _⟩ := findMaxGainCell_max hB hx hlk hp
  refine ⟨c, a1, a5, a4.1, a4.2, (hB.dom _ _).mpr a4, ?_⟩
  have hseg := hB.linked.threads p (s.cellArray c).gain
  unfold Threads at hseg
  rw [a2] at hseg
  exact hseg.1


/-! ## One call of `reBalance` -/


theorem flipsFor_step (diff : Int) (h : ¬ diff - 2 ≤ 0) : flipsFor diff = flipsFor (diff - 2) + 1 := by
  unfold flipsFor
  omega

theorem flipsFor_small (diff : Int) (h0 : 0 < diff) (h : diff - 2 ≤ 0) : flipsFor diff = 1 := by
  unfold flipsFor
  omega

/-- The loop of `reBalance` in closed form: it flips the first cells of the
larger side that it meets, as many as halve `diff`, or all of them if there
are fewer. -/
theorem reBalanceLoop_eq (b : Bool) (l : List Nat) :
    ∀ (s : Partitioner) (diff : Int), 0 < diff → l.Nodup →
      (∀ x, ((reBalanceLoop b l s diff).cellArray x).part =
        if x ∈ (l.filter fun c => (s.cellArray c).part == b).take (flipsFor diff) then !b
        else (s.cellArray x).part) ∧
      (reBalanceLoop b l s diff).partSize b =
        s.partSize b -
          (((l.filter fun c => (s.cellArray c).part == b).take (flipsFor diff)).length : Int) ∧
      (reBalanceLoop b l s diff).partSize (!b) =
        s.partSize (!b) +
          (((l.filter fun c => (s.cellArray c).part == b).take (flipsFor diff)).length : Int) := by
  induction l with
  | nil =>
    intro s diff _ _
    simp [reBalanceLoop]
  | cons i l ih =>
    intro s diff hpos hnd
    obtain ⟨hi, hnd2⟩ := List.nodup_cons.mp hnd
    simp only [reBalanceLoop]
    by_cases hb : (s.cellArray i).part = b
    · rw [if_pos hb]
      have hfil : (List.filter (fun c => (s.cellArray c).part == b) (i :: l)) =
          i :: List.filter (fun c => (s.cellArray c).part == b) l := by
        rw [List.filter_cons, if_pos (by simp [hb])]
      rw [hfil]
      by_cases hd : diff - 2 ≤ 0
      · rw [if_pos hd, flipsFor_small diff hpos hd]
        simp only [List.take_succ_cons, List.take_zero, List.mem_singleton, List.length_singleton,
          setCell, setAt]
        refine ⟨fun x => ?_, ?_, ?_⟩
        · by_cases e : x = i
          · simp [e]
          · simp [e]
        · cases b <;> simp
        · cases b <;> simp
      · rw [if_neg hd, flipsFor_step diff hd]
        obtain ⟨a1, a2, a3⟩ := ih
          { setCell s i fun x => { x with part := !b } with
            partSize := setAt (setAt s.partSize (!b) (s.partSize (!b) + 1)) b
              (setAt s.partSize (!b) (s.partSize (!b) + 1) b - 1) } (diff - 2) (by omega) hnd2
        have hsame : (List.filter (fun c =>
            (({ setCell s i fun x => { x with part := !b } with
              partSize := setAt (setAt s.partSize (!b) (s.partSize (!b) + 1)) b
                (setAt s.partSize (!b) (s.partSize (!b) + 1) b - 1) } : Partitioner).cellArray
                c).part == b) l) =
            List.filter (fun c => (s.cellArray c).part == b) l := by
          apply List.filter_congr
          intro x hx
          have hxi : x ≠ i := fun e => hi (by rw [← e]; exact hx)
          simp [setCell, hxi]
        rw [hsame] at a1 a2 a3
        simp only [List.take_succ_cons, List.mem_cons, List.length_cons]
        refine ⟨fun x => (a1 x).trans ?_, a2.trans ?_, a3.trans ?_⟩
        · by_cases e : x = i
          · simp [e, setCell]
          · simp [e, setCell]
        · simp only [setAt]
          cases b <;> simp <;> ring
        · simp only [setAt]
          cases b <;> simp <;> ring
    · rw [if_neg hb]
      have hfil : (List.filter (fun c => (s.cellArray c).part == b) (i :: l)) =
          List.filter (fun c => (s.cellArray c).part == b) l := by
        rw [List.filter_cons, if_neg (by simp [hb])]
      rw [hfil]
      exact ih s diff hpos hnd2


theorem sizeCount_nonneg (s : Partitioner) (p : Bool) : 0 ≤ sizeCount s p := by
  unfold sizeCount
  exact Int.natCast_nonneg _

theorem largerCells_length (s : Partitioner) :
    ((largerCells s).length : Int) = sizeCount s (largerSide s) := by
  unfold largerCells sizeCount
  rw [List.countP_eq_length_filter]

theorem flipsFor_bounds (d : Int) (h : 0 ≤ d) :
    d ≤ 2 * (flipsFor d : Int) ∧ 2 * (flipsFor d : Int) ≤ d + 1 := by
  unfold flipsFor
  omega

/-- One call of `reBalance` on a state with correct sizes and unequal sides. -/
theorem reBalance_eq (s : Partitioner) (hsz : SizesAgree s)
    (hne : s.partSize false ≠ s.partSize true) :
    (∀ x, ((reBalance s).cellArray x).part =
      if x ∈ flipSet s then !(largerSide s) else (s.cellArray x).part) ∧
    (flipSet s).length = flipsFor |s.partSize false - s.partSize true| ∧
    |(reBalance s).partSize false - (reBalance s).partSize true| ≤ 1 := by
  have hpos : 0 < |s.partSize false - s.partSize true| :=
    abs_pos.mpr (sub_ne_zero.mpr hne)
  obtain ⟨a1, a2, a3⟩ := reBalanceLoop_eq (largerSide s) (List.range s.cellNum) s
    |s.partSize false - s.partSize true| hpos (List.nodup_range _)
  have hb := flipsFor_bounds |s.partSize false - s.partSize true| (le_of_lt hpos)
  have hlen0 := largerCells_length s
  have hA := hsz false
  have hBt := hsz true
  have nA := sizeCount_nonneg s false
  have nB := sizeCount_nonneg s true
  have hlen : (flipSet s).length = flipsFor |s.partSize false - s.partSize true| := by
    unfold flipSet
    rw [List.length_take]
    apply Nat.min_eq_left
    have : ((flipsFor |s.partSize false - s.partSize true| : Nat) : Int) ≤
        ((largerCells s).length : Int) := by
      rw [hlen0]
      unfold largerSide
      rcases abs_cases (s.partSize false - s.partSize true) with ⟨e, _⟩ | ⟨e, _⟩
      · rw [e] at hb ⊢
        split
        · omega
        · omega
      · rw [e] at hb ⊢
        split
        · omega
        · omega
    exact_mod_cast this
  have a2f : (reBalance s).partSize (largerSide s) =
      s.partSize (largerSide s) - ((flipSet s).length : Int) := a2
  have a3f : (reBalance s).partSize (!(largerSide s)) =
      s.partSize (!(largerSide s)) + ((flipSet s).length : Int) := a3
  refine ⟨a1, hlen, ?_⟩
  rw [hlen] at a2f a3f
  unfold largerSide at a2f a3f
  rcases abs_cases (s.partSize false - s.partSize true) with ⟨e, _⟩ | ⟨e, _⟩
  · rw [e] at hb a2f a3f
    have hgt : s.partSize false > s.partSize true := by
      rcases lt_or_gt_of_ne hne with h | h
      · omega
      · exact h
    rw [if_pos hgt] at a2f a3f
    simp only [Bool.not_false] at a3f
    rw [a2f, a3f, abs_le]
    constructor <;> omega
  · rw [e] at hb a2f a3f
    have hgt : ¬ s.partSize false > s.partSize true := by omega
    rw [if_neg hgt] at a2f a3f
    simp only [Bool.not_true] at a3f
    rw [a2f, a3f, abs_le]
    constructor <;> omega

/-- The side sizes after one call of `reBalance` on a state with correct sizes
and unequal sides. -/
theorem reBalance_sizes (s : Partitioner) (hsz : SizesAgree s)
    (hne : s.partSize false ≠ s.partSize true) :
    (reBalance s).partSize (largerSide s) =
      s.partSize (largerSide s) - (flipsFor |s.partSize false - s.partSize true| : Int) ∧
    (reBalance s).partSize (!(largerSide s)) =
      s.partSize (!(largerSide s)) + (flipsFor |s.partSize false - s.partSize true| : Int) := by
  have hpos : 0 < |s.partSize false - s.partSize true| :=
    abs_pos.mpr (sub_ne_zero.mpr hne)
  obtain ⟨_, a2, a3⟩ := reBalanceLoop_eq (largerSide s) (List.range s.cellNum) s
    |s.partSize false - s.partSize true| hpos (List.nodup_range _)
  obtain ⟨_, hlen, _⟩ := reBalance_eq s hsz hne
  have a2f : (reBalance s).partSize (largerSide s) =
      s.partSize (largerSide s) - ((flipSet s).length : Int) := a2
  have a3f : (reBalance s).partSize (!(largerSide s)) =
      s.partSize (!(largerSide s)) + ((flipSet s).length : Int) := a3
  rw [hlen] at a2f a3f
  exact ⟨a2f, a3f⟩

/-- On sides that differ by one cell, `reBalance` exchanges the two sizes. -/
theorem reBalance_swap (s : Partitioner) (hsz : SizesAgree s)
    (h1 : |s.partSize false - s.partSize true| = 1) :
    (reBalance s).partSize false = s.partSize true ∧
      (reBalance s).partSize true = s.partSize false := by
  have hne : s.partSize false ≠ s.partSize true := by
    intro e
    rw [e, sub_self, abs_zero] at h1
    exact absurd h1 (by decide)
  obtain ⟨a2, a3⟩ := reBalance_sizes s hsz hne
  rw [h1] at a2 a3
  have hf : ((flipsFor 1 : Nat) : Int) = 1 := by decide
  rw [hf] at a2 a3
  unfold largerSide at a2 a3
  rcases abs_cases (s.partSize false - s.partSize true) with ⟨e, _⟩ | ⟨e, _⟩
  · rw [e] at h1
    have hgt : s.partSize false > s.partSize true := by omega
    rw [if_pos hgt] at a2 a3
    simp only [Bool.not_false] at a3
    constructor <;> omega
  · rw [e] at h1
    have hgt : ¬ s.partSize false > s.partSize true := by omega
    rw [if_neg hgt] at a2 a3
    simp only [Bool.not_true] at a3
    constructor <;> omega

theorem iterate_reBalance_data (k : Nat) :
    ∀ (s : Partitioner), SameGraph s (Nat.iterate reBalance k s) ∧
      (Nat.iterate reBalance k s).partSize false + (Nat.iterate reBalance k s).partSize true =
        s.partSize false + s.partSize true := by
  induction k with
  | zero => intro s; exact ⟨sameGraph_refl s, rfl⟩
  | succ k ih =>
    intro s
    obtain ⟨a1, a2⟩ := ih (reBalance s)
    obtain ⟨b1, b2⟩ := reBalance_data s
    exact ⟨sameGraph_trans b1 a1, a2.trans b2⟩

/-- With an odd number of cells the test of the repair loop comes out after
every further `reBalance` call as it does after the first one: the two sizes
differ by one cell and each call exchanges them. -/
theorem checkBalance_iterate_odd (s : Partitioner) (hsz : SizesAgree s)
    (hodd : s.cellNum % 2 = 1) (k : Nat) :
    checkBalance (Nat.iterate reBalance (k + 1) s) = checkBalance (reBalance s) := by
  have hsum := sizesAgree_sum hsz
  have hne : s.partSize false ≠ s.partSize true := by
    intro e
    omega
  obtain ⟨_, _, h3⟩ := reBalance_eq s hsz hne
  obtain ⟨b1, b2⟩ := reBalance_data s
  have key : ∀ k, SizesAgree (Nat.iterate reBalance k (reBalance s)) ∧
      SameGraph (reBalance s) (Nat.iterate reBalance k (reBalance s)) ∧
      |(Nat.iterate reBalance k (reBalance s)).partSize false -
        (Nat.iterate reBalance k (reBalance s)).partSize true| = 1 ∧
      checkBalance (Nat.iterate reBalance k (reBalance s)) = checkBalance (reBalance s) := by
    intro k
    induction k with
    | zero =>
      refine ⟨reBalance_sizesAgree s hsz, sameGraph_refl _, ?_, rfl⟩
      show |(reBalance s).partSize false - (reBalance s).partSize true| = 1
      rw [abs_le] at h3
      have hs2 : (reBalance s).partSize false + (reBalance s).partSize true =
          (s.cellNum : Int) := b2.trans hsum
      rcases abs_cases ((reBalance s).partSize false - (reBalance s).partSize true) with
        ⟨e, _⟩ | ⟨e, _⟩ <;> rw [e] <;> omega
    | succ k ih =>
      obtain ⟨i1, i2, i3, i4⟩ := ih
      rw [Function.iterate_succ_apply']
      obtain ⟨c1, _⟩ := reBalance_data (Nat.iterate reBalance k (reBalance s))
      obtain ⟨w0, w1⟩ := reBalance_swap _ i1 i3
      refine ⟨reBalance_sizesAgree _ i1, sameGraph_trans i2 c1, ?_, ?_⟩
      · rw [w0, w1, abs_sub_comm]
        exact i3
      · rw [checkBalance_swap w0 w1 c1.bNum c1.bDen c1.cellNum]
        exact i4
  rw [Function.iterate_succ_apply]
  exact (key k).2.2.2

/-- With an odd number of cells, a repair loop whose test fails on the state
and on the result of one `reBalance` call fails after any number of calls. -/
theorem checkBalance_never_odd (s : Partitioner) (hsz : SizesAgree s)
    (hodd : s.cellNum % 2 = 1) (h0 : checkBalance s = false)
    (h1 : checkBalance (reBalance s) = false) (k : Nat) :
    checkBalance (Nat.iterate reBalance k s) = false := by
  cases k with
  | zero => exact h0
  | succ k => rw [checkBalance_iterate_odd s hsz hodd k]; exact h1


/-! ## A repair loop that cannot succeed -/


/-- The seeding loop succeeds when every cell it visits has a net. -/
theorem seedLoop_total (l : List Nat) :
    ∀ (s : Partitioner) (part : Bool) (tmpNet : Nat),
      (∀ i ∈ l, (s.cellArray i).netList ≠ []) →
      ∃ s1, seedLoop l s part tmpNet = some s1 := by
  induction l with
  | nil =>
    intro s part tmpNet _
    exact ⟨s, rfl⟩
  | cons i l ih =>
    intro s part tmpNet h
    have hi := h i (List.mem_cons_self i l)
    cases hl : (s.cellArray i).netList with
    | nil => exact absurd hl hi
    | cons n rest =>
      simp only [seedLoop, hl, List.head?_cons]
      apply ih
      intro j hj
      generalize hp : (if n = tmpNet then part else !part) = part1
      have b1 := (sameGraph_incLoop part1 (n :: rest)
        { setCell s i fun x => { x with part := part1 } with
            partSize := setAt (setCell s i fun x => { x with part := part1 }).partSize part1
              ((setCell s i fun x => { x with part := part1 }).partSize part1 + 1) }).1
      have e := b1.netList j
      have hset : ((setCell s i fun x => { x with part := part1 }).cellArray i).netList =
          n :: rest := by
        simp [setCell, hl]
      intro hnil
      have e2 : (s.cellArray j).netList = [] := by
        have e3 : ((loop (fun st m => incPartCount st m part1) (n :: rest)
            { setCell s i fun x => { x with part := part1 } with
              partSize := setAt (setCell s i fun x => { x with part := part1 }).partSize part1
                ((setCell s i fun x => { x with part := part1 }).partSize part1 + 1) }).cellArray
            j).netList = [] := by
          rw [← hnil]
          simp only [hset]
        rw [e] at e3
        by_cases hji : j = i
        · rw [hji] at e3
          simp [setCell] at e3
          rw [hl] at e3
          exact absurd e3 (by simp)
        · simpa [setCell, hji] using e3
      exact h j (List.mem_cons_of_mem i hj) e2

/-- A repair loop whose test fails after any number of `reBalance` calls does
not end, whatever the fuel. -/
theorem repairLoop_never (fuel : Nat) :
    ∀ (s : Partitioner), (∀ k, checkBalance (Nat.iterate reBalance k s) = false) →
      repairLoop fuel s = none := by
  induction fuel with
  | zero =>
    intro s h
    have h0 : checkBalance s = false := h 0
    simp [repairLoop, h0]
  | succ fuel ih =>
    intro s h
    have h0 : checkBalance s = false := h 0
    simp only [repairLoop, h0, Bool.false_eq_true, if_false]
    exact ih _ (fun k => h (k + 1))

/-- The seeded state of a state with empty sides has correct sizes. -/
theorem seedLoop_sizesAgree {p seeded : Partitioner} {tmpNet : Nat}
    (h0 : p.partSize false = 0 ∧ p.partSize true = 0)
    (hseed : seedLoop (List.range p.cellNum) p false tmpNet = some seeded) :
    SizesAgree seeded := by
  obtain ⟨b1, _⟩ := seedLoop_sizes _ _ _ _ _ (List.nodup_range _) hseed
  obtain ⟨b3, _⟩ := seedLoop_data _ _ _ _ _ hseed
  intro q
  rw [b1 q]
  unfold sizeCount
  rw [b3.cellNum]
  cases q
  · rw [h0.1]; simp
  · rw [h0.2]; simp

/-- `genInitPartition` does not return when its repair loop does not. -/
theorem genInitPartition_none {fuel : Nat} {p seeded : Partitioner} {tmpNet : Nat}
    (hN : p.cellNum ≠ 0) (hhead : (p.cellArray 0).netList.head? = some tmpNet)
    (hseed : seedLoop (List.range p.cellNum) p false tmpNet = some seeded)
    (hrep : repairLoop fuel seeded = none) : genInitPartition fuel p = none := by
  unfold genInitPartition
  rw [if_neg hN]
  simp only [hhead, hseed, hrep]

/-- A `reBalance` call on a state with correct, unequal sizes changes the side
of some cell. -/
theorem reBalance_flips (s : Partitioner) (hsz : SizesAgree s)
    (hne : s.partSize false ≠ s.partSize true) :
    ∃ x, x < s.cellNum ∧ ((reBalance s).cellArray x).part ≠ (s.cellArray x).part := by
  obtain ⟨a1, a2, _⟩ := reBalance_eq s hsz hne
  have hpos : 0 < |s.partSize false - s.partSize true| := abs_pos.mpr (sub_ne_zero.mpr hne)
  have hb := flipsFor_bounds |s.partSize false - s.partSize true| (le_of_lt hpos)
  have hlen : 0 < (flipSet s).length := by
    rw [a2]
    omega
  obtain ⟨x, hx⟩ := List.exists_mem_of_length_pos hlen
  have hx2 := List.mem_of_mem_take hx
  unfold largerCells at hx2
  rw [List.mem_filter] at hx2
  have hpx : (s.cellArray x).part = largerSide s := by simpa using hx2.2
  refine ⟨x, List.mem_range.mp hx2.1, ?_⟩
  rw [a1 x, if_pos hx, hpx]
  cases largerSide s <;> simp


/-- The balance window of `oddInput`, `[1.35, 1.65]`, holds no whole number. -/
theorem oddInput_infeasible : ¬ Feasible oddInput := by
  rintro ⟨a, b, _, h1, h2, _, _⟩
  have hN : oddInput.cellNum = 3 := by decide
  have hr : oddInput.ratio = 1 / 10 := by
    have e1 : oddInput.bNum = 1 := by decide
    have e2 : oddInput.bDen = 10 := by decide
    unfold Partitioner.ratio
    rw [e1, e2]
    norm_num
  rw [hN, hr] at h1 h2
  have h3 : (1 : ℚ) < (a : ℚ) := by norm_num at h1; linarith
  have h4 : (a : ℚ) < 2 := by norm_num at h2; linarith
  have h5 : (1 : Int) < a := by exact_mod_cast h3
  have h6 : a < 2 := by exact_mod_cast h4
  omega

theorem oddSeeded_eq :
    seedLoop (List.range oddInput.cellNum) oddInput false 0 = some oddSeeded := by
  have hs : (seedLoop (List.range oddInput.cellNum) oddInput false 0).isSome = true := by decide
  unfold oddSeeded
  cases h : seedLoop (List.range oddInput.cellNum) oddInput false 0 with
  | none =>
    rw [h] at hs
    exact absurd hs (by simp)
  | some s => rfl

/-! ## The best-prefix record -/


theorem loopM_append {σ : Type} (f : σ → Nat → Option σ) (l1 l2 : List Nat) :
    ∀ (s : σ), loopM f (l1 ++ l2) s = (loopM f l1 s).bind (loopM f l2) := by
  induction l1 with
  | nil => intro s; rfl
  | cons i l1 ih =>
    intro s
    simp only [List.cons_append, loopM]
    cases f s i with
    | none => rfl
    | some s1 => exact ih s1

/-- A committed move extends the run of moves by one. -/
theorem moveCells_snoc {cs : List Nat} {s0 st t : Partitioner} {c : Nat}
    (h : moveCells cs s0 = some st) (hu : updateGain st c = some t) :
    moveCells (cs ++ [c]) s0 = some (nextMove t) := by
  unfold moveCells at h ⊢
  rw [loopM_append, h]
  simp only [Option.bind, loopM, hu]

theorem loopM_take {σ : Type} (f : σ → Nat → Option σ) {cs : List Nat} {s st : σ}
    (h : loopM f cs s = some st) (j : Nat) : ∃ sj, loopM f (cs.take j) s = some sj := by
  rw [← List.take_append_drop j cs, loopM_append] at h
  cases hj : loopM f (List.take j cs) s with
  | none =>
    rw [hj] at h
    exact absurd h (by simp)
  | some sj => exact ⟨sj, rfl⟩

/-- Every prefix of a run of moves is a run of moves. -/
theorem moveCells_take {cs : List Nat} {s0 st : Partitioner} (h : moveCells cs s0 = some st)
    (j : Nat) : ∃ sj, moveCells (cs.take j) s0 = some sj := by
  unfold moveCells at h ⊢
  exact loopM_take _ h j

/-- One committed move keeps the best-prefix record. -/
theorem bestInv_move {s0 st t : Partitioner} {c : Nat} (hb : BestInv s0 st)
    (hm : st.moveNum = st.moveStack.length) (hu : updateGain st c = some t) :
    BestInv s0 (nextMove t) := by
  obtain ⟨g1, g2, _, _, _, _, _, _, _, _, _, g12, g13⟩ := updateGain_globals hu
  have hrun := moveCells_snoc hb.run hu
  have htake : ∀ j, j ≤ st.moveStack.length →
      (st.moveStack ++ [c]).take j = st.moveStack.take j := by
    intro j hj
    rw [List.take_append_of_le_length hj]
  have hfull : (st.moveStack ++ [c]).take (st.moveStack.length + 1) = st.moveStack ++ [c] := by
    apply List.take_of_length_le
    simp
  have hmax : st.maxAccGain ≤ t.maxAccGain := by rw [g12]; exact le_max_left _ _
  have hacc : t.accGain ≤ t.maxAccGain := by rw [g12]; exact le_max_right _ _
  refine ⟨?_, ?_, ?_, ?_⟩
  · show moveCells t.moveStack s0 = some (nextMove t)
    rw [g2]; exact hrun
  · exact le_trans hb.nonneg hmax
  · intro j sj hj1 hj2 hsj
    have hj2b : j ≤ (st.moveStack ++ [c]).length := by
      have : j ≤ t.moveStack.length := hj2
      rw [g2] at this
      exact this
    have hsjb : moveCells ((st.moveStack ++ [c]).take j) s0 = some sj := by
      have : moveCells (t.moveStack.take j) s0 = some sj := hsj
      rw [g2] at this
      exact this
    show sj.accGain ≤ t.maxAccGain
    simp only [List.length_append, List.length_singleton] at hj2b
    by_cases hle : j ≤ st.moveStack.length
    · rw [htake j hle] at hsjb
      exact le_trans (hb.upper j sj hj1 hle hsjb) hmax
    · have e : j = st.moveStack.length + 1 := by omega
      rw [e, hfull, hrun] at hsjb
      simp only [Option.some.injEq] at hsjb
      rw [← hsjb]
      exact hacc
  · intro hpos
    have hpos2 : t.maxAccGain > 0 := hpos
    show t.bestMoveNum < t.moveStack.length ∧
      ∃ sj, moveCells (t.moveStack.take (t.bestMoveNum + 1)) s0 = some sj ∧
        sj.accGain = t.maxAccGain ∧
        ∀ i si, 1 ≤ i → i ≤ t.bestMoveNum →
          moveCells (t.moveStack.take i) s0 = some si → si.accGain < t.maxAccGain
    rw [g2]
    simp only [List.length_append, List.length_singleton]
    by_cases hgt : t.accGain > st.maxAccGain
    · have eb : t.bestMoveNum = st.moveStack.length := by rw [g13, if_pos hgt, hm]
      have em : t.maxAccGain = t.accGain := by rw [g12]; exact max_eq_right (le_of_lt hgt)
      rw [eb]
      refine ⟨by omega, nextMove t, ?_, ?_, ?_⟩
      · rw [hfull]; exact hrun
      · rw [em]; rfl
      · intro i si hi1 hi2 hsi
        rw [htake i hi2] at hsi
        rw [em]
        exact lt_of_le_of_lt (hb.upper i si hi1 hi2 hsi) hgt
    · have eb : t.bestMoveNum = st.bestMoveNum := by rw [g13, if_neg hgt]
      have em : t.maxAccGain = st.maxAccGain := by
        rw [g12]; exact max_eq_left (not_lt.mp hgt)
      rw [em] at hpos2
      obtain ⟨a1, sj, a2, a3, a4⟩ := hb.attained hpos2
      rw [eb, em]
      refine ⟨by omega, sj, ?_, a3, ?_⟩
      · rw [htake _ (by omega)]; exact a2
      · intro i si hi1 hi2 hsi
        rw [htake i (by omega)] at hsi
        exact a4 i si hi1 hi2 hsi

theorem bestInv_start {g s0 : Partitioner} (h : initPass g = some s0) : BestInv s0 s0 := by
  obtain ⟨_, _, _, _, _, _, i7, _, _, i10, _⟩ := initPass_data h
  refine ⟨?_, ?_, ?_, ?_⟩
  · rw [i10]; rfl
  · rw [i7]
  · intro j sj hj1 hj2
    rw [i10] at hj2
    simp at hj2
    omega
  · intro hpos
    rw [i7] at hpos
    exact absurd hpos (by simp)

/-- The best-prefix record holds at the head of every iteration. -/
theorem loopHead_best {s0 : Partitioner} (k : Nat) :
    ∀ (a st : Partitioner), PassInv s0 a → BestInv s0 a → loopHead k a = some st →
      PassInv s0 st ∧ BestInv s0 st := by
  induction k with
  | zero =>
    intro a st h1 h2 h
    simp only [loopHead, Option.some.injEq] at h
    rw [← h]; exact ⟨h1, h2⟩
  | succ k ih =>
    intro a st h1 h2 h
    simp only [loopHead] at h
    split at h
    · split at h
      · rename_i s1 hstep
        obtain ⟨B, hB⟩ := h1.buckets
        rcases moveStep_cases hB hstep with ⟨hr, _⟩ | ⟨_, c, hc, hlk, hadm, hu⟩
        · exact absurd hr (by simp)
        · exact ih _ _ (passInv_move h1 hc hlk hadm hu) (bestInv_move h2 h1.moveNum hu) h
      · exact absurd h (by simp)
    · exact absurd h (by simp)


/-- The cumulative gain grows with each move by the gain that the moved cell
had before the move. -/
theorem moveCells_accGain {cs : List Nat} {s0 sj sj1 : Partitioner} {j c : Nat}
    (hc : cs[j]? = some c) (h1 : moveCells (cs.take j) s0 = some sj)
    (h2 : moveCells (cs.take (j + 1)) s0 = some sj1) :
    sj1.accGain = sj.accGain + (sj.cellArray c).gain := by
  rw [List.take_succ, hc] at h2
  simp only [Option.toList] at h2
  unfold moveCells at h1 h2
  rw [loopM_append, h1] at h2
  simp only [Option.bind, loopM] at h2
  cases hu : updateGain sj c with
  | none =>
    rw [hu] at h2
    exact absurd h2 (by simp)
  | some t =>
    rw [hu] at h2
    simp only [Option.some.injEq] at h2
    rw [← h2]
    exact (updateGain_globals hu).1

/-! ## The gains at the start of the first pass -/


theorem addPin_gain (s : Partitioner) (c n x : Nat) :
    ((addPin s c n).cellArray x).gain = (s.cellArray x).gain := by
  unfold addPin setNet setCell
  simp only
  split
  · rename_i e; rw [e]
  · rfl

theorem parseCell_gain (netId : Nat) (s : Partitioner) (name : String)
    (h : ∀ x, (s.cellArray x).gain = 0) :
    ∀ x, ((parseCell netId s name).cellArray x).gain = 0 := by
  intro x
  unfold parseCell
  split
  · show ((addPin _ s.cellNum netId).cellArray x).gain = 0
    rw [addPin_gain]
    simp only
    split
    · rfl
    · exact h x
  · rw [addPin_gain]
    exact h x

theorem parseCells_gain (netId : Nat) (names : List String) :
    ∀ (s : Partitioner), (∀ x, (s.cellArray x).gain = 0) →
      ∀ x, ((names.foldl (parseCell netId) s).cellArray x).gain = 0 := by
  induction names with
  | nil => intro s h; exact h
  | cons a l ih =>
    intro s h
    simp only [List.foldl_cons]
    exact ih _ (parseCell_gain netId s a h)

theorem parseNets_gain (stmts : List (String × List String)) :
    ∀ (s : Partitioner), (∀ x, (s.cellArray x).gain = 0) →
      ∀ x, ((stmts.foldl parseNet s).cellArray x).gain = 0 := by
  induction stmts with
  | nil => intro s h; exact h
  | cons a l ih =>
    intro s h
    simp only [List.foldl_cons]
    apply ih
    unfold parseNet
    simp only
    exact parseCells_gain _ _ _ h

/-- The parser leaves every gain at zero. -/
theorem parseInput_gain (bNum bDen : Int) (stmts : List (String × List String)) :
    ∀ x, ((parseInput bNum bDen stmts).cellArray x).gain = 0 := by
  unfold parseInput
  exact parseNets_gain stmts _ (fun _ => rfl)

theorem seedLoop_gain (l : List Nat) :
    ∀ (s s1 : Partitioner) (part : Bool) (tmpNet : Nat),
      seedLoop l s part tmpNet = some s1 →
      ∀ x, (s1.cellArray x).gain = (s.cellArray x).gain := by
  induction l with
  | nil =>
    intro s s1 part tmpNet h
    simp only [seedLoop, Option.some.injEq] at h
    subst h
    exact fun _ => rfl
  | cons i l ih =>
    intro s s1 part tmpNet h
    simp only [seedLoop] at h
    split at h
    · exact absurd h (by simp)
    · rename_i firstNet hfirst
      have a1 := ih _ _ _ _ h
      generalize hp : (if firstNet = tmpNet then part else !part) = part1 at a1
      obtain ⟨_, _, b3⟩ := sameGraph_incLoop part1
        (({ setCell s i fun x => { x with part := part1 } with
            partSize := setAt (setCell s i fun x => { x with part := part1 }).partSize part1
              ((setCell s i fun x => { x with part := part1 }).partSize part1 + 1) }
            : Partitioner).cellArray i).netList
        { setCell s i fun x => { x with part := part1 } with
            partSize := setAt (setCell s i fun x => { x with part := part1 }).partSize part1
              ((setCell s i fun x => { x with part := part1 }).partSize part1 + 1) }
      rw [b3] at a1
      intro x
      rw [a1 x]
      simp only [setCell]
      split
      · rename_i e; rw [e]
      · rfl

theorem reBalanceLoop_gain (b : Bool) (l : List Nat) :
    ∀ (s : Partitioner) (diff : Int) (x : Nat),
      ((reBalanceLoop b l s diff).cellArray x).gain = (s.cellArray x).gain := by
  induction l with
  | nil => intro s diff x; rfl
  | cons i l ih =>
    intro s diff x
    simp only [reBalanceLoop]
    have hflip : (({ setCell s i fun y => { y with part := !b } with
          partSize := setAt (setAt s.partSize (!b) (s.partSize (!b) + 1)) b
            (setAt s.partSize (!b) (s.partSize (!b) + 1) b - 1) } : Partitioner).cellArray
          x).gain = (s.cellArray x).gain := by
      simp only [setCell]
      split
      · rename_i e; rw [e]
      · rfl
    split
    · split
      · exact hflip
      · exact (ih _ _ x).trans hflip
    · exact ih s diff x

theorem repairLoop_gain (fuel : Nat) :
    ∀ (s s1 : Partitioner), repairLoop fuel s = some s1 →
      ∀ x, (s1.cellArray x).gain = (s.cellArray x).gain := by
  induction fuel with
  | zero =>
    intro s s1 h
    simp only [repairLoop] at h
    split at h
    · simp only [Option.some.injEq] at h
      rw [← h]; exact fun _ => rfl
    · exact absurd h (by simp)
  | succ fuel ih =>
    intro s s1 h
    simp only [repairLoop] at h
    split at h
    · simp only [Option.some.injEq] at h
      rw [← h]; exact fun _ => rfl
    · intro x
      rw [ih _ _ h x]
      exact reBalanceLoop_gain _ _ s _ x

/-- The gains that `genInitPartition` leaves are the gains with which the pass
starts. -/
theorem initPass_gain_eq {fuel : Nat} {p g s0 : Partitioner}
    (hz : ∀ x, (p.cellArray x).gain = 0) (h : genInitPartition fuel p = some g)
    (hstart : initPass g = some s0) :
    ∀ x, x < g.cellNum → (s0.cellArray x).gain = (g.cellArray x).gain := by
  unfold genInitPartition at h
  split at h
  · exact absurd h (by simp)
  split at h
  · exact absurd h (by simp)
  rename_i tmpNet _
  split at h
  · exact absurd h (by simp)
  rename_i s1 hseed
  split at h
  · exact absurd h (by simp)
  rename_i s2 hrep
  split at h
  · exact absurd h (by simp)
  rename_i s3 hbuild
  simp only [Option.some.injEq] at h
  have hz2 : ∀ x, (s2.cellArray x).gain = 0 := fun x => by
    rw [repairLoop_gain _ _ _ hrep x, seedLoop_gain _ _ _ _ _ hseed x, hz x]
  obtain ⟨e1, _, e3, _⟩ := sameGraph_countCutSize s3
  rw [h] at e1 e3
  have hstrip := strip_buildBList hbuild
  obtain ⟨d1, _⟩ := sameGraph_buildBList hbuild
  obtain ⟨c1, _⟩ := sameGraph_initGain s2
  obtain ⟨i1, _, _, _, _, _, _, _, _, _, _, _, _, i14, i15⟩ := initPass_data hstart
  have hn3 : s3.netArray = s2.netArray :=
    (strip_netArray hstrip).trans (initGain_fields s2).1
  have hcnt : g.netArray = s2.netArray := by
    rw [← h, countCutSize_eq]
    exact hn3
  have hN : g.cellNum = s2.cellNum := e1.cellNum.trans (d1.cellNum.trans c1.cellNum)
  intro x hx
  rw [(i15 x hx).2]
  have hg : (g.cellArray x).gain = scratchGain s2 x := by
    rw [e3, (cell_of_strip hstrip x).1]
    have := (initGain_cell s2 x).2.2.2.2
    rw [this, hz2 x, if_pos (by rw [← hN]; exact hx)]
    simp
  rw [hg]
  apply scratchGain_congr
  · rw [(i14 x).1, e3, (cell_of_strip hstrip x).2.1]
    exact (initGain_cell s2 x).1
  · rw [(i14 x).2.1]
    exact (e1.netList x).trans ((d1.netList x).trans (c1.netList x))
  · intro n
    rw [i1, hcnt]

/-! ## A pass whose first move cannot pay -/


theorem firstInv_move {st t : Partitioner} {c : Nat} (hf : FirstInv st)
    (hm : st.moveNum = st.moveStack.length) (hc : c < st.cellNum)
    (hlk : (st.cellArray c).lock = false) (hu : updateGain st c = some t) :
    FirstInv (nextMove t) := by
  obtain ⟨g1, g2, _, _, _, _, _, _, _, _, _, g12, g13⟩ := updateGain_globals hu
  refine ⟨?_, ?_⟩
  · intro hpos
    have hpos2 : t.maxAccGain > 0 := hpos
    show 1 ≤ t.bestMoveNum
    rw [g13]
    by_cases hemp : st.moveStack = []
    · obtain ⟨f1, f2, f3⟩ := hf.fresh hemp
      have hle : t.accGain ≤ 0 := by
        rw [g1, f2]
        have := f3 c hc hlk
        omega
      rw [g12, f1] at hpos2
      have : max 0 t.accGain = 0 := max_eq_left hle
      rw [this] at hpos2
      exact absurd hpos2 (by simp)
    · have hlen : 1 ≤ st.moveStack.length := by
        cases hl : st.moveStack with
        | nil => exact absurd hl hemp
        | cons a l => simp
      by_cases hgt : t.accGain > st.maxAccGain
      · rw [if_pos hgt, hm]; exact hlen
      · rw [if_neg hgt]
        apply hf.later
        have : t.maxAccGain = st.maxAccGain := by
          rw [g12]; exact max_eq_left (not_lt.mp hgt)
        rw [← this]; exact hpos2
  · intro hemp
    have hemp2 : t.moveStack = [] := hemp
    rw [g2] at hemp2
    simp at hemp2

theorem loopHead_first {s0 : Partitioner} (k : Nat) :
    ∀ (a st : Partitioner), PassInv s0 a → FirstInv a → loopHead k a = some st →
      FirstInv st := by
  induction k with
  | zero =>
    intro a st _ h2 h
    simp only [loopHead, Option.some.injEq] at h
    rw [← h]; exact h2
  | succ k ih =>
    intro a st h1 h2 h
    simp only [loopHead] at h
    split at h
    · split at h
      · rename_i s1 hstep
        obtain ⟨B, hB⟩ := h1.buckets
        rcases moveStep_cases hB hstep with ⟨hr, _⟩ | ⟨_, c, hc, hlk, hadm, hu⟩
        · exact absurd hr (by simp)
        · exact ih _ _ (passInv_move h1 hc hlk hadm hu)
            (firstInv_move h2 h1.moveNum hc hlk hu) h
      · exact absurd h (by simp)
    · exact absurd h (by simp)

theorem flipBackLoop_record (l : List Nat) (s : Partitioner) :
    (loop flipBack l s).bestMoveNum = s.bestMoveNum ∧
    (loop flipBack l s).moveStack = s.moveStack ∧
    (loop flipBack l s).moveNum = s.moveNum :=
  loop_invariant flipBack
    (fun _ st => st.bestMoveNum = s.bestMoveNum ∧ st.moveStack = s.moveStack ∧
      st.moveNum = s.moveNum)
    l s ⟨rfl, rfl, rfl⟩ (fun _ _ _ _ _ hinv => hinv)

theorem recount_record (s : Partitioner) (n : Nat) :
    (recount s n).bestMoveNum = s.bestMoveNum ∧ (recount s n).moveStack = s.moveStack ∧
    (recount s n).moveNum = s.moveNum := by
  unfold recount
  simp only
  exact loop_invariant (fun st j => incPartCount st n (st.cellArray j).part)
    (fun _ st => st.bestMoveNum = s.bestMoveNum ∧ st.moveStack = s.moveStack ∧
      st.moveNum = s.moveNum)
    _ _ ⟨rfl, rfl, rfl⟩ (fun _ _ _ _ _ hinv => hinv)

theorem recountLoop_record (l : List Nat) (s : Partitioner) :
    (loop recount l s).bestMoveNum = s.bestMoveNum ∧
    (loop recount l s).moveStack = s.moveStack ∧
    (loop recount l s).moveNum = s.moveNum :=
  loop_invariant recount
    (fun _ st => st.bestMoveNum = s.bestMoveNum ∧ st.moveStack = s.moveStack ∧
      st.moveNum = s.moveNum)
    l s ⟨rfl, rfl, rfl⟩
    (fun _ i _ st _ hinv => by
      obtain ⟨a1, a2, a3⟩ := recount_record st i
      exact ⟨a1.trans hinv.1, a2.trans hinv.2.1, a3.trans hinv.2.2⟩)

/-- What `FMAlgorithm` returns, in terms of the state `s2` in which its move
loop ended: the record of the pass is kept, `_moveNum` is set to `_bestMoveNum`
when the pass rolls back, and without a positive `_maxAccGain` the result is
`s2` with the cut size counted. -/
theorem FMAlgorithm_record {g s1 : Partitioner} (h : FMAlgorithm g = some s1) :
    ∃ s0 s2, initPass g = some s0 ∧ moveLoop (s0.cellNum - s0.moveNum) s0 = some s2 ∧
      s1.maxAccGain = s2.maxAccGain ∧ s1.bestMoveNum = s2.bestMoveNum ∧
      s1.moveStack = s2.moveStack ∧
      (s2.maxAccGain > 0 → s1.moveNum = s2.bestMoveNum ∧ s1.iterNum = s2.iterNum + 1) ∧
      (¬ s2.maxAccGain > 0 → s1 = countCutSize s2) := by
  unfold FMAlgorithm at h
  split at h
  · exact absurd h (by simp)
  rename_i s0 hinit
  split at h
  · exact absurd h (by simp)
  rename_i s2 hloop
  refine ⟨s0, s2, hinit, hloop, ?_⟩
  split at h
  · rename_i hpos
    split at h
    · exact absurd h (by simp)
    rename_i s3 hrec
    simp only [Option.some.injEq] at h
    unfold recover2Best at hrec
    simp only at hrec
    split at hrec
    · exact absurd hrec (by simp)
    simp only [Option.some.injEq] at hrec
    obtain ⟨a1, a2, a3⟩ := flipBackLoop_record (s2.moveStack.drop (s2.bestMoveNum + 1)).reverse
      { s2 with iterNum := s2.iterNum + 1, moveNum := s2.bestMoveNum }
    obtain ⟨b1, b2, b3⟩ := recountLoop_record
      (List.range (loop flipBack (s2.moveStack.drop (s2.bestMoveNum + 1)).reverse
        { s2 with iterNum := s2.iterNum + 1, moveNum := s2.bestMoveNum }).netNum)
      (loop flipBack (s2.moveStack.drop (s2.bestMoveNum + 1)).reverse
        { s2 with iterNum := s2.iterNum + 1, moveNum := s2.bestMoveNum })
    obtain ⟨_, _, _, _, _, c6, c7⟩ := recountLoop_fields
      (List.range (loop flipBack (s2.moveStack.drop (s2.bestMoveNum + 1)).reverse
        { s2 with iterNum := s2.iterNum + 1, moveNum := s2.bestMoveNum }).netNum)
      (loop flipBack (s2.moveStack.drop (s2.bestMoveNum + 1)).reverse
        { s2 with iterNum := s2.iterNum + 1, moveNum := s2.bestMoveNum })
    have hfl := loop_invariant flipBack
      (fun _ st => st.iterNum = s2.iterNum + 1 ∧ st.maxAccGain = s2.maxAccGain)
      (s2.moveStack.drop (s2.bestMoveNum + 1)).reverse
      { s2 with iterNum := s2.iterNum + 1, moveNum := s2.bestMoveNum }
      ⟨rfl, rfl⟩ (fun _ _ _ _ _ hinv => hinv)
    rw [hrec] at b1 b2 b3 c6 c7
    rw [← h, countCutSize_eq]
    refine ⟨?_, ?_, ?_, fun _ => ⟨?_, ?_⟩, fun hn => absurd hpos hn⟩
    · exact c7.trans hfl.2
    · exact b1.trans a1
    · exact b2.trans a2
    · exact b3.trans a3
    · exact c6.trans hfl.1
  · rename_i hpos
    simp only [Option.some.injEq] at h
    rw [← h, countCutSize_eq]
    exact ⟨rfl, rfl, rfl, fun hp => absurd hp hpos, fun _ => rfl⟩

/-! ## The runs on which the rounding decides a balance test -/

set_option maxRecDepth 100000

theorem tightFinal_eq : partition 0 tightInput = some tightFinal := by
  have hs : (partition 0 tightInput).isSome = true := by decide
  unfold tightFinal
  cases h : partition 0 tightInput with
  | none =>
    rw [h] at hs
    exact absurd hs (by simp)
  | some s => rfl

theorem roundPass_eq : (genInitPartition 0 roundInput).bind initPass = some roundPass := by
  have hs : ((genInitPartition 0 roundInput).bind initPass).isSome = true := by decide
  unfold roundPass
  cases hg : genInitPartition 0 roundInput with
  | none =>
    rw [hg] at hs
    exact absurd hs (by simp)
  | some g =>
    rw [hg] at hs
    have hs2 : (initPass g).isSome = true := hs
    cases hp : initPass g with
    | none =>
      rw [hp] at hs2
      exact absurd hs2 (by simp)
    | some s => simp [hp]

theorem roundMoved_eq : moveStep roundPass = some (roundMoved, true) := by
  have hs : (moveStep roundPass).map (fun r => r.2) = some true := by decide
  unfold roundMoved
  cases h : moveStep roundPass with
  | none =>
    rw [h] at hs
    exact absurd hs (by simp)
  | some r =>
    rw [h] at hs
    obtain ⟨t, b⟩ := r
    simp only [Option.map_some', Option.some.injEq] at hs
    rw [hs]

/-! ## Rounding to `double` -/


theorem bitLen_zero (fuel : Nat) : bitLen fuel 0 = 0 := by
  cases fuel <;> simp [bitLen]

/-- The function `bitLen` returns the number of binary digits. -/
theorem bitLen_spec (fuel : Nat) : ∀ n, n < 2 ^ fuel → n ≠ 0 →
    1 ≤ bitLen fuel n ∧ 2 ^ (bitLen fuel n - 1) ≤ n ∧ n < 2 ^ bitLen fuel n := by
  induction fuel with
  | zero =>
    intro n h hn
    simp only [pow_zero, Nat.lt_one_iff] at h
    exact absurd h hn
  | succ f ih =>
    intro n h hn
    simp only [bitLen, if_neg hn]
    by_cases h2 : n / 2 = 0
    · rw [h2, bitLen_zero]
      have h1 : n = 1 := by omega
      subst h1
      simp
    · have hlt : n / 2 < 2 ^ f := by
        rw [pow_succ] at h
        omega
      obtain ⟨i1, i2, i3⟩ := ih (n / 2) hlt h2
      refine ⟨by omega, ?_, ?_⟩
      · have e : bitLen f (n / 2) + 1 - 1 = (bitLen f (n / 2) - 1) + 1 := by omega
        rw [e, pow_succ]
        omega
      · rw [pow_succ]
        omega

theorem bitLen_self {n : Nat} (hn : n ≠ 0) :
    1 ≤ bitLen n n ∧ 2 ^ (bitLen n n - 1) ≤ n ∧ n < 2 ^ bitLen n n :=
  bitLen_spec n n (Nat.lt_two_pow n) hn

/-- The exponent that `binade` returns is not above the fraction:
`2 ^ k ≤ a / den`. -/
theorem binade_le {a den : Nat} (ha : a ≠ 0) (hd : den ≠ 0) :
    den * 2 ^ (binade a den).toNat ≤ a * 2 ^ (-(binade a den)).toNat := by
  obtain ⟨a1, a2, _⟩ := bitLen_self ha
  obtain ⟨d1, _, d3⟩ := bitLen_self hd
  unfold binade
  simp only
  split
  · -- k = k0 - 1
    rcases Nat.lt_or_ge (bitLen den den) (bitLen a a) with hlt | hge
    · have e1 : ((bitLen a a : Int) - (bitLen den den : Int) - 1).toNat =
          bitLen a a - 1 - bitLen den den := by omega
      have e2 : (-((bitLen a a : Int) - (bitLen den den : Int) - 1)).toNat = 0 := by omega
      rw [e1, e2, pow_zero, mul_one]
      have e3 : 2 ^ (bitLen a a - 1) = 2 ^ (bitLen a a - 1 - bitLen den den) * 2 ^ bitLen den den := by
        rw [← pow_add]
        congr 1
        omega
      have h1 : den * 2 ^ (bitLen a a - 1 - bitLen den den) ≤
          2 ^ bitLen den den * 2 ^ (bitLen a a - 1 - bitLen den den) :=
        Nat.mul_le_mul_right _ (le_of_lt d3)
      rw [e3] at a2
      calc den * 2 ^ (bitLen a a - 1 - bitLen den den)
          ≤ 2 ^ bitLen den den * 2 ^ (bitLen a a - 1 - bitLen den den) := h1
        _ = 2 ^ (bitLen a a - 1 - bitLen den den) * 2 ^ bitLen den den := Nat.mul_comm _ _
        _ ≤ a := a2
    · have e1 : ((bitLen a a : Int) - (bitLen den den : Int) - 1).toNat = 0 := by omega
      have e2 : (-((bitLen a a : Int) - (bitLen den den : Int) - 1)).toNat =
          bitLen den den + 1 - bitLen a a := by omega
      rw [e1, e2, pow_zero, mul_one]
      have e3 : 2 ^ bitLen den den =
          2 ^ (bitLen a a - 1) * 2 ^ (bitLen den den + 1 - bitLen a a) := by
        rw [← pow_add]
        congr 1
        omega
      calc den ≤ 2 ^ bitLen den den := le_of_lt d3
        _ = 2 ^ (bitLen a a - 1) * 2 ^ (bitLen den den + 1 - bitLen a a) := e3
        _ ≤ a * 2 ^ (bitLen den den + 1 - bitLen a a) := Nat.mul_le_mul_right _ a2
  · rename_i h
    exact Nat.le_of_not_lt h

theorem roundDbl_den_pos (num : Int) (den : Nat) : 0 < (roundDbl num den).den := by
  unfold roundDbl
  split
  · exact Nat.one_pos
  · exact pow_pos (by decide) _

theorem roundDbl_num_nonpos {num : Int} (den : Nat) (h : num ≤ 0) :
    (roundDbl num den).num ≤ 0 := by
  unfold roundDbl
  split
  · exact le_refl _
  · rename_i hz
    have hlt : num < 0 := by
      rcases lt_or_eq_of_le h with h1 | h1
      · exact h1
      · exact absurd (Or.inl h1) hz
    simp only [if_pos hlt]
    have := Int.natCast_nonneg ((if
      den * 2 ^ (-(52 - binade num.natAbs den)).toNat <
          2 * (num.natAbs * 2 ^ (52 - binade num.natAbs den).toNat %
            (den * 2 ^ (-(52 - binade num.natAbs den)).toNat)) ∨
        2 * (num.natAbs * 2 ^ (52 - binade num.natAbs den).toNat %
            (den * 2 ^ (-(52 - binade num.natAbs den)).toNat)) =
          den * 2 ^ (-(52 - binade num.natAbs den)).toNat ∧
        num.natAbs * 2 ^ (52 - binade num.natAbs den).toNat /
            (den * 2 ^ (-(52 - binade num.natAbs den)).toNat) % 2 = 1 then
      num.natAbs * 2 ^ (52 - binade num.natAbs den).toNat /
          (den * 2 ^ (-(52 - binade num.natAbs den)).toNat) + 1
    else
      num.natAbs * 2 ^ (52 - binade num.natAbs den).toNat /
        (den * 2 ^ (-(52 - binade num.natAbs den)).toNat)) *
      2 ^ (-(52 - binade num.natAbs den)).toNat)
    linarith

/-- The result of `roundDbl` on a positive fraction `a / den`: a significand `m`
that is the quotient `a * 2 ^ s / den` rounded down or up, over `2 ^ s`, where
the quotient is at least `2 ^ 52`. -/
theorem roundDbl_ofNat (a den : Nat) (ha : a ≠ 0) (hd : den ≠ 0) :
    ∃ u v m : Nat, (roundDbl (a : Int) den).num = ((m * 2 ^ u : Nat) : Int) ∧
      (roundDbl (a : Int) den).den = 2 ^ v ∧
      (m = a * 2 ^ v / (den * 2 ^ u) ∨
        (m = a * 2 ^ v / (den * 2 ^ u) + 1 ∧
          a * 2 ^ v / (den * 2 ^ u) * (den * 2 ^ u) < a * 2 ^ v)) ∧
      2 ^ 52 * (den * 2 ^ u) ≤ a * 2 ^ v := by
  have hz : ¬ ((a : Int) = 0 ∨ den = 0) := by
    intro h
    rcases h with h | h
    · exact ha (by exact_mod_cast h)
    · exact hd h
  have hneg : ¬ (a : Int) < 0 := not_lt.mpr (Int.natCast_nonneg a)
  have hB := binade_le ha hd
  refine ⟨(-(52 - binade a den)).toNat, (52 - binade a den).toNat,
    (if den * 2 ^ (-(52 - binade a den)).toNat <
          2 * (a * 2 ^ (52 - binade a den).toNat % (den * 2 ^ (-(52 - binade a den)).toNat)) ∨
        2 * (a * 2 ^ (52 - binade a den).toNat % (den * 2 ^ (-(52 - binade a den)).toNat)) =
          den * 2 ^ (-(52 - binade a den)).toNat ∧
        a * 2 ^ (52 - binade a den).toNat / (den * 2 ^ (-(52 - binade a den)).toNat) % 2 = 1 then
      a * 2 ^ (52 - binade a den).toNat / (den * 2 ^ (-(52 - binade a den)).toNat) + 1
    else a * 2 ^ (52 - binade a den).toNat / (den * 2 ^ (-(52 - binade a den)).toNat)),
    ?_, ?_, ?_, ?_⟩
  · unfold roundDbl
    rw [if_neg hz]
    simp only [Int.natAbs_ofNat, if_neg hneg, one_mul]
  · unfold roundDbl
    rw [if_neg hz]
    simp only [Int.natAbs_ofNat]
  · have hdpos : 0 < den * 2 ^ (-(52 - binade a den)).toNat :=
      Nat.mul_pos (Nat.pos_of_ne_zero hd) (pow_pos (by decide) _)
    generalize den * 2 ^ (-(52 - binade a den)).toNat = d at hdpos ⊢
    generalize a * 2 ^ (52 - binade a den).toNat = n
    split
    · rename_i hc
      refine Or.inr ⟨rfl, ?_⟩
      have hdm := Nat.div_add_mod n d
      have hr : 0 < n % d := by
        rcases hc with h1 | h1
        · omega
        · omega
      have e : n / d * d = d * (n / d) := Nat.mul_comm _ _
      omega
    · exact Or.inl rfl
  · generalize binade a den = k at hB ⊢
    rcases lt_or_ge (52 : Int) k with h1 | h1
    · have e1 : (52 - k).toNat = 0 := by omega
      have e2 : (-k).toNat = 0 := by omega
      have e3 : k.toNat = (-(52 - k)).toNat + 52 := by omega
      rw [e1, pow_zero, mul_one]
      rw [e2, pow_zero, mul_one, e3, pow_add] at hB
      calc 2 ^ 52 * (den * 2 ^ (-(52 - k)).toNat)
          = den * (2 ^ (-(52 - k)).toNat * 2 ^ 52) := by ring
        _ ≤ a := hB
    · have e1 : (-(52 - k)).toNat = 0 := by omega
      rw [e1, pow_zero, mul_one]
      rcases lt_or_ge k 0 with h2 | h2
      · have e2 : k.toNat = 0 := by omega
        have e3 : (52 - k).toNat = 52 + (-k).toNat := by omega
        rw [e2, pow_zero, mul_one] at hB
        rw [e3, pow_add]
        calc 2 ^ 52 * den ≤ 2 ^ 52 * (a * 2 ^ (-k).toNat) := Nat.mul_le_mul_left _ hB
          _ = a * (2 ^ 52 * 2 ^ (-k).toNat) := by ring
      · have e2 : (-k).toNat = 0 := by omega
        have e3 : 52 = k.toNat + (52 - k).toNat := by omega
        rw [e2, pow_zero, mul_one] at hB
        have e4 : (2 : Nat) ^ 52 = 2 ^ k.toNat * 2 ^ (52 - k).toNat := by
          rw [← pow_add, ← e3]
        rw [e4]
        calc 2 ^ k.toNat * 2 ^ (52 - k).toNat * den
            = den * 2 ^ k.toNat * 2 ^ (52 - k).toNat := by ring
          _ ≤ a * 2 ^ (52 - k).toNat := Nat.mul_le_mul_right _ hB

theorem roundDbl_num_nonneg {num : Int} (den : Nat) (h : 0 ≤ num) :
    0 ≤ (roundDbl num den).num := by
  unfold roundDbl
  split
  · exact le_refl _
  · simp only [if_neg (not_lt.mpr h), one_mul]
    exact Int.natCast_nonneg _

/-- Rounding does not cross a number `cn / 2 ^ j` with `cn < 2 ^ 53` from
below: a fraction that is at most `cn / 2 ^ j` rounds to at most
`cn / 2 ^ j`. -/
theorem roundDbl_le (num : Int) (den cn j : Nat) (hd : den ≠ 0)
    (hx : num * 2 ^ j ≤ (cn : Int) * den) (hc : cn < 2 ^ 53) :
    (roundDbl num den).num * 2 ^ j ≤ (cn : Int) * (roundDbl num den).den := by
  rcases le_or_lt num 0 with hneg | hpos
  · have h1 := roundDbl_num_nonpos den hneg
    have h2 : (0 : Int) ≤ (cn : Int) * (roundDbl num den).den :=
      mul_nonneg (Int.natCast_nonneg _) (Int.natCast_nonneg _)
    have h3 : (roundDbl num den).num * 2 ^ j ≤ 0 :=
      mul_nonpos_of_nonpos_of_nonneg h1 (pow_nonneg (by decide) _)
    exact le_trans h3 h2
  · obtain ⟨a, rfl⟩ : ∃ a : Nat, num = (a : Int) := ⟨num.toNat, by omega⟩
    have ha : a ≠ 0 := by
      intro e
      rw [e] at hpos
      exact absurd hpos (by decide)
    obtain ⟨u, v, m, e1, e2, hm, hN⟩ := roundDbl_ofNat a den ha hd
    rw [e1, e2]
    have hx2 : a * 2 ^ j ≤ cn * den := by exact_mod_cast hx
    have hdpos : 0 < den := Nat.pos_of_ne_zero hd
    have hX : 0 < 2 ^ u := pow_pos (by decide) _
    have hJ : 0 < 2 ^ j := pow_pos (by decide) _
    have huv : u + j ≤ v := by
      by_contra hcon
      have h1 : 2 ^ (v + 1) ≤ 2 ^ (u + j) := Nat.pow_le_pow_right (by decide) (by omega)
      rw [pow_succ, pow_add] at h1
      have k1 : 2 ^ 52 * (den * 2 ^ u) * 2 ^ j ≤ a * 2 ^ v * 2 ^ j := Nat.mul_le_mul_right _ hN
      have k2 : a * 2 ^ j * 2 ^ v ≤ cn * den * 2 ^ v := Nat.mul_le_mul_right _ hx2
      have k3 : cn * (den * 2 ^ v) < 2 ^ 53 * (den * 2 ^ v) :=
        Nat.mul_lt_mul_of_pos_right hc (Nat.mul_pos hdpos (pow_pos (by decide) _))
      have k4 : 2 ^ 52 * den * (2 ^ v * 2) ≤ 2 ^ 52 * den * (2 ^ u * 2 ^ j) :=
        Nat.mul_le_mul_left _ h1
      have k5 : (2 : Nat) ^ 53 = 2 ^ 52 * 2 := by norm_num
      rw [k5] at k3
      nlinarith
    obtain ⟨w, hw⟩ : ∃ w, v = w + (u + j) := ⟨v - (u + j), by omega⟩
    have hV : 2 ^ v = 2 ^ w * (2 ^ u * 2 ^ j) := by
      rw [hw, pow_add, pow_add]
    have key : m * 2 ^ u * 2 ^ j ≤ cn * 2 ^ v := by
      rcases hm with hq | ⟨hq, hlt⟩
      · have k1 : a * 2 ^ v / (den * 2 ^ u) * (den * 2 ^ u) ≤ a * 2 ^ v :=
          Nat.div_mul_le_self _ _
        rw [← hq] at k1
        have k2 : m * (den * 2 ^ u) * 2 ^ j ≤ a * 2 ^ v * 2 ^ j := Nat.mul_le_mul_right _ k1
        have k3 : a * 2 ^ j * 2 ^ v ≤ cn * den * 2 ^ v := Nat.mul_le_mul_right _ hx2
        have k4 : den * (m * 2 ^ u * 2 ^ j) ≤ den * (cn * 2 ^ v) := by nlinarith
        exact Nat.le_of_mul_le_mul_left k4 hdpos
      · have k2 : a * 2 ^ v / (den * 2 ^ u) * (den * 2 ^ u) * 2 ^ j < a * 2 ^ v * 2 ^ j :=
          Nat.mul_lt_mul_of_pos_right hlt hJ
        have k3 : a * 2 ^ j * 2 ^ v ≤ cn * den * 2 ^ v := Nat.mul_le_mul_right _ hx2
        generalize a * 2 ^ v / (den * 2 ^ u) = q at hq hlt k2
        have k4 : den * (q * (2 ^ u * 2 ^ j)) < den * (cn * 2 ^ w * (2 ^ u * 2 ^ j)) := by
          rw [hV] at k3
          rw [hV] at k2
          nlinarith
        have k5 : q * (2 ^ u * 2 ^ j) < cn * 2 ^ w * (2 ^ u * 2 ^ j) :=
          Nat.lt_of_mul_lt_mul_left k4
        have k6 : q < cn * 2 ^ w := Nat.lt_of_mul_lt_mul_right k5
        have k7 : (q + 1) * (2 ^ u * 2 ^ j) ≤ cn * 2 ^ w * (2 ^ u * 2 ^ j) :=
          Nat.mul_le_mul_right _ k6
        rw [hq, hV]
        calc (q + 1) * 2 ^ u * 2 ^ j = (q + 1) * (2 ^ u * 2 ^ j) := by ring
          _ ≤ cn * 2 ^ w * (2 ^ u * 2 ^ j) := k7
          _ = cn * (2 ^ w * (2 ^ u * 2 ^ j)) := by ring
    exact_mod_cast key

/-- The relative error of `roundDbl` on a fraction that is not negative is at
most `2 ^ -52`. -/
theorem roundDbl_rel (num : Int) (den : Nat) (hd : den ≠ 0) (h0 : 0 ≤ num) :
    (roundDbl num den).num * den * 2 ^ 52 ≤ num * (roundDbl num den).den * (2 ^ 52 + 1) ∧
      num * (roundDbl num den).den * (2 ^ 52 - 1) ≤ (roundDbl num den).num * den * 2 ^ 52 := by
  rcases eq_or_lt_of_le h0 with hz | hpos
  · rw [← hz]
    simp [roundDbl]
  · obtain ⟨a, rfl⟩ : ∃ a : Nat, num = (a : Int) := ⟨num.toNat, by omega⟩
    have ha : a ≠ 0 := by
      intro e
      rw [e] at hpos
      exact absurd hpos (by decide)
    obtain ⟨u, v, m, e1, e2, hm, hN⟩ := roundDbl_ofNat a den ha hd
    rw [e1, e2]
    have hdX : 0 < den * 2 ^ u := Nat.mul_pos (Nat.pos_of_ne_zero hd) (pow_pos (by decide) _)
    have k1 : a * 2 ^ v / (den * 2 ^ u) * (den * 2 ^ u) ≤ a * 2 ^ v := Nat.div_mul_le_self _ _
    have k2 : a * 2 ^ v < a * 2 ^ v / (den * 2 ^ u) * (den * 2 ^ u) + den * 2 ^ u :=
      Nat.lt_div_mul_add hdX
    have hmD : m * (den * 2 ^ u) = a * 2 ^ v / (den * 2 ^ u) * (den * 2 ^ u) ∨
        m * (den * 2 ^ u) = a * 2 ^ v / (den * 2 ^ u) * (den * 2 ^ u) + den * 2 ^ u := by
      rcases hm with hq | ⟨hq, _⟩
      · exact Or.inl (by rw [← hq])
      · refine Or.inr ?_
        rw [hq]
        ring
    have e52 : (2 : Nat) ^ 52 = 4503599627370496 := by norm_num
    rw [e52] at hN
    generalize a * 2 ^ v / (den * 2 ^ u) * (den * 2 ^ u) = qD at k1 k2 hmD
    have r1 : m * (den * 2 ^ u) * 4503599627370496 ≤ a * 2 ^ v * 4503599627370497 := by
      generalize m * (den * 2 ^ u) = mD at hmD
      generalize den * 2 ^ u = D at hN k2 hmD
      generalize a * 2 ^ v = n at hN k1 k2
      omega
    have r2 : a * 2 ^ v * 4503599627370495 ≤ m * (den * 2 ^ u) * 4503599627370496 := by
      generalize m * (den * 2 ^ u) = mD at hmD
      generalize den * 2 ^ u = D at hN k2 hmD
      generalize a * 2 ^ v = n at hN k1 k2
      omega
    have c1 : (((m * 2 ^ u : Nat) : Int)) * den * 2 ^ 52 =
        ((m * (den * 2 ^ u) * 4503599627370496 : Nat) : Int) := by
      push_cast
      ring
    have c2 : (a : Int) * ((2 ^ v : Nat) : Int) * (2 ^ 52 + 1) =
        ((a * 2 ^ v * 4503599627370497 : Nat) : Int) := by
      push_cast
      ring
    have c3 : (a : Int) * ((2 ^ v : Nat) : Int) * (2 ^ 52 - 1) =
        ((a * 2 ^ v * 4503599627370495 : Nat) : Int) := by
      push_cast
      ring
    rw [c1, c2, c3]
    exact ⟨by exact_mod_cast r1, by exact_mod_cast r2⟩

theorem val_roundDbl (num : Int) (den : Nat) (hd : den ≠ 0) (h0 : 0 ≤ num) :
    (roundDbl num den).val ≤ (num : ℚ) / (den : ℚ) * (1 + 1 / 2 ^ 52) ∧
      (num : ℚ) / (den : ℚ) * (1 - 1 / 2 ^ 52) ≤ (roundDbl num den).val := by
  obtain ⟨r1, r2⟩ := roundDbl_rel num den hd h0
  have hR : (0 : ℚ) < ((roundDbl num den).den : ℚ) := by
    exact_mod_cast roundDbl_den_pos num den
  have hD : (0 : ℚ) < (den : ℚ) := by exact_mod_cast Nat.pos_of_ne_zero hd
  have q1 : ((roundDbl num den).num : ℚ) * den * 2 ^ 52 ≤
      (num : ℚ) * (roundDbl num den).den * (2 ^ 52 + 1) := by exact_mod_cast r1
  have q2 : (num : ℚ) * (roundDbl num den).den * (2 ^ 52 - 1) ≤
      ((roundDbl num den).num : ℚ) * den * 2 ^ 52 := by exact_mod_cast r2
  have e1 : (num : ℚ) / (den : ℚ) * (1 + 1 / 2 ^ 52) =
      (num : ℚ) * (2 ^ 52 + 1) / ((den : ℚ) * 2 ^ 52) := by
    field_simp
  have e2 : (num : ℚ) / (den : ℚ) * (1 - 1 / 2 ^ 52) =
      (num : ℚ) * (2 ^ 52 - 1) / ((den : ℚ) * 2 ^ 52) := by
    field_simp
  have hD2 : (0 : ℚ) < (den : ℚ) * 2 ^ 52 := by positivity
  unfold Dbl.val
  constructor
  · rw [e1, div_le_div_iff₀ hR hD2]
    linarith
  · rw [e2, div_le_div_iff₀ hD2 hR]
    linarith

theorem val_nonneg_of_num {x : Dbl} (h : 0 ≤ x.num) : 0 ≤ x.val := by
  unfold Dbl.val
  exact div_nonneg (by exact_mod_cast h) (Nat.cast_nonneg _)

theorem lt_iff_val (a b : Dbl) (ha : 0 < a.den) (hb : 0 < b.den) :
    Dbl.lt a b = true ↔ a.val < b.val := by
  have hA : (0 : ℚ) < (a.den : ℚ) := by exact_mod_cast ha
  have hB : (0 : ℚ) < (b.den : ℚ) := by exact_mod_cast hb
  unfold Dbl.lt Dbl.val
  rw [decide_eq_true_iff, div_lt_div_iff₀ hA hB]
  constructor
  · intro h
    exact_mod_cast h
  · intro h
    exact_mod_cast h

theorem val_ofInt (n : Int) : (Dbl.ofInt n).val = (n : ℚ) := by
  simp [Dbl.val, Dbl.ofInt]

/-- The bound of the move loop, `_bFactor * _cellNum` on `double`, lies within
two rounding steps of `r * N`. -/
theorem moveBound_val (s : Partitioner) (hn : 0 ≤ s.bNum) (hd : 0 < s.bDen) :
    (Dbl.mul s.bFactor (Dbl.ofInt s.cellNum)).val ≤
        s.ratio * (s.cellNum : ℚ) * (1 + 1 / 2 ^ 52) ^ 2 ∧
      s.ratio * (s.cellNum : ℚ) * (1 - 1 / 2 ^ 52) ^ 2 ≤
        (Dbl.mul s.bFactor (Dbl.ofInt s.cellNum)).val := by
  have hD : s.bDen.toNat ≠ 0 := by omega
  have hDq : ((s.bDen.toNat : Nat) : ℚ) = (s.bDen : ℚ) := by
    have : ((s.bDen.toNat : Nat) : Int) = s.bDen := Int.toNat_of_nonneg (le_of_lt hd)
    exact_mod_cast this
  obtain ⟨b1, b2⟩ := val_roundDbl s.bNum s.bDen.toNat hD hn
  rw [hDq] at b1 b2
  have hb0 : 0 ≤ (roundDbl s.bNum s.bDen.toNat).num := roundDbl_num_nonneg _ hn
  have hbd : 0 < (roundDbl s.bNum s.bDen.toNat).den := roundDbl_den_pos _ _
  unfold Partitioner.ratio
  unfold Partitioner.bFactor
  generalize roundDbl s.bNum s.bDen.toNat = b at b1 b2 hb0 hbd
  have hN : (0 : ℚ) ≤ (s.cellNum : ℚ) := Nat.cast_nonneg _
  have hbv : 0 ≤ b.val := val_nonneg_of_num hb0
  obtain ⟨p1, p2⟩ := val_roundDbl (b.num * (s.cellNum : Int)) (b.den * 1) (by omega)
    (mul_nonneg hb0 (Int.natCast_nonneg _))
  have ex : ((b.num * (s.cellNum : Int) : Int) : ℚ) / ((b.den * 1 : Nat) : ℚ) =
      b.val * (s.cellNum : ℚ) := by
    unfold Dbl.val
    push_cast
    have hbq : (b.den : ℚ) ≠ 0 := by exact_mod_cast (Nat.pos_iff_ne_zero.mp hbd)
    field_simp
  rw [ex] at p1 p2
  have hP : (Dbl.mul b (Dbl.ofInt s.cellNum)) =
      roundDbl (b.num * (s.cellNum : Int)) (b.den * 1) := rfl
  rw [hP]
  have h1 : (0 : ℚ) ≤ 1 + 1 / 2 ^ 52 := by positivity
  have h2 : (0 : ℚ) ≤ 1 - 1 / 2 ^ 52 := by norm_num
  have hr : (0 : ℚ) ≤ (s.bNum : ℚ) / (s.bDen : ℚ) :=
    div_nonneg (by exact_mod_cast hn) (by exact_mod_cast le_of_lt hd)
  constructor
  · calc (roundDbl (b.num * (s.cellNum : Int)) (b.den * 1)).val
        ≤ b.val * (s.cellNum : ℚ) * (1 + 1 / 2 ^ 52) := p1
      _ ≤ (s.bNum : ℚ) / (s.bDen : ℚ) * (1 + 1 / 2 ^ 52) * (s.cellNum : ℚ) *
          (1 + 1 / 2 ^ 52) :=
        mul_le_mul_of_nonneg_right (mul_le_mul_of_nonneg_right b1 hN) h1
      _ = (s.bNum : ℚ) / (s.bDen : ℚ) * (s.cellNum : ℚ) * (1 + 1 / 2 ^ 52) ^ 2 := by ring
  · calc (s.bNum : ℚ) / (s.bDen : ℚ) * (s.cellNum : ℚ) * (1 - 1 / 2 ^ 52) ^ 2
        = (s.bNum : ℚ) / (s.bDen : ℚ) * (1 - 1 / 2 ^ 52) * (s.cellNum : ℚ) *
          (1 - 1 / 2 ^ 52) := by ring
      _ ≤ b.val * (s.cellNum : ℚ) * (1 - 1 / 2 ^ 52) :=
        mul_le_mul_of_nonneg_right (mul_le_mul_of_nonneg_right b2 hN) h2
      _ ≤ (roundDbl (b.num * (s.cellNum : Int)) (b.den * 1)).val := p2

/-- The test of the move loop against the exact bound: a difference that passes
is below `r * N * (1 + 2 ^ -52) ^ 2`, and one that fails is at least
`r * N * (1 - 2 ^ -52) ^ 2`. -/
theorem admits_bounds (s : Partitioner) (d : Int) (hn : 0 ≤ s.bNum) (hd : 0 < s.bDen) :
    (admits s d = true →
      (|d| : ℚ) < s.ratio * (s.cellNum : ℚ) * (1 + 1 / 2 ^ 52) ^ 2) ∧
    (admits s d = false →
      s.ratio * (s.cellNum : ℚ) * (1 - 1 / 2 ^ 52) ^ 2 ≤ (|d| : ℚ)) := by
  obtain ⟨m1, m2⟩ := moveBound_val s hn hd
  have hPd : 0 < (Dbl.mul s.bFactor (Dbl.ofInt s.cellNum)).den := roundDbl_den_pos _ _
  have hiff := lt_iff_val (Dbl.ofInt |d|) (Dbl.mul s.bFactor (Dbl.ofInt s.cellNum))
    Nat.one_pos hPd
  rw [val_ofInt] at hiff
  have hcast : ((|d| : Int) : ℚ) = |(d : ℚ)| := by push_cast; rfl
  constructor
  · intro h
    have h2 := hiff.mp h
    rw [hcast] at h2
    exact lt_of_lt_of_le h2 m1
  · intro h
    have h2 : ¬ ((|d| : Int) : ℚ) < (Dbl.mul s.bFactor (Dbl.ofInt s.cellNum)).val := by
      intro h3
      have := hiff.mpr h3
      unfold admits at h
      rw [h] at this
      exact absurd this (by simp)
    rw [hcast] at h2
    exact le_trans m2 (not_lt.mp h2)

/-- The lower bound of `checkBalance`, `((1 - _bFactor) / 2) * _cellNum` on
`double`, for a balance factor `r` between 0 and 1: it is at least
`(1 - r * (1 + 2 ^ -52)) / 2 * N * (1 - 2 ^ -52) ^ 3`. -/
theorem lowerBound_val (s : Partitioner) (hn : 0 ≤ s.bNum) (hle : s.bNum ≤ s.bDen)
    (hd : 0 < s.bDen) :
    (1 - s.ratio * (1 + 1 / 2 ^ 52)) / 2 * (s.cellNum : ℚ) * (1 - 1 / 2 ^ 52) ^ 3 ≤
      (Dbl.mul (Dbl.div (Dbl.sub (Dbl.ofInt 1) s.bFactor) (Dbl.ofInt 2))
        (Dbl.ofInt s.cellNum)).val := by
  have hD : s.bDen.toNat ≠ 0 := by omega
  have hDi : ((s.bDen.toNat : Nat) : Int) = s.bDen := Int.toNat_of_nonneg (le_of_lt hd)
  have hDq : ((s.bDen.toNat : Nat) : ℚ) = (s.bDen : ℚ) := by exact_mod_cast hDi
  obtain ⟨b1, _⟩ := val_roundDbl s.bNum s.bDen.toNat hD hn
  rw [hDq] at b1
  have hb0 : 0 ≤ (roundDbl s.bNum s.bDen.toNat).num := roundDbl_num_nonneg _ hn
  have hbd : 0 < (roundDbl s.bNum s.bDen.toNat).den := roundDbl_den_pos _ _
  have hb1 : (roundDbl s.bNum s.bDen.toNat).num * 2 ^ 0 ≤
      ((1 : Nat) : Int) * (roundDbl s.bNum s.bDen.toNat).den :=
    roundDbl_le s.bNum s.bDen.toNat 1 0 hD (by rw [hDi]; simpa using hle) (by norm_num)
  simp only [pow_zero, mul_one, Nat.cast_one, one_mul] at hb1
  unfold Partitioner.ratio
  unfold Partitioner.bFactor
  generalize roundDbl s.bNum s.bDen.toNat = b at b1 hb0 hbd hb1
  have hbq : (b.den : ℚ) ≠ 0 := by exact_mod_cast (Nat.pos_iff_ne_zero.mp hbd)
  have hN : (0 : ℚ) ≤ (s.cellNum : ℚ) := Nat.cast_nonneg _
  have h2 : (0 : ℚ) ≤ 1 - 1 / 2 ^ 52 := by norm_num
  -- y = 1 - b
  have hy0 : (0 : Int) ≤ 1 * (b.den : Int) - b.num * ((1 : Nat) : Int) := by
    simp only [one_mul, Nat.cast_one, mul_one]
    omega
  obtain ⟨_, y2⟩ := val_roundDbl (1 * (b.den : Int) - b.num * ((1 : Nat) : Int)) (1 * b.den)
    (by omega) hy0
  have hyn : 0 ≤ (roundDbl (1 * (b.den : Int) - b.num * ((1 : Nat) : Int)) (1 * b.den)).num :=
    roundDbl_num_nonneg _ hy0
  have hyd : 0 < (roundDbl (1 * (b.den : Int) - b.num * ((1 : Nat) : Int)) (1 * b.den)).den :=
    roundDbl_den_pos _ _
  have ey : ((1 * (b.den : Int) - b.num * ((1 : Nat) : Int) : Int) : ℚ) /
      ((1 * b.den : Nat) : ℚ) = 1 - b.val := by
    unfold Dbl.val
    push_cast
    field_simp
  rw [ey] at y2
  have hY : Dbl.sub (Dbl.ofInt 1) b =
      roundDbl (1 * (b.den : Int) - b.num * ((1 : Nat) : Int)) (1 * b.den) := rfl
  rw [hY]
  generalize roundDbl (1 * (b.den : Int) - b.num * ((1 : Nat) : Int)) (1 * b.den) = y
    at y2 hyn hyd
  have hyq : (y.den : ℚ) ≠ 0 := by exact_mod_cast (Nat.pos_iff_ne_zero.mp hyd)
  -- z = y / 2
  have hZ : Dbl.div y (Dbl.ofInt 2) = roundDbl (y.num * ((1 : Nat) : Int) * 1) (y.den * 2) := rfl
  have hz0 : (0 : Int) ≤ y.num * ((1 : Nat) : Int) * 1 := by
    simp only [Nat.cast_one, mul_one]
    exact hyn
  obtain ⟨_, z2⟩ := val_roundDbl (y.num * ((1 : Nat) : Int) * 1) (y.den * 2) (by omega) hz0
  have hzn : 0 ≤ (roundDbl (y.num * ((1 : Nat) : Int) * 1) (y.den * 2)).num :=
    roundDbl_num_nonneg _ hz0
  have hzd : 0 < (roundDbl (y.num * ((1 : Nat) : Int) * 1) (y.den * 2)).den :=
    roundDbl_den_pos _ _
  have ez : ((y.num * ((1 : Nat) : Int) * 1 : Int) : ℚ) / ((y.den * 2 : Nat) : ℚ) =
      y.val / 2 := by
    unfold Dbl.val
    push_cast
    field_simp
  rw [ez] at z2
  rw [hZ]
  generalize roundDbl (y.num * ((1 : Nat) : Int) * 1) (y.den * 2) = z at z2 hzn hzd
  have hzq : (z.den : ℚ) ≠ 0 := by exact_mod_cast (Nat.pos_iff_ne_zero.mp hzd)
  -- lo = z * N
  have hL : Dbl.mul z (Dbl.ofInt s.cellNum) =
      roundDbl (z.num * (s.cellNum : Int)) (z.den * 1) := rfl
  obtain ⟨_, l2⟩ := val_roundDbl (z.num * (s.cellNum : Int)) (z.den * 1) (by omega)
    (mul_nonneg hzn (Int.natCast_nonneg _))
  have el : ((z.num * (s.cellNum : Int) : Int) : ℚ) / ((z.den * 1 : Nat) : ℚ) =
      z.val * (s.cellNum : ℚ) := by
    unfold Dbl.val
    push_cast
    field_simp
  rw [el] at l2
  rw [hL]
  -- chain
  have c1 : 1 - (s.bNum : ℚ) / (s.bDen : ℚ) * (1 + 1 / 2 ^ 52) ≤ 1 - b.val := by linarith
  have hNe : (0 : ℚ) ≤ (s.cellNum : ℚ) * (1 - 1 / 2 ^ 52) ^ 3 / 2 := by positivity
  calc (1 - (s.bNum : ℚ) / (s.bDen : ℚ) * (1 + 1 / 2 ^ 52)) / 2 * (s.cellNum : ℚ) *
        (1 - 1 / 2 ^ 52) ^ 3
      = (1 - (s.bNum : ℚ) / (s.bDen : ℚ) * (1 + 1 / 2 ^ 52)) *
          ((s.cellNum : ℚ) * (1 - 1 / 2 ^ 52) ^ 3 / 2) := by ring
    _ ≤ (1 - b.val) * ((s.cellNum : ℚ) * (1 - 1 / 2 ^ 52) ^ 3 / 2) :=
        mul_le_mul_of_nonneg_right c1 hNe
    _ = (1 - b.val) * (1 - 1 / 2 ^ 52) / 2 * (1 - 1 / 2 ^ 52) * (s.cellNum : ℚ) *
          (1 - 1 / 2 ^ 52) := by ring
    _ ≤ y.val / 2 * (1 - 1 / 2 ^ 52) * (s.cellNum : ℚ) * (1 - 1 / 2 ^ 52) := by
        apply mul_le_mul_of_nonneg_right _ h2
        apply mul_le_mul_of_nonneg_right _ hN
        apply mul_le_mul_of_nonneg_right _ h2
        linarith
    _ ≤ z.val * (s.cellNum : ℚ) * (1 - 1 / 2 ^ 52) := by
        apply mul_le_mul_of_nonneg_right _ h2
        exact mul_le_mul_of_nonneg_right z2 hN
    _ ≤ (roundDbl (z.num * (s.cellNum : Int)) (z.den * 1)).val := l2

/-- Side sizes that `checkBalance` accepts, for a balance factor `r` between 0
and 1: their difference is at most `r * N * (1 + 2 ^ -52) + 3 * 2 ^ -52 * N`. -/
theorem checkBalance_bound (s : Partitioner) (hn : 0 ≤ s.bNum) (hle : s.bNum ≤ s.bDen)
    (hd : 0 < s.bDen) (hsum : s.partSize false + s.partSize true = (s.cellNum : Int))
    (h : checkBalance s = true) :
    |(s.partSize false : ℚ) - (s.partSize true : ℚ)| ≤
      s.ratio * (s.cellNum : ℚ) * (1 + 1 / 2 ^ 52) + 3 / 2 ^ 52 * (s.cellNum : ℚ) := by
  have hlo := lowerBound_val s hn hle hd
  have hld : 0 < (Dbl.mul (Dbl.div (Dbl.sub (Dbl.ofInt 1) s.bFactor) (Dbl.ofInt 2))
      (Dbl.ofInt s.cellNum)).den := roundDbl_den_pos _ _
  unfold checkBalance at h
  split at h
  · exact absurd h (by simp)
  rename_i hc
  simp only [not_or] at hc
  obtain ⟨hA, _, hB, _⟩ := hc
  generalize Dbl.mul (Dbl.div (Dbl.sub (Dbl.ofInt 1) s.bFactor) (Dbl.ofInt 2))
      (Dbl.ofInt s.cellNum) = lo at hlo hld hA hB
  rw [lt_iff_val _ _ Nat.one_pos hld, val_ofInt, not_lt] at hA hB
  have hr : (0 : ℚ) ≤ s.ratio := by
    unfold Partitioner.ratio
    exact div_nonneg (by exact_mod_cast hn) (by exact_mod_cast le_of_lt hd)
  have hN : (0 : ℚ) ≤ (s.cellNum : ℚ) := Nat.cast_nonneg _
  have hsq : (s.partSize false : ℚ) + (s.partSize true : ℚ) = (s.cellNum : ℚ) := by
    exact_mod_cast hsum
  have hrN : 0 ≤ s.ratio * (s.cellNum : ℚ) := mul_nonneg hr hN
  -- N - 2 * lo is at most the bound
  have key : (s.cellNum : ℚ) - 2 * lo.val ≤
      s.ratio * (s.cellNum : ℚ) * (1 + 1 / 2 ^ 52) + 3 / 2 ^ 52 * (s.cellNum : ℚ) := by
    have e : (s.cellNum : ℚ) - 2 * ((1 - s.ratio * (1 + 1 / 2 ^ 52)) / 2 * (s.cellNum : ℚ) *
        (1 - 1 / 2 ^ 52) ^ 3) =
        (s.cellNum : ℚ) * (1 - (1 - 1 / 2 ^ 52) ^ 3) +
          s.ratio * (s.cellNum : ℚ) * (1 + 1 / 2 ^ 52) * (1 - 1 / 2 ^ 52) ^ 3 := by ring
    have t1 : (1 : ℚ) - (1 - 1 / 2 ^ 52) ^ 3 ≤ 3 / 2 ^ 52 := by norm_num
    have t2 : ((1 : ℚ) - 1 / 2 ^ 52) ^ 3 ≤ 1 := by norm_num
    have t3 : (0 : ℚ) ≤ s.ratio * (s.cellNum : ℚ) * (1 + 1 / 2 ^ 52) :=
      mul_nonneg hrN (by positivity)
    have u1 := mul_le_mul_of_nonneg_left t1 hN
    have u2 := mul_le_mul_of_nonneg_left t2 t3
    linarith
  rw [abs_le]
  constructor <;> linarith

/-! ## The claims -/

set_option maxRecDepth 100000


/-- C5: `updateGain` preserves count consistency. If the state is a well-formed
hypergraph whose net counts equal the numbers of adjacency cells on side A and
on side B, then after `updateGain(c)` the cell `c` is on the opposite side, the
counts of every net again equal those numbers, and the two counts of every net
add up to the length of its adjacency list. -/
theorem C5_updateGain_keeps_counts (s s1 : Partitioner) (c : Nat)
    (hwf : WellFormed s) (hc : c < s.cellNum) (hcnt : CountsAgree s)
    (h : updateGain s c = some s1) :
    (s1.cellArray c).part = (!(s.cellArray c).part) ∧
    s1.netNum = s.netNum ∧
    CountsAgree s1 ∧
    ∀ n, n < s1.netNum →
      (s1.netArray n).partCount false + (s1.netArray n).partCount true =
        ((s1.netArray n).cellList.length : Int) := by
  have hs := strip_updateGain h
  have hca : CountsAgree s1 :=
    countsAgree_of_strip hs (updateGainPure_countsAgree s c hwf hc hcnt)
  obtain ⟨h1, _, _, _, _, _, h7, _, _⟩ := updateGainPure_data s c
  rw [if_neg (hwf.1 c hc).1] at h7
  refine ⟨?_, ?_, hca, ?_⟩
  · rw [(cell_of_strip hs c).2.1, h7]
  · rw [(globals_netNum (globals_of_strip hs)).1, h1]
  · intro n hn
    rw [(hca n hn).1, (hca n hn).2]
    exact sideCount_sum s1 n

/-- Witness for C5: the first move of the pass on the two-net input. -/
theorem C5_witness :
    (demoMoved.cellArray 1).part = (!(demoPass.cellArray 1).part) ∧
    demoMoved.netNum = demoPass.netNum ∧
    CountsAgree demoMoved ∧
    ∀ n, n < demoMoved.netNum →
      (demoMoved.netArray n).partCount false + (demoMoved.netArray n).partCount true =
        ((demoMoved.netArray n).cellList.length : Int) :=
  C5_updateGain_keeps_counts demoPass demoMoved 1 (by decide) (by decide) (by decide) (by rfl)


/-- C3: gain correctness. In a pass that starts with `initPass` from a
well-formed hypergraph without a cell listed twice on a net and with net counts
that agree with the cell sides, `initGain` leaves in every cell the gain
FS - TE (the number of its nets whose count on its own side is 1 minus the
number of its nets whose count on the other side is 0), and after any run of
`updateGain` calls of the pass the stored gain of every cell that is still
unlocked equals FS - TE recomputed from the updated counts and sides. -/
theorem C3_gain_correctness (s0 s s1 : Partitioner) (cs : List Nat)
    (hwf : WellFormed s0) (hnr : NoRepeat s0) (hcnt : CountsAgree s0)
    (hstart : initPass s0 = some s)
    (hcs : ∀ c ∈ cs, c < s0.cellNum)
    (hrun : moveCells cs s = some s1) :
    (∀ c, c < s.cellNum →
      (s.cellArray c).gain = (fromSide s c : Int) - (toEmpty s c : Int)) ∧
    (∀ c, c < s1.cellNum → (s1.cellArray c).lock = false →
      (s1.cellArray c).gain = (fromSide s1 c : Int) - (toEmpty s1 c : Int)) := by
  obtain ⟨_, h2, _, _, _, _, _, _, _, _, _, _, _, _, h15⟩ := initPass_data hstart
  obtain ⟨a1, a2, a3, a4, a5⟩ := initPass_keeps hwf hnr hcnt hstart
  refine ⟨?_, ?_⟩
  · intro c hc
    rw [h2] at hc
    exact (h15 c hc).2
  · have hcs2 : ∀ c ∈ cs, c < s.cellNum := fun c hc => by rw [a5]; exact hcs c hc
    exact (moveCells_keeps cs s s1 a1 a2 a3 a4 hcs2 hrun).2.2.2.1

/-- Witness for C3: the pass on the two-net input and its first two moves. -/
theorem C3_witness :
    (∀ c, c < demoPass.cellNum →
      (demoPass.cellArray c).gain = (fromSide demoPass c : Int) - (toEmpty demoPass c : Int)) ∧
    (∀ c, c < demoRun.cellNum → (demoRun.cellArray c).lock = false →
      (demoRun.cellArray c).gain = (fromSide demoRun c : Int) - (toEmpty demoRun c : Int)) :=
  C3_gain_correctness demoInit demoPass demoRun [1, 3] (by decide) (by decide) (by decide)
    (by rfl) (by decide) (by rfl)

/-- C9: gain is the cut decrease. In a well-formed state without a cell listed
twice on a net, whose net counts agree with the cell sides and whose stored
gains equal FS - TE, the cut size that `countCutSize` computes after
`updateGain(c)` for an unlocked cell `c` is the cut size before it minus the
gain that `c` had before the move; hence over a run of moves of distinct
unlocked cells `_accGain` grows by the cut size at the start minus the cut size
at the end. -/
theorem C9_gain_is_cut_decrease (s s2 s1 : Partitioner) (c : Nat) (cs : List Nat)
    (hwf : WellFormed s) (hnr : NoRepeat s) (hcnt : CountsAgree s) (hg : GainsAgree s)
    (hnd : (c :: cs).Nodup)
    (hcs : ∀ x ∈ c :: cs, x < s.cellNum ∧ (s.cellArray x).lock = false)
    (hmove : updateGain s c = some s2)
    (hrun : moveCells (c :: cs) s = some s1) :
    (countCutSize s2).cutSize = (countCutSize s).cutSize - (s.cellArray c).gain ∧
    s1.accGain = s.accGain + ((countCutSize s).cutSize - (countCutSize s1).cutSize) := by
  obtain ⟨hc, hlk⟩ := hcs c (List.mem_cons_self c cs)
  exact ⟨updateGain_cut hwf hnr hcnt hg hc hlk hmove,
    moveCells_cut (c :: cs) s s1 hwf hnr hcnt hg hnd hcs hrun⟩

/-- Witness for C9: the first two moves of the pass on the two-net input. -/
theorem C9_witness :
    (countCutSize demoMoved).cutSize =
      (countCutSize demoPass).cutSize - (demoPass.cellArray 1).gain ∧
    demoRun.accGain =
      demoPass.accGain + ((countCutSize demoPass).cutSize - (countCutSize demoRun).cutSize) :=
  C9_gain_is_cut_decrease demoPass demoMoved demoRun 1 [3] (by decide) (by decide) (by decide)
    (by decide) (by decide) (by decide) (by rfl) (by rfl)

/-- C10: bucket membership. In a pass started by `initPass` on a well-formed
hypergraph, after `buildBList` and after every `updateGain` of a run of moves
of distinct cells there are lists `B p g`, one per dummy `_bList[p][g]`, such
that the list of the dummy threads exactly the cells of `B p g`, no list holds
a cell twice, every unlocked cell `c` is in the list of its side and gain and
in no other, that gain lies in `[-P, P]` for `P = _maxPinNum`, and a locked
cell is in no list. -/
theorem C10_bucket_membership (s0 s s1 : Partitioner) (cs : List Nat)
    (hwf : WellFormed s0) (hstart : initPass s0 = some s) (hnd : cs.Nodup)
    (hcs : ∀ c ∈ cs, c < s0.cellNum) (hrun : moveCells cs s = some s1) :
    ∃ B : Bool → Int → List Nat,
      (∀ p g, Threads s1 p g (B p g)) ∧
      (∀ p g, (B p g).Nodup) ∧
      (∀ c, c < s1.cellNum → (s1.cellArray c).lock = false →
        c ∈ B (s1.cellArray c).part (s1.cellArray c).gain ∧
        -s1.maxPinNum ≤ (s1.cellArray c).gain ∧ (s1.cellArray c).gain ≤ s1.maxPinNum ∧
        ∀ p g, c ∈ B p g → p = (s1.cellArray c).part ∧ g = (s1.cellArray c).gain) ∧
      (∀ c, (s1.cellArray c).lock = true → ∀ p g, c ∉ B p g) := by
  obtain ⟨h1, h2, h3, _, _, _, _, _, _, _, _, _, _, h14, h15⟩ := initPass_data hstart
  have hwf1 : WellFormed s :=
    wellFormed_congr h2 h3 (fun x => (h14 x).2.1) (fun n => by rw [h1]) hwf
  have hcs1 : ∀ c ∈ cs, c < s.cellNum ∧ (s.cellArray c).lock = false := by
    intro c hc
    exact ⟨by rw [h2]; exact hcs c hc, (h15 c (hcs c hc)).1⟩
  obtain ⟨_, _, _, B, hB⟩ :=
    moveCells_buckets cs s s1 hwf1 (buckets_initPass hstart) hnd hcs1 hrun
  refine ⟨B, hB.linked.threads, hB.linked.nodup, ?_, ?_⟩
  · intro c hc hlk
    have hmem : c ∈ B (s1.cellArray c).part (s1.cellArray c).gain :=
      (hB.mem _ _ c).mpr ⟨hc, rfl, Or.inl ⟨hlk, rfl⟩⟩
    have hdom : (s1.bList (s1.cellArray c).part (s1.cellArray c).gain).isSome = true := by
      have hseg := hB.linked.threads (s1.cellArray c).part (s1.cellArray c).gain
      unfold Threads at hseg
      cases hl : B (s1.cellArray c).part (s1.cellArray c).gain with
      | nil =>
        rw [hl] at hmem
        exact absurd hmem (List.not_mem_nil c)
      | cons i rest =>
        rw [hl] at hseg
        simp only [Seg, nextOf, getNode] at hseg
        cases hb : s1.bList (s1.cellArray c).part (s1.cellArray c).gain with
        | none =>
          rw [hb] at hseg
          exact absurd hseg.1 (by simp)
        | some n => rfl
    have hrange := (hB.dom _ _).mp hdom
    refine ⟨hmem, hrange.1, hrange.2, ?_⟩
    intro p g hm
    exact hB.linked.apart p g _ _ c hm hmem
  · intro c hlk p g hm
    have := ((hB.mem p g c).mp hm).2.2
    rcases this with ⟨e, _⟩ | e
    · rw [hlk] at e
      exact absurd e (by simp)
    · exact absurd e (by simp)

/-- Witness for C10: the pass on the two-net input and its first two moves. -/
theorem C10_witness :
    ∃ B : Bool → Int → List Nat,
      (∀ p g, Threads demoRun p g (B p g)) ∧
      (∀ p g, (B p g).Nodup) ∧
      (∀ c, c < demoRun.cellNum → (demoRun.cellArray c).lock = false →
        c ∈ B (demoRun.cellArray c).part (demoRun.cellArray c).gain ∧
        -demoRun.maxPinNum ≤ (demoRun.cellArray c).gain ∧
        (demoRun.cellArray c).gain ≤ demoRun.maxPinNum ∧
        ∀ p g, c ∈ B p g → p = (demoRun.cellArray c).part ∧ g = (demoRun.cellArray c).gain) ∧
      (∀ c, (demoRun.cellArray c).lock = true → ∀ p g, c ∉ B p g) :=
  C10_bucket_membership demoInit demoPass demoRun [1, 3] (by decide) (by rfl) (by decide)
    (by decide) (by rfl)

/-- C2 (amended): balance on termination, with the balance tests as the code
evaluates them on `double`. For every tokenised input on which `partition`
(genInitPartition followed by FMAlgorithm) returns a state: the result keeps
`_bFactor`, the `double` that `stod` returned for the first token, and the
number of cells `N` of the input, and its two side sizes add up to `N`;
`genInitPartition` returned a state that `checkBalance` accepts; and the side
sizes of the result either are the sizes of that state, and `checkBalance`
accepts the result, or they satisfy the test of the last move that was kept,
`abs(size[A] - size[B]) < _bFactor * _cellNum`. Moreover every move that
passes the test of the move loop,
`abs(size[s] - size[other] - 2) < _bFactor * _cellNum` for the side `s` of the
moved cell, leaves side sizes with
`abs(size[A] - size[B]) < _bFactor * _cellNum`. In exact terms, for a balance
factor `r = bNum / bDen` between 0 and 1 the side sizes of the result satisfy
`|size[A] - size[B]| <= r * N * (1 + 2 ^ -52) ^ 2 + 3 * 2 ^ -52 * N`. -/
theorem C2_balance_on_termination (bNum bDen : Int) (stmts : List (String × List String))
    (fuel : Nat) (s1 : Partitioner)
    (h : partition fuel (parseInput bNum bDen stmts) = some s1) :
    s1.bFactor = roundDbl bNum bDen.toNat ∧
    s1.cellNum = (parseInput bNum bDen stmts).cellNum ∧
    s1.partSize false + s1.partSize true = (s1.cellNum : Int) ∧
    (∃ g, genInitPartition fuel (parseInput bNum bDen stmts) = some g ∧
      checkBalance g = true ∧
      ((s1.partSize = g.partSize ∧ checkBalance s1 = true) ∨
        Dbl.lt (Dbl.ofInt |s1.partSize false - s1.partSize true|)
          (Dbl.mul s1.bFactor (Dbl.ofInt s1.cellNum)) = true)) ∧
    (∀ (st t : Partitioner) (c : Nat),
      admissible st (st.cellArray c).part = true →
      updateGain st c = some t →
      Dbl.lt (Dbl.ofInt |t.partSize false - t.partSize true|)
        (Dbl.mul t.bFactor (Dbl.ofInt t.cellNum)) = true) ∧
    s1.ratio = (bNum : ℚ) / (bDen : ℚ) ∧
    (0 ≤ bNum → bNum ≤ bDen → 0 < bDen →
      |(s1.partSize false : ℚ) - (s1.partSize true : ℚ)| ≤
        s1.ratio * (s1.cellNum : ℚ) * (1 + 1 / 2 ^ 52) ^ 2 + 3 / 2 ^ 52 * (s1.cellNum : ℚ)) := by
  obtain ⟨hwf, p1, p2, p3, p4⟩ := parseInput_wellFormed bNum bDen stmts
  obtain ⟨⟨g, hg, a1, a0⟩, a2, a3, a4, a5⟩ := partition_balance hwf ⟨p3, p4⟩ h
  obtain ⟨_, g2, _⟩ := genInitPartition_data ⟨p3, p4⟩ hg
  have hcb : s1.partSize = g.partSize → checkBalance s1 = true := by
    intro e
    rw [checkBalance_congr e (a2.trans g2.bNum.symm) (a3.trans g2.bDen.symm)
      (a4.trans g2.cellNum.symm)]
    exact a1
  refine ⟨?_, a4, a5, ⟨g, hg, a1, ?_⟩, fun st t c h1 h2 => updateGain_admits h1 h2, ?_, ?_⟩
  · unfold Partitioner.bFactor
    rw [a2, a3, p1, p2]
  · rcases a0 with e | e
    · exact Or.inl ⟨e, hcb e⟩
    · exact Or.inr e
  · unfold Partitioner.ratio
    rw [a2, a3, p1, p2]
  · intro hn hle hd
    have hn1 : 0 ≤ s1.bNum := by rw [a2, p1]; exact hn
    have hle1 : s1.bNum ≤ s1.bDen := by rw [a2, a3, p1, p2]; exact hle
    have hd1 : 0 < s1.bDen := by rw [a3, p2]; exact hd
    have hr : (0 : ℚ) ≤ s1.ratio := by
      unfold Partitioner.ratio
      exact div_nonneg (by exact_mod_cast hn1) (by exact_mod_cast le_of_lt hd1)
    have hN : (0 : ℚ) ≤ (s1.cellNum : ℚ) := Nat.cast_nonneg _
    have hrN : 0 ≤ s1.ratio * (s1.cellNum : ℚ) := mul_nonneg hr hN
    have hslack : (0 : ℚ) ≤ 3 / 2 ^ 52 * (s1.cellNum : ℚ) := by positivity
    rcases a0 with e | e
    · have hb := checkBalance_bound s1 hn1 hle1 hd1 a5 (hcb e)
      have t1 : s1.ratio * (s1.cellNum : ℚ) * (1 + 1 / 2 ^ 52) ≤
          s1.ratio * (s1.cellNum : ℚ) * (1 + 1 / 2 ^ 52) ^ 2 := by
        have t2 : (1 : ℚ) + 1 / 2 ^ 52 ≤ (1 + 1 / 2 ^ 52) ^ 2 := by norm_num
        exact mul_le_mul_of_nonneg_left t2 hrN
      linarith
    · have hb := (admits_bounds s1 (sizeDiff s1) hn1 hd1).1 e
      have hc : ((|sizeDiff s1| : Int) : ℚ) =
          |(s1.partSize false : ℚ) - (s1.partSize true : ℚ)| := by
        unfold sizeDiff
        push_cast
        rfl
      rw [← hc]
      have hb2 : ((|sizeDiff s1| : Int) : ℚ) <
          s1.ratio * (s1.cellNum : ℚ) * (1 + 1 / 2 ^ 52) ^ 2 := by exact_mod_cast hb
      linarith

/-- Witness for C2: the run of `partition` on the two-net input with `r = 3/5`. -/
theorem C2_witness :
    demoFinal.bFactor = roundDbl 3 (5 : Int).toNat ∧
    demoFinal.cellNum = demoInput.cellNum ∧
    demoFinal.partSize false + demoFinal.partSize true = (demoFinal.cellNum : Int) ∧
    (∃ g, genInitPartition 0 demoInput = some g ∧
      checkBalance g = true ∧
      ((demoFinal.partSize = g.partSize ∧ checkBalance demoFinal = true) ∨
        Dbl.lt (Dbl.ofInt |demoFinal.partSize false - demoFinal.partSize true|)
          (Dbl.mul demoFinal.bFactor (Dbl.ofInt demoFinal.cellNum)) = true)) ∧
    (∀ (st t : Partitioner) (c : Nat),
      admissible st (st.cellArray c).part = true →
      updateGain st c = some t →
      Dbl.lt (Dbl.ofInt |t.partSize false - t.partSize true|)
        (Dbl.mul t.bFactor (Dbl.ofInt t.cellNum)) = true) ∧
    demoFinal.ratio = ((3 : Int) : ℚ) / ((5 : Int) : ℚ) ∧
    ((0 : Int) ≤ 3 → (3 : Int) ≤ 5 → (0 : Int) < 5 →
      |(demoFinal.partSize false : ℚ) - (demoFinal.partSize true : ℚ)| ≤
        demoFinal.ratio * (demoFinal.cellNum : ℚ) * (1 + 1 / 2 ^ 52) ^ 2 +
          3 / 2 ^ 52 * (demoFinal.cellNum : ℚ)) :=
  C2_balance_on_termination 3 5 [("n1", ["a", "b"]), ("n2", ["c", "d"])] 0 demoFinal
    (by
      have hs : (partition 0 demoInput).isSome = true := by decide
      unfold demoFinal
      cases h : partition 0 demoInput with
      | none =>
        rw [h] at hs
        exact absurd hs (by simp)
      | some s => exact h)

/-- C7 (amended): the pass controller runs a single pass. For every tokenised
input on which `partition` returns a state, that state is the result of one
call of `FMAlgorithm` on the initial partition, and `_iterNum` is 1 when that
pass ended with `_maxAccGain > 0` (which is then kept in the result) and 0
otherwise: no further pass is started after a pass that improved the cut. -/
theorem C7_partition_runs_one_pass (bNum bDen : Int) (stmts : List (String × List String))
    (fuel : Nat) (s1 : Partitioner)
    (h : partition fuel (parseInput bNum bDen stmts) = some s1) :
    (∃ g, genInitPartition fuel (parseInput bNum bDen stmts) = some g ∧
      FMAlgorithm g = some s1) ∧
    s1.iterNum = (if s1.maxAccGain > 0 then 1 else 0) := by
  obtain ⟨hwf, _, _, p3, p4⟩ := parseInput_wellFormed bNum bDen stmts
  unfold partition at h
  split at h
  · exact absurd h (by simp)
  rename_i g hg
  obtain ⟨_, a2, _⟩ := genInitPartition_data ⟨p3, p4⟩ hg
  refine ⟨⟨g, hg, h⟩, ?_⟩
  rw [FMAlgorithm_iterNum (sameGraph_wellFormed a2 hwf) h, a2.iterNum, parseInput_iterNum]
  simp

/-- Witness for C7 (amended): the run of `partition` on the four-net input, which
ends after one pass with `_maxAccGain = 1`. -/
theorem C7_witness :
    (∃ g, genInitPartition 0 twoPassInput = some g ∧ FMAlgorithm g = some twoPassFinal) ∧
    twoPassFinal.iterNum = (if twoPassFinal.maxAccGain > 0 then 1 else 0) :=
  C7_partition_runs_one_pass 1 4
    [("n1", ["a", "b"]), ("n2", ["a", "c"]), ("n3", ["a", "c", "d"]), ("n4", ["b", "e"])]
    0 twoPassFinal
    (by
      have hs : (partition 0 twoPassInput).isSome = true := by decide
      unfold twoPassFinal
      cases h : partition 0 twoPassInput with
      | none =>
        rw [h] at hs
        exact absurd hs (by simp)
      | some s => exact h)

/-! ## The claims about the pass engine and the repair loop -/


/-- C18: within one pass each cell is moved at most once. In a pass started by
`initPass` on a well-formed hypergraph, at the head of every iteration of the
move loop and when the loop has ended, the move stack holds no cell id twice,
every cell on it is a locked cell of the circuit, and `findMaxGainCell` only
returns unlocked cells, none of which is on the stack; so the stack never
holds more than `_cellNum` moves. -/
theorem C18_each_cell_moved_once (g s0 s2 : Partitioner) (hwf : WellFormed g)
    (hstart : initPass g = some s0)
    (hloop : moveLoop (s0.cellNum - s0.moveNum) s0 = some s2) :
    (s2.moveStack.Nodup ∧
      (∀ x ∈ s2.moveStack, x < s2.cellNum ∧ (s2.cellArray x).lock = true) ∧
      s2.moveStack.length ≤ s2.cellNum) ∧
    (∀ k st, loopHead k s0 = some st →
      st.moveStack.Nodup ∧ st.moveStack.length = k ∧ st.moveNum = k ∧
      (∀ x ∈ st.moveStack, x < st.cellNum ∧ (st.cellArray x).lock = true) ∧
      (∀ p c, findMaxGainCell st p = some c →
        (st.cellArray c).lock = false ∧ c ∉ st.moveStack)) := by
  have h0 := passInv_start hwf hstart
  refine ⟨?_, ?_⟩
  · obtain ⟨st, hinv, hst⟩ := moveLoop_passInv _ _ _ h0 hloop
    have hf : s2.moveStack = st.moveStack ∧ s2.cellArray = st.cellArray ∧
        s2.cellNum = st.cellNum := by
      rcases hst with e | e <;> rw [e] <;> exact ⟨rfl, rfl, rfl⟩
    rw [hf.1, hf.2.1, hf.2.2]
    exact ⟨hinv.nodup, hinv.locked,
      nodup_length_le _ _ hinv.nodup (fun x hx => (hinv.locked x hx).1)⟩
  · intro k st hk
    have hinv := loopHead_passInv k _ _ h0 hk
    have hlen : ∀ (j : Nat) (a b : Partitioner), loopHead j a = some b →
        PassInv s0 a → b.moveNum = a.moveNum + j := by
      intro j
      induction j with
      | zero =>
        intro a b h _
        simp only [loopHead, Option.some.injEq] at h
        rw [h]; rfl
      | succ j ih =>
        intro a b h ha
        simp only [loopHead] at h
        split at h
        · split at h
          · rename_i s1 hstep
            obtain ⟨B, hB⟩ := ha.buckets
            rcases moveStep_cases hB hstep with ⟨hr, _⟩ | ⟨_, c, hc, hlk, hadm, hu⟩
            · exact absurd hr (by simp)
            · have e := ih _ _ h (passInv_move ha hc hlk hadm hu)
              have e3 := (updateGain_globals hu).2.2.1
              rw [e]
              show s1.moveNum + 1 + j = a.moveNum + (j + 1)
              omega
          · exact absurd h (by simp)
        · exact absurd h (by simp)
    have hm : st.moveNum = k := by
      have e := hlen k s0 st hk h0
      have e0 : s0.moveNum = 0 := (initPass_data hstart).2.2.2.2.2.2.2.1
      omega
    refine ⟨hinv.nodup, ?_, hm, hinv.locked, ?_⟩
    · rw [← hinv.moveNum]; exact hm
    · intro p c hc
      obtain ⟨B, hB⟩ := hinv.buckets
      obtain ⟨_, a2, _⟩ := findMaxGainCell_mem hB hc
      refine ⟨a2, fun hmem => ?_⟩
      have := (hinv.locked c hmem).2
      rw [a2] at this
      exact absurd this (by simp)

/-- Witness for C18: the pass on the two-net input. -/
theorem C18_witness :
    (demoLoopEnd.moveStack.Nodup ∧
      (∀ x ∈ demoLoopEnd.moveStack,
        x < demoLoopEnd.cellNum ∧ (demoLoopEnd.cellArray x).lock = true) ∧
      demoLoopEnd.moveStack.length ≤ demoLoopEnd.cellNum) ∧
    (∀ k st, loopHead k demoPass = some st →
      st.moveStack.Nodup ∧ st.moveStack.length = k ∧ st.moveNum = k ∧
      (∀ x ∈ st.moveStack, x < st.cellNum ∧ (st.cellArray x).lock = true) ∧
      (∀ p c, findMaxGainCell st p = some c →
        (st.cellArray c).lock = false ∧ c ∉ st.moveStack)) :=
  C18_each_cell_moved_once demoInit demoPass demoLoopEnd (by decide) (by rfl)
    (by
      have hs : (moveLoop (demoPass.cellNum - demoPass.moveNum) demoPass).isSome = true := by
        decide
      unfold demoLoopEnd
      cases h : moveLoop (demoPass.cellNum - demoPass.moveNum) demoPass with
      | none =>
        rw [h] at hs
        exact absurd hs (by simp)
      | some s => rfl)


/-- C11: `findMaxGainCell` returns the head of the highest non-empty bucket.
In a pass started by `initPass` on a well-formed hypergraph, after any run of
moves of distinct cells, if side `p` has an unlocked cell then
`findMaxGainCell(p)` returns a cell `c` that is the head of the list of the
dummy `_bList[p][gain c]`, every bucket of side `p` with a higher gain is empty,
`c` is an unlocked cell of side `p`, and its gain is at least the gain of every
unlocked cell of side `p`. The head of a list is its most recently inserted
cell: `insertCell` puts the cell directly behind the dummy of its side and
gain, in front of the cells that were in that list, and `removeCell` takes a
cell out of its list without changing the order of the others. -/
theorem C11_findMaxGainCell_head (s0 s s1 : Partitioner) (cs : List Nat) (p : Bool) (x : Nat)
    (hwf : WellFormed s0) (hstart : initPass s0 = some s) (hnd : cs.Nodup)
    (hcs : ∀ c ∈ cs, c < s0.cellNum) (hrun : moveCells cs s = some s1)
    (hx : x < s1.cellNum) (hlk : (s1.cellArray x).lock = false)
    (hp : (s1.cellArray x).part = p) :
    (∃ (B : Bool → Int → List Nat) (c : Nat) (rest : List Nat),
      (∀ q g, Threads s1 q g (B q g)) ∧
      findMaxGainCell s1 p = some c ∧
      B p (s1.cellArray c).gain = c :: rest ∧
      (∀ g1, (s1.cellArray c).gain < g1 → B p g1 = []) ∧
      c < s1.cellNum ∧ (s1.cellArray c).lock = false ∧ (s1.cellArray c).part = p ∧
      ∀ y, y < s1.cellNum → (s1.cellArray y).lock = false → (s1.cellArray y).part = p →
        (s1.cellArray y).gain ≤ (s1.cellArray c).gain) ∧
    (∀ (t t1 : Partitioner) (L : Bool → Int → List Nat) (y : Nat),
      Linked t L → (∀ q g, y ∉ L q g) → insertCell t y = some t1 →
      Threads t1 (t.cellArray y).part (t.cellArray y).gain
        (y :: L (t.cellArray y).part (t.cellArray y).gain)) ∧
    (∀ (t t1 : Partitioner) (L : Bool → Int → List Nat) (y : Nat) (q : Bool) (g : Int),
      Linked t L → y ∈ L q g → removeCell t y = some t1 →
      Threads t1 q g ((L q g).erase y)) := by
  obtain ⟨h1, h2, h3, _, _, _, _, _, _, _, _, _, _, h14, h15⟩ := initPass_data hstart
  have hwf1 : WellFormed s :=
    wellFormed_congr h2 h3 (fun x => (h14 x).2.1) (fun n => by rw [h1]) hwf
  have hcs1 : ∀ c ∈ cs, c < s.cellNum ∧ (s.cellArray c).lock = false := by
    intro c hc
    exact ⟨by rw [h2]; exact hcs c hc, (h15 c (hcs c hc)).1⟩
  obtain ⟨_, _, _, B, hB⟩ :=
    moveCells_buckets cs s s1 hwf1 (buckets_initPass hstart) hnd hcs1 hrun
  refine ⟨?_, ?_, ?_⟩
  · obtain ⟨c, rest, a1, a2, a3, _, a5, a6, a7, a8⟩ := findMaxGainCell_max hB hx hlk hp
    exact ⟨B, c, rest, hB.linked.threads, a1, a2, a3, a5, a6, a7, a8⟩
  · intro t t1 L y hL hy hins
    have := (linked_insert hL hy hins).1.threads (t.cellArray y).part (t.cellArray y).gain
    rw [setBucket_same] at this
    exact this
  · intro t t1 L y q g hL hy hrem
    have := (linked_remove hL hy hrem).1.threads q g
    rw [setBucket_same] at this
    exact this

/-- Witness for C11: side A after the first two moves of the pass on the two-net
input, where cell `a` (id 0) is still unlocked. -/
theorem C11_witness :
    (∃ (B : Bool → Int → List Nat) (c : Nat) (rest : List Nat),
      (∀ q g, Threads demoRun q g (B q g)) ∧
      findMaxGainCell demoRun (demoRun.cellArray 0).part = some c ∧
      B (demoRun.cellArray 0).part (demoRun.cellArray c).gain = c :: rest ∧
      (∀ g1, (demoRun.cellArray c).gain < g1 → B (demoRun.cellArray 0).part g1 = []) ∧
      c < demoRun.cellNum ∧ (demoRun.cellArray c).lock = false ∧
      (demoRun.cellArray c).part = (demoRun.cellArray 0).part ∧
      ∀ y, y < demoRun.cellNum → (demoRun.cellArray y).lock = false →
        (demoRun.cellArray y).part = (demoRun.cellArray 0).part →
        (demoRun.cellArray y).gain ≤ (demoRun.cellArray c).gain) ∧
    (∀ (t t1 : Partitioner) (L : Bool → Int → List Nat) (y : Nat),
      Linked t L → (∀ q g, y ∉ L q g) → insertCell t y = some t1 →
      Threads t1 (t.cellArray y).part (t.cellArray y).gain
        (y :: L (t.cellArray y).part (t.cellArray y).gain)) ∧
    (∀ (t t1 : Partitioner) (L : Bool → Int → List Nat) (y : Nat) (q : Bool) (g : Int),
      Linked t L → y ∈ L q g → removeCell t y = some t1 →
      Threads t1 q g ((L q g).erase y)) :=
  C11_findMaxGainCell_head demoInit demoPass demoRun [1, 3] (demoRun.cellArray 0).part 0
    (by decide) (by rfl) (by decide) (by decide) (by rfl) (by decide) (by decide) (by rfl)

/-- C15: size bookkeeping. For every tokenised input, in the state `g` that
`genInitPartition` returns `_partSize[p]` is the number of cells on side `p` and
the two sizes add up to `_cellNum`; the same holds after every `reBalance` call
of the repair loop, which starts from the seeded state, at the head of every
iteration of the move loop of the pass, where in addition `_unlockNum[p]` is
the number of unlocked cells on side `p`, and in the state that `FMAlgorithm`
returns. Step by step: `reBalance`, `updateGain` and `recover2Best` keep
`_partSize` equal to the side counts, and `updateGain` of an unlocked cell keeps
`_unlockNum` equal to the unlocked counts. -/
theorem C15_size_bookkeeping (bNum bDen : Int) (stmts : List (String × List String))
    (fuel : Nat) (g : Partitioner)
    (hg : genInitPartition fuel (parseInput bNum bDen stmts) = some g) :
    (SizesAgree g ∧ g.partSize false + g.partSize true = (g.cellNum : Int)) ∧
    (∀ tmpNet seeded k,
      seedLoop (List.range (parseInput bNum bDen stmts).cellNum) (parseInput bNum bDen stmts)
        false tmpNet = some seeded →
      SizesAgree (Nat.iterate reBalance k seeded)) ∧
    (∀ s0 k st, initPass g = some s0 → loopHead k s0 = some st →
      SizesAgree st ∧ UnlockAgree st ∧
      st.partSize false + st.partSize true = (st.cellNum : Int)) ∧
    (∀ s1, FMAlgorithm g = some s1 →
      SizesAgree s1 ∧ s1.partSize false + s1.partSize true = (s1.cellNum : Int)) ∧
    (∀ s, SizesAgree s → SizesAgree (reBalance s)) ∧
    (∀ s c t, WellFormed s → c < s.cellNum → SizesAgree s → updateGain s c = some t →
      SizesAgree t) ∧
    (∀ s c t, c < s.cellNum → (s.cellArray c).lock = false → UnlockAgree s →
      updateGain s c = some t → UnlockAgree t) ∧
    (∀ s t, SizesAgree s → (∀ x ∈ s.moveStack, x < s.cellNum) → recover2Best s = some t →
      SizesAgree t) := by
  obtain ⟨hwf, _, _, p3, p4⟩ := parseInput_wellFormed bNum bDen stmts
  have hsz := genInitPartition_sizesAgree ⟨p3, p4⟩ hg
  obtain ⟨_, a2, _⟩ := genInitPartition_data ⟨p3, p4⟩ hg
  have hwfg := sameGraph_wellFormed a2 hwf
  refine ⟨⟨hsz, sizesAgree_sum hsz⟩, ?_, ?_, ?_, reBalance_sizesAgree,
    fun s c t h1 h2 h3 h4 => updateGain_sizesAgree h1 h2 h3 h4,
    fun s c t h1 h2 h3 h4 => updateGain_unlockAgree h1 h2 h3 h4,
    fun s t h1 h2 h3 => recover2Best_sizesAgree h1 h2 h3⟩
  · intro tmpNet seeded k hseed
    refine iterate_reBalance_sizesAgree k seeded ?_
    obtain ⟨b1, _⟩ := seedLoop_sizes _ _ _ _ _ (List.nodup_range _) hseed
    obtain ⟨b3, _⟩ := seedLoop_data _ _ _ _ _ hseed
    intro q
    rw [b1 q]
    unfold sizeCount
    rw [b3.cellNum]
    cases q
    · rw [p3]; simp
    · rw [p4]; simp
  · intro s0 k st hstart hk
    obtain ⟨_, c2, c3, _⟩ := loopHead_counts k _ _ (pass_start_counts hwfg hsz hstart) hk
    exact ⟨c2, c3, sizesAgree_sum c2⟩
  · intro s1 h1
    have := FMAlgorithm_sizesAgree hwfg hsz h1
    exact ⟨this, sizesAgree_sum this⟩

/-- Witness for C15: the initial partition of the two-net input. -/
theorem C15_witness :
    (SizesAgree demoInit ∧
      demoInit.partSize false + demoInit.partSize true = (demoInit.cellNum : Int)) ∧
    (∀ tmpNet seeded k,
      seedLoop (List.range demoInput.cellNum) demoInput false tmpNet = some seeded →
      SizesAgree (Nat.iterate reBalance k seeded)) ∧
    (∀ s0 k st, initPass demoInit = some s0 → loopHead k s0 = some st →
      SizesAgree st ∧ UnlockAgree st ∧
      st.partSize false + st.partSize true = (st.cellNum : Int)) ∧
    (∀ s1, FMAlgorithm demoInit = some s1 →
      SizesAgree s1 ∧ s1.partSize false + s1.partSize true = (s1.cellNum : Int)) ∧
    (∀ s, SizesAgree s → SizesAgree (reBalance s)) ∧
    (∀ s c t, WellFormed s → c < s.cellNum → SizesAgree s → updateGain s c = some t →
      SizesAgree t) ∧
    (∀ s c t, c < s.cellNum → (s.cellArray c).lock = false → UnlockAgree s →
      updateGain s c = some t → UnlockAgree t) ∧
    (∀ s t, SizesAgree s → (∀ x ∈ s.moveStack, x < s.cellNum) → recover2Best s = some t →
      SizesAgree t) :=
  C15_size_bookkeeping 3 5 [("n1", ["a", "b"]), ("n2", ["c", "d"])] 0 demoInit
    (by
      have hs : (genInitPartition 0 demoInput).isSome = true := by decide
      unfold demoInit
      cases h : genInitPartition 0 demoInput with
      | none =>
        rw [h] at hs
        exact absurd hs (by simp)
      | some s => exact h)


/-- C19: guarded find-max. For every tokenised input, at the head of every
iteration of the move loop of the pass that `partition` runs (so with
`_moveNum < _cellNum`), the side that the iteration scans has a positive
`_unlockNum`: side B when `_unlockNum[0] == 0`, side A when `_unlockNum[0] != 0`
and `_unlockNum[1] == 0`, both sides otherwise; and each of these calls of
`findMaxGainCell` succeeds: its scan stops at a bucket with gain in
`[-_maxPinNum, _maxPinNum]`, whose dummy exists and whose list has a cell at its
head, and that cell is returned. -/
theorem C19_guarded_findMax (bNum bDen : Int) (stmts : List (String × List String))
    (fuel : Nat) (g s0 st : Partitioner) (k : Nat)
    (hg : genInitPartition fuel (parseInput bNum bDen stmts) = some g)
    (hstart : initPass g = some s0) (hk : loopHead k s0 = some st)
    (hlt : st.moveNum < st.cellNum) :
    (st.unlockNum false = 0 → 0 < st.unlockNum true ∧ ScanOk st true) ∧
    (st.unlockNum false ≠ 0 → st.unlockNum true = 0 →
      0 < st.unlockNum false ∧ ScanOk st false) ∧
    (st.unlockNum false ≠ 0 → st.unlockNum true ≠ 0 →
      0 < st.unlockNum false ∧ 0 < st.unlockNum true ∧ ScanOk st false ∧ ScanOk st true) := by
  obtain ⟨hwf, _, _, p3, p4⟩ := parseInput_wellFormed bNum bDen stmts
  have hsz := genInitPartition_sizesAgree ⟨p3, p4⟩ hg
  obtain ⟨_, a2, _⟩ := genInitPartition_data ⟨p3, p4⟩ hg
  have hwfg := sameGraph_wellFormed a2 hwf
  obtain ⟨hinv, _, hun, hl⟩ := loopHead_counts k _ _ (pass_start_counts hwfg hsz hstart) hk
  obtain ⟨B, hB⟩ := hinv.buckets
  obtain ⟨x, hx, hxl⟩ := exists_unlocked hinv hl hlt
  have hxpos := unlockedCount_pos hx hxl
  have side : ∀ p, st.unlockNum p ≠ 0 → 0 < st.unlockNum p ∧ ScanOk st p := by
    intro p hp
    have hne : unlockedCount st p ≠ 0 := by rw [← hun p]; exact hp
    obtain ⟨y, hy, hyl, hyp⟩ := exists_of_unlockedCount hne
    have h0 := unlockedCount_nonneg st p
    refine ⟨?_, scanOk_of_unlocked hB hy hyl hyp⟩
    rw [hun p]
    omega
  refine ⟨?_, ?_, ?_⟩
  · intro h0
    apply side true
    intro h1
    cases hp : (st.cellArray x).part
    · rw [hp, ← hun false, h0] at hxpos
      exact absurd hxpos (by simp)
    · rw [hp, ← hun true, h1] at hxpos
      exact absurd hxpos (by simp)
  · intro h0 _
    exact side false h0
  · intro h0 h1
    exact ⟨(side false h0).1, (side true h1).1, (side false h0).2, (side true h1).2⟩

/-- Witness for C19: the first iteration of the pass on the two-net input. -/
theorem C19_witness :
    (demoPass.unlockNum false = 0 → 0 < demoPass.unlockNum true ∧ ScanOk demoPass true) ∧
    (demoPass.unlockNum false ≠ 0 → demoPass.unlockNum true = 0 →
      0 < demoPass.unlockNum false ∧ ScanOk demoPass false) ∧
    (demoPass.unlockNum false ≠ 0 → demoPass.unlockNum true ≠ 0 →
      0 < demoPass.unlockNum false ∧ 0 < demoPass.unlockNum true ∧
        ScanOk demoPass false ∧ ScanOk demoPass true) :=
  C19_guarded_findMax 3 5 [("n1", ["a", "b"]), ("n2", ["c", "d"])] 0 demoInit demoPass demoPass 0
    (by
      have hs : (genInitPartition 0 demoInput).isSome = true := by decide
      unfold demoInit
      cases h : genInitPartition 0 demoInput with
      | none =>
        rw [h] at hs
        exact absurd hs (by simp)
      | some s => exact h)
    (by rfl) (by rfl) (by decide)


/-- C17 (amended): move selection, with the balance test as the code evaluates
it on `double`. For every tokenised input, at the head of every iteration of the
move loop of the pass that `partition` runs in which side A and side B both
have an unlocked cell, `findMaxGainCell` returns a candidate `a` for side A and
`b` for side B; `_bFactor` is the `double` that `stod` returned for the first
token, and a candidate of side `p` is admissible iff
`abs(size[p] - size[other] - 2) < _bFactor * _cellNum`, the product rounded to
`double`, which for `r = bNum / bDen >= 0` holds only if
`|size[p] - size[other] - 2| < r * N * (1 + 2 ^ -52) ^ 2` and fails only if
`|size[p] - size[other] - 2| >= r * N * (1 - 2 ^ -52) ^ 2`; if
`gain a >= gain b` the iteration moves
`a` when side A is admissible, else `b` when side B is admissible, and if
`gain a < gain b` it moves `b` when side B is admissible, else `a` when side A
is admissible; when neither side is admissible the iteration leaves the state
as it is and the move loop ends there. -/
theorem C17_move_selection (bNum bDen : Int) (stmts : List (String × List String))
    (fuel : Nat) (g s0 st : Partitioner) (k x y : Nat)
    (hg : genInitPartition fuel (parseInput bNum bDen stmts) = some g)
    (hstart : initPass g = some s0) (hk : loopHead k s0 = some st)
    (hlt : st.moveNum < st.cellNum)
    (hx : x < st.cellNum ∧ (st.cellArray x).lock = false ∧ (st.cellArray x).part = false)
    (hy : y < st.cellNum ∧ (st.cellArray y).lock = false ∧ (st.cellArray y).part = true) :
    ∃ a b, findMaxGainCell st false = some a ∧ findMaxGainCell st true = some b ∧
      st.bFactor = roundDbl bNum bDen.toNat ∧
      (∀ p, admissible st p =
        Dbl.lt (Dbl.ofInt |st.partSize p - st.partSize (!p) - 2|)
          (Dbl.mul st.bFactor (Dbl.ofInt st.cellNum))) ∧
      st.ratio = (bNum : ℚ) / (bDen : ℚ) ∧
      (0 ≤ bNum → 0 < bDen → ∀ p,
        (admissible st p = true →
          |(st.partSize p : ℚ) - (st.partSize (!p) : ℚ) - 2| <
            st.ratio * (st.cellNum : ℚ) * (1 + 1 / 2 ^ 52) ^ 2) ∧
        (admissible st p = false →
          st.ratio * (st.cellNum : ℚ) * (1 - 1 / 2 ^ 52) ^ 2 ≤
            |(st.partSize p : ℚ) - (st.partSize (!p) : ℚ) - 2|)) ∧
      ((st.cellArray a).gain ≥ (st.cellArray b).gain →
        (admissible st false = true →
          moveStep st = (updateGain st a).map fun t => (t, true)) ∧
        (admissible st false = false → admissible st true = true →
          moveStep st = (updateGain st b).map fun t => (t, true)) ∧
        (admissible st false = false → admissible st true = false →
          moveStep st = some (st, false))) ∧
      ((st.cellArray a).gain < (st.cellArray b).gain →
        (admissible st true = true →
          moveStep st = (updateGain st b).map fun t => (t, true)) ∧
        (admissible st true = false → admissible st false = true →
          moveStep st = (updateGain st a).map fun t => (t, true)) ∧
        (admissible st true = false → admissible st false = false →
          moveStep st = some (st, false))) ∧
      (moveStep st = some (st, false) →
        moveLoop (st.cellNum - st.moveNum) st = some (nextMove st)) := by
  obtain ⟨hwf, p1, p2, p3, p4⟩ := parseInput_wellFormed bNum bDen stmts
  have hsz := genInitPartition_sizesAgree ⟨p3, p4⟩ hg
  obtain ⟨_, a2, _⟩ := genInitPartition_data ⟨p3, p4⟩ hg
  have hwfg := sameGraph_wellFormed a2 hwf
  obtain ⟨hinv, _, hun, _⟩ := loopHead_counts k _ _ (pass_start_counts hwfg hsz hstart) hk
  obtain ⟨B, hB⟩ := hinv.buckets
  obtain ⟨a, _, ha, _⟩ := findMaxGainCell_max hB hx.1 hx.2.1 hx.2.2
  obtain ⟨b, _, hb, _⟩ := findMaxGainCell_max hB hy.1 hy.2.1 hy.2.2
  have hbn : st.bNum = bNum := by
    rw [hinv.consts.1, (initPass_data hstart).2.2.2.2.2.2.2.2.2.2.1, a2.bNum, p1]
  have hbd : st.bDen = bDen := by
    rw [hinv.consts.2.1, (initPass_data hstart).2.2.2.2.2.2.2.2.2.2.2.1, a2.bDen, p2]
  have hbf : st.bFactor = roundDbl bNum bDen.toNat := by
    unfold Partitioner.bFactor
    rw [hbn, hbd]
  have hrat : st.ratio = (bNum : ℚ) / (bDen : ℚ) := by
    unfold Partitioner.ratio
    rw [hbn, hbd]
  have hexact : 0 ≤ bNum → 0 < bDen → ∀ p,
      (admissible st p = true →
        |(st.partSize p : ℚ) - (st.partSize (!p) : ℚ) - 2| <
          st.ratio * (st.cellNum : ℚ) * (1 + 1 / 2 ^ 52) ^ 2) ∧
      (admissible st p = false →
        st.ratio * (st.cellNum : ℚ) * (1 - 1 / 2 ^ 52) ^ 2 ≤
          |(st.partSize p : ℚ) - (st.partSize (!p) : ℚ) - 2|) := by
    intro hn hd p
    have hb := admits_bounds st (st.partSize p - st.partSize (!p) - 2)
      (by rw [hbn]; exact hn) (by rw [hbd]; exact hd)
    have hc : ((|st.partSize p - st.partSize (!p) - 2| : Int) : ℚ) =
        |(st.partSize p : ℚ) - (st.partSize (!p) : ℚ) - 2| := by
      push_cast
      rfl
    rw [← hc]
    refine ⟨fun h => ?_, fun h => ?_⟩
    · have := hb.1 (by rw [← admissible_eq]; exact h)
      exact_mod_cast this
    · have := hb.2 (by rw [← admissible_eq]; exact h)
      exact_mod_cast this
  have hA : st.unlockNum false ≠ 0 := by
    have := unlockedCount_pos hx.1 hx.2.1
    rw [hx.2.2, ← hun false] at this
    omega
  have hB2 : st.unlockNum true ≠ 0 := by
    have := unlockedCount_pos hy.1 hy.2.1
    rw [hy.2.2, ← hun true] at this
    omega
  have hstep : moveStep st =
      if (st.cellArray a).gain ≥ (st.cellArray b).gain then
        if admissible st false then (updateGain st a).map fun t => (t, true)
        else if admissible st true then (updateGain st b).map fun t => (t, true)
        else some (st, false)
      else
        if admissible st true then (updateGain st b).map fun t => (t, true)
        else if admissible st false then (updateGain st a).map fun t => (t, true)
        else some (st, false) := by
    unfold moveStep
    rw [if_neg hA, if_neg hB2, ha, hb]
  refine ⟨a, b, ha, hb, hbf, fun _ => rfl, hrat, hexact, ?_, ?_, ?_⟩
  · intro hge
    rw [hstep, if_pos hge]
    refine ⟨fun h1 => ?_, fun h1 h2 => ?_, fun h1 h2 => ?_⟩
    · rw [if_pos h1]
    · rw [if_neg (by rw [h1]; simp), if_pos h2]
    · rw [if_neg (by rw [h1]; simp), if_neg (by rw [h2]; simp)]
  · intro hlt2
    rw [hstep, if_neg (not_le.mpr hlt2)]
    refine ⟨fun h1 => ?_, fun h1 h2 => ?_, fun h1 h2 => ?_⟩
    · rw [if_pos h1]
    · rw [if_neg (by rw [h1]; simp), if_pos h2]
    · rw [if_neg (by rw [h1]; simp), if_neg (by rw [h2]; simp)]
  · intro hend
    obtain ⟨n, hn⟩ : ∃ n, st.cellNum - st.moveNum = n + 1 := ⟨st.cellNum - st.moveNum - 1, by omega⟩
    rw [hn]
    simp only [moveLoop, if_pos hlt, hend]
    rfl

/-- Witness for C17: the first iteration of the pass on the two-net input, with
cell `a` (id 0) unlocked on side A and cell `c` (id 2) unlocked on side B. -/
theorem C17_witness :
    ∃ a b, findMaxGainCell demoPass false = some a ∧ findMaxGainCell demoPass true = some b ∧
      demoPass.bFactor = roundDbl 3 (5 : Int).toNat ∧
      (∀ p, admissible demoPass p =
        Dbl.lt (Dbl.ofInt |demoPass.partSize p - demoPass.partSize (!p) - 2|)
          (Dbl.mul demoPass.bFactor (Dbl.ofInt demoPass.cellNum))) ∧
      demoPass.ratio = ((3 : Int) : ℚ) / ((5 : Int) : ℚ) ∧
      ((0 : Int) ≤ 3 → (0 : Int) < 5 → ∀ p,
        (admissible demoPass p = true →
          |(demoPass.partSize p : ℚ) - (demoPass.partSize (!p) : ℚ) - 2| <
            demoPass.ratio * (demoPass.cellNum : ℚ) * (1 + 1 / 2 ^ 52) ^ 2) ∧
        (admissible demoPass p = false →
          demoPass.ratio * (demoPass.cellNum : ℚ) * (1 - 1 / 2 ^ 52) ^ 2 ≤
            |(demoPass.partSize p : ℚ) - (demoPass.partSize (!p) : ℚ) - 2|)) ∧
      ((demoPass.cellArray a).gain ≥ (demoPass.cellArray b).gain →
        (admissible demoPass false = true →
          moveStep demoPass = (updateGain demoPass a).map fun t => (t, true)) ∧
        (admissible demoPass false = false → admissible demoPass true = true →
          moveStep demoPass = (updateGain demoPass b).map fun t => (t, true)) ∧
        (admissible demoPass false = false → admissible demoPass true = false →
          moveStep demoPass = some (demoPass, false))) ∧
      ((demoPass.cellArray a).gain < (demoPass.cellArray b).gain →
        (admissible demoPass true = true →
          moveStep demoPass = (updateGain demoPass b).map fun t => (t, true)) ∧
        (admissible demoPass true = false → admissible demoPass false = true →
          moveStep demoPass = (updateGain demoPass a).map fun t => (t, true)) ∧
        (admissible demoPass true = false → admissible demoPass false = false →
          moveStep demoPass = some (demoPass, false))) ∧
      (moveStep demoPass = some (demoPass, false) →
        moveLoop (demoPass.cellNum - demoPass.moveNum) demoPass = some (nextMove demoPass)) :=
  C17_move_selection 3 5 [("n1", ["a", "b"]), ("n2", ["c", "d"])] 0 demoInit demoPass demoPass
    0 0 2
    (by
      have hs : (genInitPartition 0 demoInput).isSome = true := by decide
      unfold demoInit
      cases h : genInitPartition 0 demoInput with
      | none =>
        rw [h] at hs
        exact absurd hs (by simp)
      | some s => exact h)
    (by rfl) (by rfl) (by decide) (by decide) (by decide)

/-- C12 at the input `0.1`, `NET n1 a b c ;`: no pair of sizes that add up to 3
lies in the balance window `[1.35, 1.65]`, the seeding loop puts all three
cells on side A, and `checkBalance` fails on the seeded state and after any
number of `reBalance` calls. The repair loop has no other exit, so
`genInitPartition` does not return for any number of iterations granted and
reports nothing, and the first `reBalance` call has already moved cells `a`
and `b` to side B. -/
theorem C12_repair_loop_runs_forever :
    ¬ Feasible oddInput ∧
    seedLoop (List.range oddInput.cellNum) oddInput false 0 = some oddSeeded ∧
    partTable oddSeeded = [false, false, false] ∧
    (∀ k, checkBalance (Nat.iterate reBalance k oddSeeded) = false) ∧
    (∀ fuel, genInitPartition fuel oddInput = none) ∧
    partTable (reBalance oddSeeded) = [true, true, false] := by
  have hnever : ∀ k, checkBalance (Nat.iterate reBalance k oddSeeded) = false :=
    checkBalance_never_odd oddSeeded (by decide) (by decide) (by decide) (by decide)
  refine ⟨oddInput_infeasible, oddSeeded_eq, by decide, hnever, ?_, by decide⟩
  intro fuel
  exact genInitPartition_none (by decide) (by decide) oddSeeded_eq
    (repairLoop_never fuel oddSeeded hnever)

/-- C16: best-prefix record. In a pass started by `initPass` on a well-formed
hypergraph, when the move loop of `FMAlgorithm` has ended: every prefix of the
move stack is a run of committed moves from the start of the pass, whose
`_accGain` starts at 0 and grows with each move by the gain the moved cell had
before it; `_maxAccGain` is not negative, is at least the cumulative gain after
every non-empty prefix, and, when it is positive, equals the cumulative gain
after the first `_bestMoveNum + 1` moves and is strictly larger than the
cumulative gain after every shorter non-empty prefix. -/
theorem C16_best_prefix_record (g s0 s2 : Partitioner) (hwf : WellFormed g)
    (hstart : initPass g = some s0)
    (hloop : moveLoop (s0.cellNum - s0.moveNum) s0 = some s2) :
    s0.accGain = 0 ∧
    (∀ j, ∃ sj, moveCells (s2.moveStack.take j) s0 = some sj) ∧
    (∀ j c sj sj1, s2.moveStack[j]? = some c →
      moveCells (s2.moveStack.take j) s0 = some sj →
      moveCells (s2.moveStack.take (j + 1)) s0 = some sj1 →
      sj1.accGain = sj.accGain + (sj.cellArray c).gain) ∧
    0 ≤ s2.maxAccGain ∧
    (∀ j sj, 1 ≤ j → j ≤ s2.moveStack.length →
      moveCells (s2.moveStack.take j) s0 = some sj → sj.accGain ≤ s2.maxAccGain) ∧
    (s2.maxAccGain > 0 →
      s2.bestMoveNum < s2.moveStack.length ∧
      ∃ sj, moveCells (s2.moveStack.take (s2.bestMoveNum + 1)) s0 = some sj ∧
        sj.accGain = s2.maxAccGain ∧
        ∀ i si, 1 ≤ i → i ≤ s2.bestMoveNum →
          moveCells (s2.moveStack.take i) s0 = some si → si.accGain < s2.maxAccGain) := by
  obtain ⟨k, st, hk, hst⟩ := moveLoop_end _ _ _ hloop
  obtain ⟨_, hb⟩ := loopHead_best k _ _ (passInv_start hwf hstart) (bestInv_start hstart) hk
  have hf : s2.moveStack = st.moveStack ∧ s2.maxAccGain = st.maxAccGain ∧
      s2.bestMoveNum = st.bestMoveNum := by
    rcases hst with e | ⟨e, _⟩ <;> rw [e] <;> exact ⟨rfl, rfl, rfl⟩
  rw [hf.1, hf.2.1, hf.2.2]
  exact ⟨(initPass_data hstart).2.2.2.2.2.1, fun j => moveCells_take hb.run j,
    fun j c sj sj1 hc h1 h2 => moveCells_accGain hc h1 h2, hb.nonneg, hb.upper, hb.attained⟩

/-- Witness for C16: the pass on the four-net input, which records
`_maxAccGain = 1`. -/
theorem C16_witness :
    twoPassStart.accGain = 0 ∧
    (∀ j, ∃ sj, moveCells (twoPassLoopEnd.moveStack.take j) twoPassStart = some sj) ∧
    (∀ j c sj sj1, twoPassLoopEnd.moveStack[j]? = some c →
      moveCells (twoPassLoopEnd.moveStack.take j) twoPassStart = some sj →
      moveCells (twoPassLoopEnd.moveStack.take (j + 1)) twoPassStart = some sj1 →
      sj1.accGain = sj.accGain + (sj.cellArray c).gain) ∧
    0 ≤ twoPassLoopEnd.maxAccGain ∧
    (∀ j sj, 1 ≤ j → j ≤ twoPassLoopEnd.moveStack.length →
      moveCells (twoPassLoopEnd.moveStack.take j) twoPassStart = some sj →
      sj.accGain ≤ twoPassLoopEnd.maxAccGain) ∧
    (twoPassLoopEnd.maxAccGain > 0 →
      twoPassLoopEnd.bestMoveNum < twoPassLoopEnd.moveStack.length ∧
      ∃ sj, moveCells (twoPassLoopEnd.moveStack.take (twoPassLoopEnd.bestMoveNum + 1))
          twoPassStart = some sj ∧
        sj.accGain = twoPassLoopEnd.maxAccGain ∧
        ∀ i si, 1 ≤ i → i ≤ twoPassLoopEnd.bestMoveNum →
          moveCells (twoPassLoopEnd.moveStack.take i) twoPassStart = some si →
          si.accGain < twoPassLoopEnd.maxAccGain) :=
  C16_best_prefix_record twoPassInit twoPassStart twoPassLoopEnd (by decide)
    (by
      have hs : (initPass twoPassInit).isSome = true := by decide
      unfold twoPassStart
      cases h : initPass twoPassInit with
      | none =>
        rw [h] at hs
        exact absurd hs (by simp)
      | some s => rfl)
    (by
      have hs : (moveLoop (twoPassStart.cellNum - twoPassStart.moveNum)
          twoPassStart).isSome = true := by
        decide
      unfold twoPassLoopEnd
      cases h : moveLoop (twoPassStart.cellNum - twoPassStart.moveNum) twoPassStart with
      | none =>
        rw [h] at hs
        exact absurd hs (by simp)
      | some s => rfl)


/-- C14 (amended): a pass from non-positive initial gains. For every tokenised
input whose gains after `genInitPartition` are all `<= 0`, in the run of
`partition`: the cumulative gain after the first move of the pass is `<= 0`, so
a positive `_maxAccGain` is recorded at the second move or later
(`_bestMoveNum >= 1`, and then `_iterNum = 1`); `_maxAccGain` is 0 exactly when
no non-empty prefix of the moves has a positive cumulative gain, and in that
case `partition` ends after this one pass with `_iterNum = 0`. -/
theorem C14_first_move_cannot_pay (bNum bDen : Int) (stmts : List (String × List String))
    (fuel : Nat) (g s1 : Partitioner)
    (hg : genInitPartition fuel (parseInput bNum bDen stmts) = some g)
    (hgains : ∀ c, c < g.cellNum → (g.cellArray c).gain ≤ 0)
    (hres : partition fuel (parseInput bNum bDen stmts) = some s1) :
    ∃ s0 s2, initPass g = some s0 ∧ moveLoop (s0.cellNum - s0.moveNum) s0 = some s2 ∧
      s1.maxAccGain = s2.maxAccGain ∧ 0 ≤ s1.maxAccGain ∧
      (∀ c sj, s2.moveStack[0]? = some c →
        moveCells (s2.moveStack.take 1) s0 = some sj → sj.accGain ≤ 0) ∧
      (s1.maxAccGain > 0 → 1 ≤ s1.bestMoveNum ∧ s1.iterNum = 1) ∧
      (s1.maxAccGain = 0 ↔
        ∀ j sj, 1 ≤ j → j ≤ s2.moveStack.length →
          moveCells (s2.moveStack.take j) s0 = some sj → sj.accGain ≤ 0) ∧
      (s1.maxAccGain = 0 → s1.iterNum = 0) := by
  obtain ⟨hwf, _, _, p3, p4⟩ := parseInput_wellFormed bNum bDen stmts
  obtain ⟨_, a2, _⟩ := genInitPartition_data ⟨p3, p4⟩ hg
  have hwfg := sameGraph_wellFormed a2 hwf
  have hfm : FMAlgorithm g = some s1 := by
    unfold partition at hres
    rw [hg] at hres
    exact hres
  have hit := FMAlgorithm_iterNum hwfg hfm
  rw [a2.iterNum, parseInput_iterNum] at hit
  obtain ⟨s0, s2, hstart, hloop, r1, r2, _, _, _⟩ := FMAlgorithm_record hfm
  obtain ⟨i1, i2, _, _, _, i6, i7, _, _, i10, _, _, _, _, i15⟩ := initPass_data hstart
  have hgain0 : ∀ c, c < s0.cellNum → (s0.cellArray c).lock = false →
      (s0.cellArray c).gain ≤ 0 := by
    intro c hc _
    rw [i2] at hc
    rw [initPass_gain_eq (parseInput_gain bNum bDen stmts) hg hstart c hc]
    exact hgains c hc
  have hfirst0 : FirstInv s0 := by
    refine ⟨fun hp => ?_, fun _ => ⟨i7, i6, hgain0⟩⟩
    rw [i7] at hp
    exact absurd hp (by simp)
  obtain ⟨k, st, hk, hst⟩ := moveLoop_end _ _ _ hloop
  have hpi0 := passInv_start hwfg hstart
  obtain ⟨hinv, hb⟩ := loopHead_best k _ _ hpi0 (bestInv_start hstart) hk
  have hf := loopHead_first k _ _ hpi0 hfirst0 hk
  have he : s2.moveStack = st.moveStack ∧ s2.maxAccGain = st.maxAccGain ∧
      s2.bestMoveNum = st.bestMoveNum := by
    rcases hst with e | ⟨e, _⟩ <;> rw [e] <;> exact ⟨rfl, rfl, rfl⟩
  refine ⟨s0, s2, hstart, hloop, r1, ?_, ?_, ?_, ?_, ?_⟩
  · rw [r1, he.2.1]; exact hb.nonneg
  · intro c sj hc hsj
    have h0 : moveCells (s2.moveStack.take 0) s0 = some s0 := rfl
    rw [moveCells_accGain hc h0 hsj, i6]
    have hmem : c ∈ st.moveStack := by
      rw [← he.1]
      exact List.getElem?_mem hc
    have hcN : c < s0.cellNum := by
      rw [← hinv.consts.2.2.1]
      exact (hinv.locked c hmem).1
    have hcg : c < g.cellNum := by rw [← i2]; exact hcN
    have := hgain0 c hcN (i15 c hcg).1
    omega
  · intro hpos
    rw [hit, if_pos hpos]
    refine ⟨?_, rfl⟩
    rw [r2, he.2.2]
    apply hf.later
    rw [← he.2.1, ← r1]
    exact hpos
  · rw [r1, he.2.1, he.1]
    constructor
    · intro hz j sj hj1 hj2 hsj
      have := hb.upper j sj hj1 hj2 hsj
      omega
    · intro hall
      by_contra hne
      have hpos : st.maxAccGain > 0 := by
        have := hb.nonneg
        omega
      obtain ⟨b1, sj, b2, b3, _⟩ := hb.attained hpos
      have := hall (st.bestMoveNum + 1) sj (by omega) (by omega) b2
      omega
  · intro hz
    rw [hit, if_neg (by rw [hz]; simp)]

/-- Witness for C14 (amended): the input `0.75`, `NET n1 a ;`, `NET n2 b c ;`,
`NET n3 b d e ;`, whose initial gains are 0, 0, -1, 0, 0 and whose pass records
`_maxAccGain = 1` at its second move. -/
theorem C14_witness :
    ∃ s0 s2, initPass climbInit = some s0 ∧
      moveLoop (s0.cellNum - s0.moveNum) s0 = some s2 ∧
      climbFinal.maxAccGain = s2.maxAccGain ∧ 0 ≤ climbFinal.maxAccGain ∧
      (∀ c sj, s2.moveStack[0]? = some c →
        moveCells (s2.moveStack.take 1) s0 = some sj → sj.accGain ≤ 0) ∧
      (climbFinal.maxAccGain > 0 → 1 ≤ climbFinal.bestMoveNum ∧ climbFinal.iterNum = 1) ∧
      (climbFinal.maxAccGain = 0 ↔
        ∀ j sj, 1 ≤ j → j ≤ s2.moveStack.length →
          moveCells (s2.moveStack.take j) s0 = some sj → sj.accGain ≤ 0) ∧
      (climbFinal.maxAccGain = 0 → climbFinal.iterNum = 0) :=
  C14_first_move_cannot_pay 3 4 [("n1", ["a"]), ("n2", ["b", "c"]), ("n3", ["b", "d", "e"])]
    0 climbInit climbFinal
    (by
      have hs : (genInitPartition 0 climbInput).isSome = true := by decide
      unfold climbInit
      cases h : genInitPartition 0 climbInput with
      | none =>
        rw [h] at hs
        exact absurd hs (by simp)
      | some s => exact h)
    (by decide)
    (by
      have hs : (partition 0 climbInput).isSome = true := by decide
      unfold climbFinal
      cases h : partition 0 climbInput with
      | none =>
        rw [h] at hs
        exact absurd hs (by simp)
      | some s => exact h)

/-! ## The code at the inputs on which it leaves the specification -/


/-- C1 at the input `0.5`, `NET n1 a b ;`: `partition()` completes with
`_cutSize = 0` although the only net has one cell on each side. The repair
loop flipped cell `a` without touching the counts of the net, so
`countCutSize` still sees both cells on side A. -/
theorem C1_cutSize_is_stale :
    (partition 1 twoCellInput).map (fun s => (s.cutSize, cutNets s, partTable s)) =
      some (0, 1, [true, false]) := by
  decide

/-- C4 at the input `0.5`, `NET n1 a b ;`: after `genInitPartition` the net
has the counts (2, 0) while one of its cells is on side A and one on side B:
`reBalance` changes the side of a cell and the side sizes but not the counts
of the nets of the cell. -/
theorem C4_counts_after_repair :
    (genInitPartition 1 twoCellInput).map (fun s => (countTable s, sideTable s)) =
      some ([(2, 0)], [(1, 1)]) := by
  decide

/-- C6 at the input `0.5`, `NET n1 a ;`, `NET n2 a ;`, `NET n3 b c d ;`: the
initial partition cuts no net; the pass moves cell `d` with gain -1, ends with
`_maxAccGain = 0` and therefore does not roll back, and `partition()` returns a
partition that cuts one net. -/
theorem C6_pass_worsens_cut :
    (genInitPartition 1 lonelyInput).map (fun s => (cutNets s, decide (CountsAgree s))) =
      some (0, true) ∧
    (partition 1 lonelyInput).map (fun s => (cutNets s, s.cutSize, s.maxAccGain, s.moveStack)) =
      some (1, 1, 0, [3]) := by
  constructor <;> decide

/-- C8 at the input `0.25`, `NET n1 a b ;`, `NET n2 a c ;`, `NET n3 d e ;`: the
repair loop flips `a` and `b`, the pass records `_maxAccGain = 1` at its first
move (cell `c`) and rolls back the four later moves. The sides and side sizes
after `recover2Best` are those of the state after the first move, but the net
counts are not: that state carries the counts left stale by `reBalance`,
(2,0), (2,0), (2,0), and `recover2Best` recounts them to (0,2), (1,1), (2,0). -/
theorem C8_counts_differ_after_rollback :
    (((genInitPartition 1 repairedInput).bind initPass).bind (moveCells [2])).map
        (fun s => (partTable s, s.partSize false, s.partSize true, countTable s)) =
      some ([true, true, false, false, false], 3, 2, [(2, 0), (2, 0), (2, 0)]) ∧
    (partition 1 repairedInput).map
        (fun s => (partTable s, s.partSize false, s.partSize true, countTable s)) =
      some ([true, true, false, false, false], 3, 2, [(0, 2), (1, 1), (2, 0)]) ∧
    (partition 1 repairedInput).map (fun s => (s.maxAccGain, s.moveNum, s.moveStack)) =
      some (1, 0, [2, 4, 0, 3, 1]) := by
  refine ⟨?_, ?_, ?_⟩ <;> decide

/-- C7, counterexample: on the input `0.25`, `NET n1 a b ;`, `NET n2 a c ;`,
`NET n3 a c d ;`, `NET n4 b e ;` the single pass of `partition()` ends with
`_maxAccGain = 1`, and a further pass started from the returned partition
again ends with `_maxAccGain = 1`, not 0. -/
theorem C7_second_pass_improves :
    (partition 0 twoPassInput).map (fun s => (s.maxAccGain, s.iterNum, cutNets s)) =
      some (1, 1, 2) ∧
    ((partition 0 twoPassInput).bind FMAlgorithm).map
        (fun s => (s.maxAccGain, s.iterNum, cutNets s)) =
      some (1, 2, 1) := by
  constructor <;> decide

/-- C13 at the input `0.5`, `NET n1 a b ;`: `partition()` ends with one cell on
each side, as the scenario expects, but with `_cutSize = 0` instead of 1: the
counts of the net were left at (2, 0) by `reBalance`. -/
theorem C13_two_cell_scenario :
    (partition 1 twoCellInput).map (fun s => (partTable s, s.partSize false, s.partSize true)) =
      some ([true, false], 1, 1) ∧
    (partition 1 twoCellInput).map (fun s => (countTable s, s.cutSize, cutNets s)) =
      some ([(2, 0)], 0, 1) := by
  constructor <;> decide

/-- C14, counterexample: on the input `0.75`, `NET n1 a ;`, `NET n2 b c ;`,
`NET n3 b d e ;` the initial partition has consistent counts, the gains
0, 0, -1, 0, 0 and one cut net; the pass moves `e` with gain 0 and then `d` with
gain 1, so it ends with `_maxAccGain = 1`, not 0, and `partition()` returns a
partition that cuts no net. -/
theorem C14_gain_after_a_zero_move :
    (genInitPartition 0 climbInput).map
        (fun s => (gainTable s, cutNets s, decide (CountsAgree s))) =
      some ([0, 0, -1, 0, 0], 1, true) ∧
    (partition 0 climbInput).map (fun s => (s.maxAccGain, s.iterNum, cutNets s)) =
      some (1, 1, 0) ∧
    (partition 0 climbInput).map (fun s => (s.bestMoveNum, s.moveStack)) =
      some (1, [4, 3, 2, 0, 1]) := by
  refine ⟨?_, ?_, ?_⟩ <;> decide

/-- C2, counterexample: the input `0.279999999999999999999` with the nets
`c1 .. c15`, `d1 .. d10`, `d10 c1`, `d10 c2`, so that `N = 25` and
`r * N = 6.999999999999999999975`. `stod` returns the `double` nearest to the
factor, and its product with 25 rounds to `7881299347898369 / 2 ^ 50`, just
above 7. The first move of the pass, cell `d10` from the side of size 10, passes
the test `7 < _bFactor * _cellNum`, the pass keeps this move alone, and
`partition` returns the sizes 16 and 9: their difference 7 is larger than
`r * N`, and 16 lies above the window. -/
theorem C2_gap_above_ratio :
    partition 0 tightInput = some tightFinal ∧
    tightFinal.partSize false = 16 ∧ tightFinal.partSize true = 9 ∧
    tightFinal.cellNum = 25 ∧
    tightFinal.ratio = 279999999999999999999 / 1000000000000000000000 ∧
    Dbl.mul tightFinal.bFactor (Dbl.ofInt tightFinal.cellNum) =
      ⟨7881299347898369, 1125899906842624⟩ ∧
    ¬ (|(tightFinal.partSize false : ℚ) - (tightFinal.partSize true : ℚ)| ≤
      tightFinal.ratio * (tightFinal.cellNum : ℚ)) ∧
    ¬ InWindow tightFinal := by
  have e1 : tightFinal.partSize false = 16 := by decide
  have e2 : tightFinal.partSize true = 9 := by decide
  have e3 : tightFinal.cellNum = 25 := by decide
  have e4 : tightFinal.ratio = 279999999999999999999 / 1000000000000000000000 := by
    have b1 : tightFinal.bNum = 279999999999999999999 := by decide
    have b2 : tightFinal.bDen = 1000000000000000000000 := by decide
    unfold Partitioner.ratio
    rw [b1, b2]
    norm_num
  refine ⟨tightFinal_eq, e1, e2, e3, e4, by decide, ?_, ?_⟩
  · rw [e1, e2, e3, e4]
    norm_num
  · intro h
    have h2 := (h false).2
    rw [e1, e3, e4] at h2
    norm_num at h2

/-- C17, counterexample: the input `0.28` with the nets `c1 .. c15`,
`d1 .. d10`, `d10 c1`, `d10 c2`. At the head of the first iteration the sizes
are 15 and 10 with `N = 25`, the candidates are `c2` (id 1, gain 0) on side A
and `d10` (id 24, gain 1) on side B, so side B is preferred. With
`r * N = 7` the test `|10 - 15 - 2| < r * N` fails and `|15 - 10 - 2| < r * N`
holds, which would move `c2`; but `_bFactor * _cellNum` is
`7881299347898369 / 2 ^ 50` on `double`, side B is admissible, and the
iteration moves `d10`. -/
theorem C17_rounding_admits_side_B :
    (genInitPartition 0 roundInput).bind initPass = some roundPass ∧
    findMaxGainCell roundPass false = some 1 ∧ findMaxGainCell roundPass true = some 24 ∧
    (roundPass.cellArray 1).gain = 0 ∧ (roundPass.cellArray 24).gain = 1 ∧
    roundPass.partSize false = 15 ∧ roundPass.partSize true = 10 ∧ roundPass.cellNum = 25 ∧
    roundPass.ratio = 28 / 100 ∧
    ¬ (|(roundPass.partSize true : ℚ) - (roundPass.partSize false : ℚ) - 2| <
      roundPass.ratio * (roundPass.cellNum : ℚ)) ∧
    |(roundPass.partSize false : ℚ) - (roundPass.partSize true : ℚ) - 2| <
      roundPass.ratio * (roundPass.cellNum : ℚ) ∧
    Dbl.mul roundPass.bFactor (Dbl.ofInt roundPass.cellNum) =
      ⟨7881299347898369, 1125899906842624⟩ ∧
    admissible roundPass true = true ∧
    moveStep roundPass = some (roundMoved, true) ∧
    roundMoved.moveStack = [24] ∧ (roundMoved.cellArray 24).part = false ∧
    roundMoved.partSize false = 16 ∧ roundMoved.partSize true = 9 := by
  have e1 : roundPass.partSize false = 15 := by decide
  have e2 : roundPass.partSize true = 10 := by decide
  have e3 : roundPass.cellNum = 25 := by decide
  have e4 : roundPass.ratio = 28 / 100 := by
    have b1 : roundPass.bNum = 28 := by decide
    have b2 : roundPass.bDen = 100 := by decide
    unfold Partitioner.ratio
    rw [b1, b2]
    norm_num
  refine ⟨roundPass_eq, by decide, by decide, by decide, by decide, e1, e2, e3, e4, ?_, ?_,
    by decide, by decide, roundMoved_eq, by decide, by decide, by decide, by decide⟩
  · rw [e1, e2, e3, e4]
    norm_num
  · rw [e1, e2, e3, e4]
    norm_num [abs_lt]

end FM
